import Mathlib

/-! # simPLEX: MCMC driver, uniformization kernels, gap propagation, parsimony seeding

A shallow embedding of parts of the simPLEX sources (`src/MCMC.cpp`,
`src/ModelParts/Sequence.cpp`) together with theorems about them.

Conventions of the embedding:

* C++ `double`/`float` values are rationals (`ℚ`), and the operations on them are exact,
  except in the functions that take the arithmetic as a parameter (`Arith`), which is then
  the exact one or that of `double` with its rounding; infinities are outside the model,
  and so is NaN, but for the test `isnan` of the driver.
* `int` is `Int`; `state_element` (a signed char) is `Int`, the gap being `-1`.
* `std::map<std::string, T>` read with `operator[]` is a total function from names
  to `T` whose default is the value-initialised `T`.
* A `TreeNode*`/`BranchSegment*` is `Option`; nodes are referred to by name, which is
  also how the alignment looks up the data of a node.
* Functions that dereference a pointer or index a vector return `Option`; `none`
  stands for an execution without defined result (null dereference, index out of
  range, division by zero on `int`).
-/

namespace Simplex

/-! ## MCMC driver (`src/MCMC.cpp`) -/

/-- The calls `MCMC::sample` makes on its collaborators, in the order they are made. -/
inductive Call where
  | SampleTree
  | CalculateLikelihood
  | SampleSubstitutionModel
  | updateLikelihood
  | Random
  | accept
  | reject
  deriving DecidableEq, Repr

/-- The collaborators of the driver: the `Model` behind `MCMC::model`, the global
`Random()` and libm's `log`. None of them is defined in the sources at hand, so they
are parameters. `σ` is everything they can read or change (the model, its parameter
set and tree, the state of the random source). -/
structure Model (σ : Type) where
  /-- The call `model->SampleTree()`: resamples the tree, returns the sample type flag. -/
  SampleTree : σ → Bool × σ
  /-- The call `model->CalculateLikelihood()`. -/
  CalculateLikelihood : σ → ℚ × σ
  /-- The call `model->SampleSubstitutionModel()`: proposes, returns `true` for Metropolis. -/
  SampleSubstitutionModel : σ → Bool × σ
  /-- The call `model->updateLikelihood()`. -/
  updateLikelihood : σ → ℚ × σ
  /-- The call `model->accept()`. -/
  accept : σ → σ
  /-- The call `model->reject()`. -/
  reject : σ → σ
  /-- The global `Random()`. -/
  Random : σ → ℚ × σ
  /-- The function `log` of `<cmath>`. -/
  log : ℚ → ℚ
  /-- The call `model->RecordState(gen, lnL)`. -/
  RecordState : Int → ℚ → σ → σ := fun _ _ w => w
  /-- The call `model->printParameters()`. -/
  printParameters : σ → σ := fun w => w
  /-- The function `isnan` of `<cmath>` on the likelihoods. The `double`s of the driver
  are rationals here, none of which is a NaN, so `isnan x` tells that the value `x`, as
  the model returns it, stands for a NaN; by default no value does. -/
  isnan : ℚ → Bool := fun _ => false

/-- The fields of `MCMC` that `sample` uses, the function-static counter `i` of
`MCMC::sample`, and the record of the calls made so far. -/
structure MCMC (σ : Type) where
  /-- State of the collaborators. -/
  world : σ
  /-- The counter `static int i = 1` of `MCMC::sample`. -/
  i : Int
  lnL : ℚ
  newLnL : ℚ
  tree_sample_freq : Int
  /-- Calls made on the collaborators, oldest first. -/
  calls : List Call

/-- State of the driver when the program starts sampling: `i` is `1`. -/
def MCMC.start {σ : Type} (w : σ) (lnL : ℚ) (tree_sample_freq : Int) : MCMC σ :=
  { world := w, i := 1, lnL := lnL, newLnL := 0, tree_sample_freq := tree_sample_freq,
    calls := [] }

/-- The function `MCMC::sample` (MCMC.cpp 59-86). `i % tree_sample_freq` is C++ remainder
(truncating); with a zero divisor the call has no defined result. The counter stays
between `1` and `tree_sample_freq` (see `sample_times_counter`), so `i++` does not
overflow. -/
def sample {σ : Type} (m : Model σ) (s : MCMC σ) : Option (MCMC σ) :=
  if s.tree_sample_freq = 0 then none
  else if Int.tmod s.i s.tree_sample_freq = 0 then
    let r₁ := m.SampleTree s.world
    let r₂ := m.CalculateLikelihood r₁.2
    some { s with
      world := r₂.2, lnL := r₂.1, i := 0 + 1,
      calls := s.calls ++ [Call.SampleTree, Call.CalculateLikelihood] }
  else
    let r₁ := m.SampleSubstitutionModel s.world
    let sampleType := r₁.1
    let r₂ := m.updateLikelihood r₁.2
    let newLnL := r₂.1
    if sampleType then
      let r₃ := m.Random r₂.2
      if m.log r₃.1 ≤ newLnL - s.lnL then
        some { s with
          world := m.accept r₃.2, lnL := newLnL, newLnL := newLnL, i := s.i + 1,
          calls := s.calls ++ [Call.SampleSubstitutionModel, Call.updateLikelihood,
            Call.Random, Call.accept] }
      else
        some { s with
          world := m.reject r₃.2, newLnL := newLnL, i := s.i + 1,
          calls := s.calls ++ [Call.SampleSubstitutionModel, Call.updateLikelihood,
            Call.Random, Call.reject] }
    else
      some { s with
        world := m.accept r₂.2, lnL := newLnL, newLnL := newLnL, i := s.i + 1,
        calls := s.calls ++ [Call.SampleSubstitutionModel, Call.updateLikelihood,
          Call.accept] }

/-- The state after `k` consecutive calls of `sample`. -/
def sample_times {σ : Type} (m : Model σ) : Nat → MCMC σ → Option (MCMC σ)
  | 0, s => some s
  | k + 1, s => (sample_times m k s).bind (sample m)

/-- A small concrete model used to exercise the driver: the world is a counter,
the flag of a proposal is `true`, the new likelihood is the counter, the draw is
`1/2` and `log x = x - 1`. -/
def toyModel : Model Nat where
  SampleTree w := (false, w + 1)
  CalculateLikelihood w := (-(w : ℚ), w)
  SampleSubstitutionModel w := (true, w + 1)
  updateLikelihood w := ((w : ℚ), w)
  accept w := w + 10
  reject w := w + 100
  Random w := (1 / 2, w)
  log x := x - 1


/-- A model whose proposals are all Gibbs-flagged: the world counts the calls of
`Random`, every proposal lowers the likelihood to `-100`, and `log x = x - 1`. -/
def gibbsModel : Model Nat where
  SampleTree w := (false, w)
  CalculateLikelihood w := (0, w)
  SampleSubstitutionModel w := (false, w)
  updateLikelihood w := (-100, w)
  accept w := w
  reject w := w
  Random w := (1 / 2, w + 1)
  log x := x - 1

/-- A model whose proposals are all Gibbs-flagged and whose `updateLikelihood` returns a
NaN, for which the value `-1` stands; the first likelihood is `0`. -/
def nanModel : Model Nat where
  SampleTree w := (false, w)
  CalculateLikelihood w := (0, w)
  SampleSubstitutionModel w := (false, w)
  updateLikelihood w := (-1, w)
  accept w := w
  reject w := w
  Random w := (1 / 2, w)
  log x := x - 1
  isnan x := decide (x = -1)

/-- A model whose proposals are all Metropolis-flagged and leave the likelihood at `0`;
the draw is always `1`, where `log` is `0`, and `log x = x - 1`. -/
def steadyModel : Model Nat where
  SampleTree w := (false, w)
  CalculateLikelihood w := (0, w)
  SampleSubstitutionModel w := (true, w + 1)
  updateLikelihood w := (0, w)
  accept w := w
  reject w := w
  Random w := (1, w)
  log x := x - 1

/-! ## Likelihood kernels (`src/ModelParts/Sequence.cpp` 372-389) -/

/-- The function `calc_substitution_prob(rate, t_b, u)` (Sequence.cpp 373-380). -/
def calc_substitution_prob (rate t_b u : ℚ) : ℚ :=
  (rate * t_b) / (1 + (u * t_b))

/-- The function `calc_no_substitution_prob(rate, t_b, u)` (Sequence.cpp 382-389). -/
def calc_no_substitution_prob (rate t_b u : ℚ) : ℚ :=
  let prob_virtual := 1 - (1 / (1 + (rate * t_b)))
  let denom := 1 / (1 + (u * t_b))
  (prob_virtual * ((rate * t_b) * denom)) + ((1 - prob_virtual) * denom)

/-- The focal-domain factor computed inside `find_state_prob_given_anc_branch`
(Sequence.cpp 474-481): `rates` are the values of the cells of the rate vector selected
for the ancestral state `state_i`, `state_j` is the descendant state. -/
def focal_domain_prob (rates : List ℚ) (state_i state_j : Nat) (t_b u : ℚ) : ℚ :=
  let rate := rates.getD state_j 0
  if state_i ≠ state_j then calc_substitution_prob rate t_b u
  else calc_no_substitution_prob rate t_b u


/-! ## The arithmetic of `double` (IEEE 754 binary64)

The functions above and most of those below compute with rationals. The functions whose
result depends on the rounding of the program take the arithmetic as a parameter: the
exact one, or the one of `double`, in which every sum, difference and quotient is rounded
to the nearest `double`. -/

/-- The power `2 ^ e` for an integer exponent. -/
def pow2 (e : Int) : ℚ :=
  if 0 ≤ e then ((2 ^ e.toNat : Nat) : ℚ) else 1 / ((2 ^ (-e).toNat : Nat) : ℚ)

/-- The largest `k` with `2 ^ k ≤ n`, for `n ≥ 1`; `fuel` bounds the number of halvings,
and `n` itself is enough of it. -/
def log2_fuel : Nat → Nat → Nat
  | 0, _ => 0
  | fuel + 1, n => if n < 2 then 0 else log2_fuel fuel (n / 2) + 1

/-- The binary exponent of a positive rational `x`: the `e` with
`2 ^ e ≤ x < 2 ^ (e + 1)`, which is the difference of the exponents of the numerator and
the denominator, or one less. -/
def floor_log2 (x : ℚ) : Int :=
  let e₀ : Int := (log2_fuel x.num.toNat x.num.toNat : Int) - (log2_fuel x.den x.den : Int)
  if pow2 e₀ ≤ x then e₀ else e₀ - 1

/-- The integer nearest to a rational `m ≥ 0`, and the even one of the two nearest when
`m` is half way between them. -/
def round_half_even (m : ℚ) : Nat :=
  let n := m.num.toNat / m.den
  let r := m.num.toNat % m.den
  if 2 * r < m.den then n
  else if m.den < 2 * r then n + 1
  else if n % 2 = 0 then n else n + 1

/-- The `double` nearest to `x`, and the one with the even significand when `x` is half
way between two, which is the rounding of the program: a significand of 53 binary digits
and an exponent of at least `-1022`, below which the values are the multiples of
`2 ^ (-1074)`. The two zeros are one value here, and a result of magnitude `2 ^ 1024` or
more stands for an infinity of the program, which the embedding does not have. -/
def round_double (x : ℚ) : ℚ :=
  if x = 0 then 0
  else
    let e := max (floor_log2 |x|) (-1022)
    let q := pow2 (e - 52)
    let n := round_half_even (|x| / q)
    if 0 < x then (n : ℚ) * q else -((n : ℚ) * q)

/-- The operations `+`, `-` and `/` on the `double` values of a function. -/
structure Arith where
  add : ℚ → ℚ → ℚ
  sub : ℚ → ℚ → ℚ
  div : ℚ → ℚ → ℚ

/-- The exact arithmetic of the rationals. -/
def Arith.rational : Arith :=
  { add := fun a b => a + b, sub := fun a b => a - b, div := fun a b => a / b }

/-- The arithmetic of `double`: the exact result of every operation on two `double`
values, rounded to the nearest `double`. -/
def Arith.binary64 : Arith :=
  { add := fun a b => round_double (a + b), sub := fun a b => round_double (a - b),
    div := fun a b => round_double (a / b) }

/-- The value of `acc` after `k` rounds of a loop `acc += p[i]` that starts from `0.0`. -/
def running_total (A : Arith) (p : Nat → ℚ) (k : Nat) : ℚ :=
  (List.range k).foldl (fun acc i => A.add acc (p i)) 0

/-! ## Trees and alignments (`src/Trees`, `src/ModelParts/Sequence.cpp`) -/

/-- A state code (`signed char`); the gap is `-1`. -/
abbrev state_element := Int

/-- The part of a `BranchSegment` the alignment code reads: its length and the names of
the nodes at its two ends. -/
structure BranchSegment where
  distance : ℚ
  ancestral : String
  decendant : String
  deriving DecidableEq, Repr

/-- A `TreeNode`: its name and its three branch pointers (null is `none`). -/
structure TreeNode where
  name : String
  up : Option BranchSegment
  left : Option BranchSegment
  right : Option BranchSegment
  deriving DecidableEq, Repr

/-- The function `TreeNode::isTip` (TreeParts.cpp 232-238). -/
def TreeNode.isTip (n : TreeNode) : Bool :=
  if n.left = none ∧ n.right = none then true else false

/-- The tag of an alignment (`SequenceAlignment::Tag`). -/
inductive Tag where
  | DYNAMIC
  | SITE_STATIC
  deriving DecidableEq, Repr

/-- The fields of `SequenceAlignment` used by the sampler. The two distribution matrices
(`double**` per name) are functions of name, position and state; `tree` is the list
returned by `tree->nodes()`. The list `taxa_names` holds the keys of
`taxa_names_to_sequences` in the order in which the map is iterated; the encode table
is read with `at`, the decode table with `operator[]`. -/
structure SequenceAlignment where
  domain_name : String
  n_states : Nat
  n_columns : Nat
  taxa_names_to_sequences : String → Option (List state_element)
  taxa_names_to_gaps : String → List Bool
  prior_state_distribution : String → Nat → Nat → ℚ
  marginal_state_distribution : String → Nat → Nat → ℚ
  tree : List TreeNode
  states : List String := []
  state_element_encode : String → Option state_element := fun _ => none
  state_element_decode : state_element → Option String := fun _ => none
  tag : Tag := Tag.DYNAMIC
  taxa_names : List String := []
  prior_rows : String → Option Nat := fun _ => none

/-- The assignment `marginal_state_distribution[name][pos][i] = v`. -/
def SequenceAlignment.set_marginal (sa : SequenceAlignment) (name : String) (pos i : Nat)
    (v : ℚ) : SequenceAlignment :=
  { sa with marginal_state_distribution := fun nm p j =>
      if nm = name ∧ p = pos ∧ j = i then v else sa.marginal_state_distribution nm p j }

/-- The function `SequenceAlignment::normalize_state_probs(node, pos)` (Sequence.cpp
358-370): both loops run over `i = 0 .. n_states - 1`. The sum and the quotients are the
exact ones; `normalize_state_probs_in` has them in the arithmetic of `double`. -/
def normalize_state_probs (sa : SequenceAlignment) (node : TreeNode) (pos : Nat) :
    SequenceAlignment :=
  let normalize_total := (List.range sa.n_states).foldl
    (fun acc i => acc + sa.marginal_state_distribution node.name pos i) 0
  if normalize_total ≠ 0 then
    (List.range sa.n_states).foldl
      (fun sa' i => sa'.set_marginal node.name pos i
        (sa'.marginal_state_distribution node.name pos i / normalize_total)) sa
  else sa

/-- A two-state alignment with one node `"n"` whose marginal at every position is
`(1/4, 1/4)`, used to exercise `normalize_state_probs`. -/
def toyAlignment : SequenceAlignment where
  domain_name := "d"
  n_states := 2
  n_columns := 1
  taxa_names_to_sequences := fun _ => some [0]
  taxa_names_to_gaps := fun _ => [false]
  prior_state_distribution := fun _ _ _ => 1 / 4
  marginal_state_distribution := fun _ _ _ => 1 / 4
  tree := [{ name := "n", up := none, left := none, right := none }]

/-! ## Gap propagation (`SequenceAlignment::syncWithTree`, Sequence.cpp 203-228) -/

/-- The alignment with its gap masks replaced. -/
def SequenceAlignment.with_gaps (sa : SequenceAlignment) (g : String → List Bool) :
    SequenceAlignment :=
  { sa with taxa_names_to_gaps := g }

/-- Reading `taxa_names_to_gaps[name][pos]`. -/
def SequenceAlignment.gap_at (sa : SequenceAlignment) (name : String) (pos : Nat) :
    Option Bool :=
  (sa.taxa_names_to_gaps name)[pos]?

/-- The assignment `taxa_names_to_gaps[name][pos] = b`. -/
def SequenceAlignment.set_gap (sa : SequenceAlignment) (name : String) (pos : Nat) (b : Bool) :
    Option SequenceAlignment :=
  if pos < (sa.taxa_names_to_gaps name).length then
    some (sa.with_gaps (fun nm =>
      if nm = name then (sa.taxa_names_to_gaps name).set pos b else sa.taxa_names_to_gaps nm))
  else none

/-- The value of `node->sequences[domain_name]->size()` for the node called `name`: the
pointer is the one `syncWithTree` stored, to `taxa_names_to_sequences.at(name)`. -/
def SequenceAlignment.sequence_size (sa : SequenceAlignment) (name : String) : Option Nat :=
  (sa.taxa_names_to_sequences name).map List.length

/-- The loop `for (i = 0; i < n; i++) body`, stopping at the first round without
defined result. -/
def for_range {S : Type} (n : Nat) (body : Nat → S → Option S) (s : S) : Option S :=
  (List.range n).foldlM (fun s' i => body i s') s

/-- One round of the loop over `tree->nodes()` that sets the gaps of internal nodes
(Sequence.cpp 205-227). -/
def set_gaps_for_node (sa : SequenceAlignment) (node : TreeNode) : Option SequenceAlignment :=
  if node.isTip then some sa
  else if node.left ≠ none ∧ node.right = none then do
    -- Internal continuous.
    let left ← node.left
    let dsNode := left.decendant
    let size ← sa.sequence_size dsNode
    for_range size (fun i sa' => do
      let g ← sa'.gap_at dsNode i
      sa'.set_gap node.name i g) sa
  else do
    let size ← sa.sequence_size node.name
    for_range size (fun pos sa' => do
      let left ← node.left
      let gl ← sa'.gap_at left.decendant pos
      if gl then
        match node.right with
        | some right => do
          let gr ← sa'.gap_at right.decendant pos
          sa'.set_gap node.name pos gr
        | none => sa'.set_gap node.name pos true
      else sa'.set_gap node.name pos false) sa

/-- The gap-setting loop of `syncWithTree`: `for (node : tree->nodes())`. -/
def set_internal_gaps (sa : SequenceAlignment) : Option SequenceAlignment :=
  sa.tree.foldlM set_gaps_for_node sa

/-- Names of the nodes below the branches of a node (left first). -/
def TreeNode.children (n : TreeNode) : List String :=
  (n.left.map (fun b => b.decendant)).toList ++ (n.right.map (fun b => b.decendant)).toList

/-- The list visits children before parents and no name twice: every child of a node is
among the names `seen` before the node, the node itself is not. -/
def post_order_from (seen : List String) : List TreeNode → Bool
  | [] => true
  | n :: rest =>
    n.children.all (fun c => decide (c ∈ seen)) && !decide (n.name ∈ seen)
      && post_order_from (n.name :: seen) rest

/-- A node list in post-order. -/
def post_order (nodes : List TreeNode) : Bool :=
  post_order_from [] nodes

/-- The tree `((a:1,b:1):1,c:1)` as the list `tree->nodes()`: tips `a`, `b`, `c`, the
parent `ab` of `a` and `b`, and the root. -/
def gapTree : List TreeNode :=
  [ { name := "a", up := some ⟨1, "ab", "a"⟩, left := none, right := none },
    { name := "b", up := some ⟨1, "ab", "b"⟩, left := none, right := none },
    { name := "ab", up := some ⟨1, "root", "ab"⟩,
      left := some ⟨1, "ab", "a"⟩, right := some ⟨1, "ab", "b"⟩ },
    { name := "c", up := some ⟨1, "root", "c"⟩, left := none, right := none },
    { name := "root", up := none,
      left := some ⟨1, "root", "ab"⟩, right := some ⟨1, "root", "c"⟩ } ]

/-- The alignment `a = A-`, `b = AA`, `c = AA` over the states `A = 0`, `B = 1`, attached
to `gapTree`: the two internal nodes have the sequence and gap mask `add_internal` gives
them. -/
def gapAlignment : SequenceAlignment where
  domain_name := "d"
  n_states := 2
  n_columns := 2
  taxa_names_to_sequences := fun nm =>
    if nm = "a" then some [0, -1]
    else if nm = "b" then some [0, 0]
    else if nm = "c" then some [0, 0]
    else if nm = "ab" then some [-1, -1]
    else if nm = "root" then some [-1, -1]
    else none
  taxa_names_to_gaps := fun nm =>
    if nm = "a" then [false, true]
    else if nm = "b" then [false, false]
    else if nm = "c" then [false, false]
    else if nm = "ab" then [true, true]
    else if nm = "root" then [true, true]
    else []
  prior_state_distribution := fun _ _ _ => 0
  marginal_state_distribution := fun _ _ _ => 0
  tree := gapTree


/-- The alignment `a = A-`, `b = A-`, `c = AA` attached to `gapTree`, the two internal
nodes with the sequence and gap mask `add_internal` gives them. -/
def gappedCladeAlignment : SequenceAlignment :=
  { gapAlignment with
    taxa_names_to_sequences := fun nm =>
      if nm = "a" then some [0, -1]
      else if nm = "b" then some [0, -1]
      else if nm = "c" then some [0, 0]
      else if nm = "ab" then some [-1, -1]
      else if nm = "root" then some [-1, -1]
      else none
    taxa_names_to_gaps := fun nm =>
      if nm = "a" then [false, true]
      else if nm = "b" then [false, true]
      else if nm = "c" then [false, false]
      else if nm = "ab" then [true, true]
      else if nm = "root" then [true, true]
      else [] }

/-- The flag the gap-setting loop gives a node at `pos`, read off the masks `g` of its
children: the conjunction of the two children's flags, or the flag of the only child. -/
def gap_from_children (g : String → List Bool) (n : TreeNode) (pos : Nat) : Bool :=
  match n.left, n.right with
  | some l, some r => (g l.decendant).getD pos false && (g r.decendant).getD pos false
  | some l, none => (g l.decendant).getD pos false
  | none, some r => (g r.decendant).getD pos false
  | none, none => (g n.name).getD pos false


/-- The names of the tips in the subtree of the node called `name`, left subtree first;
`fuel` bounds the depth explored. -/
def tips_below (tree : List TreeNode) : Nat → String → List String
  | 0, _ => []
  | fuel + 1, name =>
    match tree.find? (fun n => decide (n.name = name)) with
    | none => []
    | some n =>
      if n.isTip then [n.name]
      else
        (match n.left with
          | some left => tips_below tree fuel left.decendant
          | none => [])
        ++ (match n.right with
          | some right => tips_below tree fuel right.decendant
          | none => [])

/-! ## Parsimony seeding (Sequence.cpp 275-347) -/

/-- The statement `state_counts[it] = 1` or `state_counts[it] += 1` of
`pick_most_frequent_state`, on a `std::map<state_element, int>` kept as the list of its
entries in the order of iteration (increasing keys). -/
def count_state : List (state_element × Int) → state_element → List (state_element × Int)
  | [], it => [(it, 1)]
  | (s, c) :: rest, it =>
    if it = s then (s, c + 1) :: rest
    else if it < s then (it, 1) :: (s, c) :: rest
    else (s, c) :: count_state rest it

/-- The function `pick_most_frequent_state(clade_states, above)` (Sequence.cpp 276-297): the pair
folded over the entries is `(most_frequent, highest_count)`. -/
def pick_most_frequent_state (clade_states : List state_element) (above : state_element) :
    state_element :=
  let state_counts := clade_states.foldl count_state []
  (state_counts.foldl
    (fun (acc : state_element × Int) (e : state_element × Int) =>
      if e.2 > acc.2 ∨ (e.2 = acc.2 ∧ e.1 = above ∧ above ≠ -1) then (e.1, e.2) else acc)
    (0, 0)).1

/-- Reading `node->sequences[domain_name]->at(pos)` for the node called `name`. -/
def SequenceAlignment.state_at (sa : SequenceAlignment) (name : String) (pos : Nat) :
    Option state_element :=
  (sa.taxa_names_to_sequences name).bind (fun seq => seq[pos]?)

/-- The assignment `(*node->sequences[domain_name])[pos] = s` for the node called
`name`. -/
def SequenceAlignment.set_state (sa : SequenceAlignment) (name : String) (pos : Nat)
    (s : state_element) : Option SequenceAlignment :=
  match sa.taxa_names_to_sequences name with
  | none => none
  | some seq =>
    if pos < seq.length then
      some { sa with taxa_names_to_sequences := fun nm =>
        if nm = name then some (seq.set pos s) else sa.taxa_names_to_sequences nm }
    else none

/-- The assignment `clade_states[name] = v` on the local map of
`find_parsimony_by_position`. -/
def set_clade (clade_states : String → List state_element) (name : String)
    (v : List state_element) : String → List state_element :=
  fun nm => if nm = name then v else clade_states nm

/-- One round of the first loop of `find_parsimony_by_position` (Sequence.cpp 307-326).
The two inner loops push the states of a child's entry onto the entry of the node. -/
def clade_states_for_node (sa : SequenceAlignment) (pos : Nat)
    (clade_states : String → List state_element) (n : TreeNode) :
    Option (String → List state_element) := do
  let gap ← sa.gap_at n.name pos
  if gap then some clade_states
  else
    let own ← if n.isTip then (sa.state_at n.name pos).map (fun s => [s]) else some []
    let cs₁ := set_clade clade_states n.name own
    let cs₂ := match n.left with
      | some left => set_clade cs₁ n.name (cs₁ n.name ++ cs₁ left.decendant)
      | none => cs₁
    let cs₃ := match n.right with
      | some right => set_clade cs₂ n.name (cs₂ n.name ++ cs₂ right.decendant)
      | none => cs₂
    some cs₃

/-- The first loop of `find_parsimony_by_position`: the local `clade_states` after it. -/
def clade_states_by_position (sa : SequenceAlignment) (pos : Nat) :
    Option (String → List state_element) :=
  sa.tree.foldlM (clade_states_for_node sa pos) (fun _ => [])

/-- One round of the second loop of `find_parsimony_by_position` (Sequence.cpp 328-346). -/
def set_parsimony_state (clade_states : String → List state_element) (pos : Nat)
    (sa : SequenceAlignment) (n : TreeNode) : Option SequenceAlignment :=
  if n.isTip then some sa
  else do
    let gap ← sa.gap_at n.name pos
    if gap then some sa
    else
      let state_above ← match n.up with
        | none => some (-1)
        | some up => sa.state_at up.ancestral pos
      sa.set_state n.name pos (pick_most_frequent_state (clade_states n.name) state_above)

/-- The function `SequenceAlignment::find_parsimony_by_position(pos)`: the first loop runs over
`tree->nodes()`, the second over the same list backwards. -/
def find_parsimony_by_position (sa : SequenceAlignment) (pos : Nat) :
    Option SequenceAlignment := do
  let clade_states ← clade_states_by_position sa pos
  sa.tree.reverse.foldlM (set_parsimony_state clade_states pos) sa

/-- The states at `pos` of the tips below the node called `name` that are not gaps at
`pos`, left subtree first; `fuel` bounds the depth explored. -/
def tip_states_below (sa : SequenceAlignment) (pos : Nat) : Nat → String → List state_element
  | 0, _ => []
  | fuel + 1, name =>
    match sa.tree.find? (fun n => decide (n.name = name)) with
    | none => []
    | some n =>
      if n.isTip then
        match sa.gap_at n.name pos, sa.state_at n.name pos with
        | some false, some s => [s]
        | _, _ => []
      else
        (match n.left with
          | some left => tip_states_below sa pos fuel left.decendant
          | none => [])
        ++ (match n.right with
          | some right => tip_states_below sa pos fuel right.decendant
          | none => [])

/-- The tree `((t1:1,t2:1):1,(t3:1,t4:1):1)` as the list `tree->nodes()`. -/
def parsimonyTree : List TreeNode :=
  [ { name := "t1", up := some ⟨1, "p12", "t1"⟩, left := none, right := none },
    { name := "t2", up := some ⟨1, "p12", "t2"⟩, left := none, right := none },
    { name := "p12", up := some ⟨1, "root", "p12"⟩,
      left := some ⟨1, "p12", "t1"⟩, right := some ⟨1, "p12", "t2"⟩ },
    { name := "t3", up := some ⟨1, "p34", "t3"⟩, left := none, right := none },
    { name := "t4", up := some ⟨1, "p34", "t4"⟩, left := none, right := none },
    { name := "p34", up := some ⟨1, "root", "p34"⟩,
      left := some ⟨1, "p34", "t3"⟩, right := some ⟨1, "p34", "t4"⟩ },
    { name := "root", up := none,
      left := some ⟨1, "root", "p12"⟩, right := some ⟨1, "root", "p34"⟩ } ]

/-- One column over the states `A = 0`, `B = 1` with tip states `(A, A, B, B)`, attached
to `parsimonyTree` with the gaps of the internal nodes set: no node is a gap, the
internal sequences still hold `-1`. -/
def parsimonyAlignment : SequenceAlignment where
  domain_name := "d"
  n_states := 2
  n_columns := 1
  taxa_names_to_sequences := fun nm =>
    if nm = "t1" then some [0]
    else if nm = "t2" then some [0]
    else if nm = "t3" then some [1]
    else if nm = "t4" then some [1]
    else if nm = "p12" then some [-1]
    else if nm = "p34" then some [-1]
    else if nm = "root" then some [-1]
    else none
  taxa_names_to_gaps := fun nm =>
    if nm = "t1" ∨ nm = "t2" ∨ nm = "t3" ∨ nm = "t4" ∨ nm = "p12" ∨ nm = "p34" ∨ nm = "root"
    then [false] else []
  prior_state_distribution := fun _ _ _ => 0
  marginal_state_distribution := fun _ _ _ => 0
  tree := parsimonyTree

/-- The count a `state_counts` map holds for the state `s` (`0` when `s` is not a key),
on the list of its entries. -/
def entry_count (state_counts : List (state_element × Int)) (s : state_element) : Int :=
  ((state_counts.filter (fun e => decide (e.1 = s))).map Prod.snd).sum

/-- The entries of the children of a node in a `clade_states` map, appended left
first. -/
def child_clades (clade_states : String → List state_element) (n : TreeNode) :
    List state_element :=
  (match n.left with
    | some left => clade_states left.decendant
    | none => [])
  ++ (match n.right with
    | some right => clade_states right.decendant
    | none => [])

/-- The states a node contributes itself to its `clade_states` entry: its own state for
a tip, nothing for an internal node. -/
def own_clade (sa : SequenceAlignment) (pos : Nat) (n : TreeNode) : List state_element :=
  if n.isTip then (sa.state_at n.name pos).toList else []

/-! ## Values and rate vectors (`AbstractValueTypes.cpp`, `Parameters/RateVector.cpp`) -/

/-- The ways an execution ends without returning: a call of `exit(EXIT_FAILURE)`, a
failed `assert`, a thrown `OutOfBoundsException`, or a step without defined result. -/
inductive Halt where
  | exit_failure
  | assertion_failed
  | OutOfBoundsException (what : String)
  | undefined
  deriving DecidableEq, Repr

/-- A `VirtualSubstitutionRate` object. Other value objects are referred to by name, and
read through a function that gives the current `getValue()` of each. The list
`dependencies` stands for the state of the base class `AbstractValue`. -/
structure VirtualSubstitutionRate where
  name : String
  u : ℚ
  value : ℚ
  previous_value : ℚ
  dependent_rates : List String
  dependencies : List String
  deriving DecidableEq, Repr

/-- The constructor `VirtualSubstitutionRate(parameter_name, unif)`; `previous_value` is
not initialised by it and holds the indeterminate value given. -/
def VirtualSubstitutionRate.construct (parameter_name : String) (unif indeterminate : ℚ) :
    VirtualSubstitutionRate :=
  { name := parameter_name, u := unif, value := 232323 / 1000000,
    previous_value := indeterminate, dependent_rates := [], dependencies := [] }

/-- Modelled from the spec: `AbstractValue::add_dependancy` is not in the sources; it
declares a dependency, recorded here in the list `dependencies`. -/
def VirtualSubstitutionRate.add_dependancy (v : VirtualSubstitutionRate) (p : String) :
    VirtualSubstitutionRate :=
  { v with dependencies := v.dependencies ++ [p] }

/-- The method `VirtualSubstitutionRate::add_rate(v)` (AbstractValueTypes.cpp 58-61). -/
def VirtualSubstitutionRate.add_rate (v : VirtualSubstitutionRate) (p : String) :
    VirtualSubstitutionRate :=
  { v.add_dependancy p with dependent_rates := (v.add_dependancy p).dependent_rates ++ [p] }

/-- The method `VirtualSubstitutionRate::getValue`. -/
def VirtualSubstitutionRate.getValue (v : VirtualSubstitutionRate) : ℚ :=
  v.value

/-- The method `VirtualSubstitutionRate::getOldValue`. -/
def VirtualSubstitutionRate.getOldValue (v : VirtualSubstitutionRate) : ℚ :=
  v.previous_value

/-- The method `VirtualSubstitutionRate::refresh` (AbstractValueTypes.cpp 43-56), given
the current value of every value object: the outcome (normal return or the exception
thrown) and the object as the call leaves it. The sum and the difference are the exact
ones; `VirtualSubstitutionRate.refresh_in` has them in the arithmetic of `double`. -/
def VirtualSubstitutionRate.refresh (v : VirtualSubstitutionRate) (getValue : String → ℚ) :
    Except Halt Unit × VirtualSubstitutionRate :=
  let v₁ := { v with previous_value := v.value }
  let total := v₁.dependent_rates.foldl (fun total it => total + getValue it) 0
  let v₂ := { v₁ with value := v₁.u - total }
  if v₂.value < 0 ∨ v₂.value > 1 then
    (Except.error (Halt.OutOfBoundsException "VirtualSubstitutionRate out of bounds."), v₂)
  else (Except.ok (), v₂)

/-- A virtual substitution rate with `u = 3/10` and one registered rate `b`, holding the
value `3/20`. -/
def settledRate : VirtualSubstitutionRate :=
  { name := "a", u := 3 / 10, value := 3 / 20, previous_value := 0,
    dependent_rates := ["b"], dependencies := ["b"] }

/-- Modelled from the spec: the class `ContinuousFloat` is not in the sources; an object
is recorded with the arguments of its constructor. -/
structure ContinuousFloat where
  name : String
  a : ℚ
  b : ℚ
  deriving DecidableEq, Repr

/-- A cell of a rate vector (`AbstractValue*`): the virtual substitution rate of the
vector, by name, or a `ContinuousFloat` parameter. -/
inductive AbstractValue where
  | virtual_rate (name : String)
  | continuous_float (p : ContinuousFloat)
  deriving DecidableEq, Repr

/-- The class `RateVector` of Parameters/RateVector.cpp. -/
structure RateVector where
  name : String
  size : Int
  state : Int
  rates : List AbstractValue
  deriving DecidableEq, Repr

/-- One round of the loop of `RateVector::create_parameters` on the pair of the vector
and its virtual rate. -/
def create_parameters_round (rv : RateVector × VirtualSubstitutionRate) (i : Nat) :
    RateVector × VirtualSubstitutionRate :=
  if (i : Int) = rv.1.state then
    ({ rv.1 with rates := rv.1.rates ++ [AbstractValue.virtual_rate rv.2.name] }, rv.2)
  else
    let name := rv.1.name ++ "-" ++ toString i
    let p : ContinuousFloat := { name := name, a := 1 / 10, b := 3 / 10 }
    ({ rv.1 with rates := rv.1.rates ++ [AbstractValue.continuous_float p] },
      rv.2.add_dependancy p.name)

/-- The method `RateVector::create_parameters(n, u)` (RateVector.cpp 16-29): the outcome
of the final `unifp->refresh()`, the vector and the virtual rate as the call leaves
them. -/
def RateVector.create_parameters (rv : RateVector) (n : Int) (u indeterminate : ℚ)
    (getValue : String → ℚ) : Except Halt Unit × RateVector × VirtualSubstitutionRate :=
  let unifp := VirtualSubstitutionRate.construct (rv.name ++ "-virtual") u indeterminate
  let built := (List.range n.toNat).foldl create_parameters_round (rv, unifp)
  let refreshed := built.2.refresh getValue
  (refreshed.1, built.1, refreshed.2)

/-- The constructor `RateVector(name, size, state, u)` (RateVector.cpp 31-39): the
object exists when `create_parameters` returns normally. -/
def RateVector.construct (name : String) (size state : Int) (u indeterminate : ℚ)
    (getValue : String → ℚ) : Except Halt RateVector :=
  let r := RateVector.create_parameters
    { name := name, size := size, state := state, rates := [] } size u indeterminate getValue
  match r.1 with
  | Except.ok _ => Except.ok r.2.1
  | Except.error e => Except.error e

/-! ## Encoding and decoding of states (Sequence.cpp 234-273) -/

/-- The loop of `encode_sequence` over the characters of the string, first to last: the
one-character string `current_state` is looked up with `state_element_encode.at`; when
the lookup throws, a `-` becomes `-1` and anything else ends the program. -/
def encode_states (state_element_encode : String → Option state_element) :
    List Char → Except Halt (List state_element)
  | [] => Except.ok []
  | ch :: rest =>
    match state_element_encode (String.singleton ch) with
    | some c => (encode_states state_element_encode rest).map (fun enc => c :: enc)
    | none =>
      if String.singleton ch = "-" then
        (encode_states state_element_encode rest).map (fun enc => (-1) :: enc)
      else Except.error Halt.exit_failure

/-- The method `SequenceAlignment::encode_sequence(sequence)` (Sequence.cpp 235-258). -/
def encode_sequence (sa : SequenceAlignment) (sequence : String) :
    Except Halt (List state_element) :=
  encode_states sa.state_element_encode sequence.data

/-- The method `SequenceAlignment::decode_state_element(c)` (Sequence.cpp 265-267): the
table is read with `operator[]`, which gives the empty string for a code that is not a
key (and makes it a key holding the empty string). -/
def decode_state_element (sa : SequenceAlignment) (c : state_element) : String :=
  (sa.state_element_decode c).getD ""

/-- The method `SequenceAlignment::decode_state_element_sequence(enc_seq)`
(Sequence.cpp 269-273). -/
def decode_state_element_sequence (sa : SequenceAlignment) (enc_seq : List state_element) :
    String :=
  enc_seq.foldl
    (fun decoded_sequence element => decoded_sequence ++ decode_state_element sa element) ""

/-- An alignment over the domain `{A, B}` (codes `0`, `1`) with no sequence yet, as its
constructor leaves it. -/
def abAlignment : SequenceAlignment where
  domain_name := "d"
  n_states := 2
  n_columns := 0
  taxa_names_to_sequences := fun _ => none
  taxa_names_to_gaps := fun _ => []
  prior_state_distribution := fun _ _ _ => 0
  marginal_state_distribution := fun _ _ _ => 0
  tree := []
  states := ["A", "B"]
  state_element_encode := fun s => if s = "A" then some 0 else if s = "B" then some 1 else none
  state_element_decode := fun c => if c = 0 then some "A" else if c = 1 then some "B" else none

/-! ## Validation of an alignment against the others (Sequence.cpp 848-876) -/

/-- A loop over a list whose body returns nothing: it stops at the first round that does
not return. -/
def for_each {α : Type} : List α → (α → Except Halt Unit) → Except Halt Unit
  | [], _ => Except.ok ()
  | a :: rest, body =>
    match body a with
    | Except.ok _ => for_each rest body
    | Except.error e => Except.error e

/-- The comparison `gaps[i] != alt_gaps[i]` of `validate` followed by its `exit`; an
index outside one of the two vectors has no defined result. -/
def validate_gap (gaps alt_gaps : List Bool) (i : Nat) : Except Halt Unit :=
  match gaps[i]?, alt_gaps[i]? with
  | some a, some b => if a ≠ b then Except.error Halt.exit_failure else Except.ok ()
  | _, _ => Except.error Halt.undefined

/-- The method `SequenceAlignment::validate(seq_names_on_tree, other_alignments)`
(Sequence.cpp 850-876); the `assert` is the one of a build with assertions on. -/
def validate (sa : SequenceAlignment) (seq_names_on_tree : List String)
    (other_alignments : List (String × SequenceAlignment)) : Except Halt Bool := do
  for_each seq_names_on_tree (fun n =>
    if sa.taxa_names_to_sequences n = none then Except.error Halt.exit_failure
    else Except.ok ())
  for_each other_alignments (fun it =>
    let alt_msa := it.2
    if sa.n_columns ≠ alt_msa.n_columns then Except.error Halt.assertion_failed
    else
      for_each seq_names_on_tree (fun n =>
        let gaps := sa.taxa_names_to_gaps n
        let alt_gaps := alt_msa.taxa_names_to_gaps n
        for_each (List.range sa.n_columns) (fun i => validate_gap gaps alt_gaps i)))
  return true

/-! ## Picking states (Sequence.cpp 672-735) -/

/-- The conversion of an `unsigned int` to `state_element` (a signed char). -/
def to_state_element (i : Nat) : state_element :=
  if i % 256 < 128 then ((i % 256 : Nat) : Int) else ((i % 256 : Nat) : Int) - 256

/-- One round of the loop of `pick_state_from_probabilities` on the triple of `acc`,
`selected_state` and the alignment, `r` being the value drawn. -/
def pick_state_round (name : String) (pos : Nat) (r : ℚ)
    (st : ℚ × state_element × SequenceAlignment) (i : Nat) :
    ℚ × state_element × SequenceAlignment :=
  let acc := st.1 + st.2.2.marginal_state_distribution name pos i
  if r < acc ∧ st.2.1 = -1 then (acc, to_state_element i, st.2.2.set_marginal name pos i 1)
  else (acc, st.2.1, st.2.2.set_marginal name pos i 0)

/-- The method `SequenceAlignment::pick_state_from_probabilities(node, pos)`
(Sequence.cpp 672-722), `r` being the value that its call of `Random()` returns. The
running total is the exact one; `pick_state_from_probabilities_in` has it in the
arithmetic of `double`. -/
def pick_state_from_probabilities (sa : SequenceAlignment) (node : TreeNode) (pos : Nat)
    (r : ℚ) : Except Halt (state_element × SequenceAlignment) :=
  let st := (List.range sa.n_states).foldl (pick_state_round node.name pos r) (0, -1, sa)
  if st.2.1 = -1 then Except.error Halt.exit_failure else Except.ok (st.2.1, st.2.2)

/-- One round of the loop of `pick_states_for_node` on the pair of the alignment and the
number of values drawn so far; `gaps` is the copy of the mask taken before the loop,
`Random` the sequence of the values that `Random()` returns. -/
def pick_states_round (gaps : List Bool) (node : TreeNode) (Random : Nat → ℚ)
    (st : SequenceAlignment × Nat) (pos : Nat) : Except Halt (SequenceAlignment × Nat) :=
  match gaps[pos]? with
  | none => Except.error Halt.undefined
  | some true =>
    match st.1.set_state node.name pos (-1) with
    | some sa' => Except.ok (sa', st.2)
    | none => Except.error Halt.undefined
  | some false =>
    match pick_state_from_probabilities st.1 node pos (Random st.2) with
    | Except.error e => Except.error e
    | Except.ok picked =>
      match picked.2.set_state node.name pos picked.1 with
      | some sa' => Except.ok (sa', st.2 + 1)
      | none => Except.error Halt.undefined

/-- The loop of `pick_states_for_node` over the positions. -/
def pick_states_loop (gaps : List Bool) (node : TreeNode) (Random : Nat → ℚ) :
    List Nat → SequenceAlignment × Nat → Except Halt (SequenceAlignment × Nat)
  | [], st => Except.ok st
  | pos :: rest, st =>
    match pick_states_round gaps node Random st pos with
    | Except.error e => Except.error e
    | Except.ok st' => pick_states_loop gaps node Random rest st'

/-- The method `SequenceAlignment::pick_states_for_node(node, positions)`
(Sequence.cpp 724-735): the alignment after it and the number of values drawn. -/
def pick_states_for_node (sa : SequenceAlignment) (node : TreeNode) (positions : List Nat)
    (Random : Nat → ℚ) (drawn : Nat) : Except Halt (SequenceAlignment × Nat) :=
  pick_states_loop (sa.taxa_names_to_gaps node.name) node Random positions (sa, drawn)

/-- An alignment over `{A, B}` with one node `n` of three columns: the middle one is a
gap, the marginals of the others are `(1/4, 3/4)`. -/
def pickAlignment : SequenceAlignment where
  domain_name := "d"
  n_states := 2
  n_columns := 3
  taxa_names_to_sequences := fun nm => if nm = "n" then some [0, 0, 0] else none
  taxa_names_to_gaps := fun nm => if nm = "n" then [false, true, false] else []
  prior_state_distribution := fun _ _ _ => 0
  marginal_state_distribution := fun _ _ i => if i = 0 then 1 / 4 else 3 / 4
  tree := [{ name := "n", up := none, left := none, right := none }]

/-! ## Marginal distributions and the first two recursions (Sequence.cpp 349-632, 769-840) -/

/-- The fields of a `Substitution` record that the likelihood code reads. -/
structure Substitution where
  occuredp : Bool
  anc_state : state_element
  dec_state : state_element
  deriving DecidableEq, Repr

/-- What the alignment code asks of the tree and of the substitution model, none of
which is defined in the sources at hand: the uniformization constant `get_u()`, the
pairs of domain and substitution record that `branch->begin(pos)` iterates over, the
values of the cells of the vector that `get_hypothetical_rate_vector(domain, context,
pos)` selects on a branch, and `is_static(domain)`. -/
structure TreeModel where
  get_u : ℚ
  substitutions : BranchSegment → Nat → List (String × Substitution)
  get_hypothetical_rate_vector :
    BranchSegment → String → List (String × state_element) → Nat → List ℚ
  is_static : String → Bool

/-- The node a `TreeNode*` points to, found by its name among `tree->nodes()`. -/
def SequenceAlignment.node_named (sa : SequenceAlignment) (name : String) : Option TreeNode :=
  sa.tree.find? (fun n => decide (n.name = name))

/-- The bound `(state_element)n_states` of the loops over states that count with a
`state_element`. -/
def state_bound (sa : SequenceAlignment) : Nat :=
  (to_state_element sa.n_states).toNat

/-- The method `SequenceAlignment::reset_to_base(node_name, positions)`
(Sequence.cpp 350-356). -/
def reset_to_base (sa : SequenceAlignment) (node_name : String) (positions : List Nat) :
    SequenceAlignment :=
  positions.foldl (fun sa₁ pos =>
    (List.range sa₁.n_states).foldl (fun sa₂ i =>
      sa₂.set_marginal node_name pos i (sa₂.prior_state_distribution node_name pos i)) sa₁) sa

/-- The factor of the domains other than the focal one in both
`find_state_prob_given_dec_branch` and `find_state_prob_given_anc_branch`: one round of
the loop over `branch->begin(pos)` for a domain that is not static. -/
def alt_domain_factor (sa : SequenceAlignment) (tm : TreeModel) (branch : BranchSegment)
    (state_i : Nat) (pos : Nat) (domain : String) (sub : Substitution) : ℚ :=
  let context := [(domain, sub.anc_state), (sa.domain_name, (state_i : Int))]
  let rv := tm.get_hypothetical_rate_vector branch domain context pos
  if sub.occuredp = true ∧ sub.anc_state ≠ sub.dec_state then
    calc_substitution_prob (rv.getD sub.dec_state.toNat 0) branch.distance tm.get_u
  else calc_no_substitution_prob (rv.getD sub.anc_state.toNat 0) branch.distance tm.get_u

/-- The method `SequenceAlignment::find_state_prob_given_dec_branch` (Sequence.cpp
391-450); `rv` holds the values of the cells of the vector passed. The pair folded over
the domains is `(focal_domain_prob, alt_domain_prob)`. -/
def find_state_prob_given_dec_branch (sa : SequenceAlignment) (tm : TreeModel)
    (branch : BranchSegment) (state_i : Nat) (state_probs : Nat → ℚ) (rv : List ℚ)
    (pos : Nat) : ℚ :=
  (List.range (state_bound sa)).foldl (fun prob state_j =>
    let state_prob := state_probs state_j
    if state_prob ≠ 0 then
      let d := (tm.substitutions branch pos).foldl (fun (d : ℚ × ℚ) it =>
        if it.1 = sa.domain_name then
          (focal_domain_prob rv state_i state_j branch.distance tm.get_u, d.2)
        else if ¬ tm.is_static it.1 = true then
          (d.1, d.2 * alt_domain_factor sa tm branch state_i pos it.1 it.2)
        else d) (0, 1)
      prob + (state_prob * d.1 * d.2)
    else prob) 0

/-- The method `SequenceAlignment::find_state_prob_given_anc_branch` (Sequence.cpp
452-507); `node_up` is the branch `node->up`, on which the vector of the focal domain is
selected. -/
def find_state_prob_given_anc_branch (sa : SequenceAlignment) (tm : TreeModel)
    (branch : BranchSegment) (state_j : Nat) (state_probs : Nat → ℚ) (node_up : BranchSegment)
    (pos : Nat) : ℚ :=
  (List.range (state_bound sa)).foldl (fun prob state_i =>
    let state_prob := state_probs state_i
    if state_prob ≠ 0 then
      let d := (tm.substitutions branch pos).foldl (fun (d : ℚ × ℚ) it =>
        if it.1 = sa.domain_name then
          let context := [(sa.domain_name, (state_i : Int))]
          let rv := tm.get_hypothetical_rate_vector node_up sa.domain_name context pos
          (focal_domain_prob rv state_i state_j branch.distance tm.get_u, d.2)
        else if ¬ tm.is_static it.1 = true then
          (d.1, d.2 * alt_domain_factor sa tm branch state_i pos it.1 it.2)
        else d) (0, 1)
      prob + (state_prob * d.1 * d.2)
    else prob) 0

/-- The three local variables `left_prob`, `right_prob`, `up_prob` of
`find_marginal_at_pos`. -/
structure NeighbourProbs where
  left_prob : ℚ
  right_prob : ℚ
  up_prob : ℚ

/-- The contribution of the node above in one round of `find_marginal_at_pos`
(Sequence.cpp 520-530): no result when a pointer or index is bad, `some none` when the
function returns early, the value of `up_prob` after the block otherwise. -/
def up_contribution (sa : SequenceAlignment) (tm : TreeModel) (node : TreeNode) (pos : Nat)
    (up_node : Option TreeNode) (up_prob : ℚ) (state_i : Nat) : Option (Option ℚ) :=
  match up_node with
  | none => some (some up_prob)
  | some up =>
    match sa.gap_at up.name pos with
    | none => none
    | some true => some (some up_prob)
    | some false =>
      match node.up with
      | none => none
      | some branch =>
        let p := find_state_prob_given_anc_branch sa tm branch state_i
          (sa.marginal_state_distribution up.name pos) branch pos
        if p = 0 then some none else some (some p)

/-- The contribution of a child in one round of `find_marginal_at_pos` (Sequence.cpp
532-555), with the same three outcomes as `up_contribution`. -/
def child_contribution (sa : SequenceAlignment) (tm : TreeModel) (pos : Nat)
    (child : Option TreeNode) (child_prob : ℚ) (state_i : Nat) : Option (Option ℚ) :=
  match child with
  | none => some (some child_prob)
  | some c =>
    match sa.gap_at c.name pos with
    | none => none
    | some true => some (some child_prob)
    | some false =>
      match c.up with
      | none => none
      | some branch =>
        let context := [(sa.domain_name, (state_i : Int))]
        let rv := tm.get_hypothetical_rate_vector branch sa.domain_name context pos
        let p := find_state_prob_given_dec_branch sa tm branch state_i
          (sa.marginal_state_distribution c.name pos) rv pos
        if p = 0 then some none else some (some p)

/-- The loop over the states of `find_marginal_at_pos`: an early `return` ends it. -/
def find_marginal_loop (tm : TreeModel) (node : TreeNode) (pos : Nat)
    (left_node right_node up_node : Option TreeNode) :
    List Nat → NeighbourProbs → SequenceAlignment → Option SequenceAlignment
  | [], _, sa => some sa
  | state_i :: rest, probs, sa =>
    match up_contribution sa tm node pos up_node probs.up_prob state_i with
    | none => none
    | some none => some (sa.set_marginal node.name pos state_i 0)
    | some (some up_prob) =>
      match child_contribution sa tm pos left_node probs.left_prob state_i with
      | none => none
      | some none => some (sa.set_marginal node.name pos state_i 0)
      | some (some left_prob) =>
        match child_contribution sa tm pos right_node probs.right_prob state_i with
        | none => none
        | some none => some (sa.set_marginal node.name pos state_i 0)
        | some (some right_prob) =>
          find_marginal_loop tm node pos left_node right_node up_node rest
            { left_prob := left_prob, right_prob := right_prob, up_prob := up_prob }
            (sa.set_marginal node.name pos state_i (left_prob * right_prob * up_prob))

/-- The method `SequenceAlignment::find_marginal_at_pos` (Sequence.cpp 509-559). -/
def find_marginal_at_pos (sa : SequenceAlignment) (tm : TreeModel) (node : TreeNode)
    (pos : Nat) (left_node right_node up_node : Option TreeNode) : Option SequenceAlignment :=
  find_marginal_loop tm node pos left_node right_node up_node (List.range (state_bound sa))
    { left_prob := 1, right_prob := 1, up_prob := 1 } sa

/-- The node that an optional branch leads down to, `nullptr` for no branch; no result
when the branch leads to no node of the tree. -/
def SequenceAlignment.decendant_of (sa : SequenceAlignment) (branch : Option BranchSegment) :
    Option (Option TreeNode) :=
  match branch with
  | none => some none
  | some b => (sa.node_named b.decendant).map some

/-- The node that an optional branch leads up to, `nullptr` for no branch; no result
when the branch leads to no node of the tree. -/
def SequenceAlignment.ancestral_of (sa : SequenceAlignment) (branch : Option BranchSegment) :
    Option (Option TreeNode) :=
  match branch with
  | none => some none
  | some b => (sa.node_named b.ancestral).map some

/-- The method `SequenceAlignment::find_state_probs_dec_only(node, positions)`
(Sequence.cpp 561-588). -/
def find_state_probs_dec_only (sa : SequenceAlignment) (tm : TreeModel) (node : TreeNode)
    (positions : List Nat) : Option SequenceAlignment :=
  let gaps := sa.taxa_names_to_gaps node.name
  if ¬ node.isTip = true then do
    let right_node ← sa.decendant_of node.right
    positions.foldlM (fun sa₁ pos => do
      let gap ← gaps[pos]?
      if ¬ gap = true then do
        let left ← node.left
        let left_node ← sa₁.node_named left.decendant
        let sa₂ ← find_marginal_at_pos sa₁ tm node pos (some left_node) right_node none
        some (normalize_state_probs sa₂ node pos)
      else some sa₁) sa
  else some sa

/-- The method `SequenceAlignment::reverse_recursion(positions)` (Sequence.cpp 770-785). -/
def reverse_recursion (sa : SequenceAlignment) (tm : TreeModel) (positions : List Nat) :
    Option SequenceAlignment :=
  sa.tree.foldlM (fun sa₁ node =>
    if ¬ node.isTip = true then find_state_probs_dec_only sa₁ tm node positions
    else some (reset_to_base sa₁ node.name positions)) sa

/-- The method `SequenceAlignment::update_state_probs(node, pos, up_node)`
(Sequence.cpp 621-632). -/
def update_state_probs (sa : SequenceAlignment) (tm : TreeModel) (node : TreeNode) (pos : Nat)
    (up_node : TreeNode) : Option SequenceAlignment :=
  (List.range (state_bound sa)).foldlM (fun sa₁ state_j =>
    if sa₁.marginal_state_distribution node.name pos state_j ≠ 0 then do
      let branch ← node.up
      some (sa₁.set_marginal node.name pos state_j
        (sa₁.marginal_state_distribution node.name pos state_j
          * find_state_prob_given_anc_branch sa₁ tm branch state_j
              (sa₁.marginal_state_distribution up_node.name pos) branch pos))
    else some sa₁) sa

/-- The method `SequenceAlignment::fast_update_state_probs_tips(node, pos, up_node)`
(Sequence.cpp 634-654). -/
def fast_update_state_probs_tips (sa : SequenceAlignment) (tm : TreeModel) (node : TreeNode)
    (pos : Nat) (up_node : TreeNode) : Option SequenceAlignment :=
  (List.range (state_bound sa)).foldlM (fun sa₁ state_j =>
    if sa₁.prior_state_distribution node.name pos state_j ≠ 0 then do
      let branch ← node.up
      some (sa₁.set_marginal node.name pos state_j
        (sa₁.prior_state_distribution node.name pos state_j
          * find_state_prob_given_anc_branch sa₁ tm branch state_j
              (sa₁.marginal_state_distribution up_node.name pos) branch pos))
    else some (sa₁.set_marginal node.name pos state_j 0)) sa

/-- The second recursion of `sample_with_triple_recursion` (Sequence.cpp 818-840): the
nodes are visited in the reverse of the order of `tree->nodes()`. -/
def downward_recursion (sa : SequenceAlignment) (tm : TreeModel) (positions : List Nat) :
    Option SequenceAlignment :=
  sa.tree.reverse.foldlM (fun sa₁ node => do
    let gaps := sa₁.taxa_names_to_gaps node.name
    let up_node ← sa₁.ancestral_of node.up
    positions.foldlM (fun sa₂ pos => do
      let gap ← gaps[pos]?
      match up_node with
      | some up =>
        if ¬ gap = true then do
          let sa₃ ← update_state_probs sa₂ tm node pos up
          some (normalize_state_probs sa₃ node pos)
        else some sa₂
      | none => some sa₂) sa₁) sa

/-- The tree of the two-taxon scenario: a root with the tips `x` and `y` below it on
segments of length 1, in the order of `tree->nodes()`. -/
def twoTaxonTree : List TreeNode :=
  [ { name := "x", up := some ⟨1, "root", "x"⟩, left := none, right := none },
    { name := "y", up := some ⟨1, "root", "y"⟩, left := none, right := none },
    { name := "root", up := none,
      left := some ⟨1, "root", "x"⟩, right := some ⟨1, "root", "y"⟩ } ]

/-- The alignment of the two-taxon scenario over the states `A = 0`, `B = 1`: one column,
no gap, `x` is `A` and `y` is `B` with certainty. -/
def twoTaxonAlignment : SequenceAlignment where
  domain_name := "d"
  n_states := 2
  n_columns := 1
  taxa_names_to_sequences := fun nm =>
    if nm = "x" then some [0] else if nm = "y" then some [1]
    else if nm = "root" then some [0] else none
  taxa_names_to_gaps := fun nm =>
    if nm = "x" ∨ nm = "y" ∨ nm = "root" then [false] else []
  prior_state_distribution := fun nm _ i =>
    if nm = "x" then (if i = 0 then 1 else 0)
    else if nm = "y" then (if i = 1 then 1 else 0)
    else 0
  marginal_state_distribution := fun _ _ _ => 0
  tree := twoTaxonTree

/-- The substitution model of the two-taxon scenario: `u = 1/5`, one domain, and on every
branch the vector of `A` holds the virtual rate `u - 1/10` and the rate `1/10` of `A -> B`,
the vector of `B` the rate `1/10` of `B -> A` and the virtual rate `u - 1/10`. -/
def twoTaxonModel : TreeModel where
  get_u := 1 / 5
  substitutions := fun _ _ => [("d", { occuredp := false, anc_state := 0, dec_state := 0 })]
  get_hypothetical_rate_vector := fun _ _ context _ =>
    if context = [("d", 0)] then [1 / 5 - 1 / 10, 1 / 10] else [1 / 10, 1 / 5 - 1 / 10]
  is_static := fun _ => false

/-- An alignment over `{A, B}` on a tree that is the single node `n`: two columns, no
gap, the prior of each column is `(1/3, 2/3)` and the marginal is still zero. -/
def singleTipAlignment : SequenceAlignment where
  domain_name := "d"
  n_states := 2
  n_columns := 2
  taxa_names_to_sequences := fun nm => if nm = "n" then some [0, 1] else none
  taxa_names_to_gaps := fun nm => if nm = "n" then [false, false] else []
  prior_state_distribution := fun _ _ i => if i = 0 then 1 / 3 else 2 / 3
  marginal_state_distribution := fun _ _ _ => 0
  tree := [{ name := "n", up := none, left := none, right := none }]

/-! ## Loading a raw alignment (Sequence.cpp 43-143)

The fields `taxa_names` and `prior_rows` of `SequenceAlignment` serve here: the first
holds the keys of the map `taxa_names_to_sequences` in the order of iteration, the second
the number of rows of each matrix of `prior_state_distribution` that has been allocated. -/

/-- One record of a position of an `IO::FreqSequence`, with the two members that
`add_base` reads; the type itself is not defined in the sources at hand. -/
structure StateFreq where
  state : Char
  freq : ℚ

/-- An `IO::FreqSequence`: for each position the records that `add_base` iterates over. -/
abbrev FreqSequence := List (List StateFreq)

/-- An `IO::RawMSA` as `initialize_common` reads it: the entries of `seqs` in the order of
iteration. -/
structure RawMSA where
  seqs : List (String × FreqSequence)

/-- The assignment `prior_state_distribution[name][pos][i] = v`. -/
def SequenceAlignment.set_prior (sa : SequenceAlignment) (name : String) (pos i : Nat)
    (v : ℚ) : SequenceAlignment :=
  { sa with prior_state_distribution := fun nm p j =>
      if nm = name ∧ p = pos ∧ j = i then v else sa.prior_state_distribution nm p j }

/-- The read `prior_state_distribution[name][pos][i]`, without defined result outside the
matrix allocated for `name`. -/
def SequenceAlignment.prior_at (sa : SequenceAlignment) (name : String) (pos i : Nat) :
    Except Halt ℚ :=
  match sa.prior_rows name with
  | some rows =>
    if pos < rows ∧ i < sa.n_states then Except.ok (sa.prior_state_distribution name pos i)
    else Except.error Halt.undefined
  | none => Except.error Halt.undefined

/-- The keys of a `std::map` after `name` has been made a key: they stay in increasing
order. -/
def insert_key (name : String) : List String → List String
  | [] => [name]
  | k :: ks =>
    if name = k then k :: ks
    else if name < k then name :: k :: ks
    else k :: insert_key name ks

/-- The expression `state_element_encode[key]`: `operator[]` makes a key that is absent a
key that holds `0`. -/
def SequenceAlignment.encode_index (sa : SequenceAlignment) (key : String) :
    SequenceAlignment × state_element :=
  match sa.state_element_encode key with
  | some c => (sa, c)
  | none =>
    ({ sa with state_element_encode := fun s =>
        if s = key then some 0 else sa.state_element_encode s }, 0)

/-- The body of the inner loop of `add_base` (Sequence.cpp 65-71) for one record; the
`assert` is the one of a build with assertions on, and a write outside the row of
`n_states` entries has no defined result. -/
def add_base_record (name : String) (pos : Nat) (sa : SequenceAlignment) (jt : StateFreq) :
    Except Halt SequenceAlignment :=
  if jt.state ≠ '-' then
    let r := sa.encode_index (String.singleton jt.state)
    if 0 ≤ r.2 ∧ r.2 < (sa.n_states : Int) then
      Except.ok (r.1.set_prior name pos r.2.toNat jt.freq)
    else Except.error Halt.undefined
  else if jt.freq = 1 then Except.ok sa
  else Except.error Halt.assertion_failed

/-- The body of the outer loop of `add_base` (Sequence.cpp 63-73) for one position, on
the pair of the alignment and the counter `pos`. -/
def add_base_position (name : String) (st : SequenceAlignment × Nat) (it : List StateFreq) :
    Except Halt (SequenceAlignment × Nat) := do
  let sa ← it.foldlM (add_base_record name st.2) st.1
  pure (sa, st.2 + 1)

/-- The method `SequenceAlignment::add_base(name, seq)` (Sequence.cpp 55-86). The function
`sequenceAsStr_highestFreq` is not defined in the sources at hand and is a parameter. -/
def add_base (sequenceAsStr_highestFreq : FreqSequence → String) (sa : SequenceAlignment)
    (name : String) (seq : FreqSequence) : Except Halt SequenceAlignment := do
  let sequence ← encode_sequence sa (sequenceAsStr_highestFreq seq)
  let sa₁ : SequenceAlignment :=
    { sa with
      taxa_names_to_sequences := fun nm =>
        if nm = name then some sequence else sa.taxa_names_to_sequences nm
      taxa_names := insert_key name sa.taxa_names
      prior_state_distribution := fun nm p i =>
        if nm = name then 0 else sa.prior_state_distribution nm p i
      prior_rows := fun nm => if nm = name then some seq.length else sa.prior_rows nm }
  let st ← seq.foldlM (add_base_position name) (sa₁, 0)
  let gaps := (List.range sequence.length).foldl (fun (gaps : List Bool) pos =>
    if sequence.getD pos 0 = -1 then gaps.set pos true else gaps.set pos false)
    (List.replicate sequence.length false)
  pure (st.1.with_gaps (fun nm => if nm = name then gaps else st.1.taxa_names_to_gaps nm))

/-- The method `SequenceAlignment::initialize_common(raw_msa)` (Sequence.cpp 96-111); the
output files it registers are not part of the alignment. Taking the first entry of an
empty map has no defined result. -/
def initialize_common (sequenceAsStr_highestFreq : FreqSequence → String)
    (sa : SequenceAlignment) (raw_msa : RawMSA) : Except Halt SequenceAlignment := do
  let sa₁ ← raw_msa.seqs.foldlM
    (fun sa₁ it => add_base sequenceAsStr_highestFreq sa₁ it.1 it.2) sa
  match sa₁.taxa_names.head? with
  | none => Except.error Halt.undefined
  | some k =>
    match sa₁.taxa_names_to_sequences k with
    | none => Except.error Halt.undefined
    | some sequence => pure { sa₁ with n_columns := sequence.length }

/-- The loop over the states of `initialize_site_static` (Sequence.cpp 134-140). -/
def site_static_check_states (sa : SequenceAlignment) (key : String) (pos : Nat) :
    Except Halt Unit :=
  for_each (List.range sa.states.length) (fun i =>
    match sa.prior_at key pos i with
    | Except.ok state_probability =>
      if state_probability ≠ 0 ∧ state_probability ≠ 1 then Except.error Halt.exit_failure
      else Except.ok ()
    | Except.error e => Except.error e)

/-- The body of the loop over the positions of `initialize_site_static` (Sequence.cpp
128-141) on the vector `column_states`; an index outside `column_states` has no defined
result. -/
def site_static_position (sa : SequenceAlignment) (key : String)
    (sequence : List state_element) (column_states : List state_element) (pos : Nat) :
    Except Halt (List state_element) :=
  match column_states[pos]?, sequence[pos]? with
  | some c, some s =>
    let column_states₁ := if c = -1 then column_states.set pos s else column_states
    if s ≠ -1 ∧ s ≠ column_states₁.getD pos 0 then Except.error Halt.exit_failure
    else
      match site_static_check_states sa key pos with
      | Except.ok _ => Except.ok column_states₁
      | Except.error e => Except.error e
  | _, _ => Except.error Halt.undefined

/-- The body of the loop over the entries of `taxa_names_to_sequences` of
`initialize_site_static` (Sequence.cpp 127-142) on the vector `column_states`. -/
def site_static_taxon (sa : SequenceAlignment) (column_states : List state_element)
    (key : String) : Except Halt (List state_element) :=
  match sa.taxa_names_to_sequences key with
  | none => Except.error Halt.undefined
  | some sequence =>
    (List.range sequence.length).foldlM (site_static_position sa key sequence) column_states

/-- The method `SequenceAlignment::initialize_site_static(raw_msa)` (Sequence.cpp
119-143). -/
def initialize_site_static (sequenceAsStr_highestFreq : FreqSequence → String)
    (sa : SequenceAlignment) (raw_msa : RawMSA) : Except Halt SequenceAlignment := do
  let sa₁ ← initialize_common sequenceAsStr_highestFreq { sa with tag := Tag.SITE_STATIC }
    raw_msa
  let _ ← sa₁.taxa_names.foldlM (site_static_taxon sa₁)
    (List.replicate sa₁.n_columns (-1 : state_element))
  pure sa₁

/-- A stand-in for `sequenceAsStr_highestFreq` in the scenarios, where every position
holds one record: the string of the states of the first records. -/
def first_state_string (seq : FreqSequence) : String :=
  String.mk (seq.map (fun it => (it.head?.map (fun jt => jt.state)).getD '-'))

/-- The position that holds the state `c` with certainty. -/
def certain_state (c : Char) : List StateFreq := [{ state := c, freq := 1 }]

/-- The raw alignment `x = AA`, `y = AB`. -/
def msaAAAB : RawMSA where
  seqs := [("x", [certain_state 'A', certain_state 'A']),
    ("y", [certain_state 'A', certain_state 'B'])]

/-- The raw alignment `x = AA`, `y = AA`. -/
def msaAAAA : RawMSA where
  seqs := [("x", [certain_state 'A', certain_state 'A']),
    ("y", [certain_state 'A', certain_state 'A'])]

/-- The raw alignment `x = AZ`, `y = AZ`, whose symbol `Z` is not a state of `{A, B}`. -/
def msaAZAZ : RawMSA where
  seqs := [("x", [certain_state 'A', certain_state 'Z']),
    ("y", [certain_state 'A', certain_state 'Z'])]

/-- The alignment that `initialize_common` leaves when it returns, the alignment it
started from when it does not. -/
def loaded (sequenceAsStr_highestFreq : FreqSequence → String) (sa : SequenceAlignment)
    (raw_msa : RawMSA) : SequenceAlignment :=
  match initialize_common sequenceAsStr_highestFreq sa raw_msa with
  | Except.ok sa₁ => sa₁
  | Except.error _ => sa

/-- Two sequences hold different states, neither of them the gap, in one of the first
`n` columns. -/
def column_clash (n : Nat) (s t : List state_element) : Prop :=
  ∃ p, p < n ∧ s.getD p 0 ≠ -1 ∧ t.getD p 0 ≠ -1 ∧ s.getD p 0 ≠ t.getD p 0

instance (n : Nat) (s t : List state_element) : Decidable (column_clash n s t) := by
  unfold column_clash
  infer_instance

/-- The way an execution ended without returning, if it did. -/
def halt_of {α : Type} : Except Halt α → Option Halt
  | Except.ok _ => none
  | Except.error e => some e

/-! ## The alignment as a sampled component (Sequence.cpp 907-958) -/

/-- The fields of a `SequenceAlignmentParameter` that its constructor sets, the pointer
`msa` apart. -/
structure SequenceAlignmentParameter where
  save_count : Int
  n_sample : Nat
  n_cols : Nat
  triple_recursion : Bool
  sample_loc : Nat

/-- The constructor `SequenceAlignmentParameter(msa, n_sample)` (Sequence.cpp 907-931):
`msa->n_cols()` returns `n_columns`. The option `MCMC.triple_recursion` of the
environment and the value that `rand()` returns, which is not negative, are parameters. -/
def SequenceAlignmentParameter.construct (msa : SequenceAlignment) (n_sample : Nat)
    (triple_recursion : Bool) (rand : Nat) : Except Halt SequenceAlignmentParameter :=
  let n_cols := msa.n_columns
  if n_sample < 1 then Except.error Halt.exit_failure
  else if n_sample > n_cols then Except.error Halt.exit_failure
  else if n_sample = n_cols then
    Except.ok {
      save_count := -1, n_sample := n_sample, n_cols := n_cols,
      triple_recursion := triple_recursion, sample_loc := 0 }
  else
    Except.ok {
      save_count := -1, n_sample := n_sample, n_cols := n_cols,
      triple_recursion := triple_recursion, sample_loc := rand % n_cols }

/-! ## MCMC driver: the run (MCMC.cpp 32-57, 88-119) -/

/-- One record `I,GEN,LogL` as `MCMC::RecordState` sends it to the stream `lnlout` and,
for the last two values, to `model->RecordState`. -/
structure LikelihoodRecord where
  I : Int
  GEN : Int
  LogL : ℚ
  deriving DecidableEq

/-- The object `MCMC` as `Run` uses it: the part that `sample` uses, the members `gen`,
`gens`, `out_freq` and `print_freq`, the function-static counter `i` of
`MCMC::RecordState`, and the records sent to `lnlout` so far, oldest first. -/
structure Chain (σ : Type) where
  mcmc : MCMC σ
  gen : Int
  gens : Int
  out_freq : Int
  print_freq : Int
  /-- The counter `static int i = -1` of `MCMC::RecordState`. -/
  record_i : Int
  lnlout : List LikelihoodRecord

/-- The function `MCMC::RecordState` (MCMC.cpp 114-119). -/
def RecordState {σ : Type} (m : Model σ) (c : Chain σ) : Chain σ :=
  let i := c.record_i + 1
  { c with
    record_i := i
    lnlout := c.lnlout ++ [{ I := i, GEN := c.gen, LogL := c.mcmc.lnL }]
    mcmc := { c.mcmc with world := m.RecordState c.gen c.mcmc.lnL c.mcmc.world } }

/-- The function `MCMC::initialize` (MCMC.cpp 32-57), called once when the program has
just started, so that the counters `i` of `sample` and of `RecordState` hold `1` and `-1`
and the constructor has left `gen = 0`. The four settings read from the environment are
parameters; the output file that is registered is not part of the state. -/
def initialize_MCMC {σ : Type} (m : Model σ) (w : σ)
    (out_freq print_freq gens tree_sample_freq : Int) : Chain σ :=
  let r := m.CalculateLikelihood w
  let c : Chain σ :=
    { mcmc := MCMC.start r.2 r.1 tree_sample_freq, gen := 0, gens := gens,
      out_freq := out_freq, print_freq := print_freq, record_i := -1, lnlout := [] }
  let c₁ := RecordState m c
  { c₁ with mcmc := { c₁.mcmc with world := m.printParameters c₁.mcmc.world } }

/-- The body of the loop of `MCMC::Run` (MCMC.cpp 95-109); a remainder by zero has no
defined result, and neither has a call of `sample` without one. The likelihood is tested
with the `isnan` of the model; `sample` compares likelihoods as the rationals they are,
which is what the program does as long as none of the values compared is a NaN. -/
def Run_generation {σ : Type} (m : Model σ) (c : Chain σ) : Except Halt (Chain σ) :=
  match sample m c.mcmc with
  | none => Except.error Halt.undefined
  | some s =>
    let c₁ := { c with mcmc := s }
    if m.isnan c₁.mcmc.lnL = true then Except.error Halt.exit_failure
    else if c₁.print_freq = 0 then Except.error Halt.undefined
    else if c₁.out_freq = 0 then Except.error Halt.undefined
    else if Int.tmod c₁.gen c₁.out_freq = 0 then Except.ok (RecordState m c₁)
    else Except.ok c₁

/-- The first `n` rounds of the loop `for (gen = 1; gen <= gens; gen++)` of `MCMC::Run`:
round `k`, counted from `0`, runs with `gen = k + 1`. -/
def Run_generations {σ : Type} (m : Model σ) (n : Nat) (c : Chain σ) :
    Except Halt (Chain σ) :=
  (List.range n).foldlM
    (fun c₁ (k : Nat) => Run_generation m { c₁ with gen := (k : Int) + 1 }) c

/-- The function `MCMC::Run` (MCMC.cpp 88-111): the loop makes `gens` rounds, none when
`gens` is negative, and leaves `gen` one above the last round. -/
def Run {σ : Type} (m : Model σ) (c : Chain σ) : Except Halt (Chain σ) :=
  match Run_generations m c.gens.toNat c with
  | Except.ok c₁ => Except.ok { c₁ with gen := (c.gens.toNat : Int) + 1 }
  | Except.error e => Except.error e

/-- The likelihood `lnL` that the chain holds after generation `g` of `Run`. -/
def lnL_after {σ : Type} (m : Model σ) (c : Chain σ) (g : Nat) : ℚ :=
  match Run_generations m g c with
  | Except.ok c₁ => c₁.mcmc.lnL
  | Except.error _ => 0

/-! ## Default names of tree nodes (TreeParts.cpp 107-144) -/

/-- The default constructor `TreeNode::TreeNode()` (TreeParts.cpp 134-144) on the static
counter `unique_id`: the node made, named `"Node"` followed by `std::to_string(unique_id)`,
and the counter after `unique_id++`, which has no defined result at the largest `int`. -/
def TreeNode.default_construct (unique_id : Int) : Option (TreeNode × Int) :=
  if unique_id = 2147483647 then none
  else
    some ({ name := "Node" ++ toString unique_id, up := none, left := none, right := none },
      unique_id + 1)

/-- The first `k` default constructions of a program from the counter `unique_id` on:
the nodes made, in order, and the counter left. -/
def default_nodes : Nat → Int → Option (List TreeNode × Int)
  | 0, unique_id => some ([], unique_id)
  | k + 1, unique_id =>
    match TreeNode.default_construct unique_id with
    | none => none
    | some r => (default_nodes k r.2).map (fun rest => (r.1 :: rest.1, rest.2))

/-- The number that a string of decimal digits denotes. -/
def digits_value (ds : List Char) : Nat :=
  ds.foldl (fun a c => 10 * a + (c.toNat - 48)) 0

/-! ## Attaching the sequences to the tree (Sequence.cpp 35-41, 176-201) -/

/-- The method `SequenceAlignment::add_internal(name)` (Sequence.cpp 35-41); the `assert`
is the one of a build with assertions on. -/
def add_internal (sa : SequenceAlignment) (name : String) : Except Halt SequenceAlignment :=
  if 0 < sa.n_columns then
    Except.ok { sa with
      taxa_names_to_sequences := fun nm =>
        if nm = name then some (List.replicate sa.n_columns (-1))
        else sa.taxa_names_to_sequences nm
      taxa_names_to_gaps := fun nm =>
        if nm = name then List.replicate sa.n_columns true else sa.taxa_names_to_gaps nm
      taxa_names := insert_key name sa.taxa_names }
  else Except.error Halt.assertion_failed

/-- The body of the first loop of `syncWithTree` (Sequence.cpp 186-200) on the pair of the
alignment and, for each node by its name, the key of the entry of
`taxa_names_to_sequences` that `node->sequences[domain_name]` points to. -/
def attach_node (st : SequenceAlignment × (String → Option String)) (node : TreeNode) :
    Except Halt (SequenceAlignment × (String → Option String)) :=
  let sa : SequenceAlignment :=
    { st.1 with marginal_state_distribution := fun nm p i =>
        if nm = node.name then 0 else st.1.marginal_state_distribution nm p i }
  if (sa.taxa_names_to_sequences node.name).isSome = true then
    Except.ok (sa, fun nm => if nm = node.name then some node.name else st.2 nm)
  else if node.isTip = true then Except.error Halt.exit_failure
  else
    match add_internal sa node.name with
    | Except.ok sa₁ =>
      Except.ok (sa₁, fun nm => if nm = node.name then some node.name else st.2 nm)
    | Except.error e => Except.error e

/-- The assignment `this->tree = tree` and the first loop of `syncWithTree` (Sequence.cpp
183-201); `sequences` holds what the nodes point to before the call. -/
def attach_sequences (sa : SequenceAlignment) (tree : List TreeNode)
    (sequences : String → Option String) :
    Except Halt (SequenceAlignment × (String → Option String)) :=
  tree.foldlM attach_node ({ sa with tree := tree }, sequences)

/-- The method `SequenceAlignment::syncWithTree(domain_name, tree)` (Sequence.cpp 176-232):
the first loop, the loop that sets the gaps of the internal nodes, and the loop of
`find_parsimony_by_position` over the columns. -/
def syncWithTree (sa : SequenceAlignment) (tree : List TreeNode)
    (sequences : String → Option String) :
    Except Halt (SequenceAlignment × (String → Option String)) :=
  match attach_sequences sa tree sequences with
  | Except.error e => Except.error e
  | Except.ok st =>
    match set_internal_gaps st.1 with
    | none => Except.error Halt.undefined
    | some sa₁ =>
      match for_range sa₁.n_columns (fun i s => find_parsimony_by_position s i) sa₁ with
      | none => Except.error Halt.undefined
      | some sa₂ => Except.ok (sa₂, st.2)

/-- The alignment `a = A-`, `b = AA`, `c = AA` over the states `A = 0`, `B = 1` as it is
loaded, before a tree is attached: the tips only. -/
def tipsAlignment : SequenceAlignment where
  domain_name := "d"
  n_states := 2
  n_columns := 2
  taxa_names_to_sequences := fun nm =>
    if nm = "a" then some [0, -1]
    else if nm = "b" then some [0, 0]
    else if nm = "c" then some [0, 0]
    else none
  taxa_names_to_gaps := fun nm =>
    if nm = "a" then [false, true]
    else if nm = "b" then [false, false]
    else if nm = "c" then [false, false]
    else []
  prior_state_distribution := fun _ _ _ => 0
  marginal_state_distribution := fun _ _ _ => 0
  tree := []
  taxa_names := ["a", "b", "c"]


/-! ## A branch with a rate of zero (Sequence.cpp 509-559) -/

/-- The substitution model of the two-taxon scenario with the rate of `A -> B` set to
zero: `u = 1/5`, the vector of `A` holds the virtual rate `u - 0` and the rate `0` of
`A -> B`, the vector of `B` the rate `1/10` of `B -> A` and the virtual rate `u - 1/10`. -/
def zeroRateModel : TreeModel where
  get_u := 1 / 5
  substitutions := fun _ _ => [("d", { occuredp := false, anc_state := 0, dec_state := 0 })]
  get_hypothetical_rate_vector := fun _ _ context _ =>
    if context = [("d", 0)] then [1 / 5 - 0, 0] else [1 / 10, 1 / 5 - 1 / 10]
  is_static := fun _ => false

/-- The alignment of the two-taxon scenario with both tips `B` with certainty, as
`syncWithTree` leaves it: every marginal is still zero. -/
def bothBAlignment : SequenceAlignment where
  domain_name := "d"
  n_states := 2
  n_columns := 1
  taxa_names_to_sequences := fun nm =>
    if nm = "x" then some [1] else if nm = "y" then some [1]
    else if nm = "root" then some [1] else none
  taxa_names_to_gaps := fun nm =>
    if nm = "x" ∨ nm = "y" ∨ nm = "root" then [false] else []
  prior_state_distribution := fun nm _ i =>
    if nm = "x" ∨ nm = "y" then (if i = 1 then 1 else 0) else 0
  marginal_state_distribution := fun _ _ _ => 0
  tree := twoTaxonTree

/-- The alignment `bothBAlignment` when `reverse_recursion` reaches the root: the marginals
of the tips `x` and `y` have been reset to their priors `(0, 1)`. -/
def bothBAtRoot : SequenceAlignment :=
  reset_to_base (reset_to_base bothBAlignment "x" [0]) "y" [0]

/-- The root of `twoTaxonTree`. -/
def twoTaxonRoot : TreeNode :=
  { name := "root", up := none, left := some ⟨1, "root", "x"⟩, right := some ⟨1, "root", "y"⟩ }

/-- The tip `x` of `twoTaxonTree`. -/
def twoTaxonX : TreeNode :=
  { name := "x", up := some ⟨1, "root", "x"⟩, left := none, right := none }

/-- The tip `y` of `twoTaxonTree`. -/
def twoTaxonY : TreeNode :=
  { name := "y", up := some ⟨1, "root", "y"⟩, left := none, right := none }

/-- The two entries of the row of the root at position 0. -/
def root_row (sa : SequenceAlignment) : ℚ × ℚ :=
  (sa.marginal_state_distribution "root" 0 0, sa.marginal_state_distribution "root" 0 1)


/-! ## Drawing a state from a distribution (Sequence.cpp 657-670) -/

/-- One round of the loop `while (positions.size() < n_sample)` of
`SequenceAlignmentParameter::sample` on the pair of `positions` and `sample_loc`;
`sample_loc++` is an increment of an `unsigned int`. -/
def sample_positions_round (n_cols : Nat) (st : List Nat × Nat) : List Nat × Nat :=
  let positions := st.1 ++ [st.2]
  let sample_loc := (st.2 + 1) % 4294967296
  if sample_loc ≥ n_cols then (positions, 0) else (positions, sample_loc)

/-- The loop `while (positions.size() < n_sample)` of `SequenceAlignmentParameter::sample`
(Sequence.cpp 950-961). -/
def sample_positions_while (n_sample n_cols : Nat) (st : List Nat × Nat) : List Nat × Nat :=
  if st.1.length < n_sample then
    sample_positions_while n_sample n_cols (sample_positions_round n_cols st)
  else st
termination_by n_sample - st.1.length
decreasing_by
  simp only [sample_positions_round]
  split <;> simp only [List.length_append, List.length_singleton] <;> omega

/-- The part of `SequenceAlignmentParameter::sample` (Sequence.cpp 941-972) before the
recursions are run: the list `positions` that is passed to them, and the object with the
`sample_loc` it is left with. -/
def SequenceAlignmentParameter.sample_positions (p : SequenceAlignmentParameter) :
    List Nat × SequenceAlignmentParameter :=
  let st := sample_positions_while p.n_sample p.n_cols ([], p.sample_loc)
  (st.1, { p with sample_loc := st.2 })


/-! ## Statistics of a branch segment (TreeParts.cpp 59-105) -/

/-- The values of the locals `noSub` and `Sub` of `BranchSegment::virtualSubstituionQ`
when the draw is compared (TreeParts.cpp 63-67): `noSub` is divided by the sum first, and
the division of `Sub` reads the `noSub` so changed. `rate` is the value of the cell of the
rate vector selected for the state. -/
def virtual_substitution_probs (u rate distance : ℚ) : ℚ × ℚ :=
  let noSub := 1 / (1 + u * distance)
  let Sub := (rate * distance) / (1 + u * distance)
  let noSub₁ := noSub / (Sub + noSub)
  let Sub₁ := Sub / (Sub + noSub₁)
  (noSub₁, Sub₁)

/-- The method `BranchSegment::virtualSubstituionQ(state)` (TreeParts.cpp 59-74), `r`
being the value that its call of `Random()` returns. -/
def virtualSubstituionQ (u rate distance r : ℚ) : Bool :=
  if r < (virtual_substitution_probs u rate distance).2 then true else false


/-- The record `substitution` of a branch segment: a position and the two states. -/
structure substitution where
  pos : Int
  anc : Int
  dec : Int
  deriving DecidableEq, Repr

/-- The record `{-1, -1, -1}` that stands for no substitution. -/
def null_substitution : substitution := { pos := -1, anc := -1, dec := -1 }

/-- The members of a `BranchSegment` that `updateStats` writes, and the number of values
drawn from `Random()` so far. -/
structure BranchStats where
  num0subs : Int
  num1subs : Int
  subs : List substitution
  drawn : Nat
  deriving DecidableEq, Repr

/-- The assignment `subs[pos] = s` together with the new counters; an index outside the
vector has no defined result. -/
def BranchStats.record (st : BranchStats) (pos : Nat) (s : substitution)
    (num0subs num1subs : Int) (drawn : Nat) : Option BranchStats :=
  if pos < st.subs.length then
    some { num0subs := num0subs, num1subs := num1subs, subs := st.subs.set pos s,
           drawn := drawn }
  else none

/-- One round of the loop of `BranchSegment::updateStats` (TreeParts.cpp 85-104): `anc` and
`dec` are the copies of the two sequences, `rate_of state` the value of the cell that
`virtualSubstituionQ(state)` reads, `Random` the sequence of the values that `Random()`
returns. A call of `at` outside a vector gives no result. -/
def updateStats_round (u distance : ℚ) (rate_of : Int → ℚ) (Random : Nat → ℚ)
    (anc dec : List Int) (st : BranchStats) (pos : Nat) : Option BranchStats :=
  match dec[pos]?, anc[pos]? with
  | some d, some a =>
    if d ≠ -1 then
      if a = d then
        if virtualSubstituionQ u (rate_of a) distance (Random st.drawn) = true then
          st.record pos { pos := (pos : Int), anc := a, dec := d } st.num0subs
            (st.num1subs + 1) (st.drawn + 1)
        else
          st.record pos null_substitution (st.num0subs + 1) st.num1subs (st.drawn + 1)
      else
        st.record pos { pos := (pos : Int), anc := a, dec := d } st.num0subs
          (st.num1subs + 1) st.drawn
    else some st
  | _, _ => none

/-- The method `BranchSegment::updateStats` (TreeParts.cpp 76-105): `n` is `env.n`, `anc`
and `dec` the sequences of the nodes at the two ends, `drawn` the number of values drawn
from `Random()` before the call. -/
def updateStats (n : Nat) (u distance : ℚ) (rate_of : Int → ℚ) (Random : Nat → ℚ)
    (anc dec : List Int) (drawn : Nat) : Option BranchStats :=
  (List.range anc.length).foldlM (updateStats_round u distance rate_of Random anc dec)
    { num0subs := 0, num1subs := 0, subs := List.replicate n null_substitution,
      drawn := drawn }


/-! ## Normalising, picking and refreshing in the arithmetic of the program

The functions `normalize_state_probs`, `pick_state_from_probabilities` and
`VirtualSubstitutionRate::refresh` with the arithmetic of their `double` values as a
parameter; with `Arith.rational` they are the functions of those names above. -/

/-- The function `SequenceAlignment::normalize_state_probs(node, pos)` (Sequence.cpp
358-370) in the arithmetic `A`. -/
def normalize_state_probs_in (A : Arith) (sa : SequenceAlignment) (node : TreeNode)
    (pos : Nat) : SequenceAlignment :=
  let normalize_total := (List.range sa.n_states).foldl
    (fun acc i => A.add acc (sa.marginal_state_distribution node.name pos i)) 0
  if normalize_total ≠ 0 then
    (List.range sa.n_states).foldl
      (fun sa' i => sa'.set_marginal node.name pos i
        (A.div (sa'.marginal_state_distribution node.name pos i) normalize_total)) sa
  else sa

/-- One round of the loop of `pick_state_from_probabilities` in the arithmetic `A`, on
the triple of `acc`, `selected_state` and the alignment. -/
def pick_state_round_in (A : Arith) (name : String) (pos : Nat) (r : ℚ)
    (st : ℚ × state_element × SequenceAlignment) (i : Nat) :
    ℚ × state_element × SequenceAlignment :=
  let acc := A.add st.1 (st.2.2.marginal_state_distribution name pos i)
  if r < acc ∧ st.2.1 = -1 then (acc, to_state_element i, st.2.2.set_marginal name pos i 1)
  else (acc, st.2.1, st.2.2.set_marginal name pos i 0)

/-- The method `SequenceAlignment::pick_state_from_probabilities(node, pos)`
(Sequence.cpp 672-722) in the arithmetic `A`, `r` being the value that its call of
`Random()` returns. -/
def pick_state_from_probabilities_in (A : Arith) (sa : SequenceAlignment) (node : TreeNode)
    (pos : Nat) (r : ℚ) : Except Halt (state_element × SequenceAlignment) :=
  let st := (List.range sa.n_states).foldl (pick_state_round_in A node.name pos r) (0, -1, sa)
  if st.2.1 = -1 then Except.error Halt.exit_failure else Except.ok (st.2.1, st.2.2)

/-- The method `VirtualSubstitutionRate::refresh` (AbstractValueTypes.cpp 43-56) in the
arithmetic `A`, given the current value of every value object: the outcome (normal
return or the exception thrown) and the object as the call leaves it. -/
def VirtualSubstitutionRate.refresh_in (A : Arith) (v : VirtualSubstitutionRate)
    (getValue : String → ℚ) : Except Halt Unit × VirtualSubstitutionRate :=
  let v₁ := { v with previous_value := v.value }
  let total := v₁.dependent_rates.foldl (fun total it => A.add total (getValue it)) 0
  let v₂ := { v₁ with value := A.sub v₁.u total }
  if v₂.value < 0 ∨ v₂.value > 1 then
    (Except.error (Halt.OutOfBoundsException "VirtualSubstitutionRate out of bounds."), v₂)
  else (Except.ok (), v₂)

/-- An alignment with one node `n` and one column over ten states, every entry of the
marginal being `1`. -/
def tenOnesAlignment : SequenceAlignment where
  domain_name := "d"
  n_states := 10
  n_columns := 1
  taxa_names_to_sequences := fun nm => if nm = "n" then some [0] else none
  taxa_names_to_gaps := fun nm => if nm = "n" then [false] else []
  prior_state_distribution := fun _ _ _ => 0
  marginal_state_distribution := fun _ _ _ => 1
  tree := [{ name := "n", up := none, left := none, right := none }]

/-- The node of `tenOnesAlignment`. -/
def tenOnesNode : TreeNode := { name := "n", up := none, left := none, right := none }


/-- The alignment `tenOnesAlignment` after `normalize_state_probs` in the arithmetic of
`double`: each of the ten entries of the row is the `double` nearest to `1/10`. -/
def tenTenthsAlignment : SequenceAlignment :=
  normalize_state_probs_in Arith.binary64 tenOnesAlignment tenOnesNode 0

/-! # Theorems -/

/-! ## MCMC driver -/

/-- Successor of a remainder: stepping the dividend by one either steps the remainder
or wraps it to zero. -/
theorem emod_succ_cases (j f : Int) (hf : 1 ≤ f) :
    (j % f + 1 = f ∧ (j + 1) % f = 0) ∨ (j % f + 1 < f ∧ (j + 1) % f = j % f + 1) := by
  have h0 : 0 ≤ j % f := Int.emod_nonneg j (by omega)
  have h1 : j % f < f := Int.emod_lt_of_pos j (by omega)
  have hsplit : j + 1 = (j % f + 1) + f * (j / f) := by
    have := Int.emod_add_ediv j f
    omega
  rcases Nat.lt_or_ge (Int.toNat (j % f + 1)) (Int.toNat f) with hlt | hge
  · right
    have hlt' : j % f + 1 < f := by omega
    refine ⟨hlt', ?_⟩
    rw [hsplit, Int.add_mul_emod_self_left]
    exact Int.emod_eq_of_lt (by omega) hlt'
  · left
    have heq : j % f + 1 = f := by omega
    refine ⟨heq, ?_⟩
    rw [hsplit, heq]
    have : f + f * (j / f) = f * (1 + j / f) := by ring
    rw [this]
    exact Int.mul_emod_right f _

/-- With the counter between `1` and the frequency, the test `i % tree_sample_freq == 0`
of `sample` succeeds exactly when the counter has reached the frequency. -/
theorem tmod_eq_zero_iff_eq (i f : Int) (hi : 1 ≤ i) (hif : i ≤ f) :
    Int.tmod i f = 0 ↔ i = f := by
  rw [Int.tmod_eq_emod (by omega) (by omega)]
  constructor
  · intro h
    by_contra hne
    have hlt : i < f := by omega
    rw [Int.emod_eq_of_lt (by omega) hlt] at h
    omega
  · intro h
    rw [h]
    exact Int.emod_self

/-- Invariant of the counter: after `j` calls since start it is `j mod f + 1`, and all
`j` calls return. -/
theorem sample_times_counter {σ : Type} (m : Model σ) (s₀ : MCMC σ)
    (hi : s₀.i = 1) (hf : 1 ≤ s₀.tree_sample_freq) (j : Nat) :
    ∃ s, sample_times m j s₀ = some s ∧ s.i = (j : Int) % s₀.tree_sample_freq + 1 ∧
      s.tree_sample_freq = s₀.tree_sample_freq := by
  induction j with
  | zero =>
    refine ⟨s₀, rfl, ?_, rfl⟩
    simp [hi]
  | succ j ih =>
    obtain ⟨s, hs, hsi, hsf⟩ := ih
    have h0 : 0 ≤ (j : Int) % s₀.tree_sample_freq := Int.emod_nonneg _ (by omega)
    have h1 : (j : Int) % s₀.tree_sample_freq < s₀.tree_sample_freq :=
      Int.emod_lt_of_pos _ (by omega)
    have hne : s.tree_sample_freq ≠ 0 := by omega
    have htest := tmod_eq_zero_iff_eq s.i s.tree_sample_freq (by omega) (by omega)
    have hcases := emod_succ_cases (j : Int) s₀.tree_sample_freq hf
    simp only [sample_times, hs, Option.some_bind]
    by_cases ht : Int.tmod s.i s.tree_sample_freq = 0
    · have heq := htest.mp ht
      have hwrap : ((j : Int) + 1) % s₀.tree_sample_freq = 0 := by
        rcases hcases with ⟨_, h⟩ | ⟨h, _⟩
        · exact h
        · omega
      refine ⟨_, by simp only [sample, hne, ht, if_true, if_false]; rfl, ?_, ?_⟩
      · simp only [Nat.cast_succ, hwrap]
      · exact hsf
    · have hlt : s.i ≠ s.tree_sample_freq := fun h => ht (htest.mpr h)
      have hstep : ((j : Int) + 1) % s₀.tree_sample_freq
          = (j : Int) % s₀.tree_sample_freq + 1 := by
        rcases hcases with ⟨h, _⟩ | ⟨_, h⟩
        · omega
        · exact h
      simp only [sample, hne, ht, if_false]
      split_ifs
      all_goals
        refine ⟨_, rfl, ?_, hsf⟩
        simp only [Nat.cast_succ, hstep, hsi]

/-- C1: on a step that is not a tree step and whose proposal is Metropolis-flagged,
`sample` draws `Random()` once and accepts if and only if `log u ≤ newLnL - lnL` for the
value `u` drawn; on acceptance `lnL` becomes `newLnL` and `model->accept()` is called. -/
theorem sample_metropolis_accept_iff {σ : Type} (m : Model σ) (s : MCMC σ)
    (hf : s.tree_sample_freq ≠ 0) (hi : Int.tmod s.i s.tree_sample_freq ≠ 0)
    (hflag : (m.SampleSubstitutionModel s.world).1 = true) :
    ∃ s', sample m s = some s' ∧
      (Call.accept ∈ s'.calls.drop s.calls.length ↔
        m.log (m.Random (m.updateLikelihood (m.SampleSubstitutionModel s.world).2).2).1
          ≤ (m.updateLikelihood (m.SampleSubstitutionModel s.world).2).1 - s.lnL) ∧
      (s'.calls.drop s.calls.length).count Call.Random = 1 ∧
      (m.log (m.Random (m.updateLikelihood (m.SampleSubstitutionModel s.world).2).2).1
          ≤ (m.updateLikelihood (m.SampleSubstitutionModel s.world).2).1 - s.lnL →
        s'.lnL = (m.updateLikelihood (m.SampleSubstitutionModel s.world).2).1 ∧
        s'.world = m.accept
          (m.Random (m.updateLikelihood (m.SampleSubstitutionModel s.world).2).2).2 ∧
        s'.calls = s.calls ++ [Call.SampleSubstitutionModel, Call.updateLikelihood,
          Call.Random, Call.accept]) := by
  by_cases hacc :
      m.log (m.Random (m.updateLikelihood (m.SampleSubstitutionModel s.world).2).2).1
        ≤ (m.updateLikelihood (m.SampleSubstitutionModel s.world).2).1 - s.lnL
  · refine ⟨_, by simp only [sample, hf, hi, hflag, hacc, if_true, if_false]; rfl, ?_⟩
    simp [hacc]
  · refine ⟨_, by simp only [sample, hf, hi, hflag, hacc, if_true, if_false]; rfl, ?_⟩
    simp [hacc]

/-- Witness of C1 on the toy model: counter `1`, frequency `3`. -/
theorem sample_metropolis_accept_iff_witness :
    ∃ s', sample toyModel (MCMC.start 0 0 3) = some s' ∧
      (Call.accept ∈ s'.calls.drop (MCMC.start (0 : Nat) 0 3).calls.length ↔
        toyModel.log (toyModel.Random (toyModel.updateLikelihood
          (toyModel.SampleSubstitutionModel (MCMC.start (0 : Nat) 0 3).world).2).2).1
          ≤ (toyModel.updateLikelihood
              (toyModel.SampleSubstitutionModel (MCMC.start (0 : Nat) 0 3).world).2).1
            - (MCMC.start (0 : Nat) 0 3).lnL) ∧
      (s'.calls.drop (MCMC.start (0 : Nat) 0 3).calls.length).count Call.Random = 1 ∧
      (toyModel.log (toyModel.Random (toyModel.updateLikelihood
          (toyModel.SampleSubstitutionModel (MCMC.start (0 : Nat) 0 3).world).2).2).1
          ≤ (toyModel.updateLikelihood
              (toyModel.SampleSubstitutionModel (MCMC.start (0 : Nat) 0 3).world).2).1
            - (MCMC.start (0 : Nat) 0 3).lnL →
        s'.lnL = (toyModel.updateLikelihood
          (toyModel.SampleSubstitutionModel (MCMC.start (0 : Nat) 0 3).world).2).1 ∧
        s'.world = toyModel.accept (toyModel.Random (toyModel.updateLikelihood
          (toyModel.SampleSubstitutionModel (MCMC.start (0 : Nat) 0 3).world).2).2).2 ∧
        s'.calls = (MCMC.start (0 : Nat) 0 3).calls ++ [Call.SampleSubstitutionModel,
          Call.updateLikelihood, Call.Random, Call.accept]) :=
  sample_metropolis_accept_iff toyModel (MCMC.start 0 0 3) (by decide) (by decide) rfl

/-- C2: when a Metropolis-flagged proposal is rejected (`log u > newLnL - lnL`), `lnL`
is what it was before the step, `model->reject()` is called and `model->accept()` is
not. -/
theorem sample_metropolis_reject {σ : Type} (m : Model σ) (s : MCMC σ)
    (hf : s.tree_sample_freq ≠ 0) (hi : Int.tmod s.i s.tree_sample_freq ≠ 0)
    (hflag : (m.SampleSubstitutionModel s.world).1 = true)
    (hrej : (m.updateLikelihood (m.SampleSubstitutionModel s.world).2).1 - s.lnL
      < m.log (m.Random (m.updateLikelihood (m.SampleSubstitutionModel s.world).2).2).1) :
    ∃ s', sample m s = some s' ∧ s'.lnL = s.lnL ∧
      s'.world = m.reject
        (m.Random (m.updateLikelihood (m.SampleSubstitutionModel s.world).2).2).2 ∧
      s'.calls = s.calls ++ [Call.SampleSubstitutionModel, Call.updateLikelihood,
        Call.Random, Call.reject] ∧
      Call.reject ∈ s'.calls.drop s.calls.length ∧
      Call.accept ∉ s'.calls.drop s.calls.length := by
  have hacc := not_le.mpr hrej
  refine ⟨_, by simp only [sample, hf, hi, hflag, hacc, if_true, if_false]; rfl, ?_⟩
  simp

/-- Witness of C2 on the toy model: the current likelihood `10` is far above the
proposed one, the draw `1/2` rejects. -/
theorem sample_metropolis_reject_witness :
    ∃ s', sample toyModel (MCMC.start 0 10 3) = some s' ∧
      s'.lnL = (MCMC.start (0 : Nat) 10 3).lnL ∧
      s'.world = toyModel.reject (toyModel.Random (toyModel.updateLikelihood
        (toyModel.SampleSubstitutionModel (MCMC.start (0 : Nat) 10 3).world).2).2).2 ∧
      s'.calls = (MCMC.start (0 : Nat) 10 3).calls ++ [Call.SampleSubstitutionModel,
        Call.updateLikelihood, Call.Random, Call.reject] ∧
      Call.reject ∈ s'.calls.drop (MCMC.start (0 : Nat) 10 3).calls.length ∧
      Call.accept ∉ s'.calls.drop (MCMC.start (0 : Nat) 10 3).calls.length :=
  sample_metropolis_reject toyModel (MCMC.start 0 10 3) (by decide) (by decide) rfl
    (by norm_num [toyModel, MCMC.start])

/-- C3: with `tree_sample_freq ≥ 1`, the `k`-th call of `sample` since start (`k ≥ 1`)
returns, and it is the tree step (`SampleTree`, then `lnL` set to the result of
`CalculateLikelihood`, no draw, no accept or reject) if and only if
`k mod tree_sample_freq = 0`; otherwise it is a substitution-model proposal
(`SampleSubstitutionModel` then `updateLikelihood`, no `SampleTree`). -/
theorem sample_tree_step_iff {σ : Type} (m : Model σ) (s₀ : MCMC σ)
    (hi : s₀.i = 1) (hf : 1 ≤ s₀.tree_sample_freq) (k : Nat) (hk : 1 ≤ k) :
    ∃ s s', sample_times m (k - 1) s₀ = some s ∧ sample m s = some s' ∧
      sample_times m k s₀ = some s' ∧
      (s'.calls = s.calls ++ [Call.SampleTree, Call.CalculateLikelihood] ↔
        (k : Int) % s₀.tree_sample_freq = 0) ∧
      ((k : Int) % s₀.tree_sample_freq = 0 →
        s'.lnL = (m.CalculateLikelihood (m.SampleTree s.world).2).1 ∧
        s'.world = (m.CalculateLikelihood (m.SampleTree s.world).2).2) ∧
      ((k : Int) % s₀.tree_sample_freq ≠ 0 →
        ∃ rest, s'.calls = s.calls ++
            (Call.SampleSubstitutionModel :: Call.updateLikelihood :: rest) ∧
          Call.SampleTree ∉ rest ∧ Call.CalculateLikelihood ∉ rest) := by
  obtain ⟨j, rfl⟩ : ∃ j, k = j + 1 := ⟨k - 1, by omega⟩
  obtain ⟨s, hs, hsi, hsf⟩ := sample_times_counter m s₀ hi hf j
  have h0 : 0 ≤ (j : Int) % s₀.tree_sample_freq := Int.emod_nonneg _ (by omega)
  have h1 : (j : Int) % s₀.tree_sample_freq < s₀.tree_sample_freq :=
    Int.emod_lt_of_pos _ (by omega)
  have hne : s.tree_sample_freq ≠ 0 := by omega
  have htest := tmod_eq_zero_iff_eq s.i s.tree_sample_freq (by omega) (by omega)
  have hcases := emod_succ_cases (j : Int) s₀.tree_sample_freq hf
  have hk0 : ((j + 1 : Nat) : Int) % s₀.tree_sample_freq = 0 ↔
      Int.tmod s.i s.tree_sample_freq = 0 := by
    rw [htest, Nat.cast_succ]
    constructor
    · intro h
      rcases hcases with ⟨h', _⟩ | ⟨_, h'⟩ <;> omega
    · intro h
      rcases hcases with ⟨_, h'⟩ | ⟨h', _⟩
      · exact h'
      · omega
  have hrun : ∀ s', sample m s = some s' → sample_times m (j + 1) s₀ = some s' := by
    intro s' h
    simp only [sample_times, hs, Option.some_bind, h]
  simp only [Nat.add_sub_cancel]
  by_cases ht : Int.tmod s.i s.tree_sample_freq = 0
  · have hk0' := hk0.mpr ht
    have hsome : sample m s = some { s with
        world := (m.CalculateLikelihood (m.SampleTree s.world).2).2,
        lnL := (m.CalculateLikelihood (m.SampleTree s.world).2).1, i := 0 + 1,
        calls := s.calls ++ [Call.SampleTree, Call.CalculateLikelihood] } := by
      simp only [sample, hne, ht, if_true, if_false]
    refine ⟨s, _, hs, hsome, hrun _ hsome, ?_, ?_, ?_⟩
    · exact ⟨fun _ => hk0', fun _ => rfl⟩
    · intro _
      exact ⟨rfl, rfl⟩
    · intro h
      exact absurd hk0' h
  · have hk0' : ¬ ((j + 1 : Nat) : Int) % s₀.tree_sample_freq = 0 := fun h => ht (hk0.mp h)
    have hshape : ∃ s' rest, sample m s = some s' ∧
        s'.calls = s.calls ++
          (Call.SampleSubstitutionModel :: Call.updateLikelihood :: rest) ∧
        Call.SampleTree ∉ rest ∧ Call.CalculateLikelihood ∉ rest := by
      simp only [sample, hne, ht, if_false]
      split_ifs
      · exact ⟨_, [Call.Random, Call.accept], rfl, rfl, by decide, by decide⟩
      · exact ⟨_, [Call.Random, Call.reject], rfl, rfl, by decide, by decide⟩
      · exact ⟨_, [Call.accept], rfl, rfl, by decide, by decide⟩
    obtain ⟨s', rest, hsome, hcalls, hnt, hnc⟩ := hshape
    refine ⟨s, s', hs, hsome, hrun _ hsome, ?_, ?_, ?_⟩
    · constructor
      · intro h
        rw [hcalls] at h
        have := List.append_cancel_left h
        simp at this
      · intro h
        exact absurd h hk0'
    · intro h
      exact absurd h hk0'
    · intro _
      exact ⟨rest, hcalls, hnt, hnc⟩

/-- Witness of C3 on the toy model: frequency `3`, sixth call. -/
theorem sample_tree_step_iff_witness :
    ∃ s s', sample_times toyModel (6 - 1) (MCMC.start 0 0 3) = some s ∧
      sample toyModel s = some s' ∧
      sample_times toyModel 6 (MCMC.start 0 0 3) = some s' ∧
      (s'.calls = s.calls ++ [Call.SampleTree, Call.CalculateLikelihood] ↔
        ((6 : Nat) : Int) % (MCMC.start (0 : Nat) 0 3).tree_sample_freq = 0) ∧
      (((6 : Nat) : Int) % (MCMC.start (0 : Nat) 0 3).tree_sample_freq = 0 →
        s'.lnL = (toyModel.CalculateLikelihood (toyModel.SampleTree s.world).2).1 ∧
        s'.world = (toyModel.CalculateLikelihood (toyModel.SampleTree s.world).2).2) ∧
      (((6 : Nat) : Int) % (MCMC.start (0 : Nat) 0 3).tree_sample_freq ≠ 0 →
        ∃ rest, s'.calls = s.calls ++
            (Call.SampleSubstitutionModel :: Call.updateLikelihood :: rest) ∧
          Call.SampleTree ∉ rest ∧ Call.CalculateLikelihood ∉ rest) :=
  sample_tree_step_iff toyModel (MCMC.start 0 0 3) rfl (by decide) 6 (by decide)

/-- Invariant of a run whose proposals are all Metropolis-flagged and leave the
likelihood where it is, the draws being in `(0, 1]`: every call returns, the likelihood
stays, no proposal is rejected, and every proposal is accepted. -/
theorem unchanged_likelihood_run {σ : Type} (m : Model σ) (s₀ : MCMC σ)
    (hi : s₀.i = 1) (hf : 1 ≤ s₀.tree_sample_freq)
    (hflag : ∀ w, (m.SampleSubstitutionModel w).1 = true)
    (hsame : ∀ w, (m.updateLikelihood w).1 = s₀.lnL)
    (hcalc : ∀ w, (m.CalculateLikelihood w).1 = s₀.lnL)
    (hdraw : ∀ w, 0 < (m.Random w).1 ∧ (m.Random w).1 ≤ 1)
    (hlog : ∀ u, 0 < u → u ≤ 1 → m.log u ≤ 0) (j : Nat) :
    ∃ s, sample_times m j s₀ = some s ∧ s.i = (j : Int) % s₀.tree_sample_freq + 1 ∧
      s.tree_sample_freq = s₀.tree_sample_freq ∧ s.lnL = s₀.lnL ∧
      s.calls.count Call.reject = s₀.calls.count Call.reject ∧
      s.calls.count Call.accept + s₀.calls.count Call.SampleSubstitutionModel =
        s₀.calls.count Call.accept + s.calls.count Call.SampleSubstitutionModel ∧
      ((j : Int) < s₀.tree_sample_freq →
        s.calls.count Call.accept = s₀.calls.count Call.accept + j) := by
  induction j with
  | zero =>
    refine ⟨s₀, rfl, ?_, rfl, rfl, rfl, ?_, ?_⟩
    · simp [hi]
    · omega
    · intro _
      simp
  | succ j ih =>
    obtain ⟨s, hs, hsi, hsf, hsl, hrej, hacc, hcnt⟩ := ih
    have h0 : 0 ≤ (j : Int) % s₀.tree_sample_freq := Int.emod_nonneg _ (by omega)
    have h1 : (j : Int) % s₀.tree_sample_freq < s₀.tree_sample_freq :=
      Int.emod_lt_of_pos _ (by omega)
    have hne : s.tree_sample_freq ≠ 0 := by omega
    have htest := tmod_eq_zero_iff_eq s.i s.tree_sample_freq (by omega) (by omega)
    have hcases := emod_succ_cases (j : Int) s₀.tree_sample_freq hf
    simp only [sample_times, hs, Option.some_bind]
    by_cases ht : Int.tmod s.i s.tree_sample_freq = 0
    · have heq := htest.mp ht
      have hwrap : ((j : Int) + 1) % s₀.tree_sample_freq = 0 := by
        rcases hcases with ⟨_, h⟩ | ⟨h, _⟩
        · exact h
        · omega
      refine ⟨_, by simp only [sample, hne, ht, if_true, if_false]; rfl, ?_, ?_, ?_, ?_, ?_, ?_⟩
      · simp only [Nat.cast_succ, hwrap]
      · exact hsf
      · exact hcalc _
      · simp only [List.count_append, hrej]
        rfl
      · simp only [List.count_append]
        have e1 : List.count Call.accept [Call.SampleTree, Call.CalculateLikelihood] = 0 := rfl
        have e2 : List.count Call.SampleSubstitutionModel
            [Call.SampleTree, Call.CalculateLikelihood] = 0 := rfl
        rw [e1, e2]
        omega
      · intro hlt
        exfalso
        have hj : (j : Int) % s₀.tree_sample_freq = j :=
          Int.emod_eq_of_lt (by omega) (by push_cast at hlt; omega)
        push_cast at hlt
        omega
    · have hstep : ((j : Int) + 1) % s₀.tree_sample_freq
          = (j : Int) % s₀.tree_sample_freq + 1 := by
        have hlt : s.i ≠ s.tree_sample_freq := fun h => ht (htest.mpr h)
        rcases hcases with ⟨h, _⟩ | ⟨_, h⟩
        · omega
        · exact h
      have hgo : m.log (m.Random (m.updateLikelihood (m.SampleSubstitutionModel s.world).2).2).1
          ≤ (m.updateLikelihood (m.SampleSubstitutionModel s.world).2).1 - s.lnL := by
        rw [hsame, hsl, sub_self]
        exact hlog _ (hdraw _).1 (hdraw _).2
      refine ⟨_, by simp only [sample, hne, ht, hflag, hgo, if_true, if_false]; rfl,
        ?_, ?_, ?_, ?_, ?_, ?_⟩
      · simp only [Nat.cast_succ, hstep, hsi]
      · exact hsf
      · exact hsame _
      · simp only [List.count_append, hrej]
        rfl
      · simp only [List.count_append]
        have e1 : List.count Call.accept [Call.SampleSubstitutionModel, Call.updateLikelihood,
            Call.Random, Call.accept] = 1 := rfl
        have e2 : List.count Call.SampleSubstitutionModel [Call.SampleSubstitutionModel,
            Call.updateLikelihood, Call.Random, Call.accept] = 1 := rfl
        rw [e1, e2]
        omega
      · intro hlt
        have hj : (j : Int) < s₀.tree_sample_freq := by push_cast at hlt; omega
        simp only [List.count_append, hcnt hj]
        have e1 : List.count Call.accept [Call.SampleSubstitutionModel, Call.updateLikelihood,
            Call.Random, Call.accept] = 1 := rfl
        rw [e1]
        omega

/-- Claim C21: when every proposal is Metropolis-flagged and leaves the likelihood where
it is, and every draw is in `(0, 1]` (where `log` is not positive), every call of
`sample` in a run returns, no proposal is rejected and every proposal is accepted: as
long as no tree step falls in the run, `j` calls give `j` acceptances. -/
theorem unchanged_likelihood_always_accepted {σ : Type} (m : Model σ) (s₀ : MCMC σ)
    (hi : s₀.i = 1) (hf : 1 ≤ s₀.tree_sample_freq)
    (hflag : ∀ w, (m.SampleSubstitutionModel w).1 = true)
    (hsame : ∀ w, (m.updateLikelihood w).1 = s₀.lnL)
    (hcalc : ∀ w, (m.CalculateLikelihood w).1 = s₀.lnL)
    (hdraw : ∀ w, 0 < (m.Random w).1 ∧ (m.Random w).1 ≤ 1)
    (hlog : ∀ u, 0 < u → u ≤ 1 → m.log u ≤ 0) (j : Nat) :
    ∃ s, sample_times m j s₀ = some s ∧
      s.calls.count Call.reject = s₀.calls.count Call.reject ∧
      s.calls.count Call.accept + s₀.calls.count Call.SampleSubstitutionModel =
        s₀.calls.count Call.accept + s.calls.count Call.SampleSubstitutionModel ∧
      ((j : Int) < s₀.tree_sample_freq →
        s.calls.count Call.accept = s₀.calls.count Call.accept + j) := by
  obtain ⟨s, hs, _, _, _, hrej, hacc, hcnt⟩ :=
    unchanged_likelihood_run m s₀ hi hf hflag hsame hcalc hdraw hlog j
  exact ⟨s, hs, hrej, hacc, hcnt⟩

/-- Witness of C21: 10 000 proposals on `steadyModel`, whose draw is always `1`, with the
tree step out of reach. -/
theorem unchanged_likelihood_always_accepted_witness :
    ∃ s, sample_times steadyModel 10000 (MCMC.start 0 0 10001) = some s ∧
      s.calls.count Call.reject = (MCMC.start (0 : Nat) 0 10001).calls.count Call.reject ∧
      s.calls.count Call.accept +
          (MCMC.start (0 : Nat) 0 10001).calls.count Call.SampleSubstitutionModel =
        (MCMC.start (0 : Nat) 0 10001).calls.count Call.accept +
          s.calls.count Call.SampleSubstitutionModel ∧
      (((10000 : Nat) : Int) < (MCMC.start (0 : Nat) 0 10001).tree_sample_freq →
        s.calls.count Call.accept =
          (MCMC.start (0 : Nat) 0 10001).calls.count Call.accept + 10000) :=
  unchanged_likelihood_always_accepted steadyModel (MCMC.start 0 0 10001) rfl
    (by simp [MCMC.start]) (fun _ => rfl) (fun _ => rfl) (fun _ => rfl)
    (fun _ => by norm_num [steadyModel])
    (fun u _ h1 => by simp only [steadyModel]; linarith) 10000

/-! ## Likelihood kernels -/

/-- C4: when `1 + u * t_b ≠ 0`, `calc_substitution_prob r t_b u` is the quotient
`(r * t_b) / (1 + u * t_b)`, that is, the number whose product with `1 + u * t_b` is
`r * t_b`. -/
theorem calc_substitution_prob_eq (r t_b u : ℚ) (h : 1 + u * t_b ≠ 0) :
    calc_substitution_prob r t_b u = (r * t_b) / (1 + u * t_b) ∧
      calc_substitution_prob r t_b u * (1 + u * t_b) = r * t_b := by
  refine ⟨rfl, ?_⟩
  unfold calc_substitution_prob
  field_simp

/-- Witness of C4 at `r = 1/10`, `t_b = 1`, `u = 1/5`. -/
theorem calc_substitution_prob_eq_witness :
    calc_substitution_prob (1 / 10) 1 (1 / 5) = ((1 / 10) * 1) / (1 + (1 / 5) * 1) ∧
      calc_substitution_prob (1 / 10) 1 (1 / 5) * (1 + (1 / 5) * 1) = (1 / 10) * 1 :=
  calc_substitution_prob_eq (1 / 10) 1 (1 / 5) (by norm_num)

/-- C5: when `1 + r * t_b ≠ 0` and `1 + u * t_b ≠ 0`, `calc_no_substitution_prob r t_b u`
is `p_virt * (r * t_b) * D + (1 - p_virt) * D` with `p_virt = 1 - 1 / (1 + r * t_b)` and
`D = 1 / (1 + u * t_b)`; cleared of denominators, its product with
`(1 + r * t_b) * (1 + u * t_b)` is `(r * t_b) ^ 2 + 1`. -/
theorem calc_no_substitution_prob_eq (r t_b u : ℚ) (hr : 1 + r * t_b ≠ 0)
    (hu : 1 + u * t_b ≠ 0) :
    calc_no_substitution_prob r t_b u =
        (1 - 1 / (1 + r * t_b)) * (r * t_b) * (1 / (1 + u * t_b))
          + (1 - (1 - 1 / (1 + r * t_b))) * (1 / (1 + u * t_b)) ∧
      calc_no_substitution_prob r t_b u * ((1 + r * t_b) * (1 + u * t_b))
        = (r * t_b) ^ 2 + 1 := by
  constructor
  · simp only [calc_no_substitution_prob]
    ring
  · simp only [calc_no_substitution_prob]
    field_simp
    ring

/-- Witness of C5 at `r = 1/10`, `t_b = 1`, `u = 1/5`. -/
theorem calc_no_substitution_prob_eq_witness :
    calc_no_substitution_prob (1 / 10) 1 (1 / 5) =
        (1 - 1 / (1 + (1 / 10) * 1)) * ((1 / 10) * 1) * (1 / (1 + (1 / 5) * 1))
          + (1 - (1 - 1 / (1 + (1 / 10) * 1))) * (1 / (1 + (1 / 5) * 1)) ∧
      calc_no_substitution_prob (1 / 10) 1 (1 / 5)
          * ((1 + (1 / 10) * 1) * (1 + (1 / 5) * 1))
        = ((1 / 10) * 1) ^ 2 + 1 :=
  calc_no_substitution_prob_eq (1 / 10) 1 (1 / 5) (by norm_num) (by norm_num)

/-- Sum of one row of the kernel: the diagonal entry plus the off-diagonal entries,
written with the total `S` of the off-diagonal rates. -/
theorem kernel_row_sum_split (rates : List ℚ) (i : Nat) (t u : ℚ) (hi : i < rates.length) :
    ∑ j in Finset.range rates.length, focal_domain_prob rates i j t u
      = calc_no_substitution_prob (rates.getD i 0) t u
        + (∑ j in (Finset.range rates.length).erase i, rates.getD j 0) * t / (1 + u * t) := by
  rw [← Finset.add_sum_erase (Finset.range rates.length) _ (Finset.mem_range.mpr hi)]
  congr 1
  · simp [focal_domain_prob]
  · rw [Finset.sum_mul, Finset.sum_div]
    refine Finset.sum_congr rfl ?_
    intro j hj
    have hne : i ≠ j := fun h => (Finset.mem_erase.mp hj).1 h.symm
    simp [focal_domain_prob, hne, calc_substitution_prob]

/-- The algebra behind the row sum: the diagonal kernel at the virtual rate `r` plus
the off-diagonal mass `(u - r) t / (1 + u t)`. -/
theorem kernel_row_algebra (r t u : ℚ) (hr : 1 + r * t ≠ 0) (hu : 1 + u * t ≠ 0) :
    calc_no_substitution_prob r t u + (u - r) * t / (1 + u * t)
      = 1 - 2 * (r * t) / ((1 + r * t) * (1 + u * t)) := by
  simp only [calc_no_substitution_prob]
  field_simp
  ring

/-- C6 (as amended): under the hypotheses of the claim, the row of the kernel for the
ancestral state `i` sums to `1 - 2 r t / ((1 + r t) (1 + u t))` where `r` is the virtual
rate; the sum is `1` exactly when `r * t = 0`. -/
theorem kernel_row_sum (rates : List ℚ) (i : Nat) (t u : ℚ) (hi : i < rates.length)
    (hoff : ∀ j, j < rates.length → j ≠ i → 0 ≤ rates.getD j 0)
    (hvirt : rates.getD i 0
      = u - ∑ j in (Finset.range rates.length).erase i, rates.getD j 0)
    (h0 : 0 ≤ rates.getD i 0) (_h1 : rates.getD i 0 ≤ 1) (ht : 0 ≤ t)
    (_hut : u * t < 1000000) :
    ∑ j in Finset.range rates.length, focal_domain_prob rates i j t u
        = 1 - 2 * (rates.getD i 0 * t) / ((1 + rates.getD i 0 * t) * (1 + u * t)) ∧
      (∑ j in Finset.range rates.length, focal_domain_prob rates i j t u = 1 ↔
        rates.getD i 0 * t = 0) := by
  have hS : 0 ≤ ∑ j in (Finset.range rates.length).erase i, rates.getD j 0 := by
    refine Finset.sum_nonneg ?_
    intro j hj
    exact hoff j (Finset.mem_range.mp (Finset.mem_erase.mp hj).2) (Finset.mem_erase.mp hj).1
  have hu : 0 ≤ u := by linarith
  have hrt : 0 ≤ rates.getD i 0 * t := mul_nonneg h0 ht
  have hden₁ : 0 < 1 + rates.getD i 0 * t := by linarith
  have hden₂ : 0 < 1 + u * t := by nlinarith [mul_nonneg hu ht]
  have hsum : ∑ j in Finset.range rates.length, focal_domain_prob rates i j t u
      = 1 - 2 * (rates.getD i 0 * t) / ((1 + rates.getD i 0 * t) * (1 + u * t)) := by
    rw [kernel_row_sum_split rates i t u hi]
    have hSeq : ∑ j in (Finset.range rates.length).erase i, rates.getD j 0
        = u - rates.getD i 0 := by linarith
    rw [hSeq]
    exact kernel_row_algebra _ t u (ne_of_gt hden₁) (ne_of_gt hden₂)
  refine ⟨hsum, ?_⟩
  rw [hsum]
  constructor
  · intro h
    have hz : 2 * (rates.getD i 0 * t) / ((1 + rates.getD i 0 * t) * (1 + u * t)) = 0 := by
      linarith
    rcases div_eq_zero_iff.mp hz with h' | h'
    · linarith
    · exact absurd h' (ne_of_gt (mul_pos hden₁ hden₂))
  · intro h
    rw [h]
    simp

/-- Witness of the amended C6: two states, rates `(1/10, 1/10)`, `u = 1/5`, `t = 1`. -/
theorem kernel_row_sum_witness :
    ∑ j in Finset.range [(1 : ℚ) / 10, 1 / 10].length,
          focal_domain_prob [(1 : ℚ) / 10, 1 / 10] 0 j 1 (1 / 5)
        = 1 - 2 * ([(1 : ℚ) / 10, 1 / 10].getD 0 0 * 1)
            / ((1 + [(1 : ℚ) / 10, 1 / 10].getD 0 0 * 1) * (1 + (1 / 5) * 1)) ∧
      (∑ j in Finset.range [(1 : ℚ) / 10, 1 / 10].length,
          focal_domain_prob [(1 : ℚ) / 10, 1 / 10] 0 j 1 (1 / 5) = 1 ↔
        [(1 : ℚ) / 10, 1 / 10].getD 0 0 * 1 = 0) :=
  kernel_row_sum [(1 : ℚ) / 10, 1 / 10] 0 1 (1 / 5) (by decide)
    (by
      intro j hj hne
      have hj' : j < 2 := hj
      interval_cases j
      · exact absurd rfl hne
      · norm_num)
    (by simp [Finset.sum_erase_eq_sub, Finset.sum_range_succ]; norm_num)
    (by norm_num) (by norm_num) (by norm_num) (by norm_num)

/-- Counterexample to C6 as stated: with two states, off-diagonal rate `1/10`, virtual
rate `1/10 = u - 1/10` in `[0,1]`, `t = 1 ≥ 0` and `u * t = 1/5 < 1e6`, the row of the
kernel sums to `28/33`, not to `1`. -/
theorem kernel_row_sum_ne_one :
    (0 : ℚ) ≤ [(1 : ℚ) / 10, 1 / 10].getD 1 0 ∧
      [(1 : ℚ) / 10, 1 / 10].getD 0 0 = 1 / 5 - [(1 : ℚ) / 10, 1 / 10].getD 1 0 ∧
      (0 : ℚ) ≤ [(1 : ℚ) / 10, 1 / 10].getD 0 0 ∧ [(1 : ℚ) / 10, 1 / 10].getD 0 0 ≤ 1 ∧
      (0 : ℚ) ≤ 1 ∧ (1 / 5 : ℚ) * 1 < 1000000 ∧
      calc_substitution_prob ([(1 : ℚ) / 10, 1 / 10].getD 1 0) 1 (1 / 5)
        + calc_no_substitution_prob ([(1 : ℚ) / 10, 1 / 10].getD 0 0) 1 (1 / 5) = 28 / 33 ∧
      ∑ j in Finset.range 2, focal_domain_prob [(1 : ℚ) / 10, 1 / 10] 0 j 1 (1 / 5) ≠ 1 := by
  refine ⟨by norm_num, by norm_num, by norm_num, by norm_num, by norm_num, by norm_num,
    ?_, ?_⟩
  · norm_num [calc_substitution_prob, calc_no_substitution_prob]
  · simp only [Finset.sum_range_succ, Finset.sum_range_zero, focal_domain_prob]
    norm_num [calc_substitution_prob, calc_no_substitution_prob]

/-! ## Normalisation of a marginal distribution -/

/-- The accumulation loop `for i < n: total += f i` is the finite sum. -/
theorem foldl_add_eq_sum (f : Nat → ℚ) (n : Nat) :
    (List.range n).foldl (fun acc i => acc + f i) 0 = ∑ i in Finset.range n, f i := by
  induction n with
  | zero => simp
  | succ n ih => rw [List.range_succ, List.foldl_append, ih, Finset.sum_range_succ]; rfl

/-- Reading the matrix after one assignment. -/
theorem set_marginal_marginal (sa : SequenceAlignment) (name : String) (pos i : Nat) (v : ℚ) :
    (sa.set_marginal name pos i v).marginal_state_distribution
      = fun nm p j =>
          if nm = name ∧ p = pos ∧ j = i then v else sa.marginal_state_distribution nm p j :=
  rfl

/-- The division loop of `normalize_state_probs` after `k` rounds: the first `k`
entries of the row of `name` at `pos` are divided by `total`, nothing else changes. -/
theorem normalize_loop_marginal (sa : SequenceAlignment) (name : String) (pos : Nat)
    (total : ℚ) (k : Nat) :
    ((List.range k).foldl
        (fun sa' i => sa'.set_marginal name pos i
          (sa'.marginal_state_distribution name pos i / total)) sa).marginal_state_distribution
      = fun nm p j =>
          if nm = name ∧ p = pos ∧ j < k then sa.marginal_state_distribution nm p j / total
          else sa.marginal_state_distribution nm p j := by
  induction k with
  | zero => simp
  | succ k ih =>
    rw [List.range_succ, List.foldl_append]
    simp only [List.foldl_cons, List.foldl_nil]
    rw [set_marginal_marginal, ih]
    funext nm p j
    by_cases h : nm = name ∧ p = pos
    · obtain ⟨rfl, rfl⟩ := h
      by_cases hj : j = k
      · subst hj
        simp
      · by_cases hlt : j < k
        · have : j < k + 1 := by omega
          simp [hj, hlt, this]
        · have : ¬ j < k + 1 := by omega
          simp [hj, hlt, this]
    · have h1 : ¬ (nm = name ∧ p = pos ∧ j = k) := fun h' => h ⟨h'.1, h'.2.1⟩
      have h2 : ¬ (nm = name ∧ p = pos ∧ j < k) := fun h' => h ⟨h'.1, h'.2.1⟩
      have h3 : ¬ (nm = name ∧ p = pos ∧ j < k + 1) := fun h' => h ⟨h'.1, h'.2.1⟩
      simp only [h1, h2, h3, if_false]

/-- The row written by `normalize_state_probs`: each of the `n_states` entries is divided
by the total when the total is not zero, and kept otherwise. -/
theorem normalize_state_probs_entry (sa : SequenceAlignment) (node : TreeNode) (pos i : Nat)
    (hi : i < sa.n_states) :
    (normalize_state_probs sa node pos).marginal_state_distribution node.name pos i
      = if ∑ j in Finset.range sa.n_states, sa.marginal_state_distribution node.name pos j ≠ 0
        then sa.marginal_state_distribution node.name pos i
          / ∑ j in Finset.range sa.n_states, sa.marginal_state_distribution node.name pos j
        else sa.marginal_state_distribution node.name pos i := by
  unfold normalize_state_probs
  simp only [foldl_add_eq_sum]
  split_ifs with h
  · rw [normalize_loop_marginal]
    simp [hi]
  · rfl

/-- The number of states is not changed by `normalize_state_probs`. -/
theorem normalize_state_probs_n_states (sa : SequenceAlignment) (node : TreeNode) (pos : Nat) :
    (normalize_state_probs sa node pos).n_states = sa.n_states := by
  have hloop : ∀ (total : ℚ) (k : Nat),
      ((List.range k).foldl
        (fun sa' i => sa'.set_marginal node.name pos i
          (sa'.marginal_state_distribution node.name pos i / total)) sa).n_states
        = sa.n_states := by
    intro total k
    induction k with
    | zero => rfl
    | succ k ih =>
      rw [List.range_succ, List.foldl_append]
      simpa [SequenceAlignment.set_marginal] using ih
  simp only [normalize_state_probs]
  split_ifs
  · exact hloop _ _
  · rfl

/-- A sum of non-negative entries that is zero has only zero entries. -/
theorem entries_zero_of_sum_zero (f : Nat → ℚ) (n : Nat) (hf : ∀ i, i < n → 0 ≤ f i)
    (h : ∑ i in Finset.range n, f i = 0) (i : Nat) (hi : i < n) : f i = 0 := by
  have := (Finset.sum_eq_zero_iff_of_nonneg (fun j hj => hf j (Finset.mem_range.mp hj))).mp h
  exact this i (Finset.mem_range.mpr hi)

/-- In the exact arithmetic: when the entries of the marginal at a node and position are
non-negative, after `normalize_state_probs` they sum to exactly `1` if their sum was not
zero; if their sum was zero the alignment is unchanged, every entry is zero and the sum
is zero. -/
theorem normalize_state_probs_sum (sa : SequenceAlignment) (node : TreeNode) (pos : Nat)
    (hnn : ∀ i, i < sa.n_states → 0 ≤ sa.marginal_state_distribution node.name pos i) :
    (∑ i in Finset.range sa.n_states, sa.marginal_state_distribution node.name pos i ≠ 0 →
      ∑ i in Finset.range sa.n_states,
        (normalize_state_probs sa node pos).marginal_state_distribution node.name pos i = 1) ∧
    (∑ i in Finset.range sa.n_states, sa.marginal_state_distribution node.name pos i = 0 →
      normalize_state_probs sa node pos = sa ∧
      (∀ i, i < sa.n_states →
        (normalize_state_probs sa node pos).marginal_state_distribution node.name pos i = 0) ∧
      ∑ i in Finset.range sa.n_states,
        (normalize_state_probs sa node pos).marginal_state_distribution node.name pos i = 0) := by
  constructor
  · intro h
    have hrow : ∀ i ∈ Finset.range sa.n_states,
        (normalize_state_probs sa node pos).marginal_state_distribution node.name pos i
          = sa.marginal_state_distribution node.name pos i
            / ∑ j in Finset.range sa.n_states,
                sa.marginal_state_distribution node.name pos j := by
      intro i hi
      rw [normalize_state_probs_entry sa node pos i (Finset.mem_range.mp hi), if_pos h]
    rw [Finset.sum_congr rfl hrow, ← Finset.sum_div]
    exact div_self h
  · intro h
    have hsame : normalize_state_probs sa node pos = sa := by
      unfold normalize_state_probs
      simp only [foldl_add_eq_sum, h, ne_eq, not_true_eq_false, if_false]
    rw [hsame]
    exact ⟨rfl, fun i hi => entries_zero_of_sum_zero _ _ hnn h i hi, h⟩

/-- The exact normalisation on the toy alignment, whose row `(1/4, 1/4)` is
non-negative. -/
theorem normalize_state_probs_sum_witness :
    (∑ i in Finset.range toyAlignment.n_states,
        toyAlignment.marginal_state_distribution "n" 0 i ≠ 0 →
      ∑ i in Finset.range toyAlignment.n_states,
        (normalize_state_probs toyAlignment
          { name := "n", up := none, left := none, right := none }
          0).marginal_state_distribution "n" 0 i = 1) ∧
    (∑ i in Finset.range toyAlignment.n_states,
        toyAlignment.marginal_state_distribution "n" 0 i = 0 →
      normalize_state_probs toyAlignment
          { name := "n", up := none, left := none, right := none } 0 = toyAlignment ∧
      (∀ i, i < toyAlignment.n_states →
        (normalize_state_probs toyAlignment
          { name := "n", up := none, left := none, right := none }
          0).marginal_state_distribution "n" 0 i = 0) ∧
      ∑ i in Finset.range toyAlignment.n_states,
        (normalize_state_probs toyAlignment
          { name := "n", up := none, left := none, right := none }
          0).marginal_state_distribution "n" 0 i = 0) :=
  normalize_state_probs_sum toyAlignment
    { name := "n", up := none, left := none, right := none } 0
    (by intro i _; norm_num [toyAlignment])

/-- C8: when the entries of the marginal at a node and position are non-negative, after
`normalize_state_probs` every entry at that node and position lies in `[0, 1]`. -/
theorem normalize_state_probs_unit_interval (sa : SequenceAlignment) (node : TreeNode)
    (pos : Nat)
    (hnn : ∀ i, i < sa.n_states → 0 ≤ sa.marginal_state_distribution node.name pos i)
    (s : Nat) (hs : s < sa.n_states) :
    0 ≤ (normalize_state_probs sa node pos).marginal_state_distribution node.name pos s ∧
      (normalize_state_probs sa node pos).marginal_state_distribution node.name pos s ≤ 1 := by
  rw [normalize_state_probs_entry sa node pos s hs]
  have htot : 0 ≤ ∑ j in Finset.range sa.n_states,
      sa.marginal_state_distribution node.name pos j :=
    Finset.sum_nonneg (fun j hj => hnn j (Finset.mem_range.mp hj))
  have hle : sa.marginal_state_distribution node.name pos s
      ≤ ∑ j in Finset.range sa.n_states, sa.marginal_state_distribution node.name pos j :=
    Finset.single_le_sum (f := fun j => sa.marginal_state_distribution node.name pos j)
      (fun j hj => hnn j (Finset.mem_range.mp hj)) (Finset.mem_range.mpr hs)
  split_ifs with h
  · have hpos : 0 < ∑ j in Finset.range sa.n_states,
        sa.marginal_state_distribution node.name pos j := lt_of_le_of_ne htot (Ne.symm h)
    exact ⟨div_nonneg (hnn s hs) htot, (div_le_one hpos).mpr hle⟩
  · have hz : ∑ j in Finset.range sa.n_states,
        sa.marginal_state_distribution node.name pos j = 0 := not_not.mp h
    rw [entries_zero_of_sum_zero _ _ hnn hz s hs]
    exact ⟨le_refl 0, zero_le_one⟩

/-- Witness of C8 on the toy alignment at state `1`. -/
theorem normalize_state_probs_unit_interval_witness :
    0 ≤ (normalize_state_probs toyAlignment
          { name := "n", up := none, left := none, right := none }
          0).marginal_state_distribution "n" 0 1 ∧
      (normalize_state_probs toyAlignment
          { name := "n", up := none, left := none, right := none }
          0).marginal_state_distribution "n" 0 1 ≤ 1 :=
  normalize_state_probs_unit_interval toyAlignment
    { name := "n", up := none, left := none, right := none } 0
    (by intro i _; norm_num [toyAlignment]) 1 (by decide)

/-! ## Gap propagation -/

/-- One more round of a `for` loop. -/
theorem for_range_succ {S : Type} (n : Nat) (body : Nat → S → Option S) (s : S) :
    for_range (n + 1) body s = (for_range n body s).bind (body n) := by
  simp only [for_range, List.range_succ, List.foldlM_append]
  cases h : List.foldlM (fun s' i => body i s') s (List.range n) with
  | none => rfl
  | some s' => simp [List.foldlM]

/-- A loop that, in round `pos`, assigns the value `v pos` to position `pos` of the gap
mask of `name`, run for `k` rounds: everything but the gap mask of `name` is as before,
the mask has its length and its positions from `k` on, and the value `v j` at every
position `j < k`. -/
theorem gap_loop (sa₀ : SequenceAlignment) (name : String) (N : Nat)
    (body : Nat → SequenceAlignment → Option SequenceAlignment) (v : Nat → Bool)
    (hbody : ∀ sa' pos, pos < N →
      (∀ nm, nm ≠ name → sa'.taxa_names_to_gaps nm = sa₀.taxa_names_to_gaps nm) →
      body pos sa' = sa'.set_gap name pos (v pos))
    (hN : N ≤ (sa₀.taxa_names_to_gaps name).length) (k : Nat) (hk : k ≤ N) :
    ∃ sa', for_range k body sa₀ = some sa' ∧
      sa' = sa₀.with_gaps sa'.taxa_names_to_gaps ∧
      (∀ nm, nm ≠ name → sa'.taxa_names_to_gaps nm = sa₀.taxa_names_to_gaps nm) ∧
      (sa'.taxa_names_to_gaps name).length = (sa₀.taxa_names_to_gaps name).length ∧
      (∀ j, j < k → (sa'.taxa_names_to_gaps name)[j]? = some (v j)) ∧
      (∀ j, k ≤ j → (sa'.taxa_names_to_gaps name)[j]? = (sa₀.taxa_names_to_gaps name)[j]?) := by
  induction k with
  | zero =>
    exact ⟨sa₀, rfl, rfl, fun _ _ => rfl, rfl, fun j hj => absurd hj (Nat.not_lt_zero j),
      fun _ _ => rfl⟩
  | succ k ih =>
    obtain ⟨sa', hrun, hrest, hother, hlen, hlow, hhigh⟩ := ih (by omega)
    have hklt : k < (sa'.taxa_names_to_gaps name).length := by omega
    rw [for_range_succ, hrun, Option.some_bind, hbody sa' k (by omega) hother]
    simp only [SequenceAlignment.set_gap, hklt, if_true]
    refine ⟨_, rfl, ?_, ?_, ?_, ?_, ?_⟩
    · rw [hrest]
      rfl
    · intro nm hnm
      simp only [SequenceAlignment.with_gaps, hnm, if_false]
      exact hother nm hnm
    · simp only [SequenceAlignment.with_gaps, if_true, List.length_set]
      exact hlen
    · intro j hj
      simp only [SequenceAlignment.with_gaps, if_true, List.getElem?_set]
      by_cases hjk : k = j
      · subst hjk
        simp [hklt]
      · simp only [hjk, if_false]
        exact hlow j (by omega)
    · intro j hj
      simp only [SequenceAlignment.with_gaps, if_true, List.getElem?_set]
      have hjk : k ≠ j := by omega
      simp only [hjk, if_false]
      exact hhigh j (by omega)

/-- Reading a mask of known length inside its bounds. -/
theorem getElem?_eq_some_getD (l : List Bool) (pos : Nat) (h : pos < l.length) :
    l[pos]? = some (l.getD pos false) := by
  simp [List.getD, List.getElem?_eq_getElem h]

/-- One round of the gap-setting loop on an internal node with a left child whose
children are other nodes: it returns, touches only the mask of the node, and gives it
at every position the flag computed from the children. -/
theorem set_gaps_for_node_internal (sa : SequenceAlignment) (n : TreeNode) (N : Nat)
    (l : BranchSegment) (hl : n.left = some l)
    (hsz : ∀ nm, nm = n.name ∨ nm ∈ n.children → sa.sequence_size nm = some N)
    (hlen : ∀ nm, nm = n.name ∨ nm ∈ n.children → (sa.taxa_names_to_gaps nm).length = N)
    (hne : ∀ c ∈ n.children, c ≠ n.name) :
    ∃ sa', set_gaps_for_node sa n = some sa' ∧
      sa' = sa.with_gaps sa'.taxa_names_to_gaps ∧
      (∀ nm, nm ≠ n.name → sa'.taxa_names_to_gaps nm = sa.taxa_names_to_gaps nm) ∧
      (sa'.taxa_names_to_gaps n.name).length = N ∧
      (∀ j, j < N → (sa'.taxa_names_to_gaps n.name)[j]?
        = some (gap_from_children sa.taxa_names_to_gaps n j)) := by
  have hlc : l.decendant ∈ n.children := by simp [TreeNode.children, hl]
  have hfin : ∀ (body : Nat → SequenceAlignment → Option SequenceAlignment),
      (∀ sa' pos, pos < N →
        (∀ nm, nm ≠ n.name → sa'.taxa_names_to_gaps nm = sa.taxa_names_to_gaps nm) →
        body pos sa' = sa'.set_gap n.name pos (gap_from_children sa.taxa_names_to_gaps n pos)) →
      ∃ sa', for_range N body sa = some sa' ∧
        sa' = sa.with_gaps sa'.taxa_names_to_gaps ∧
        (∀ nm, nm ≠ n.name → sa'.taxa_names_to_gaps nm = sa.taxa_names_to_gaps nm) ∧
        (sa'.taxa_names_to_gaps n.name).length = N ∧
        (∀ j, j < N → (sa'.taxa_names_to_gaps n.name)[j]?
          = some (gap_from_children sa.taxa_names_to_gaps n j)) := by
    intro body hbody
    obtain ⟨sa', h1, h2, h3, h4, h5, _⟩ :=
      gap_loop sa n.name N body _ hbody (le_of_eq (hlen n.name (Or.inl rfl)).symm) N (le_refl N)
    exact ⟨sa', h1, h2, h3, h4.trans (hlen n.name (Or.inl rfl)), h5⟩
  have hread : ∀ (sa' : SequenceAlignment) (c : String) (pos : Nat), c ∈ n.children →
      pos < N →
      (∀ nm, nm ≠ n.name → sa'.taxa_names_to_gaps nm = sa.taxa_names_to_gaps nm) →
      sa'.gap_at c pos = some ((sa.taxa_names_to_gaps c).getD pos false) := by
    intro sa' c pos hc hpos hother
    rw [SequenceAlignment.gap_at, hother c (hne c hc)]
    exact getElem?_eq_some_getD _ _ (by rw [hlen c (Or.inr hc)]; exact hpos)
  cases hr : n.right with
  | none =>
    have htip : n.isTip = false := by simp [TreeNode.isTip, hl]
    have hcond : n.left ≠ none ∧ n.right = none := ⟨by simp [hl], hr⟩
    simp only [set_gaps_for_node, htip, hcond, if_true, hl, Bool.false_eq_true, if_false,
      Option.bind_eq_bind, Option.some_bind, hsz l.decendant (Or.inr hlc), and_self]
    apply hfin
    intro sa' pos hpos hother
    rw [hread sa' l.decendant pos hlc hpos hother]
    simp [gap_from_children, hl, hr]
  | some r =>
    have hrc : r.decendant ∈ n.children := by simp [TreeNode.children, hr]
    have htip : n.isTip = false := by simp [TreeNode.isTip, hl]
    have hcond : ¬ (n.left ≠ none ∧ n.right = none) := by simp [hr]
    simp only [set_gaps_for_node, htip, hcond, if_false, Bool.false_eq_true,
      Option.bind_eq_bind, Option.some_bind, hsz n.name (Or.inl rfl)]
    apply hfin
    intro sa' pos hpos hother
    have hval : gap_from_children sa.taxa_names_to_gaps n pos
        = ((sa.taxa_names_to_gaps l.decendant).getD pos false
          && (sa.taxa_names_to_gaps r.decendant).getD pos false) := by
      simp only [gap_from_children, hl, hr]
    rw [hl, Option.some_bind, hread sa' l.decendant pos hlc hpos hother, Option.some_bind, hr,
      hval]
    simp only [hread sa' r.decendant pos hrc hpos hother, Option.some_bind]
    cases (sa.taxa_names_to_gaps l.decendant).getD pos false <;> simp

/-- In a post-ordered list no node bears a name seen before the list. -/
theorem post_order_from_name_not_seen (L : List TreeNode) :
    ∀ seen, post_order_from seen L = true → ∀ m ∈ L, m.name ∉ seen := by
  induction L with
  | nil => intro _ _ m hm; cases hm
  | cons n rest ih =>
    intro seen h m hm
    simp only [post_order_from, Bool.and_eq_true, Bool.not_eq_true', decide_eq_false_iff_not]
      at h
    rcases List.mem_cons.mp hm with rfl | hm'
    · exact h.1.2
    · intro hin
      exact ih _ h.2 m hm' (List.mem_cons_of_mem _ hin)

/-- In a post-ordered list the children of a node are seen before the list or are
names of the list. -/
theorem post_order_from_children (L : List TreeNode) :
    ∀ seen, post_order_from seen L = true →
      ∀ m ∈ L, ∀ c ∈ m.children, c ∈ seen ∨ c ∈ L.map (fun x => x.name) := by
  induction L with
  | nil => intro _ _ m hm; cases hm
  | cons n rest ih =>
    intro seen h m hm c hc
    simp only [post_order_from, Bool.and_eq_true, Bool.not_eq_true', decide_eq_false_iff_not,
      List.all_eq_true, decide_eq_true_eq] at h
    rcases List.mem_cons.mp hm with rfl | hm'
    · exact Or.inl (h.1.1 c hc)
    · rcases ih _ h.2 m hm' c hc with h' | h'
      · rcases List.mem_cons.mp h' with rfl | h''
        · exact Or.inr (by simp)
        · exact Or.inl h''
      · exact Or.inr (by simp only [List.map_cons]; exact List.mem_cons_of_mem _ h')

/-- The flag computed from the children of an internal node depends on the masks of the
children only. -/
theorem gap_from_children_congr (g g' : String → List Bool) (n : TreeNode) (pos : Nat)
    (htip : n.isTip = false) (h : ∀ c ∈ n.children, g c = g' c) :
    gap_from_children g n pos = gap_from_children g' n pos := by
  cases hl : n.left with
  | none =>
    cases hr : n.right with
    | none => simp [TreeNode.isTip, hl, hr] at htip
    | some r =>
      have := h r.decendant (by simp [TreeNode.children, hr])
      simp only [gap_from_children, hl, hr, this]
  | some l =>
    have h1 := h l.decendant (by simp [TreeNode.children, hl])
    cases hr : n.right with
    | none => simp only [gap_from_children, hl, hr, h1]
    | some r =>
      have h2 := h r.decendant (by simp [TreeNode.children, hr])
      simp only [gap_from_children, hl, hr, h1, h2]

/-- The gap-setting loop over a post-ordered list whose internal nodes have a left
child: it returns; masks of names outside the list and of tips are as before; the mask
of every internal node holds, at each position, the flag computed from the final masks
of its children. -/
theorem set_gaps_loop (N : Nat) (L : List TreeNode) :
    ∀ (seen : List String) (sa : SequenceAlignment), post_order_from seen L = true →
      (∀ n ∈ L, n.left = none → n.right = none) →
      (∀ nm, nm ∈ seen ∨ nm ∈ L.map (fun x => x.name) → sa.sequence_size nm = some N) →
      (∀ nm, nm ∈ seen ∨ nm ∈ L.map (fun x => x.name) →
        (sa.taxa_names_to_gaps nm).length = N) →
      ∃ sa', L.foldlM set_gaps_for_node sa = some sa' ∧
        sa' = sa.with_gaps sa'.taxa_names_to_gaps ∧
        (∀ nm, nm ∉ L.map (fun x => x.name) →
          sa'.taxa_names_to_gaps nm = sa.taxa_names_to_gaps nm) ∧
        (∀ nm, nm ∈ seen ∨ nm ∈ L.map (fun x => x.name) →
          (sa'.taxa_names_to_gaps nm).length = N) ∧
        (∀ n ∈ L, n.isTip = true →
          sa'.taxa_names_to_gaps n.name = sa.taxa_names_to_gaps n.name) ∧
        (∀ n ∈ L, n.isTip = false → ∀ j, j < N →
          (sa'.taxa_names_to_gaps n.name)[j]?
            = some (gap_from_children sa'.taxa_names_to_gaps n j)) := by
  induction L with
  | nil =>
    intro seen sa _ _ _ hlen
    refine ⟨sa, rfl, rfl, fun _ _ => rfl, ?_, ?_, ?_⟩
    · intro nm hnm
      exact hlen nm hnm
    · intro n hn
      cases hn
    · intro n hn
      cases hn
  | cons n rest ih =>
    intro seen sa hpo hleft hsz hlen
    have hpo' := hpo
    simp only [post_order_from, Bool.and_eq_true, Bool.not_eq_true', decide_eq_false_iff_not,
      List.all_eq_true, decide_eq_true_eq] at hpo'
    obtain ⟨⟨hchild, hns⟩, hrest⟩ := hpo'
    have hne : ∀ c ∈ n.children, c ≠ n.name := fun c hc h => hns (h ▸ hchild c hc)
    have hfresh := post_order_from_name_not_seen rest _ hrest
    have hnrest : n.name ∉ rest.map (fun x => x.name) := by
      intro h
      obtain ⟨m, hm, hmn⟩ := List.mem_map.mp h
      exact hfresh m hm (by rw [hmn]; exact List.mem_cons_self _ _)
    have hcrest : ∀ c ∈ n.children, c ∉ rest.map (fun x => x.name) := by
      intro c hc h
      obtain ⟨m, hm, hmn⟩ := List.mem_map.mp h
      exact hfresh m hm (by rw [hmn]; exact List.mem_cons_of_mem _ (hchild c hc))
    -- the round on `n`
    have hstep : ∃ sa₁, set_gaps_for_node sa n = some sa₁ ∧
        sa₁ = sa.with_gaps sa₁.taxa_names_to_gaps ∧
        (∀ nm, nm ≠ n.name → sa₁.taxa_names_to_gaps nm = sa.taxa_names_to_gaps nm) ∧
        (sa₁.taxa_names_to_gaps n.name).length = N ∧
        (n.isTip = true → sa₁.taxa_names_to_gaps n.name = sa.taxa_names_to_gaps n.name) ∧
        (n.isTip = false → ∀ j, j < N → (sa₁.taxa_names_to_gaps n.name)[j]?
          = some (gap_from_children sa.taxa_names_to_gaps n j)) := by
      cases htip : n.isTip with
      | true =>
        refine ⟨sa, by simp [set_gaps_for_node, htip], rfl, fun _ _ => rfl, ?_, fun _ => rfl,
          fun h => by cases h⟩
        exact hlen n.name (Or.inr (by simp))
      | false =>
        have hl : ∃ l, n.left = some l := by
          cases hl : n.left with
          | none =>
            have hr := hleft n (List.mem_cons_self _ _) hl
            simp [TreeNode.isTip, hl, hr] at htip
          | some l => exact ⟨l, rfl⟩
        obtain ⟨l, hl⟩ := hl
        obtain ⟨sa₁, h1, h2, h3, h4, h5⟩ := set_gaps_for_node_internal sa n N l hl
          (by
            intro nm hnm
            rcases hnm with rfl | hc
            · exact hsz _ (Or.inr (by simp))
            · exact hsz _ (Or.inl (hchild nm hc)))
          (by
            intro nm hnm
            rcases hnm with rfl | hc
            · exact hlen _ (Or.inr (by simp))
            · exact hlen _ (Or.inl (hchild nm hc)))
          hne
        exact ⟨sa₁, h1, h2, h3, h4, fun h => Bool.noConfusion h, fun _ => h5⟩
    obtain ⟨sa₁, hrun₁, hrest₁, hother₁, hlen₁, htip₁, hval₁⟩ := hstep
    have hseq₁ : ∀ nm, sa₁.sequence_size nm = sa.sequence_size nm := by
      intro nm
      rw [hrest₁]
      rfl
    have hmem : ∀ nm, nm ∈ n.name :: seen ∨ nm ∈ rest.map (fun x => x.name) →
        nm ∈ seen ∨ nm ∈ (n :: rest).map (fun x => x.name) := by
      intro nm hnm
      rcases hnm with h | h
      · rcases List.mem_cons.mp h with rfl | h'
        · exact Or.inr (by simp)
        · exact Or.inl h'
      · exact Or.inr (by simp only [List.map_cons]; exact List.mem_cons_of_mem _ h)
    obtain ⟨sa', hrun, hrest', hother, hlen', htips, hvals⟩ := ih (n.name :: seen) sa₁ hrest
      (fun m hm => hleft m (List.mem_cons_of_mem _ hm))
      (by
        intro nm hnm
        rw [hseq₁]
        exact hsz nm (hmem nm hnm))
      (by
        intro nm hnm
        by_cases hnn : nm = n.name
        · rw [hnn]
          exact hlen₁
        · rw [hother₁ nm hnn]
          exact hlen nm (hmem nm hnm))
    refine ⟨sa', ?_, ?_, ?_, ?_, ?_, ?_⟩
    · rw [List.foldlM_cons, hrun₁]
      exact hrun
    · rw [hrest', hrest₁]
      rfl
    · intro nm hnm
      have h1 : nm ≠ n.name := fun h => hnm (by simp [h])
      have h2 : nm ∉ rest.map (fun x => x.name) := fun h =>
        hnm (by simp only [List.map_cons]; exact List.mem_cons_of_mem _ h)
      rw [hother nm h2, hother₁ nm h1]
    · intro nm hnm
      rcases hnm with h | h
      · exact hlen' nm (Or.inl (List.mem_cons_of_mem _ h))
      · simp only [List.map_cons] at h
        rcases List.mem_cons.mp h with rfl | h'
        · exact hlen' _ (Or.inl (List.mem_cons_self _ _))
        · exact hlen' nm (Or.inr h')
    · intro m hm hmtip
      rcases List.mem_cons.mp hm with rfl | hm'
      · rw [hother _ hnrest]
        exact htip₁ hmtip
      · rw [htips m hm' hmtip]
        exact hother₁ _ (fun h => hfresh m hm' (by rw [h]; exact List.mem_cons_self _ _))
    · intro m hm hmtip j hj
      rcases List.mem_cons.mp hm with rfl | hm'
      · rw [hother _ hnrest, hval₁ hmtip j hj]
        congr 1
        apply gap_from_children_congr _ _ _ _ hmtip
        intro c hc
        rw [hother c (hcrest c hc), hother₁ c (hne c hc)]
      · exact hvals m hm' hmtip j hj

/-- C9: on an alignment attached to a post-ordered tree whose internal nodes all have a
left child (masks and sequences of every node of length `n_columns`), the gap-setting
loop of `syncWithTree` returns, and afterwards, at every position, the flag of an
internal node with two children is true if and only if both children's flags are true,
and the flag of an internal node with a left child only equals the child's. On the tree
`((a:1,b:1):1,c:1)` with `a = A-`, `b = AA`, `c = AA` the masks of the parent of `a`, `b`
and of the root are `[false, false]`. -/
theorem set_internal_gaps_spec (sa : SequenceAlignment)
    (hpo : post_order sa.tree = true)
    (hleft : ∀ n ∈ sa.tree, n.left = none → n.right = none)
    (hsz : ∀ n ∈ sa.tree, sa.sequence_size n.name = some sa.n_columns)
    (hlen : ∀ n ∈ sa.tree, (sa.taxa_names_to_gaps n.name).length = sa.n_columns) :
    (∃ sa', set_internal_gaps sa = some sa' ∧
      (∀ n ∈ sa.tree, ∀ l r, n.left = some l → n.right = some r →
        ∀ pos, pos < sa.n_columns →
          ∃ g gl gr, sa'.gap_at n.name pos = some g ∧ sa'.gap_at l.decendant pos = some gl ∧
            sa'.gap_at r.decendant pos = some gr ∧ (g = true ↔ gl = true ∧ gr = true)) ∧
      (∀ n ∈ sa.tree, ∀ l, n.left = some l → n.right = none →
        ∀ pos, pos < sa.n_columns →
          ∃ g, sa'.gap_at n.name pos = some g ∧ sa'.gap_at l.decendant pos = some g)) ∧
    (set_internal_gaps gapAlignment).map
        (fun sa' => (sa'.taxa_names_to_gaps "ab", sa'.taxa_names_to_gaps "root"))
      = some ([false, false], [false, false]) := by
  refine ⟨?_, by decide⟩
  have hnames : ∀ nm, nm ∈ ([] : List String) ∨ nm ∈ sa.tree.map (fun x => x.name) →
      ∃ n ∈ sa.tree, n.name = nm := by
    intro nm hnm
    rcases hnm with h | h
    · cases h
    · obtain ⟨n, hn, rfl⟩ := List.mem_map.mp h
      exact ⟨n, hn, rfl⟩
  obtain ⟨sa', hrun, _, _, hlen', _, hvals⟩ := set_gaps_loop sa.n_columns sa.tree [] sa hpo hleft
    (by
      intro nm hnm
      obtain ⟨n, hn, rfl⟩ := hnames nm hnm
      exact hsz n hn)
    (by
      intro nm hnm
      obtain ⟨n, hn, rfl⟩ := hnames nm hnm
      exact hlen n hn)
  have hchildlen : ∀ n ∈ sa.tree, ∀ c ∈ n.children, ∀ pos, pos < sa.n_columns →
      sa'.gap_at c pos = some ((sa'.taxa_names_to_gaps c).getD pos false) := by
    intro n hn c hc pos hpos
    have hc' := post_order_from_children sa.tree [] hpo n hn c hc
    exact getElem?_eq_some_getD _ _ (by rw [hlen' c hc']; exact hpos)
  refine ⟨sa', hrun, ?_, ?_⟩
  · intro n hn l r hl hr pos hpos
    have htip : n.isTip = false := by simp [TreeNode.isTip, hl]
    refine ⟨_, _, _, hvals n hn htip pos hpos,
      hchildlen n hn l.decendant (by simp [TreeNode.children, hl]) pos hpos,
      hchildlen n hn r.decendant (by simp [TreeNode.children, hr]) pos hpos, ?_⟩
    simp only [gap_from_children, hl, hr, Bool.and_eq_true]
  · intro n hn l hl hr pos hpos
    have htip : n.isTip = false := by simp [TreeNode.isTip, hl]
    refine ⟨_, hvals n hn htip pos hpos, ?_⟩
    rw [hchildlen n hn l.decendant (by simp [TreeNode.children, hl]) pos hpos]
    simp only [gap_from_children, hl, hr]

/-- Witness of C9: the scenario `((a:1,b:1):1,c:1)`, `a = A-`, `b = AA`, `c = AA`. -/
theorem set_internal_gaps_spec_witness :
    (∃ sa', set_internal_gaps gapAlignment = some sa' ∧
      (∀ n ∈ gapAlignment.tree, ∀ l r, n.left = some l → n.right = some r →
        ∀ pos, pos < gapAlignment.n_columns →
          ∃ g gl gr, sa'.gap_at n.name pos = some g ∧ sa'.gap_at l.decendant pos = some gl ∧
            sa'.gap_at r.decendant pos = some gr ∧ (g = true ↔ gl = true ∧ gr = true)) ∧
      (∀ n ∈ gapAlignment.tree, ∀ l, n.left = some l → n.right = none →
        ∀ pos, pos < gapAlignment.n_columns →
          ∃ g, sa'.gap_at n.name pos = some g ∧ sa'.gap_at l.decendant pos = some g)) ∧
    (set_internal_gaps gapAlignment).map
        (fun sa' => (sa'.taxa_names_to_gaps "ab", sa'.taxa_names_to_gaps "root"))
      = some ([false, false], [false, false]) :=
  set_internal_gaps_spec gapAlignment (by decide) (by decide) (by decide) (by decide)

/-! ## Parsimony seeding -/

/-- Counting a state adds one to its count and leaves the other counts. -/
theorem entry_count_count_state (m : List (state_element × Int)) (it s : state_element) :
    entry_count (count_state m it) s = entry_count m s + (if s = it then 1 else 0) := by
  induction m with
  | nil =>
    by_cases h : s = it
    · simp [count_state, entry_count, h]
    · have h' : ¬ it = s := fun e => h e.symm
      simp [count_state, entry_count, h, h']
  | cons e rest ih =>
    obtain ⟨s', c⟩ := e
    by_cases h1 : it = s'
    · subst h1
      by_cases h : s = it
      · subst h
        simp only [count_state, entry_count, if_true, List.filter_cons, decide_True,
          List.map_cons, List.sum_cons]
        ring
      · have h' : ¬ it = s := fun e => h e.symm
        simp [count_state, entry_count, h, h']
    · by_cases h2 : it < s'
      · by_cases h : s = it
        · subst h
          simp only [count_state, h1, h2, if_true, if_false, entry_count, List.filter_cons,
            decide_True, List.map_cons, List.sum_cons]
          ring
        · have h' : ¬ it = s := fun e => h e.symm
          simp [count_state, entry_count, h1, h2, h, h', List.filter_cons]
      · have hrec : count_state ((s', c) :: rest) it = (s', c) :: count_state rest it := by
          simp [count_state, h1, h2]
        rw [hrec]
        unfold entry_count at ih ⊢
        by_cases h3 : s' = s
        · simp only [List.filter_cons, h3, decide_True, if_true, List.map_cons, List.sum_cons,
            ih]
          ring
        · simp only [List.filter_cons, h3, decide_False, Bool.false_eq_true, if_false, ih]

/-- The counts after the counting loop are the numbers of occurrences. -/
theorem entry_count_foldl (l : List state_element) (m : List (state_element × Int))
    (s : state_element) :
    entry_count (l.foldl count_state m) s = entry_count m s + (l.count s : Int) := by
  induction l generalizing m with
  | nil => simp
  | cons a l ih =>
    rw [List.foldl_cons, ih, entry_count_count_state, List.count_cons]
    by_cases h : s = a
    · subst h
      simp
      ring
    · have h' : ¬ a = s := fun e => h e.symm
      simp [h, h']

/-- Counting a state adds no key but that state. -/
theorem count_state_keys (m : List (state_element × Int)) (it : state_element) :
    ∀ e ∈ count_state m it, e.1 = it ∨ e.1 ∈ m.map Prod.fst := by
  induction m with
  | nil =>
    intro e he
    simp only [count_state, List.mem_singleton] at he
    exact Or.inl (by rw [he])
  | cons e' rest ih =>
    obtain ⟨s', c⟩ := e'
    intro e he
    by_cases h1 : it = s'
    · simp only [count_state, h1, if_true, List.mem_cons] at he
      rcases he with rfl | he
      · exact Or.inl h1.symm
      · exact Or.inr (List.mem_cons_of_mem _ (List.mem_map_of_mem _ he))
    · by_cases h2 : it < s'
      · simp only [count_state, h1, h2, if_true, if_false, List.mem_cons] at he
        rcases he with rfl | rfl | he
        · exact Or.inl rfl
        · exact Or.inr (by simp)
        · exact Or.inr (List.mem_cons_of_mem _ (List.mem_map_of_mem _ he))
      · simp only [count_state, h1, h2, if_false, List.mem_cons] at he
        rcases he with rfl | he
        · exact Or.inr (by simp)
        · rcases ih e he with h | h
          · exact Or.inl h
          · exact Or.inr (List.mem_cons_of_mem _ h)

/-- Counting a state keeps the keys in increasing order. -/
theorem count_state_sorted (m : List (state_element × Int)) (it : state_element)
    (h : (m.map Prod.fst).Pairwise (fun a b => a < b)) :
    ((count_state m it).map Prod.fst).Pairwise (fun a b => a < b) := by
  induction m with
  | nil => simp [count_state]
  | cons e' rest ih =>
    obtain ⟨s', c⟩ := e'
    simp only [List.map_cons, List.pairwise_cons] at h
    by_cases h1 : it = s'
    · simp only [count_state, h1, if_true, List.map_cons, List.pairwise_cons]
      exact h
    · by_cases h2 : it < s'
      · simp only [count_state, h1, h2, if_true, if_false, List.map_cons, List.pairwise_cons]
        refine ⟨?_, h⟩
        intro k hk
        rcases List.mem_cons.mp hk with rfl | hk'
        · exact h2
        · exact lt_trans h2 (h.1 k hk')
      · simp only [count_state, h1, h2, if_false, List.map_cons, List.pairwise_cons]
        refine ⟨?_, ih h.2⟩
        intro k hk
        obtain ⟨e, he, rfl⟩ := List.mem_map.mp hk
        rcases count_state_keys rest it e he with h' | h'
        · rw [h']
          exact lt_of_le_of_ne (not_lt.mp h2) (Ne.symm h1)
        · exact h.1 _ h'

/-- With keys in increasing order, the count held for a key is the one in its entry. -/
theorem entry_count_of_mem (m : List (state_element × Int))
    (h : (m.map Prod.fst).Pairwise (fun a b => a < b)) (e : state_element × Int) (he : e ∈ m) :
    entry_count m e.1 = e.2 := by
  induction m with
  | nil => cases he
  | cons e' rest ih =>
    simp only [List.map_cons, List.pairwise_cons] at h
    have hnone : ∀ x ∈ rest, ¬ x.1 = e'.1 := by
      intro x hx hxe
      have := h.1 x.1 (List.mem_map_of_mem _ hx)
      rw [hxe] at this
      exact lt_irrefl _ this
    rcases List.mem_cons.mp he with rfl | he'
    · have hfil : rest.filter (fun x => decide (x.1 = e.1)) = [] := by
        rw [List.filter_eq_nil_iff]
        intro x hx
        simpa using hnone x hx
      simp [entry_count, List.filter_cons, hfil]
    · have hne : ¬ e'.1 = e.1 := fun h' => hnone e he' h'.symm
      have := ih h.2 he'
      unfold entry_count at this ⊢
      simp only [List.filter_cons, hne, decide_False, Bool.false_eq_true, if_false, this]

/-- What the counting loop of `pick_most_frequent_state` builds: keys in increasing
order, each entry holding a state of the list with its number of occurrences, and an
entry for every state of the list. -/
theorem state_counts_spec (l : List state_element) :
    ((l.foldl count_state []).map Prod.fst).Pairwise (fun a b => a < b) ∧
      (∀ e ∈ l.foldl count_state [], e.1 ∈ l ∧ e.2 = (l.count e.1 : Int)) ∧
      (∀ s ∈ l, ((s, (l.count s : Int)) : state_element × Int) ∈ l.foldl count_state []) := by
  have hsorted : ∀ (l : List state_element) (m : List (state_element × Int)),
      (m.map Prod.fst).Pairwise (fun a b => a < b) →
      ((l.foldl count_state m).map Prod.fst).Pairwise (fun a b => a < b) := by
    intro l
    induction l with
    | nil => intro m h; exact h
    | cons a l ih => intro m h; exact ih _ (count_state_sorted m a h)
  have hs := hsorted l [] (by simp)
  have hcount : ∀ s, entry_count (l.foldl count_state []) s = (l.count s : Int) := by
    intro s
    rw [entry_count_foldl]
    simp [entry_count]
  have hentry : ∀ e ∈ l.foldl count_state [], e.2 = (l.count e.1 : Int) := by
    intro e he
    rw [← hcount, entry_count_of_mem _ hs e he]
  have hpos : ∀ e ∈ l.foldl count_state [], 0 < e.2 := by
    have hgen : ∀ (l : List state_element) (m : List (state_element × Int)),
        (∀ e ∈ m, 0 < e.2) → ∀ e ∈ l.foldl count_state m, 0 < e.2 := by
      intro l
      induction l with
      | nil => intro m h; exact h
      | cons a l ih =>
        intro m h
        apply ih
        clear ih
        induction m with
        | nil =>
          intro e he
          simp only [count_state, List.mem_singleton] at he
          rw [he]
          exact Int.one_pos
        | cons e' rest ihm =>
          obtain ⟨s', c⟩ := e'
          have hc : 0 < c := h (s', c) (List.mem_cons_self _ _)
          have hrest : ∀ e ∈ rest, 0 < e.2 := fun e he => h e (List.mem_cons_of_mem _ he)
          intro e he
          by_cases h1 : a = s'
          · simp only [count_state, h1, if_true, List.mem_cons] at he
            rcases he with rfl | he
            · show 0 < c + 1
              omega
            · exact hrest e he
          · by_cases h2 : a < s'
            · simp only [count_state, h1, h2, if_true, if_false, List.mem_cons] at he
              rcases he with rfl | rfl | he
              · exact Int.one_pos
              · exact hc
              · exact hrest e he
            · simp only [count_state, h1, h2, if_false, List.mem_cons] at he
              rcases he with rfl | he
              · exact hc
              · exact ihm hrest e he
    exact hgen l [] (by intro e he; cases he)
  refine ⟨hs, ?_, ?_⟩
  · intro e he
    refine ⟨?_, hentry e he⟩
    have h1 := hentry e he
    have h2 := hpos e he
    have : 0 < l.count e.1 := by omega
    exact List.count_pos_iff.mp this
  · intro s hs'
    have hc := hcount s
    have hpos' : 0 < l.count s := List.count_pos_iff.mpr hs'
    have hne : (l.foldl count_state []).filter (fun e => decide (e.1 = s)) ≠ [] := by
      intro h
      simp only [entry_count, h, List.map_nil, List.sum_nil] at hc
      omega
    obtain ⟨e, he⟩ := List.exists_mem_of_ne_nil _ hne
    have hmem := (List.mem_filter.mp he).1
    have hkey : e.1 = s := by simpa using (List.mem_filter.mp he).2
    have := hentry e hmem
    rw [hkey] at this
    have heq : e = (s, (l.count s : Int)) := Prod.ext hkey this
    rw [← heq]
    exact hmem

/-- The selection loop of `pick_most_frequent_state`: the pair it ends with is the
initial pair or an entry, and its count is at least the initial count and the count of
every entry. -/
theorem most_frequent_loop (above : state_element) (E : List (state_element × Int)) :
    ∀ acc₀ : state_element × Int,
      (E.foldl (fun (acc : state_element × Int) (e : state_element × Int) =>
          if e.2 > acc.2 ∨ (e.2 = acc.2 ∧ e.1 = above ∧ above ≠ -1) then (e.1, e.2) else acc)
          acc₀ = acc₀ ∨
        E.foldl (fun (acc : state_element × Int) (e : state_element × Int) =>
          if e.2 > acc.2 ∨ (e.2 = acc.2 ∧ e.1 = above ∧ above ≠ -1) then (e.1, e.2) else acc)
          acc₀ ∈ E) ∧
      acc₀.2 ≤ (E.foldl (fun (acc : state_element × Int) (e : state_element × Int) =>
          if e.2 > acc.2 ∨ (e.2 = acc.2 ∧ e.1 = above ∧ above ≠ -1) then (e.1, e.2) else acc)
          acc₀).2 ∧
      ∀ e ∈ E, e.2 ≤ (E.foldl (fun (acc : state_element × Int) (e : state_element × Int) =>
          if e.2 > acc.2 ∨ (e.2 = acc.2 ∧ e.1 = above ∧ above ≠ -1) then (e.1, e.2) else acc)
          acc₀).2 := by
  induction E with
  | nil =>
    intro acc₀
    exact ⟨Or.inl rfl, le_refl _, fun e he => by cases he⟩
  | cons e E ih =>
    intro acc₀
    simp only [List.foldl_cons]
    by_cases hc : e.2 > acc₀.2 ∨ (e.2 = acc₀.2 ∧ e.1 = above ∧ above ≠ -1)
    · simp only [hc, if_true]
      obtain ⟨h1, h2, h3⟩ := ih (e.1, e.2)
      have hle : acc₀.2 ≤ e.2 := by
        rcases hc with h | h
        · exact le_of_lt h
        · exact le_of_eq h.1.symm
      refine ⟨?_, le_trans hle h2, ?_⟩
      · rcases h1 with h | h
        · right
          rw [h]
          exact List.mem_cons_self _ _
        · right
          exact List.mem_cons_of_mem _ h
      · intro x hx
        rcases List.mem_cons.mp hx with rfl | hx'
        · exact h2
        · exact h3 x hx'
    · simp only [hc, if_false]
      obtain ⟨h1, h2, h3⟩ := ih acc₀
      have hle : e.2 ≤ acc₀.2 := by
        by_contra h
        exact hc (Or.inl (not_le.mp h))
      refine ⟨?_, h2, ?_⟩
      · rcases h1 with h | h
        · exact Or.inl h
        · exact Or.inr (List.mem_cons_of_mem _ h)
      · intro x hx
        rcases List.mem_cons.mp hx with rfl | hx'
        · exact le_trans hle h2
        · exact h3 x hx'

/-- On a non-empty list, whatever the state above, `pick_most_frequent_state` returns an
element of the list that occurs in it at least as often as any state. -/
theorem pick_most_frequent_state_max (l : List state_element) (above : state_element)
    (hl : l ≠ []) :
    pick_most_frequent_state l above ∈ l ∧
      ∀ x, l.count x ≤ l.count (pick_most_frequent_state l above) := by
  obtain ⟨_, hentries, hall⟩ := state_counts_spec l
  obtain ⟨h1, h2, h3⟩ := most_frequent_loop above (l.foldl count_state []) (0, 0)
  obtain ⟨a, ha⟩ := List.exists_mem_of_ne_nil l hl
  have hapos : 0 < l.count a := List.count_pos_iff.mpr ha
  have hage := h3 _ (hall a ha)
  simp only at hage
  have hmem : (l.foldl count_state []).foldl
      (fun (acc : state_element × Int) (e : state_element × Int) =>
        if e.2 > acc.2 ∨ (e.2 = acc.2 ∧ e.1 = above ∧ above ≠ -1) then (e.1, e.2) else acc)
      (0, 0) ∈ l.foldl count_state [] := by
    rcases h1 with h | h
    · rw [h] at hage
      simp only at hage
      omega
    · exact h
  obtain ⟨hin, hcnt⟩ := hentries _ hmem
  refine ⟨hin, ?_⟩
  intro x
  by_cases hx : x ∈ l
  · have := h3 _ (hall x hx)
    simp only at this
    unfold pick_most_frequent_state
    simp only
    omega
  · rw [List.count_eq_zero_of_not_mem hx]
    exact Nat.zero_le _

/-- The entries of the children depend on the map at the children only. -/
theorem child_clades_congr (cs cs' : String → List state_element) (n : TreeNode)
    (h : ∀ c ∈ n.children, cs c = cs' c) : child_clades cs n = child_clades cs' n := by
  unfold child_clades
  congr 1
  · cases hl : n.left with
    | none => rfl
    | some l => exact h l.decendant (by simp [TreeNode.children, hl])
  · cases hr : n.right with
    | none => rfl
    | some r => exact h r.decendant (by simp [TreeNode.children, hr])

/-- One round of the first loop of `find_parsimony_by_position`, on a node whose
children are other nodes: it returns and touches only the entry of the node; the map is
unchanged when the node is a gap at `pos`, and otherwise the entry of the node is its
own contribution followed by the entries of its children. -/
theorem clade_states_for_node_spec (sa : SequenceAlignment) (pos : Nat)
    (cs : String → List state_element) (n : TreeNode) (g : Bool)
    (hg : sa.gap_at n.name pos = some g)
    (hs : n.isTip = true → ∃ s, sa.state_at n.name pos = some s)
    (hne : ∀ c ∈ n.children, c ≠ n.name) :
    ∃ cs', clade_states_for_node sa pos cs n = some cs' ∧
      (∀ nm, nm ≠ n.name → cs' nm = cs nm) ∧
      (g = true → cs' = cs) ∧
      (g = false → cs' n.name = own_clade sa pos n ++ child_clades cs n) := by
  cases g with
  | true =>
    exact ⟨cs, by simp [clade_states_for_node, hg], fun _ _ => rfl, fun _ => rfl,
      fun h => Bool.noConfusion h⟩
  | false =>
    have hrun : clade_states_for_node sa pos cs n = some
        (match n.right with
          | some right =>
            set_clade
              (match n.left with
                | some left => set_clade (set_clade cs n.name (own_clade sa pos n)) n.name
                    (set_clade cs n.name (own_clade sa pos n) n.name
                      ++ set_clade cs n.name (own_clade sa pos n) left.decendant)
                | none => set_clade cs n.name (own_clade sa pos n))
              n.name
              ((match n.left with
                | some left => set_clade (set_clade cs n.name (own_clade sa pos n)) n.name
                    (set_clade cs n.name (own_clade sa pos n) n.name
                      ++ set_clade cs n.name (own_clade sa pos n) left.decendant)
                | none => set_clade cs n.name (own_clade sa pos n)) n.name
               ++ (match n.left with
                | some left => set_clade (set_clade cs n.name (own_clade sa pos n)) n.name
                    (set_clade cs n.name (own_clade sa pos n) n.name
                      ++ set_clade cs n.name (own_clade sa pos n) left.decendant)
                | none => set_clade cs n.name (own_clade sa pos n)) right.decendant)
          | none =>
            match n.left with
            | some left => set_clade (set_clade cs n.name (own_clade sa pos n)) n.name
                (set_clade cs n.name (own_clade sa pos n) n.name
                  ++ set_clade cs n.name (own_clade sa pos n) left.decendant)
            | none => set_clade cs n.name (own_clade sa pos n)) := by
      cases htip : n.isTip with
      | true =>
        obtain ⟨s, hs'⟩ := hs htip
        simp [clade_states_for_node, hg, htip, hs', own_clade]
      | false =>
        simp [clade_states_for_node, hg, htip, own_clade]
    refine ⟨_, hrun, ?_, fun h => Bool.noConfusion h, fun _ => ?_⟩
    · intro nm hnm
      cases n.left <;> cases n.right <;> simp [set_clade, hnm]
    · cases hl : n.left with
      | none =>
        cases hr : n.right with
        | none => simp [set_clade, child_clades, hl, hr]
        | some r =>
          have h2 : r.decendant ≠ n.name := hne _ (by simp [TreeNode.children, hr])
          simp [set_clade, child_clades, hl, hr, h2]
      | some l =>
        have h1 : l.decendant ≠ n.name := hne _ (by simp [TreeNode.children, hl])
        cases hr : n.right with
        | none => simp [set_clade, child_clades, hl, hr, h1]
        | some r =>
          have h2 : r.decendant ≠ n.name := hne _ (by simp [TreeNode.children, hr])
          simp [set_clade, child_clades, hl, hr, h1, h2]

/-- The first loop of `find_parsimony_by_position` over a post-ordered list: it returns;
entries of names outside the list and of names that are not read as non-gap at `pos`
are as before; the entry of every node of the list that is not a gap at `pos` is its own
contribution followed by the final entries of its children. -/
theorem clade_loop (sa : SequenceAlignment) (pos : Nat) (L : List TreeNode) :
    ∀ (seen : List String) (cs₀ : String → List state_element),
      post_order_from seen L = true →
      (∀ m ∈ L, ∃ g, sa.gap_at m.name pos = some g) →
      (∀ m ∈ L, m.isTip = true → ∃ s, sa.state_at m.name pos = some s) →
      ∃ cs, L.foldlM (clade_states_for_node sa pos) cs₀ = some cs ∧
        (∀ nm, nm ∉ L.map (fun x => x.name) → cs nm = cs₀ nm) ∧
        (∀ nm, sa.gap_at nm pos ≠ some false → cs nm = cs₀ nm) ∧
        (∀ m ∈ L, sa.gap_at m.name pos = some false →
          cs m.name = own_clade sa pos m ++ child_clades cs m) := by
  induction L with
  | nil =>
    intro seen cs₀ _ _ _
    exact ⟨cs₀, rfl, fun _ _ => rfl, fun _ _ => rfl, fun m hm => by cases hm⟩
  | cons n rest ih =>
    intro seen cs₀ hpo hgap hstate
    have hpo' := hpo
    simp only [post_order_from, Bool.and_eq_true, Bool.not_eq_true', decide_eq_false_iff_not,
      List.all_eq_true, decide_eq_true_eq] at hpo'
    obtain ⟨⟨hchild, hns⟩, hrest⟩ := hpo'
    have hne : ∀ c ∈ n.children, c ≠ n.name := fun c hc h => hns (h ▸ hchild c hc)
    have hfresh := post_order_from_name_not_seen rest _ hrest
    have hnrest : n.name ∉ rest.map (fun x => x.name) := by
      intro h
      obtain ⟨m, hm, hmn⟩ := List.mem_map.mp h
      exact hfresh m hm (by rw [hmn]; exact List.mem_cons_self _ _)
    have hcrest : ∀ c ∈ n.children, c ∉ rest.map (fun x => x.name) := by
      intro c hc h
      obtain ⟨m, hm, hmn⟩ := List.mem_map.mp h
      exact hfresh m hm (by rw [hmn]; exact List.mem_cons_of_mem _ (hchild c hc))
    obtain ⟨g, hg⟩ := hgap n (List.mem_cons_self _ _)
    obtain ⟨cs₁, hrun₁, hother₁, hgap₁, hval₁⟩ := clade_states_for_node_spec sa pos cs₀ n g hg
      (hstate n (List.mem_cons_self _ _)) hne
    obtain ⟨cs, hrun, hother, hgapped, hvals⟩ := ih (n.name :: seen) cs₁ hrest
      (fun m hm => hgap m (List.mem_cons_of_mem _ hm))
      (fun m hm => hstate m (List.mem_cons_of_mem _ hm))
    refine ⟨cs, ?_, ?_, ?_, ?_⟩
    · rw [List.foldlM_cons, hrun₁]
      exact hrun
    · intro nm hnm
      have h1 : nm ≠ n.name := fun h => hnm (by simp [h])
      have h2 : nm ∉ rest.map (fun x => x.name) := fun h => hnm (List.mem_cons_of_mem _ h)
      rw [hother nm h2, hother₁ nm h1]
    · intro nm hnm
      rw [hgapped nm hnm]
      by_cases h1 : nm = n.name
      · cases g with
        | true => rw [hgap₁ rfl]
        | false => exact absurd (h1 ▸ hg) hnm
      · exact hother₁ nm h1
    · intro m hm hmg
      rcases List.mem_cons.mp hm with rfl | hm'
      · have hgf : g = false := by
          rw [hg] at hmg
          exact Option.some.inj hmg
        rw [hother _ hnrest, hval₁ hgf]
        congr 1
        apply child_clades_congr
        intro c hc
        rw [hother c (hcrest c hc), hother₁ c (hne c hc)]
      · exact hvals m hm' hmg

/-- Writing a state at a readable position: it returns, the gap masks are as before,
the position holds the state written, and every other node reads as before. -/
theorem set_state_spec (sa : SequenceAlignment) (name : String) (pos : Nat)
    (s : state_element) (h : (sa.state_at name pos).isSome = true) :
    ∃ sa₁, sa.set_state name pos s = some sa₁ ∧
      sa₁.taxa_names_to_gaps = sa.taxa_names_to_gaps ∧
      sa₁.tree = sa.tree ∧
      sa₁.state_at name pos = some s ∧
      (∀ nm, nm ≠ name → sa₁.taxa_names_to_sequences nm = sa.taxa_names_to_sequences nm) := by
  cases hseq : sa.taxa_names_to_sequences name with
  | none => simp [SequenceAlignment.state_at, hseq] at h
  | some q =>
    have hlt : pos < q.length := by
      simp only [SequenceAlignment.state_at, hseq, Option.some_bind] at h
      by_contra hge
      rw [List.getElem?_eq_none (by omega)] at h
      simp at h
    refine ⟨{ sa with taxa_names_to_sequences := fun nm =>
        if nm = name then some (q.set pos s) else sa.taxa_names_to_sequences nm }, ?_, rfl, rfl,
      ?_, ?_⟩
    · simp only [SequenceAlignment.set_state, hseq, hlt, if_true]
    · simp [SequenceAlignment.state_at, hlt]
    · intro nm hnm
      simp [hnm]

/-- One round of the second loop of `find_parsimony_by_position` on a node whose gap
flag, own state and parent's state can be read at `pos`: it returns, changes no gap
mask, changes the sequence of no other node, keeps the position readable, and either
leaves the sequence of the node alone (tip or gap) or stores there the state picked from
the entry of the node. -/
theorem set_parsimony_state_spec (cs : String → List state_element) (pos : Nat)
    (sa : SequenceAlignment) (n : TreeNode) (g : Bool)
    (hg : sa.gap_at n.name pos = some g)
    (hown : (sa.state_at n.name pos).isSome = true)
    (hup : ∀ b, n.up = some b → (sa.state_at b.ancestral pos).isSome = true) :
    ∃ sa₁, set_parsimony_state cs pos sa n = some sa₁ ∧
      sa₁.taxa_names_to_gaps = sa.taxa_names_to_gaps ∧
      sa₁.tree = sa.tree ∧
      (∀ nm, nm ≠ n.name → sa₁.taxa_names_to_sequences nm = sa.taxa_names_to_sequences nm) ∧
      (sa₁.state_at n.name pos).isSome = true ∧
      (sa₁.state_at n.name pos = sa.state_at n.name pos ∨
        ∃ above, sa₁.state_at n.name pos
          = some (pick_most_frequent_state (cs n.name) above)) ∧
      (n.isTip = false → g = false →
        ∃ above, sa₁.state_at n.name pos
          = some (pick_most_frequent_state (cs n.name) above)) := by
  have hskip : set_parsimony_state cs pos sa n = some sa → (n.isTip = true ∨ g = true) →
      ∃ sa₁, set_parsimony_state cs pos sa n = some sa₁ ∧
        sa₁.taxa_names_to_gaps = sa.taxa_names_to_gaps ∧
        sa₁.tree = sa.tree ∧
        (∀ nm, nm ≠ n.name →
          sa₁.taxa_names_to_sequences nm = sa.taxa_names_to_sequences nm) ∧
        (sa₁.state_at n.name pos).isSome = true ∧
        (sa₁.state_at n.name pos = sa.state_at n.name pos ∨
          ∃ above, sa₁.state_at n.name pos
            = some (pick_most_frequent_state (cs n.name) above)) ∧
        (n.isTip = false → g = false →
          ∃ above, sa₁.state_at n.name pos
            = some (pick_most_frequent_state (cs n.name) above)) := by
    intro h hor
    refine ⟨sa, h, rfl, rfl, fun _ _ => rfl, hown, Or.inl rfl, ?_⟩
    intro h1 h2
    rcases hor with h' | h'
    · rw [h1] at h'
      exact Bool.noConfusion h'
    · rw [h2] at h'
      exact Bool.noConfusion h'
  rcases Bool.eq_false_or_eq_true n.isTip with htip | htip
  · exact hskip (by simp [set_parsimony_state, htip]) (Or.inl htip)
  · cases g with
    | true => exact hskip (by simp [set_parsimony_state, htip, hg]) (Or.inr rfl)
    | false =>
      have habove : ∃ above, set_parsimony_state cs pos sa n
          = sa.set_state n.name pos (pick_most_frequent_state (cs n.name) above) := by
        cases hu : n.up with
        | none => exact ⟨-1, by simp [set_parsimony_state, htip, hg, hu]⟩
        | some b =>
          obtain ⟨a, ha⟩ := Option.isSome_iff_exists.mp (hup b hu)
          exact ⟨a, by simp [set_parsimony_state, htip, hg, hu, ha]⟩
      obtain ⟨above, habove⟩ := habove
      obtain ⟨sa₁, h1, h2, h3, h4, h5⟩ := set_state_spec sa n.name pos
        (pick_most_frequent_state (cs n.name) above) hown
      exact ⟨sa₁, habove.trans h1, h2, h3, h5, by rw [h4]; rfl, Or.inr ⟨above, h4⟩,
        fun _ _ => ⟨above, h4⟩⟩

/-- The second loop of `find_parsimony_by_position` over any list of nodes whose gap
flag, own state and parent's state can be read at `pos`: it returns, changes no gap
mask, keeps every position readable; the state of a name at `pos` is as before or one
picked from the entry of the name; and every internal node of the list that is not a
gap at `pos` holds a state picked from its entry. -/
theorem parsimony_state_loop (cs : String → List state_element) (pos : Nat)
    (R : List TreeNode) :
    ∀ sa : SequenceAlignment,
      (∀ m ∈ R, (∃ g, sa.gap_at m.name pos = some g) ∧
        (sa.state_at m.name pos).isSome = true ∧
        ∀ b, m.up = some b → (sa.state_at b.ancestral pos).isSome = true) →
      ∃ sa', R.foldlM (set_parsimony_state cs pos) sa = some sa' ∧
        sa'.taxa_names_to_gaps = sa.taxa_names_to_gaps ∧
        sa'.tree = sa.tree ∧
        (∀ nm, (sa'.state_at nm pos).isSome = (sa.state_at nm pos).isSome) ∧
        (∀ nm, sa'.state_at nm pos = sa.state_at nm pos ∨
          ∃ above, sa'.state_at nm pos = some (pick_most_frequent_state (cs nm) above)) ∧
        (∀ m ∈ R, m.isTip = false → sa.gap_at m.name pos = some false →
          ∃ above, sa'.state_at m.name pos
            = some (pick_most_frequent_state (cs m.name) above)) := by
  induction R with
  | nil =>
    intro sa _
    exact ⟨sa, rfl, rfl, rfl, fun _ => rfl, fun _ => Or.inl rfl, fun m hm => by cases hm⟩
  | cons n rest ih =>
    intro sa hyp
    obtain ⟨⟨g, hg⟩, hown, hup⟩ := hyp n (List.mem_cons_self _ _)
    obtain ⟨sa₁, hrun₁, hgaps₁, htree₁, hseq₁, hsome₁, hform₁, hval₁⟩ :=
      set_parsimony_state_spec cs pos sa n g hg hown hup
    have hstate₁ : ∀ nm, nm ≠ n.name → sa₁.state_at nm pos = sa.state_at nm pos := by
      intro nm hnm
      simp only [SequenceAlignment.state_at, hseq₁ nm hnm]
    have hgap₁ : ∀ nm, sa₁.gap_at nm pos = sa.gap_at nm pos := by
      intro nm
      simp only [SequenceAlignment.gap_at, hgaps₁]
    have hsome : ∀ nm, (sa₁.state_at nm pos).isSome = (sa.state_at nm pos).isSome := by
      intro nm
      by_cases hnm : nm = n.name
      · rw [hnm, hsome₁, hown]
      · rw [hstate₁ nm hnm]
    obtain ⟨sa', hrun, hgaps, htree, hsome', hform, hvals⟩ := ih sa₁ (by
      intro m hm
      obtain ⟨⟨g', hg'⟩, hown', hup'⟩ := hyp m (List.mem_cons_of_mem _ hm)
      refine ⟨⟨g', by rw [hgap₁]; exact hg'⟩, by rw [hsome]; exact hown', ?_⟩
      intro b hb
      rw [hsome]
      exact hup' b hb)
    have hform' : ∀ nm, sa'.state_at nm pos = sa.state_at nm pos ∨
        ∃ above, sa'.state_at nm pos = some (pick_most_frequent_state (cs nm) above) := by
      intro nm
      rcases hform nm with h | h
      · by_cases hnm : nm = n.name
        · subst hnm
          rcases hform₁ with h' | ⟨above, h'⟩
          · exact Or.inl (h.trans h')
          · exact Or.inr ⟨above, h.trans h'⟩
        · exact Or.inl (h.trans (hstate₁ nm hnm))
      · exact Or.inr h
    refine ⟨sa', ?_, hgaps.trans hgaps₁, htree.trans htree₁, ?_, hform', ?_⟩
    · rw [List.foldlM_cons, hrun₁]
      exact hrun
    · intro nm
      rw [hsome', hsome]
    · intro m hm hmtip hmgap
      rcases List.mem_cons.mp hm with rfl | hm'
      · have hgf : g = false := by
          rw [hg] at hmgap
          exact Option.some.inj hmgap
        obtain ⟨above, habove⟩ := hval₁ hmtip hgf
        rcases hform m.name with h | h
        · exact ⟨above, h.trans habove⟩
        · exact h
      · exact hvals m hm' hmtip (by rw [hgap₁]; exact hmgap)

/-- Induction along a post-ordered list, with a rank: a property that holds at rank `F`
for the names seen before the list, is kept when the rank grows, and passes from the
children of a node to the node with one more rank, holds for every node of the list at
rank `F` plus the length of the list. -/
theorem post_order_rank_induction (P : Nat → String → Prop)
    (hmono : ∀ k nm, P k nm → P (k + 1) nm) (L : List TreeNode) :
    ∀ (seen : List String) (F : Nat), post_order_from seen L = true →
      (∀ c ∈ seen, P F c) →
      (∀ m ∈ L, ∀ k, (∀ c ∈ m.children, P k c) → P (k + 1) m.name) →
      ∀ m ∈ L, P (F + L.length) m.name := by
  have hmono' : ∀ j k nm, P k nm → P (k + j) nm := by
    intro j
    induction j with
    | zero => intro k nm h; exact h
    | succ j ih => intro k nm h; exact hmono _ _ (ih k nm h)
  induction L with
  | nil => intro _ _ _ _ _ m hm; cases hm
  | cons n rest ih =>
    intro seen F hpo hseen hstep m hm
    have hpo' := hpo
    simp only [post_order_from, Bool.and_eq_true, Bool.not_eq_true', decide_eq_false_iff_not,
      List.all_eq_true, decide_eq_true_eq] at hpo'
    obtain ⟨⟨hchild, _⟩, hrest⟩ := hpo'
    have hn : P (F + 1) n.name :=
      hstep n (List.mem_cons_self _ _) F (fun c hc => hseen c (hchild c hc))
    have hlen : F + (n :: rest).length = F + 1 + rest.length := by
      simp only [List.length_cons]
      omega
    rw [hlen]
    rcases List.mem_cons.mp hm with rfl | hm'
    · exact hmono' _ _ _ hn
    · apply ih (n.name :: seen) (F + 1) hrest
      · intro c hc
        rcases List.mem_cons.mp hc with rfl | hc'
        · exact hn
        · exact hmono _ _ (hseen c hc')
      · intro m' hm'' k hk
        exact hstep m' (List.mem_cons_of_mem _ hm'') k hk
      · exact hm'

/-- In a post-ordered list a node is found by its name. -/
theorem find_of_post_order (L : List TreeNode) :
    ∀ seen, post_order_from seen L = true →
      ∀ m ∈ L, L.find? (fun n => decide (n.name = m.name)) = some m := by
  induction L with
  | nil => intro _ _ m hm; cases hm
  | cons n rest ih =>
    intro seen hpo m hm
    have hpo' := hpo
    simp only [post_order_from, Bool.and_eq_true] at hpo'
    rcases List.mem_cons.mp hm with rfl | hm'
    · simp
    · have hne : ¬ n.name = m.name := by
        intro h
        exact post_order_from_name_not_seen rest _ hpo'.2 m hm'
          (by rw [← h]; exact List.mem_cons_self _ _)
      rw [List.find?_cons_of_neg _ (by simpa using hne)]
      exact ih _ hpo'.2 m hm'

/-- A flag read as `true` with default `false` is a flag that is there. -/
theorem gap_at_of_getD (sa : SequenceAlignment) (nm : String) (pos : Nat)
    (h : (sa.taxa_names_to_gaps nm).getD pos false = true) : sa.gap_at nm pos = some true := by
  unfold SequenceAlignment.gap_at
  cases hg : (sa.taxa_names_to_gaps nm)[pos]? with
  | none =>
    rw [List.getD_eq_getElem?_getD, hg] at h
    simp at h
  | some b =>
    rw [List.getD_eq_getElem?_getD, hg, Option.getD_some] at h
    rw [h]

/-- A flag that is there is the one read with a default. -/
theorem getD_of_gap_at (sa : SequenceAlignment) (nm : String) (pos : Nat) (g : Bool)
    (h : sa.gap_at nm pos = some g) : (sa.taxa_names_to_gaps nm).getD pos false = g := by
  unfold SequenceAlignment.gap_at at h
  rw [List.getD_eq_getElem?_getD, h, Option.getD_some]

/-- A map that satisfies the equations of the first loop of
`find_parsimony_by_position`, on a post-ordered tree whose gap flags at `pos` are the
ones computed from the children: the entry of a node that is not a gap is not empty. -/
theorem clade_nonempty (sa : SequenceAlignment) (pos : Nat) (cs : String → List state_element)
    (hpo : post_order sa.tree = true)
    (hgap : ∀ m ∈ sa.tree, ∃ g, sa.gap_at m.name pos = some g)
    (hstate : ∀ m ∈ sa.tree, (sa.state_at m.name pos).isSome = true)
    (hcons : ∀ n ∈ sa.tree, n.isTip = false →
      sa.gap_at n.name pos = some (gap_from_children sa.taxa_names_to_gaps n pos))
    (hA : ∀ m ∈ sa.tree, sa.gap_at m.name pos = some false →
      cs m.name = own_clade sa pos m ++ child_clades cs m) :
    ∀ m ∈ sa.tree, sa.gap_at m.name pos = some false → cs m.name ≠ [] := by
  have hchild : ∀ m ∈ sa.tree, ∀ c ∈ m.children,
      (sa.taxa_names_to_gaps c).getD pos false = false → sa.gap_at c pos = some false := by
    intro m hm c hc hfalse
    rcases post_order_from_children sa.tree [] hpo m hm c hc with h | h
    · cases h
    · obtain ⟨m', hm', rfl⟩ := List.mem_map.mp h
      obtain ⟨g, hg⟩ := hgap m' hm'
      rw [getD_of_gap_at sa _ pos g hg] at hfalse
      rw [hg, hfalse]
  have key := post_order_rank_induction
    (fun _ nm => sa.gap_at nm pos = some false → cs nm ≠ []) (fun _ _ h => h) sa.tree [] 0 hpo
    (fun c hc => by cases hc)
    (by
      intro m hm _ hk hmg
      rw [hA m hm hmg]
      rcases Bool.eq_false_or_eq_true m.isTip with htip | htip
      · obtain ⟨s, hs⟩ := Option.isSome_iff_exists.mp (hstate m hm)
        simp [own_clade, htip, hs]
      · have hval : gap_from_children sa.taxa_names_to_gaps m pos = false := by
          have := hcons m hm htip
          rw [hmg] at this
          exact (Option.some.inj this).symm
        have hex : ∃ c ∈ m.children, sa.gap_at c pos = some false ∧
            ∃ (a b : List state_element), child_clades cs m = a ++ cs c ++ b := by
          cases hl : m.left with
          | none =>
            cases hr : m.right with
            | none => simp [TreeNode.isTip, hl, hr] at htip
            | some r =>
              have hrc : r.decendant ∈ m.children := by simp [TreeNode.children, hr]
              simp only [gap_from_children, hl, hr] at hval
              exact ⟨_, hrc, hchild m hm _ hrc hval, [], [], by simp [child_clades, hl, hr]⟩
          | some l =>
            have hlc : l.decendant ∈ m.children := by simp [TreeNode.children, hl]
            cases hr : m.right with
            | none =>
              simp only [gap_from_children, hl, hr] at hval
              exact ⟨_, hlc, hchild m hm _ hlc hval, [], [], by simp [child_clades, hl, hr]⟩
            | some r =>
              have hrc : r.decendant ∈ m.children := by simp [TreeNode.children, hr]
              simp only [gap_from_children, hl, hr, Bool.and_eq_false_iff] at hval
              rcases hval with h | h
              · exact ⟨_, hlc, hchild m hm _ hlc h, [], cs r.decendant,
                  by simp [child_clades, hl, hr]⟩
              · exact ⟨_, hrc, hchild m hm _ hrc h, cs l.decendant, [],
                  by simp [child_clades, hl, hr]⟩
        obtain ⟨c, hc, hcg, a, b, hab⟩ := hex
        have hne := hk c hc hcg
        rw [hab]
        simp [hne])
  intro m hm
  exact key m hm

/-- A map that satisfies the equations of the first loop of
`find_parsimony_by_position`, on a post-ordered tree whose gap flags at `pos` are the
ones computed from the children: the entry of a node is the list of the states of the
non-gap tips below it. -/
theorem clade_eq_tip_states_below (sa : SequenceAlignment) (pos : Nat)
    (cs : String → List state_element)
    (hpo : post_order sa.tree = true)
    (hgap : ∀ m ∈ sa.tree, ∃ g, sa.gap_at m.name pos = some g)
    (hstate : ∀ m ∈ sa.tree, (sa.state_at m.name pos).isSome = true)
    (hcons : ∀ n ∈ sa.tree, n.isTip = false →
      sa.gap_at n.name pos = some (gap_from_children sa.taxa_names_to_gaps n pos))
    (hA : ∀ m ∈ sa.tree, sa.gap_at m.name pos = some false →
      cs m.name = own_clade sa pos m ++ child_clades cs m)
    (hB : ∀ nm, sa.gap_at nm pos ≠ some false → cs nm = []) :
    ∀ m ∈ sa.tree, ∀ fuel, sa.tree.length ≤ fuel →
      tip_states_below sa pos fuel m.name = cs m.name := by
  have key := post_order_rank_induction
    (fun k nm => ∀ fuel, k ≤ fuel → tip_states_below sa pos fuel nm = cs nm)
    (fun k nm h fuel hfuel => h fuel (by omega)) sa.tree [] 0 hpo
    (fun c hc => by cases hc)
    (by
      intro m hm k hk fuel hfuel
      obtain ⟨f, rfl⟩ : ∃ f, fuel = f + 1 := ⟨fuel - 1, by omega⟩
      have hf : k ≤ f := by omega
      obtain ⟨g, hg⟩ := hgap m hm
      have hfind := find_of_post_order sa.tree [] hpo m hm
      rcases Bool.eq_false_or_eq_true m.isTip with htip | htip
      · obtain ⟨s, hs⟩ := Option.isSome_iff_exists.mp (hstate m hm)
        have hl : m.left = none := by
          cases hl : m.left with
          | none => rfl
          | some l => simp [TreeNode.isTip, hl] at htip
        have hr : m.right = none := by
          cases hr : m.right with
          | none => rfl
          | some r => simp [TreeNode.isTip, hr] at htip
        cases g with
        | true =>
          rw [hB m.name (by rw [hg]; simp)]
          simp [tip_states_below, hfind, htip, hg, hs]
        | false =>
          rw [hA m hm hg]
          simp [tip_states_below, hfind, htip, hg, hs, own_clade, child_clades, hl, hr]
      · have hT : tip_states_below sa pos (f + 1) m.name = child_clades cs m := by
          simp only [tip_states_below, hfind, htip, Bool.false_eq_true, if_false, child_clades]
          congr 1
          · cases hl : m.left with
            | none => rfl
            | some l => exact hk l.decendant (by simp [TreeNode.children, hl]) f hf
          · cases hr : m.right with
            | none => rfl
            | some r => exact hk r.decendant (by simp [TreeNode.children, hr]) f hf
        rw [hT]
        cases g with
        | false =>
          rw [hA m hm hg]
          simp [own_clade, htip]
        | true =>
          rw [hB m.name (by rw [hg]; simp)]
          have hval : gap_from_children sa.taxa_names_to_gaps m pos = true := by
            have := hcons m hm htip
            rw [hg] at this
            exact (Option.some.inj this).symm
          have hzero : ∀ c, (sa.taxa_names_to_gaps c).getD pos false = true → cs c = [] := by
            intro c hc
            exact hB c (by rw [gap_at_of_getD sa c pos hc]; simp)
          cases hl : m.left with
          | none =>
            cases hr : m.right with
            | none => simp [TreeNode.isTip, hl, hr] at htip
            | some r =>
              simp only [gap_from_children, hl, hr] at hval
              simp [child_clades, hl, hr, hzero _ hval]
          | some l =>
            cases hr : m.right with
            | none =>
              simp only [gap_from_children, hl, hr] at hval
              simp [child_clades, hl, hr, hzero _ hval]
            | some r =>
              simp only [gap_from_children, hl, hr, Bool.and_eq_true] at hval
              simp [child_clades, hl, hr, hzero _ hval.1, hzero _ hval.2])
  intro m hm fuel hfuel
  exact key m hm fuel (by omega)

/-- C10: on an alignment attached to a post-ordered tree (sequences and masks of length
`n_columns`, parents in the tree, gap flags at `pos` as the gap-setting loop leaves
them), `find_parsimony_by_position pos` returns; the `clade_states` entry of every
internal node that is not a gap at `pos` is the entries of its children appended, which
is the list of the states of the non-gap tips below it, and the state stored at the node
is an element of that list with the largest number of occurrences. On the tree
`((t1:1,t2:1):1,(t3:1,t4:1):1)` with tip states `(A, A, B, B)` the left parent gets `A`,
the right parent `B` and the root `A`. -/
theorem find_parsimony_by_position_spec (sa : SequenceAlignment) (pos : Nat)
    (hpos : pos < sa.n_columns)
    (hpo : post_order sa.tree = true)
    (hsz : ∀ n ∈ sa.tree, sa.sequence_size n.name = some sa.n_columns)
    (hlen : ∀ n ∈ sa.tree, (sa.taxa_names_to_gaps n.name).length = sa.n_columns)
    (hup : ∀ n ∈ sa.tree, ∀ b ∈ n.up, b.ancestral ∈ sa.tree.map (fun x => x.name))
    (hcons : ∀ n ∈ sa.tree, n.isTip = false →
      sa.gap_at n.name pos = some (gap_from_children sa.taxa_names_to_gaps n pos)) :
    (∃ cs sa', clade_states_by_position sa pos = some cs ∧
      find_parsimony_by_position sa pos = some sa' ∧
      ∀ n ∈ sa.tree, n.isTip = false → sa'.gap_at n.name pos = some false →
        cs n.name = child_clades cs n ∧
        cs n.name = tip_states_below sa pos sa.tree.length n.name ∧
        ∃ s, sa'.state_at n.name pos = some s ∧ s ∈ cs n.name ∧
          ∀ x, (cs n.name).count x ≤ (cs n.name).count s) ∧
    (find_parsimony_by_position parsimonyAlignment 0).map
        (fun sa' => (sa'.state_at "p12" 0, sa'.state_at "p34" 0, sa'.state_at "root" 0))
      = some (some 0, some 1, some 0) := by
  refine ⟨?_, by decide⟩
  have hgap : ∀ m ∈ sa.tree, ∃ g, sa.gap_at m.name pos = some g := by
    intro m hm
    exact ⟨_, getElem?_eq_some_getD _ _ (by rw [hlen m hm]; exact hpos)⟩
  have hstate : ∀ m ∈ sa.tree, (sa.state_at m.name pos).isSome = true := by
    intro m hm
    have h := hsz m hm
    unfold SequenceAlignment.sequence_size at h
    cases hq : sa.taxa_names_to_sequences m.name with
    | none => simp [hq] at h
    | some q =>
      simp only [hq, Option.map_some', Option.some.injEq] at h
      simp [SequenceAlignment.state_at, hq, h, hpos]
  obtain ⟨cs, hcs, _, hB, hA⟩ := clade_loop sa pos sa.tree [] (fun _ => []) hpo hgap
    (fun m hm _ => Option.isSome_iff_exists.mp (hstate m hm))
  have hC := clade_nonempty sa pos cs hpo hgap hstate hcons hA
  have hD := clade_eq_tip_states_below sa pos cs hpo hgap hstate hcons hA hB
  obtain ⟨sa', hrun, hgaps, _, _, _, hvals⟩ := parsimony_state_loop cs pos sa.tree.reverse sa
    (by
      intro m hm
      have hm' : m ∈ sa.tree := List.mem_reverse.mp hm
      refine ⟨hgap m hm', hstate m hm', ?_⟩
      intro b hb
      obtain ⟨p, hp, hpn⟩ := List.mem_map.mp (hup m hm' b hb)
      rw [← hpn]
      exact hstate p hp)
  have hfind : find_parsimony_by_position sa pos = some sa' := by
    have hcs' : clade_states_by_position sa pos = some cs := hcs
    simp only [find_parsimony_by_position, Option.bind_eq_bind]
    rw [hcs', Option.some_bind]
    exact hrun
  refine ⟨cs, sa', hcs, hfind, ?_⟩
  intro n hn htip hng
  have hng' : sa.gap_at n.name pos = some false := by
    simp only [SequenceAlignment.gap_at, ← hgaps]
    exact hng
  have hunion : cs n.name = child_clades cs n := by
    rw [hA n hn hng']
    simp [own_clade, htip]
  refine ⟨hunion, (hD n hn _ (le_refl _)).symm, ?_⟩
  obtain ⟨above, habove⟩ := hvals n (List.mem_reverse.mpr hn) htip hng'
  obtain ⟨hmem, hmax⟩ := pick_most_frequent_state_max (cs n.name) above (hC n hn hng')
  exact ⟨_, habove, hmem, hmax⟩

/-- Witness of C10: the scenario `((t1:1,t2:1):1,(t3:1,t4:1):1)`, tip states
`(A, A, B, B)`, position `0`. -/
theorem find_parsimony_by_position_spec_witness :
    (∃ cs sa', clade_states_by_position parsimonyAlignment 0 = some cs ∧
      find_parsimony_by_position parsimonyAlignment 0 = some sa' ∧
      ∀ n ∈ parsimonyAlignment.tree, n.isTip = false → sa'.gap_at n.name 0 = some false →
        cs n.name = child_clades cs n ∧
        cs n.name = tip_states_below parsimonyAlignment 0 parsimonyAlignment.tree.length n.name ∧
        ∃ s, sa'.state_at n.name 0 = some s ∧ s ∈ cs n.name ∧
          ∀ x, (cs n.name).count x ≤ (cs n.name).count s) ∧
    (find_parsimony_by_position parsimonyAlignment 0).map
        (fun sa' => (sa'.state_at "p12" 0, sa'.state_at "p34" 0, sa'.state_at "root" 0))
      = some (some 0, some 1, some 0) :=
  find_parsimony_by_position_spec parsimonyAlignment 0 (by decide) (by decide) (by decide)
    (by decide) (by decide) (by decide)

/-! ## Values and rate vectors -/

/-- The total accumulated by `refresh` is the sum of the values read. -/
theorem foldl_getValue_eq_sum (getValue : String → ℚ) (l : List String) (z : ℚ) :
    l.foldl (fun total it => total + getValue it) z = z + (l.map getValue).sum := by
  induction l generalizing z with
  | nil => simp
  | cons a l ih =>
    rw [List.foldl_cons, ih, List.map_cons, List.sum_cons]
    ring

/-- What `refresh` does to an object: the new value is `u` minus the sum of the values of
the registered rates; the exception is raised exactly when that is outside `[0, 1]`. -/
theorem refresh_spec (v : VirtualSubstitutionRate) (getValue : String → ℚ) :
    (v.refresh getValue).2.value = v.u - (v.dependent_rates.map getValue).sum ∧
      ((v.refresh getValue).1
          = Except.error (Halt.OutOfBoundsException "VirtualSubstitutionRate out of bounds.") ↔
        (v.u - (v.dependent_rates.map getValue).sum < 0 ∨
          v.u - (v.dependent_rates.map getValue).sum > 1)) ∧
      ((v.refresh getValue).1 = Except.ok () ↔
        ¬ (v.u - (v.dependent_rates.map getValue).sum < 0 ∨
          v.u - (v.dependent_rates.map getValue).sum > 1)) := by
  unfold VirtualSubstitutionRate.refresh
  simp only [foldl_getValue_eq_sum, zero_add]
  by_cases h : v.u - (v.dependent_rates.map getValue).sum < 0 ∨
      v.u - (v.dependent_rates.map getValue).sum > 1
  · rw [if_pos h]
    exact ⟨rfl, ⟨fun _ => h, fun _ => rfl⟩, ⟨fun h' => Except.noConfusion h', fun h' => absurd h h'⟩⟩
  · rw [if_neg h]
    exact ⟨rfl, ⟨fun h' => Except.noConfusion h', fun h' => absurd h' h⟩, ⟨fun _ => h, fun _ => rfl⟩⟩

/-- The rates registered after a series of `add_rate` calls are those registered before
followed by the rates added. -/
theorem add_rate_dependent_rates (v : VirtualSubstitutionRate) (rs : List String) :
    (rs.foldl VirtualSubstitutionRate.add_rate v).dependent_rates = v.dependent_rates ++ rs ∧
      (rs.foldl VirtualSubstitutionRate.add_rate v).u = v.u := by
  induction rs generalizing v with
  | nil => simp
  | cons r rs ih =>
    rw [List.foldl_cons]
    obtain ⟨h1, h2⟩ := ih (v.add_rate r)
    rw [h1, h2]
    simp [VirtualSubstitutionRate.add_rate, VirtualSubstitutionRate.add_dependancy]

/-- In the exact arithmetic: after the rates `rs` are registered with `add_rate`,
`refresh` sets the value
to `u` minus the sum of the current values of the registered rates, and it raises
`OutOfBoundsException` if and only if that result is below `0` or above `1`. With
`u = 3/10` and three rates of value `1/20` the value is `3/20` and nothing is raised;
with one of them at `2/5` the exception is raised. -/
theorem refresh_value_and_bounds (v : VirtualSubstitutionRate) (rs : List String)
    (getValue : String → ℚ) :
    ((rs.foldl VirtualSubstitutionRate.add_rate v).refresh getValue).2.value
        = v.u - ((v.dependent_rates ++ rs).map getValue).sum ∧
      (((rs.foldl VirtualSubstitutionRate.add_rate v).refresh getValue).1
          = Except.error (Halt.OutOfBoundsException "VirtualSubstitutionRate out of bounds.") ↔
        (v.u - ((v.dependent_rates ++ rs).map getValue).sum < 0 ∨
          v.u - ((v.dependent_rates ++ rs).map getValue).sum > 1)) ∧
      (((rs.foldl VirtualSubstitutionRate.add_rate v).refresh getValue).1 = Except.ok () ↔
        ¬ (v.u - ((v.dependent_rates ++ rs).map getValue).sum < 0 ∨
          v.u - ((v.dependent_rates ++ rs).map getValue).sum > 1)) ∧
      ((["b", "c", "d"].foldl VirtualSubstitutionRate.add_rate
          (VirtualSubstitutionRate.construct "a" (3 / 10) 0)).refresh (fun _ => 1 / 20)).2.value
        = 3 / 20 ∧
      ((["b", "c", "d"].foldl VirtualSubstitutionRate.add_rate
          (VirtualSubstitutionRate.construct "a" (3 / 10) 0)).refresh (fun _ => 1 / 20)).1
        = Except.ok () ∧
      ((["b", "c", "d"].foldl VirtualSubstitutionRate.add_rate
          (VirtualSubstitutionRate.construct "a" (3 / 10) 0)).refresh
            (fun nm => if nm = "c" then 2 / 5 else 1 / 20)).1
        = Except.error (Halt.OutOfBoundsException "VirtualSubstitutionRate out of bounds.") := by
  have hgen : ∀ (v : VirtualSubstitutionRate) (rs : List String) (getValue : String → ℚ),
      ((rs.foldl VirtualSubstitutionRate.add_rate v).refresh getValue).2.value
          = v.u - ((v.dependent_rates ++ rs).map getValue).sum ∧
        (((rs.foldl VirtualSubstitutionRate.add_rate v).refresh getValue).1
            = Except.error (Halt.OutOfBoundsException "VirtualSubstitutionRate out of bounds.") ↔
          (v.u - ((v.dependent_rates ++ rs).map getValue).sum < 0 ∨
            v.u - ((v.dependent_rates ++ rs).map getValue).sum > 1)) ∧
        (((rs.foldl VirtualSubstitutionRate.add_rate v).refresh getValue).1 = Except.ok () ↔
          ¬ (v.u - ((v.dependent_rates ++ rs).map getValue).sum < 0 ∨
            v.u - ((v.dependent_rates ++ rs).map getValue).sum > 1)) := by
    intro v rs getValue
    obtain ⟨hd, hu⟩ := add_rate_dependent_rates v rs
    have h := refresh_spec (rs.foldl VirtualSubstitutionRate.add_rate v) getValue
    rw [hd, hu] at h
    exact h
  obtain ⟨h1, h2, h3⟩ := hgen v rs getValue
  refine ⟨h1, h2, h3, ?_, ?_, ?_⟩
  · rw [(hgen _ _ _).1]
    norm_num [VirtualSubstitutionRate.construct]
  · rw [(hgen _ _ _).2.2]
    norm_num [VirtualSubstitutionRate.construct]
  · rw [(hgen _ _ _).2.1]
    have hb : ¬ "b" = "c" := by decide
    have hd : ¬ "d" = "c" := by decide
    norm_num [VirtualSubstitutionRate.construct, hb, hd]

/-- The loop of `create_parameters` after `k` rounds: one cell per round, the virtual
rate in the round of the ancestral state and a fresh `ContinuousFloat` in the others;
the rates registered with the virtual rate and its `u` are untouched. -/
theorem create_parameters_loop (rv : RateVector) (unifp : VirtualSubstitutionRate) (k : Nat) :
    ((List.range k).foldl create_parameters_round (rv, unifp)).1.rates
        = rv.rates ++ (List.range k).map (fun (i : Nat) =>
            if (i : Int) = rv.state then AbstractValue.virtual_rate unifp.name
            else AbstractValue.continuous_float
              { name := rv.name ++ "-" ++ toString i, a := 1 / 10, b := 3 / 10 }) ∧
      ((List.range k).foldl create_parameters_round (rv, unifp)).1.name = rv.name ∧
      ((List.range k).foldl create_parameters_round (rv, unifp)).1.state = rv.state ∧
      ((List.range k).foldl create_parameters_round (rv, unifp)).2.name = unifp.name ∧
      ((List.range k).foldl create_parameters_round (rv, unifp)).2.u = unifp.u ∧
      ((List.range k).foldl create_parameters_round (rv, unifp)).2.dependent_rates
        = unifp.dependent_rates := by
  induction k with
  | zero => simp
  | succ k ih =>
    obtain ⟨h1, h2, h3, h4, h5, h6⟩ := ih
    rw [List.range_succ, List.foldl_append, List.foldl_cons, List.foldl_nil]
    by_cases hk : (k : Int) = rv.state
    · simp [create_parameters_round, h1, h2, h3, h4, h5, h6, hk]
    · simp [create_parameters_round, h1, h2, h3, h4, h5, h6, hk,
        VirtualSubstitutionRate.add_dependancy]

/-- C12: for `0 ≤ s < n`, the vector that `RateVector(name, n, s, u)` fills has exactly
`n` cells, the cell at index `s` is the virtual substitution rate, every other cell is a
`ContinuousFloat` parameter of its own, and no other index holds a virtual rate; the
constructor returns this vector exactly when `0 ≤ u ≤ 1` (its final `refresh` raises
otherwise). -/
theorem create_parameters_cells (name : String) (n s : Int) (u indeterminate : ℚ)
    (getValue : String → ℚ) (hs0 : 0 ≤ s) (hsn : s < n) :
    (((RateVector.create_parameters
        { name := name, size := n, state := s, rates := [] } n u indeterminate getValue).2.1.rates.length : Int) = n ∧
      (RateVector.create_parameters
        { name := name, size := n, state := s, rates := [] } n u indeterminate getValue).2.1.rates[Int.toNat s]? = some (AbstractValue.virtual_rate (name ++ "-virtual")) ∧
      (∀ i : Nat, (i : Int) < n → (i : Int) ≠ s →
        (RateVector.create_parameters
        { name := name, size := n, state := s, rates := [] } n u indeterminate getValue).2.1.rates[i]? = some (AbstractValue.continuous_float
          { name := name ++ "-" ++ toString i, a := 1 / 10, b := 3 / 10 })) ∧
      (∀ (i : Nat) (nm : String),
        (RateVector.create_parameters
        { name := name, size := n, state := s, rates := [] } n u indeterminate getValue).2.1.rates[i]? = some (AbstractValue.virtual_rate nm) → (i : Int) = s) ∧
      (RateVector.construct name n s u indeterminate getValue = Except.ok (RateVector.create_parameters
        { name := name, size := n, state := s, rates := [] } n u indeterminate getValue).2.1 ↔ 0 ≤ u ∧ u ≤ 1)) := by
  obtain ⟨h1, _, _, _, h5, h6⟩ := create_parameters_loop
    { name := name, size := n, state := s, rates := [] }
    (VirtualSubstitutionRate.construct (name ++ "-virtual") u indeterminate) n.toNat
  have hrates : (RateVector.create_parameters
      { name := name, size := n, state := s, rates := [] } n u indeterminate getValue).2.1.rates
      = (List.range n.toNat).map (fun (i : Nat) =>
          if (i : Int) = s then AbstractValue.virtual_rate (name ++ "-virtual")
          else AbstractValue.continuous_float
            { name := name ++ "-" ++ toString i, a := 1 / 10, b := 3 / 10 }) := by
    simp only [RateVector.create_parameters, h1]
    simp [VirtualSubstitutionRate.construct]
  have hget : ∀ i : Nat, (i : Int) < n →
      (RateVector.create_parameters
        { name := name, size := n, state := s, rates := [] } n u indeterminate getValue).2.1.rates[i]?
        = some (if (i : Int) = s then AbstractValue.virtual_rate (name ++ "-virtual")
          else AbstractValue.continuous_float
            { name := name ++ "-" ++ toString i, a := 1 / 10, b := 3 / 10 }) := by
    intro i hi
    have hlt : i < n.toNat := by omega
    rw [hrates, List.getElem?_map, List.getElem?_range hlt]
    rfl
  refine ⟨?_, ?_, ?_, ?_, ?_⟩
  · rw [hrates, List.length_map, List.length_range]
    omega
  · have := hget s.toNat (by omega)
    rw [this, if_pos (by omega)]
  · intro i hi hne
    rw [hget i hi, if_neg hne]
  · intro i nm h
    by_contra hne
    by_cases hi : (i : Int) < n
    · rw [hget i hi, if_neg hne] at h
      cases h
    · rw [hrates, List.getElem?_eq_none (by rw [List.length_map, List.length_range]; omega)] at h
      cases h
  · have hspec := refresh_spec ((List.range n.toNat).foldl create_parameters_round
      ({ name := name, size := n, state := s, rates := [] },
        VirtualSubstitutionRate.construct (name ++ "-virtual") u indeterminate)).2 getValue
    have hu' : (VirtualSubstitutionRate.construct (name ++ "-virtual") u indeterminate).u = u :=
      rfl
    have hd' : (VirtualSubstitutionRate.construct (name ++ "-virtual") u
        indeterminate).dependent_rates = [] := rfl
    rw [h5, h6, hu', hd'] at hspec
    simp only [List.map_nil, List.sum_nil, sub_zero] at hspec
    obtain ⟨_, herr, hok⟩ := hspec
    simp only [RateVector.construct, RateVector.create_parameters]
    by_cases hu : u < 0 ∨ u > 1
    · rw [herr.mpr hu]
      constructor
      · intro h
        cases h
      · intro h
        rcases hu with h' | h'
        · exact absurd h.1 (not_le.mpr h')
        · exact absurd h.2 (not_le.mpr h')
    · rw [hok.mpr hu]
      constructor
      · intro _
        constructor
        · by_contra h
          exact hu (Or.inl (not_le.mp h))
        · by_contra h
          exact hu (Or.inr (not_le.mp h))
      · intro _
        rfl

/-- Witness of C12: four cells, ancestral state `1`, `u = 3/10`. -/
theorem create_parameters_cells_witness :
    (((RateVector.create_parameters
        { name := "rv", size := 4, state := 1, rates := [] } 4 ((3 : ℚ) / 10) 0 (fun _ => 1 / 10)).2.1.rates.length : Int) = 4 ∧
      (RateVector.create_parameters
        { name := "rv", size := 4, state := 1, rates := [] } 4 ((3 : ℚ) / 10) 0 (fun _ => 1 / 10)).2.1.rates[Int.toNat 1]? = some (AbstractValue.virtual_rate ("rv" ++ "-virtual")) ∧
      (∀ i : Nat, (i : Int) < 4 → (i : Int) ≠ 1 →
        (RateVector.create_parameters
        { name := "rv", size := 4, state := 1, rates := [] } 4 ((3 : ℚ) / 10) 0 (fun _ => 1 / 10)).2.1.rates[i]? = some (AbstractValue.continuous_float
          { name := "rv" ++ "-" ++ toString i, a := 1 / 10, b := 3 / 10 })) ∧
      (∀ (i : Nat) (nm : String),
        (RateVector.create_parameters
        { name := "rv", size := 4, state := 1, rates := [] } 4 ((3 : ℚ) / 10) 0 (fun _ => 1 / 10)).2.1.rates[i]? = some (AbstractValue.virtual_rate nm) → (i : Int) = 1) ∧
      (RateVector.construct "rv" 4 1 ((3 : ℚ) / 10) 0 (fun _ => 1 / 10) = Except.ok (RateVector.create_parameters
        { name := "rv", size := 4, state := 1, rates := [] } 4 ((3 : ℚ) / 10) 0 (fun _ => 1 / 10)).2.1 ↔ 0 ≤ ((3 : ℚ) / 10) ∧ ((3 : ℚ) / 10) ≤ 1)) :=
  create_parameters_cells "rv" 4 1 ((3 : ℚ) / 10) 0 (fun _ => 1 / 10) (by decide) (by decide)

/-! ## Encoding and decoding of states -/

/-- The one-character string of a character is `"-"` exactly for the gap character. -/
theorem singleton_eq_gap (ch : Char) : String.singleton ch = "-" ↔ ch = '-' := by
  constructor
  · intro h
    have := congrArg String.data h
    simpa [String.singleton] using this
  · intro h
    rw [h]
    rfl

/-- The encoding loop on characters that are all registered or gaps: it returns a list
of the same length, holding at each index the code of the character there, or `-1` for
an unregistered gap character. -/
theorem encode_states_ok (e : String → Option state_element) (l : List Char)
    (h : ∀ ch ∈ l, (e (String.singleton ch)).isSome = true ∨ ch = '-') :
    ∃ enc, encode_states e l = Except.ok enc ∧ enc.length = l.length ∧
      ∀ (i : Nat) (hi : i < l.length),
        enc[i]? = some ((e (String.singleton (l.get ⟨i, hi⟩))).getD (-1)) := by
  induction l with
  | nil => exact ⟨[], rfl, rfl, fun i hi => absurd hi (Nat.not_lt_zero i)⟩
  | cons ch rest ih =>
    obtain ⟨enc, henc, hlen, hget⟩ := ih (fun c hc => h c (List.mem_cons_of_mem _ hc))
    have hhead : ∃ c, encode_states e (ch :: rest) = Except.ok (c :: enc) ∧
        c = (e (String.singleton ch)).getD (-1) := by
      cases hc : e (String.singleton ch) with
      | some c =>
        exact ⟨c, by simp only [encode_states, hc, henc]; rfl, rfl⟩
      | none =>
        have hgap : ch = '-' := by
          rcases h ch (List.mem_cons_self _ _) with h' | h'
          · rw [hc] at h'
            cases h'
          · exact h'
        have hs : String.singleton ch = "-" := (singleton_eq_gap ch).mpr hgap
        have hc' : e "-" = none := hs ▸ hc
        exact ⟨-1, by simp only [encode_states, hs, hc', if_true, henc]; rfl, rfl⟩
    obtain ⟨c, hrun, hc⟩ := hhead
    refine ⟨c :: enc, hrun, by simp [hlen], ?_⟩
    intro i hi
    cases i with
    | zero => simp [hc]
    | succ i =>
      have hi' : i < rest.length := by simpa using hi
      simpa using hget i hi'

/-- The encoding loop on a list with a character that is neither registered nor the gap
character: the program ends with failure. -/
theorem encode_states_exit (e : String → Option state_element) (l : List Char)
    (h : ∃ ch ∈ l, e (String.singleton ch) = none ∧ ch ≠ '-') :
    encode_states e l = Except.error Halt.exit_failure := by
  induction l with
  | nil =>
    obtain ⟨ch, hch, _⟩ := h
    cases hch
  | cons ch rest ih =>
    obtain ⟨bad, hbad, hnone, hne⟩ := h
    have hrest : bad ≠ ch → encode_states e rest = Except.error Halt.exit_failure := by
      intro hbc
      rcases List.mem_cons.mp hbad with h' | h'
      · exact absurd h' hbc
      · exact ih ⟨bad, h', hnone, hne⟩
    cases hc : e (String.singleton ch) with
    | some c =>
      have hbc : bad ≠ ch := by
        intro h'
        rw [h', hc] at hnone
        cases hnone
      simp only [encode_states, hc, hrest hbc]
      rfl
    | none =>
      by_cases hs : String.singleton ch = "-"
      · have hbc : bad ≠ ch := by
          intro h'
          exact hne (h' ▸ (singleton_eq_gap ch).mp hs)
        have hc' : e "-" = none := hs ▸ hc
        simp only [encode_states, hs, hc', if_true, hrest hbc]
        rfl
      · simp only [encode_states, hc, hs, if_false]

/-- C13: when every character of the input is a registered symbol or the gap character,
`encode_sequence` returns a list as long as the input that holds, at each index, the
code of the character there or `-1` for a gap character that is not registered; when
some character is neither, the program ends with failure. -/
theorem encode_sequence_spec (sa : SequenceAlignment) (x : String) :
    ((∀ ch ∈ x.data, (sa.state_element_encode (String.singleton ch)).isSome = true ∨ ch = '-') →
      ∃ enc, encode_sequence sa x = Except.ok enc ∧ enc.length = x.length ∧
        ∀ (i : Nat) (hi : i < x.data.length),
          enc[i]? = some
            ((sa.state_element_encode (String.singleton (x.data.get ⟨i, hi⟩))).getD (-1))) ∧
    ((∃ ch ∈ x.data, sa.state_element_encode (String.singleton ch) = none ∧ ch ≠ '-') →
      encode_sequence sa x = Except.error Halt.exit_failure) := by
  constructor
  · intro h
    obtain ⟨enc, h1, h2, h3⟩ := encode_states_ok sa.state_element_encode x.data h
    exact ⟨enc, h1, h2, h3⟩
  · intro h
    exact encode_states_exit sa.state_element_encode x.data h

/-- Decoding what the encoding loop returns for registered characters, when the decode
table inverts the encode table: the characters are appended to what was decoded
before. -/
theorem decode_encode_states (sa : SequenceAlignment)
    (hinv : ∀ sym c, sa.state_element_encode sym = some c → sa.state_element_decode c = some sym)
    (l : List Char) :
    (∀ ch ∈ l, (sa.state_element_encode (String.singleton ch)).isSome = true) →
      ∃ enc, encode_states sa.state_element_encode l = Except.ok enc ∧
        ∀ acc : String,
          (enc.foldl (fun decoded_sequence element =>
            decoded_sequence ++ decode_state_element sa element) acc).data = acc.data ++ l := by
  induction l with
  | nil =>
    intro _
    exact ⟨[], rfl, fun acc => by simp⟩
  | cons ch rest ih =>
    intro h
    obtain ⟨enc, henc, hdec⟩ := ih (fun c hc => h c (List.mem_cons_of_mem _ hc))
    obtain ⟨c, hc⟩ := Option.isSome_iff_exists.mp (h ch (List.mem_cons_self _ _))
    refine ⟨c :: enc, by simp only [encode_states, hc, henc]; rfl, ?_⟩
    intro acc
    rw [List.foldl_cons, hdec]
    simp [decode_state_element, hinv _ _ hc, String.singleton]

/-- C14: when the decode table is the inverse of the encode table and the codes
`0 .. N-1` are its keys, decoding the encoding of a string of registered symbols gives
the string back, and encoding the decoded symbol of a code `i` in `0 .. N-1` gives `i`
back (with the table, and with `encode_sequence` when the symbol is one character). -/
theorem decode_encode_round_trip (sa : SequenceAlignment)
    (hinv₁ : ∀ sym c, sa.state_element_encode sym = some c →
      sa.state_element_decode c = some sym)
    (hinv₂ : ∀ c sym, sa.state_element_decode c = some sym →
      sa.state_element_encode sym = some c)
    (hkeys : ∀ i : Int, 0 ≤ i → i < sa.n_states → (sa.state_element_decode i).isSome = true) :
    ((∀ x : String, (∀ ch ∈ x.data, (sa.state_element_encode (String.singleton ch)).isSome = true) →
        ∃ enc, encode_sequence sa x = Except.ok enc ∧
          decode_state_element_sequence sa enc = x) ∧
      (∀ i : Int, 0 ≤ i → i < sa.n_states →
        sa.state_element_encode (decode_state_element sa i) = some i) ∧
      (∀ (i : Int) (ch : Char), 0 ≤ i → i < sa.n_states →
        decode_state_element sa i = String.singleton ch →
        encode_sequence sa (decode_state_element sa i) = Except.ok [i])) := by
  have hsym : ∀ i : Int, 0 ≤ i → i < sa.n_states →
      sa.state_element_encode (decode_state_element sa i) = some i := by
    intro i h0 hN
    obtain ⟨sym, hs⟩ := Option.isSome_iff_exists.mp (hkeys i h0 hN)
    simp only [decode_state_element, hs, Option.getD_some]
    exact hinv₂ i sym hs
  refine ⟨?_, hsym, ?_⟩
  · intro x hx
    obtain ⟨enc, henc, hdec⟩ := decode_encode_states sa hinv₁ x.data hx
    refine ⟨enc, henc, ?_⟩
    apply String.ext
    have := hdec ""
    simpa [decode_state_element_sequence] using this
  · intro i ch h0 hN hch
    have := hsym i h0 hN
    rw [hch] at this ⊢
    have hrun : encode_sequence sa (String.singleton ch)
        = encode_states sa.state_element_encode [ch] := rfl
    rw [hrun]
    simp only [encode_states, this]
    rfl

/-- Witness of C14 on the domain `{A, B}`. -/
theorem decode_encode_round_trip_witness :
    ((∀ x : String, (∀ ch ∈ x.data, (abAlignment.state_element_encode (String.singleton ch)).isSome = true) →
        ∃ enc, encode_sequence abAlignment x = Except.ok enc ∧
          decode_state_element_sequence abAlignment enc = x) ∧
      (∀ i : Int, 0 ≤ i → i < abAlignment.n_states →
        abAlignment.state_element_encode (decode_state_element abAlignment i) = some i) ∧
      (∀ (i : Int) (ch : Char), 0 ≤ i → i < abAlignment.n_states →
        decode_state_element abAlignment i = String.singleton ch →
        encode_sequence abAlignment (decode_state_element abAlignment i) = Except.ok [i])) :=
  decode_encode_round_trip abAlignment
    (by
      intro sym c h
      simp only [abAlignment] at h ⊢
      split_ifs at h with h1 h2
      · cases h
        simp [h1]
      · cases h
        simp [h2])
    (by
      intro c sym h
      simp only [abAlignment] at h ⊢
      split_ifs at h with h1 h2
      · cases h
        simp [h1]
      · cases h
        simp [h2])
    (by
      intro i h0 hN
      have hN' : i < 2 := hN
      have hi : i = 0 ∨ i = 1 := by omega
      rcases hi with rfl | rfl <;> rfl)

/-- C15 (as amended): for a state code that is not a key of the decode table,
`decode_state_element` returns the empty string; no failure is reported. -/
theorem decode_state_element_of_not_key (sa : SequenceAlignment) (c : state_element)
    (h : sa.state_element_decode c = none) : decode_state_element sa c = "" := by
  simp [decode_state_element, h]

/-- Witness of the amended C15: code `7` in the domain `{A, B}`. -/
theorem decode_state_element_of_not_key_witness : decode_state_element abAlignment 7 = "" :=
  decode_state_element_of_not_key abAlignment 7 (by decide)

/-- Counterexample to C15 as stated: in the domain `{A, B}` the code `7` is not a key of
the decode table, and `decode_state_element` returns for it (the empty string), so that
a sequence holding it is decoded to the end with that position left out. -/
theorem decode_state_element_unknown_returns :
    abAlignment.state_element_decode 7 = none ∧ decode_state_element abAlignment 7 = "" ∧
      decode_state_element_sequence abAlignment [0, 7, 1] = "AB" := by
  decide

/-! ## Validation of an alignment against the others -/

/-- A loop returns exactly when all its rounds do. -/
theorem for_each_ok_iff {α : Type} (l : List α) (body : α → Except Halt Unit) :
    for_each l body = Except.ok () ↔ ∀ a ∈ l, body a = Except.ok () := by
  induction l with
  | nil => simp [for_each]
  | cons a rest ih =>
    cases h : body a with
    | ok u =>
      cases u
      simp only [for_each, h, ih, List.mem_cons, forall_eq_or_imp, true_and]
    | error e =>
      simp only [for_each, h, List.mem_cons, forall_eq_or_imp]
      constructor
      · intro h'
        cases h'
      · intro h'
        cases h'.1

/-- A loop whose rounds return or end in one given way, one of them ending so, ends in
that way. -/
theorem for_each_error {α : Type} (l : List α) (body : α → Except Halt Unit) (e : Halt)
    (hall : ∀ a ∈ l, body a = Except.ok () ∨ body a = Except.error e)
    (hex : ∃ a ∈ l, body a = Except.error e) : for_each l body = Except.error e := by
  induction l with
  | nil =>
    obtain ⟨a, ha, _⟩ := hex
    cases ha
  | cons a rest ih =>
    rcases hall a (List.mem_cons_self _ _) with h | h
    · simp only [for_each, h]
      apply ih (fun b hb => hall b (List.mem_cons_of_mem _ hb))
      obtain ⟨b, hb, hbe⟩ := hex
      rcases List.mem_cons.mp hb with rfl | hb'
      · rw [h] at hbe
        cases hbe
      · exact ⟨b, hb', hbe⟩
    · simp only [for_each, h]

/-- A loop whose rounds return or end in one given way returns or ends in that way. -/
theorem for_each_ok_or_error {α : Type} (l : List α) (body : α → Except Halt Unit) (e : Halt)
    (hall : ∀ a ∈ l, body a = Except.ok () ∨ body a = Except.error e) :
    for_each l body = Except.ok () ∨ for_each l body = Except.error e := by
  by_cases h : ∀ a ∈ l, body a = Except.ok ()
  · exact Or.inl ((for_each_ok_iff l body).mpr h)
  · right
    apply for_each_error l body e hall
    by_contra hne
    apply h
    intro a ha
    rcases hall a ha with h' | h'
    · exact h'
    · exact absurd ⟨a, ha, h'⟩ hne

/-- The comparison of two flags returns exactly when both are there and equal. -/
theorem validate_gap_ok_iff (gaps alt_gaps : List Bool) (i : Nat) :
    validate_gap gaps alt_gaps i = Except.ok () ↔
      ∃ g, gaps[i]? = some g ∧ alt_gaps[i]? = some g := by
  unfold validate_gap
  cases h1 : gaps[i]? with
  | none => simp
  | some a =>
    cases h2 : alt_gaps[i]? with
    | none => simp
    | some b =>
      by_cases hab : a = b
      · simp [hab]
      · have hba : ¬ b = a := fun h => hab h.symm
        simp [hab, hba]

/-- C17: `validate` returns only `true`, and only if every name of the tree has a
sequence in this alignment and, for every other alignment and every such name, the two
gap masks hold equal flags at every position below `n_columns`. If a name has no
sequence the program ends with failure; so it does if all names have one, the other
alignments have the same `n_columns` and masks of at least that length, and some flag
differs. If all names have one, the other alignments have the same `n_columns` and all
the flags are equal, it does return `true`. -/
theorem validate_spec (sa : SequenceAlignment) (seq_names_on_tree : List String)
    (other_alignments : List (String × SequenceAlignment)) :
    (∀ b, validate sa seq_names_on_tree other_alignments = Except.ok b →
      b = true ∧
      (∀ n ∈ seq_names_on_tree, (sa.taxa_names_to_sequences n).isSome = true) ∧
      (∀ it ∈ other_alignments, ∀ n ∈ seq_names_on_tree, ∀ i, i < sa.n_columns →
        ∃ g, sa.gap_at n i = some g ∧ it.2.gap_at n i = some g)) ∧
    ((∃ n ∈ seq_names_on_tree, sa.taxa_names_to_sequences n = none) →
      validate sa seq_names_on_tree other_alignments = Except.error Halt.exit_failure) ∧
    ((∀ n ∈ seq_names_on_tree, (sa.taxa_names_to_sequences n).isSome = true) →
      (∀ it ∈ other_alignments, it.2.n_columns = sa.n_columns ∧
        ∀ n ∈ seq_names_on_tree, sa.n_columns ≤ (sa.taxa_names_to_gaps n).length ∧
          sa.n_columns ≤ (it.2.taxa_names_to_gaps n).length) →
      (∃ it ∈ other_alignments, ∃ n ∈ seq_names_on_tree, ∃ i, i < sa.n_columns ∧
        sa.gap_at n i ≠ it.2.gap_at n i) →
      validate sa seq_names_on_tree other_alignments = Except.error Halt.exit_failure) ∧
    ((∀ n ∈ seq_names_on_tree, (sa.taxa_names_to_sequences n).isSome = true) →
      (∀ it ∈ other_alignments, it.2.n_columns = sa.n_columns ∧
        ∀ n ∈ seq_names_on_tree, ∀ i, i < sa.n_columns →
          ∃ g, sa.gap_at n i = some g ∧ it.2.gap_at n i = some g) →
      validate sa seq_names_on_tree other_alignments = Except.ok true) := by
  have hrun : validate sa seq_names_on_tree other_alignments
      = (for_each seq_names_on_tree (fun n =>
          if sa.taxa_names_to_sequences n = none then Except.error Halt.exit_failure
          else Except.ok ())).bind (fun _ =>
        (for_each other_alignments (fun it =>
          if sa.n_columns ≠ it.2.n_columns then Except.error Halt.assertion_failed
          else
            for_each seq_names_on_tree (fun n =>
              for_each (List.range sa.n_columns) (fun i =>
                validate_gap (sa.taxa_names_to_gaps n) (it.2.taxa_names_to_gaps n) i)))).bind
          (fun _ => Except.ok true)) := rfl
  refine ⟨?_, ?_, ?_, ?_⟩
  · intro b hb
    rw [hrun] at hb
    cases h1 : for_each seq_names_on_tree (fun n =>
        if sa.taxa_names_to_sequences n = none then Except.error Halt.exit_failure
        else Except.ok ()) with
    | error e =>
      rw [h1] at hb
      cases hb
    | ok u =>
      cases u
      rw [h1] at hb
      cases h2 : for_each other_alignments (fun it =>
          if sa.n_columns ≠ it.2.n_columns then Except.error Halt.assertion_failed
          else
            for_each seq_names_on_tree (fun n =>
              for_each (List.range sa.n_columns) (fun i =>
                validate_gap (sa.taxa_names_to_gaps n) (it.2.taxa_names_to_gaps n) i))) with
      | error e =>
        simp only [Except.bind, h2] at hb
        cases hb
      | ok u =>
        cases u
        simp only [Except.bind, h2] at hb
        refine ⟨(Except.ok.inj hb).symm, ?_, ?_⟩
        · intro n hn
          have := (for_each_ok_iff _ _).mp h1 n hn
          by_cases hnone : sa.taxa_names_to_sequences n = none
          · simp [hnone] at this
          · exact Option.isSome_iff_ne_none.mpr hnone
        · intro it hit n hn i hi
          have h3 := (for_each_ok_iff _ _).mp h2 it hit
          by_cases hcol : sa.n_columns ≠ it.2.n_columns
          · simp [hcol] at h3
          · simp only [hcol, if_false] at h3
            have h4 := (for_each_ok_iff _ _).mp h3 n hn
            have h5 := (for_each_ok_iff _ _).mp h4 i (List.mem_range.mpr hi)
            exact (validate_gap_ok_iff _ _ _).mp h5
  · intro hmiss
    rw [hrun]
    rw [for_each_error seq_names_on_tree _ Halt.exit_failure ?_ ?_]
    · rfl
    · intro n _
      by_cases hnone : sa.taxa_names_to_sequences n = none
      · exact Or.inr (by simp [hnone])
      · exact Or.inl (by simp [hnone])
    · obtain ⟨n, hn, hnone⟩ := hmiss
      exact ⟨n, hn, by simp [hnone]⟩
  · intro hpresent hshape hdiff
    rw [hrun]
    have h1 : for_each seq_names_on_tree (fun n =>
        if sa.taxa_names_to_sequences n = none then Except.error Halt.exit_failure
        else Except.ok ()) = Except.ok () := by
      apply (for_each_ok_iff _ _).mpr
      intro n hn
      have := hpresent n hn
      have hne : sa.taxa_names_to_sequences n ≠ none := Option.isSome_iff_ne_none.mp this
      simp [hne]
    have hcell : ∀ it ∈ other_alignments, ∀ n ∈ seq_names_on_tree, ∀ i ∈ List.range sa.n_columns,
        validate_gap (sa.taxa_names_to_gaps n) (it.2.taxa_names_to_gaps n) i = Except.ok () ∨
        validate_gap (sa.taxa_names_to_gaps n) (it.2.taxa_names_to_gaps n) i
          = Except.error Halt.exit_failure := by
      intro it hit n hn i hi
      have hi' := List.mem_range.mp hi
      obtain ⟨hl1, hl2⟩ := (hshape it hit).2 n hn
      have ha := getElem?_eq_some_getD (sa.taxa_names_to_gaps n) i (by omega)
      have hb := getElem?_eq_some_getD (it.2.taxa_names_to_gaps n) i (by omega)
      unfold validate_gap
      rw [ha, hb]
      simp only
      split_ifs
      · exact Or.inr rfl
      · exact Or.inl rfl
    have hname : ∀ it ∈ other_alignments, ∀ n ∈ seq_names_on_tree,
        for_each (List.range sa.n_columns) (fun i =>
          validate_gap (sa.taxa_names_to_gaps n) (it.2.taxa_names_to_gaps n) i) = Except.ok () ∨
        for_each (List.range sa.n_columns) (fun i =>
          validate_gap (sa.taxa_names_to_gaps n) (it.2.taxa_names_to_gaps n) i)
          = Except.error Halt.exit_failure := by
      intro it hit n hn
      exact for_each_ok_or_error _ _ _ (hcell it hit n hn)
    have hbody : ∀ it ∈ other_alignments,
        (if sa.n_columns ≠ it.2.n_columns then Except.error Halt.assertion_failed
          else
            for_each seq_names_on_tree (fun n =>
              for_each (List.range sa.n_columns) (fun i =>
                validate_gap (sa.taxa_names_to_gaps n) (it.2.taxa_names_to_gaps n) i)))
          = for_each seq_names_on_tree (fun n =>
              for_each (List.range sa.n_columns) (fun i =>
                validate_gap (sa.taxa_names_to_gaps n) (it.2.taxa_names_to_gaps n) i)) := by
      intro it hit
      have : ¬ sa.n_columns ≠ it.2.n_columns := by
        rw [(hshape it hit).1]
        simp
      rw [if_neg this]
    have h2 : for_each other_alignments (fun it =>
        if sa.n_columns ≠ it.2.n_columns then Except.error Halt.assertion_failed
        else
          for_each seq_names_on_tree (fun n =>
            for_each (List.range sa.n_columns) (fun i =>
              validate_gap (sa.taxa_names_to_gaps n) (it.2.taxa_names_to_gaps n) i)))
        = Except.error Halt.exit_failure := by
      apply for_each_error
      · intro it hit
        rw [hbody it hit]
        exact for_each_ok_or_error _ _ _ (hname it hit)
      · obtain ⟨it, hit, n, hn, i, hi, hne⟩ := hdiff
        refine ⟨it, hit, ?_⟩
        rw [hbody it hit]
        apply for_each_error _ _ _ (hname it hit)
        refine ⟨n, hn, ?_⟩
        apply for_each_error _ _ _ (hcell it hit n hn)
        refine ⟨i, List.mem_range.mpr hi, ?_⟩
        rcases hcell it hit n hn i (List.mem_range.mpr hi) with h | h
        · obtain ⟨g, hg1, hg2⟩ := (validate_gap_ok_iff _ _ _).mp h
          exact absurd (hg1.trans hg2.symm) hne
        · exact h
    rw [h1, h2]
    rfl
  · intro hpresent hagree
    rw [hrun]
    have h1 : for_each seq_names_on_tree (fun n =>
        if sa.taxa_names_to_sequences n = none then Except.error Halt.exit_failure
        else Except.ok ()) = Except.ok () := by
      apply (for_each_ok_iff _ _).mpr
      intro n hn
      have hne : sa.taxa_names_to_sequences n ≠ none :=
        Option.isSome_iff_ne_none.mp (hpresent n hn)
      simp [hne]
    have h2 : for_each other_alignments (fun it =>
        if sa.n_columns ≠ it.2.n_columns then Except.error Halt.assertion_failed
        else
          for_each seq_names_on_tree (fun n =>
            for_each (List.range sa.n_columns) (fun i =>
              validate_gap (sa.taxa_names_to_gaps n) (it.2.taxa_names_to_gaps n) i)))
        = Except.ok () := by
      apply (for_each_ok_iff _ _).mpr
      intro it hit
      have hcol : ¬ sa.n_columns ≠ it.2.n_columns := by
        rw [(hagree it hit).1]
        simp
      rw [if_neg hcol]
      apply (for_each_ok_iff _ _).mpr
      intro n hn
      apply (for_each_ok_iff _ _).mpr
      intro i hi
      exact (validate_gap_ok_iff _ _ _).mpr ((hagree it hit).2 n hn i (List.mem_range.mp hi))
    rw [h1, h2]
    rfl

/-! ## Picking states -/

/-- An index below `128` is its own `state_element`. -/
theorem to_state_element_of_lt (i : Nat) (h : i < 128) : to_state_element i = (i : Int) := by
  have h1 : i % 256 = i := Nat.mod_eq_of_lt (by omega)
  simp [to_state_element, h1, h]

/-- The loop of `pick_state_from_probabilities` after `k` rounds: only the marginal
matrix of the alignment has changed, and the selected state is still `-1` or is the
`state_element` of an index below `k`. -/
theorem pick_state_loop_spec (sa : SequenceAlignment) (name : String) (pos : Nat) (r : ℚ)
    (k : Nat) :
    ((List.range k).foldl (pick_state_round name pos r) (0, -1, sa)).2.2
        = { sa with marginal_state_distribution :=
            ((List.range k).foldl (pick_state_round name pos r)
              (0, -1, sa)).2.2.marginal_state_distribution } ∧
      (((List.range k).foldl (pick_state_round name pos r) (0, -1, sa)).2.1 = -1 ∨
        ∃ i, i < k ∧
          ((List.range k).foldl (pick_state_round name pos r) (0, -1, sa)).2.1
            = to_state_element i) := by
  induction k with
  | zero => exact ⟨rfl, Or.inl rfl⟩
  | succ k ih =>
    obtain ⟨h1, h2⟩ := ih
    rw [List.range_succ, List.foldl_append, List.foldl_cons, List.foldl_nil]
    generalize (List.range k).foldl (pick_state_round name pos r) (0, -1, sa) = st at h1 h2 ⊢
    obtain ⟨acc, sel, sa₁⟩ := st
    simp only at h1 h2
    unfold pick_state_round
    simp only
    split_ifs with hc
    · refine ⟨?_, Or.inr ⟨k, Nat.lt_succ_self k, rfl⟩⟩
      simp only [SequenceAlignment.set_marginal]
      rw [h1]
    · refine ⟨?_, ?_⟩
      · simp only [SequenceAlignment.set_marginal]
        rw [h1]
      · rcases h2 with h | ⟨i, hi, h⟩
        · exact Or.inl h
        · exact Or.inr ⟨i, Nat.lt_succ_of_lt hi, h⟩

/-- When `pick_state_from_probabilities` returns, only the marginal matrix of the
alignment has changed and the state returned is the `state_element` of an index below
`n_states`. -/
theorem pick_state_from_probabilities_ok (sa : SequenceAlignment) (node : TreeNode)
    (pos : Nat) (r : ℚ) (s : state_element) (sa₁ : SequenceAlignment)
    (h : pick_state_from_probabilities sa node pos r = Except.ok (s, sa₁)) :
    sa₁ = { sa with marginal_state_distribution := sa₁.marginal_state_distribution } ∧
      ∃ i, i < sa.n_states ∧ s = to_state_element i := by
  obtain ⟨h1, h2⟩ := pick_state_loop_spec sa node.name pos r sa.n_states
  unfold pick_state_from_probabilities at h
  simp only at h
  split_ifs at h with hsel
  have hinj := Except.ok.inj h
  have hs : ((List.range sa.n_states).foldl (pick_state_round node.name pos r) (0, -1, sa)).2.1
      = s := congrArg Prod.fst hinj
  have hsa : ((List.range sa.n_states).foldl (pick_state_round node.name pos r)
      (0, -1, sa)).2.2 = sa₁ := congrArg Prod.snd hinj
  rw [hsa] at h1
  refine ⟨h1, ?_⟩
  rcases h2 with h' | ⟨i, hi, h'⟩
  · exact absurd h' hsel
  · exact ⟨i, hi, hs ▸ h'⟩

/-- When a state is written, the position holds it afterwards, every other position of
the sequence is as before, and only the sequences of the alignment have changed. -/
theorem set_state_some (sa sa' : SequenceAlignment) (name : String) (pos : Nat)
    (s : state_element) (h : sa.set_state name pos s = some sa') :
    sa'.state_at name pos = some s ∧
      (∀ q, q ≠ pos → sa'.state_at name q = sa.state_at name q) ∧
      sa' = { sa with taxa_names_to_sequences := sa'.taxa_names_to_sequences } := by
  unfold SequenceAlignment.set_state at h
  cases hseq : sa.taxa_names_to_sequences name with
  | none => simp [hseq] at h
  | some seq =>
    simp only [hseq] at h
    split_ifs at h with hlt
    have hsa := Option.some.inj h
    subst hsa
    refine ⟨?_, ?_, rfl⟩
    · simp [SequenceAlignment.state_at, hlt]
    · intro q hq
      have hq' : ¬ pos = q := fun h' => hq h'.symm
      simp [SequenceAlignment.state_at, hseq, List.getElem?_set, hq']

/-- One round of the loop of `pick_states_for_node` that returns: the number of states
is kept, the position holds `-1` when it is a gap and a state below the number of
states otherwise, and every other position of the sequence of the node is as before. -/
theorem pick_states_round_ok (gaps : List Bool) (node : TreeNode) (Random : Nat → ℚ)
    (st st' : SequenceAlignment × Nat) (pos : Nat) (hN : st.1.n_states ≤ 128)
    (h : pick_states_round gaps node Random st pos = Except.ok st') :
    st'.1.n_states = st.1.n_states ∧
      (gaps[pos]? = some false →
        ∃ s, st'.1.state_at node.name pos = some s ∧ 0 ≤ s ∧ s < (st.1.n_states : Int)) ∧
      (gaps[pos]? = some true → st'.1.state_at node.name pos = some (-1)) ∧
      (∀ q, q ≠ pos → st'.1.state_at node.name q = st.1.state_at node.name q) := by
  unfold pick_states_round at h
  cases hg : gaps[pos]? with
  | none => simp [hg] at h
  | some g =>
    cases g with
    | true =>
      simp only [hg] at h
      cases hset : st.1.set_state node.name pos (-1) with
      | none => simp [hset] at h
      | some sa' =>
        simp only [hset] at h
        have hst := Except.ok.inj h
        subst hst
        obtain ⟨h1, h2, h3⟩ := set_state_some _ _ _ _ _ hset
        refine ⟨by rw [h3], fun h' => absurd (Option.some.inj h') (by decide), fun _ => h1, h2⟩
    | false =>
      simp only [hg] at h
      cases hpick : pick_state_from_probabilities st.1 node pos (Random st.2) with
      | error e => simp [hpick] at h
      | ok picked =>
        obtain ⟨s, sa₁⟩ := picked
        simp only [hpick] at h
        cases hset : sa₁.set_state node.name pos s with
        | none => simp [hset] at h
        | some sa' =>
          simp only [hset] at h
          have hst := Except.ok.inj h
          subst hst
          obtain ⟨h1, h2, h3⟩ := set_state_some _ _ _ _ _ hset
          obtain ⟨hm, i, hi, hs⟩ := pick_state_from_probabilities_ok _ _ _ _ _ _ hpick
          have hseq : sa₁.taxa_names_to_sequences = st.1.taxa_names_to_sequences := by
            rw [hm]
          have hn : sa₁.n_states = st.1.n_states := by
            rw [hm]
          refine ⟨by rw [h3]; exact hn, fun _ => ⟨s, h1, ?_, ?_⟩,
            fun h' => absurd (Option.some.inj h') (by decide), ?_⟩
          · rw [hs, to_state_element_of_lt i (by omega)]
            exact Int.natCast_nonneg i
          · rw [hs, to_state_element_of_lt i (by omega)]
            exact Int.ofNat_lt.mpr hi
          · intro q hq
            rw [h2 q hq]
            simp only [SequenceAlignment.state_at, hseq]

/-- The loop of `pick_states_for_node` when it returns: every listed position holds `-1`
if it is a gap and a state below the number of states otherwise, and every position
that is not listed is as before. -/
theorem pick_states_loop_ok (gaps : List Bool) (node : TreeNode) (Random : Nat → ℚ)
    (N : Nat) (hN : N ≤ 128) (positions : List Nat) :
    ∀ st st' : SequenceAlignment × Nat, st.1.n_states = N →
      pick_states_loop gaps node Random positions st = Except.ok st' →
      st'.1.n_states = N ∧
      (∀ pos ∈ positions,
        (gaps[pos]? = some false →
          ∃ s, st'.1.state_at node.name pos = some s ∧ 0 ≤ s ∧ s < (N : Int)) ∧
        (gaps[pos]? = some true → st'.1.state_at node.name pos = some (-1))) ∧
      (∀ pos, pos ∉ positions →
        st'.1.state_at node.name pos = st.1.state_at node.name pos) := by
  induction positions with
  | nil =>
    intro st st' hn h
    have hst := Except.ok.inj h
    subst hst
    exact ⟨hn, fun pos hpos => absurd hpos (List.not_mem_nil pos), fun _ _ => rfl⟩
  | cons p rest ih =>
    intro st st' hn h
    unfold pick_states_loop at h
    cases hround : pick_states_round gaps node Random st p with
    | error e => simp [hround] at h
    | ok st₁ =>
      simp only [hround] at h
      obtain ⟨hn₁, hfalse, htrue, hother⟩ :=
        pick_states_round_ok gaps node Random st st₁ p (by omega) hround
      rw [hn] at hn₁ hfalse
      obtain ⟨hn', hlisted, hrest⟩ := ih st₁ st' hn₁ h
      refine ⟨hn', ?_, ?_⟩
      · intro pos hpos
        by_cases hin : pos ∈ rest
        · exact hlisted pos hin
        · have hp : pos = p := by
            rcases List.mem_cons.mp hpos with h' | h'
            · exact h'
            · exact absurd h' hin
          subst hp
          rw [hrest pos hin]
          exact ⟨hfalse, htrue⟩
      · intro pos hpos
        have h1 : pos ≠ p := fun h' => hpos (h' ▸ List.mem_cons_self _ _)
        have h2 : pos ∉ rest := fun h' => hpos (List.mem_cons_of_mem _ h')
        rw [hrest pos h2, hother pos h1]

/-- C18: with at most `128` states, whenever `pick_states_for_node` returns, each listed
position that is not a gap at the node holds a state in `0 .. N-1`, each listed gap
position holds `-1`, and every position that is not listed keeps its state. -/
theorem pick_states_for_node_spec (sa : SequenceAlignment) (node : TreeNode)
    (positions : List Nat) (Random : Nat → ℚ) (drawn : Nat) (hN : sa.n_states ≤ 128)
    (st' : SequenceAlignment × Nat)
    (h : pick_states_for_node sa node positions Random drawn = Except.ok st') :
    ((∀ pos ∈ positions,
        (sa.gap_at node.name pos = some false →
          ∃ s, st'.1.state_at node.name pos = some s ∧ 0 ≤ s ∧ s < (sa.n_states : Int)) ∧
        (sa.gap_at node.name pos = some true →
          st'.1.state_at node.name pos = some (-1))) ∧
      (∀ pos, pos ∉ positions → st'.1.state_at node.name pos = sa.state_at node.name pos)) := by
  obtain ⟨_, h2, h3⟩ := pick_states_loop_ok (sa.taxa_names_to_gaps node.name) node Random
    sa.n_states hN positions (sa, drawn) st' rfl h
  exact ⟨h2, h3⟩

/-- Witness of C18: node `n` of `pickAlignment`, positions `0` and `1`, every draw
`1/2`; the call returns. -/
theorem pick_states_for_node_spec_witness :
    ∃ st', pick_states_for_node pickAlignment ({ name := "n", up := none, left := none, right := none } : TreeNode)
        [0, 1] (fun _ => 1 / 2) 0 = Except.ok st' ∧
      ((∀ pos ∈ [0, 1],
        (pickAlignment.gap_at ({ name := "n", up := none, left := none, right := none } : TreeNode).name pos = some false →
          ∃ s, st'.1.state_at ({ name := "n", up := none, left := none, right := none } : TreeNode).name pos = some s ∧ 0 ≤ s ∧ s < (pickAlignment.n_states : Int)) ∧
        (pickAlignment.gap_at ({ name := "n", up := none, left := none, right := none } : TreeNode).name pos = some true →
          st'.1.state_at ({ name := "n", up := none, left := none, right := none } : TreeNode).name pos = some (-1))) ∧
      (∀ pos, pos ∉ [0, 1] → st'.1.state_at ({ name := "n", up := none, left := none, right := none } : TreeNode).name pos = pickAlignment.state_at ({ name := "n", up := none, left := none, right := none } : TreeNode).name pos)) := by
  have hrun : ∃ st', pick_states_for_node pickAlignment ({ name := "n", up := none, left := none, right := none } : TreeNode)
      [0, 1] (fun _ => 1 / 2) 0 = Except.ok st' := by
    norm_num [pick_states_for_node, pick_states_loop, pick_states_round, pickAlignment,
      pick_state_from_probabilities, pick_state_round, List.range_succ,
      SequenceAlignment.set_marginal, SequenceAlignment.set_state, to_state_element]
  obtain ⟨st', h⟩ := hrun
  exact ⟨st', h, pick_states_for_node_spec pickAlignment _ [0, 1] (fun _ => 1 / 2) 0
    (by decide) st' h⟩

/-- The inner loop of `reset_to_base` copies the listed entries of one position from the
prior and leaves everything else as it was. -/
theorem reset_inner_loop (nm : String) (pos : Nat) (l : List Nat) :
    ∀ sa : SequenceAlignment,
      let r := l.foldl (fun sa₂ i =>
        sa₂.set_marginal nm pos i (sa₂.prior_state_distribution nm pos i)) sa
      r.prior_state_distribution = sa.prior_state_distribution ∧ r.n_states = sa.n_states ∧
      r.tree = sa.tree ∧ r.taxa_names_to_gaps = sa.taxa_names_to_gaps ∧
      ∀ nm' p j, r.marginal_state_distribution nm' p j =
        if nm' = nm ∧ p = pos ∧ j ∈ l then sa.prior_state_distribution nm pos j
        else sa.marginal_state_distribution nm' p j := by
  induction l with
  | nil => intro sa; simp
  | cons i l ih =>
    intro sa
    obtain ⟨h1, h2, h3, h4, h5⟩ :=
      ih (sa.set_marginal nm pos i (sa.prior_state_distribution nm pos i))
    refine ⟨h1, h2, h3, h4, ?_⟩
    intro nm' p j
    simp only [List.foldl_cons]
    rw [h5 nm' p j]
    simp only [SequenceAlignment.set_marginal, List.mem_cons]
    by_cases hn : nm' = nm
    · by_cases hp : p = pos
      · by_cases hj : j ∈ l
        · simp [hn, hp, hj]
        · by_cases hji : j = i
          · simp [hn, hp, hj, hji]
          · simp [hn, hp, hj, hji]
      · simp [hn, hp]
    · simp [hn]

/-- The method `reset_to_base` copies the entries of the listed positions from the prior
and leaves everything else as it was. -/
theorem reset_to_base_spec (nm : String) (positions : List Nat) :
    ∀ sa : SequenceAlignment,
      (reset_to_base sa nm positions).prior_state_distribution = sa.prior_state_distribution ∧
      (reset_to_base sa nm positions).n_states = sa.n_states ∧
      (reset_to_base sa nm positions).tree = sa.tree ∧
      (reset_to_base sa nm positions).taxa_names_to_gaps = sa.taxa_names_to_gaps ∧
      ∀ nm' p j, (reset_to_base sa nm positions).marginal_state_distribution nm' p j =
        if nm' = nm ∧ p ∈ positions ∧ j < sa.n_states then sa.prior_state_distribution nm p j
        else sa.marginal_state_distribution nm' p j := by
  induction positions with
  | nil => intro sa; simp [reset_to_base]
  | cons pos positions ih =>
    intro sa
    obtain ⟨g1, g2, g3, g4, g5⟩ := reset_inner_loop nm pos (List.range sa.n_states) sa
    obtain ⟨h1, h2, h3, h4, h5⟩ := ih ((List.range sa.n_states).foldl (fun sa₂ i =>
        sa₂.set_marginal nm pos i (sa₂.prior_state_distribution nm pos i)) sa)
    have hstep : reset_to_base sa nm (pos :: positions) =
        reset_to_base ((List.range sa.n_states).foldl (fun sa₂ i =>
          sa₂.set_marginal nm pos i (sa₂.prior_state_distribution nm pos i)) sa) nm positions :=
      rfl
    rw [hstep]
    refine ⟨h1.trans g1, h2.trans g2, h3.trans g3, h4.trans g4, ?_⟩
    intro nm' p j
    rw [h5 nm' p j, g1, g2, g5 nm' p j]
    simp only [List.mem_range, List.mem_cons]
    by_cases hn : nm' = nm
    · by_cases hj : j < sa.n_states
      · by_cases hp : p ∈ positions
        · simp [hn, hj, hp]
        · by_cases hpp : p = pos
          · simp [hn, hj, hp, hpp]
          · simp [hn, hj, hp, hpp]
      · simp [hn, hj]
    · simp [hn]

/-- The loop over the positions of the second recursion leaves the alignment as it is at
a node with no node above, provided every listed position is inside the gap mask. -/
theorem downward_positions_root (gaps : List Bool) (positions : List Nat)
    (hpos : ∀ pos ∈ positions, pos < gaps.length) :
    ∀ sa : SequenceAlignment,
      positions.foldlM (fun (sa₂ : SequenceAlignment) pos =>
        (gaps[pos]?).bind (fun _ => some sa₂)) sa = some sa := by
  induction positions with
  | nil => intro sa; rfl
  | cons pos positions ih =>
    intro sa
    have hlt : pos < gaps.length := hpos pos (List.mem_cons_self _ _)
    simp only [List.foldlM_cons, List.getElem?_eq_getElem hlt, Option.some_bind, Option.bind_eq_bind]
    exact ih (fun p hp => hpos p (List.mem_cons_of_mem _ hp)) sa

/-- Claim C19: on a tree that is a single node, a tip with no branch above, the first
recursion followed by the second one over positions inside the gap mask returns, and the
marginal distribution of the node at every listed position then equals its prior
distribution in each of the `n_states` entries. -/
theorem single_tip_recursions_reproduce_prior (sa : SequenceAlignment) (tm : TreeModel)
    (node : TreeNode) (positions : List Nat) (htree : sa.tree = [node])
    (htip : node.isTip = true) (hup : node.up = none)
    (hpos : ∀ pos ∈ positions, pos < (sa.taxa_names_to_gaps node.name).length) :
    ∃ sa₁ sa₂, reverse_recursion sa tm positions = some sa₁ ∧
      downward_recursion sa₁ tm positions = some sa₂ ∧
      sa₂.prior_state_distribution = sa.prior_state_distribution ∧
      ∀ pos ∈ positions, ∀ i, i < sa.n_states →
        sa₂.marginal_state_distribution node.name pos i =
          sa.prior_state_distribution node.name pos i := by
  obtain ⟨h1, h2, h3, h4, h5⟩ := reset_to_base_spec node.name positions sa
  have hup_rec : reverse_recursion sa tm positions =
      some (reset_to_base sa node.name positions) := by
    simp [reverse_recursion, htree, htip]
  have hdown : downward_recursion (reset_to_base sa node.name positions) tm positions =
      some (reset_to_base sa node.name positions) := by
    have := downward_positions_root (sa.taxa_names_to_gaps node.name) positions hpos
      (reset_to_base sa node.name positions)
    simp only [downward_recursion, h3, htree, List.reverse_singleton, List.foldlM_cons,
      List.foldlM_nil, hup, SequenceAlignment.ancestral_of, h4]
    simpa using this
  refine ⟨_, _, hup_rec, hdown, h1, ?_⟩
  intro pos hp i hi
  rw [h5 node.name pos i, if_pos ⟨rfl, hp, hi⟩]

/-- Witness of C19: the single node `n` of `singleTipAlignment`, both columns listed. -/
theorem single_tip_recursions_reproduce_prior_witness :
    ∃ sa₁ sa₂, reverse_recursion singleTipAlignment twoTaxonModel [0, 1] = some sa₁ ∧
      downward_recursion sa₁ twoTaxonModel [0, 1] = some sa₂ ∧
      sa₂.prior_state_distribution = singleTipAlignment.prior_state_distribution ∧
      ∀ pos ∈ [0, 1], ∀ i, i < singleTipAlignment.n_states →
        sa₂.marginal_state_distribution "n" pos i =
          singleTipAlignment.prior_state_distribution "n" pos i :=
  single_tip_recursions_reproduce_prior singleTipAlignment twoTaxonModel
    { name := "n", up := none, left := none, right := none } [0, 1] rfl rfl rfl (by decide)

/-- The two recursions on the two-taxon scenario return, and the marginal of the root is
then `(1/2, 1/2)`. -/
theorem two_taxon_run :
    ((reverse_recursion twoTaxonAlignment twoTaxonModel [0]).bind
        (fun sa₁ => downward_recursion sa₁ twoTaxonModel [0])).map
      (fun sa₂ => (sa₂.marginal_state_distribution "root" 0 0,
        sa₂.marginal_state_distribution "root" 0 1)) = some (1 / 2, 1 / 2) := by
  decide!

/-- Claim C20: in the two-taxon scenario (states `A`, `B`; tips `x = A`, `y = B` with
certainty on segments of length 1 below the root; rates `A -> B = B -> A = 1/10`,
`u = 1/5`, virtual rates `1/10`) the first recursion followed by the second one returns
and the marginal of the root is then `P(A) = P(B) = 1/2`. -/
theorem two_taxon_root_marginal :
    ∃ sa₁ sa₂, reverse_recursion twoTaxonAlignment twoTaxonModel [0] = some sa₁ ∧
      downward_recursion sa₁ twoTaxonModel [0] = some sa₂ ∧
      sa₂.marginal_state_distribution "root" 0 0 = 1 / 2 ∧
      sa₂.marginal_state_distribution "root" 0 1 = 1 / 2 := by
  have h := two_taxon_run
  cases h1 : reverse_recursion twoTaxonAlignment twoTaxonModel [0] with
  | none => rw [h1] at h; simp at h
  | some sa₁ =>
    rw [h1] at h
    cases h2 : downward_recursion sa₁ twoTaxonModel [0] with
    | none => simp [h2] at h
    | some sa₂ =>
      simp only [Option.some_bind, h2, Option.map_some', Option.some.injEq, Prod.mk.injEq] at h
      exact ⟨sa₁, sa₂, rfl, h2, h.1, h.2⟩

/-! ## Loading a raw alignment -/

/-- When `initialize_common` returns, it returns `loaded`. -/
theorem initialize_common_loaded (f : FreqSequence → String) (sa : SequenceAlignment)
    (raw_msa : RawMSA) (h : halt_of (initialize_common f sa raw_msa) = none) :
    initialize_common f sa raw_msa = Except.ok (loaded f sa raw_msa) := by
  unfold loaded
  cases h' : initialize_common f sa raw_msa with
  | ok a => rfl
  | error e => rw [h'] at h; cases h

/-- A fold in `Except` that returns keeps what every round that returns keeps. -/
theorem foldlM_except_invariant {α β : Type} (P : β → Prop) (f : β → α → Except Halt β)
    (hf : ∀ b a b', f b a = Except.ok b' → P b → P b') :
    ∀ (l : List α) (b b' : β), l.foldlM f b = Except.ok b' → P b → P b' := by
  intro l
  induction l with
  | nil =>
    intro b b' h hb
    have : b = b' := by
      simp only [List.foldlM_nil, pure, Except.pure] at h
      exact Except.ok.inj h
    exact this ▸ hb
  | cons a l ih =>
    intro b b' h hb
    simp only [List.foldlM_cons, bind, Except.bind] at h
    cases h1 : f b a with
    | error e => rw [h1] at h; cases h
    | ok b₁ =>
      rw [h1] at h
      exact ih b₁ b' h (hf b a b₁ h1 hb)

/-- A bind in `Except` after a step that returned. -/
theorem except_ok_bind {α β : Type} (a : α) (f : α → Except Halt β) :
    (Except.ok a >>= f) = f a := rfl

/-- A bind in `Except` after a step that did not return. -/
theorem except_error_bind {α β : Type} (e : Halt) (f : α → Except Halt β) :
    ((Except.error e : Except Halt α) >>= f) = Except.error e := rfl

/-- Reading a vector of states inside its bounds. -/
theorem state_getElem?_eq_some_getD (l : List state_element) (pos : Nat)
    (h : pos < l.length) : l[pos]? = some (l.getD pos 0) := by
  simp [List.getD, List.getElem?_eq_getElem h]

/-- Reading the entry of a vector of states that was just set. -/
theorem state_getD_set_self (l : List state_element) (pos : Nat) (s : state_element)
    (h : pos < l.length) : (l.set pos s).getD pos 0 = s := by
  simp [List.getD, List.getElem?_set, h]

/-- Reading another entry of a vector of states than the one that was just set. -/
theorem state_getD_set_ne (l : List state_element) (pos p : Nat) (s : state_element)
    (h : pos ≠ p) : (l.set pos s).getD p 0 = l.getD p 0 := by
  simp [List.getD, List.getElem?_set, h]

/-- The loop over the states of `initialize_site_static` at a position inside the prior
matrix: it returns when every entry is 0 or 1 and ends the program otherwise. -/
theorem site_static_check_states_spec (sa : SequenceAlignment) (key : String)
    (pos rows : Nat) (hrows : sa.prior_rows key = some rows) (hpos : pos < rows)
    (hstates : sa.states.length ≤ sa.n_states) :
    (site_static_check_states sa key pos = Except.ok () ∧
        ∀ i, i < sa.states.length →
          sa.prior_state_distribution key pos i = 0 ∨
            sa.prior_state_distribution key pos i = 1) ∨
      (site_static_check_states sa key pos = Except.error Halt.exit_failure ∧
        ∃ i, i < sa.states.length ∧ sa.prior_state_distribution key pos i ≠ 0 ∧
          sa.prior_state_distribution key pos i ≠ 1) := by
  have hb : ∀ i, i < sa.states.length →
      (match sa.prior_at key pos i with
        | Except.ok state_probability =>
          if state_probability ≠ 0 ∧ state_probability ≠ 1 then
            Except.error Halt.exit_failure
          else Except.ok ()
        | Except.error e => Except.error e) =
      if sa.prior_state_distribution key pos i ≠ 0 ∧
          sa.prior_state_distribution key pos i ≠ 1 then
        (Except.error Halt.exit_failure : Except Halt Unit)
      else Except.ok () := by
    intro i hi
    have hi' : i < sa.n_states := lt_of_lt_of_le hi hstates
    simp only [SequenceAlignment.prior_at, hrows, hpos, hi', and_self, if_true]
  by_cases hall : ∀ i, i < sa.states.length →
      sa.prior_state_distribution key pos i = 0 ∨ sa.prior_state_distribution key pos i = 1
  · left
    refine ⟨(for_each_ok_iff _ _).mpr ?_, hall⟩
    intro i hi
    have hi' := List.mem_range.mp hi
    rw [hb i hi']
    rw [if_neg]
    intro hne
    rcases hall i hi' with h | h
    · exact hne.1 h
    · exact hne.2 h
  · right
    push_neg at hall
    obtain ⟨i, hi, h0, h1⟩ := hall
    refine ⟨for_each_error _ _ _ ?_ ⟨i, List.mem_range.mpr hi, ?_⟩, i, hi, h0, h1⟩
    · intro j hj
      rw [hb j (List.mem_range.mp hj)]
      by_cases hj' : sa.prior_state_distribution key pos j ≠ 0 ∧
          sa.prior_state_distribution key pos j ≠ 1
      · right; rw [if_pos hj']
      · left; rw [if_neg hj']
    · rw [hb i hi, if_pos ⟨h0, h1⟩]

/-- One round of the loop over the positions of `initialize_site_static`, inside both
vectors. -/
theorem site_static_position_spec (sa : SequenceAlignment) (key : String)
    (sequence cs : List state_element) (p : Nat) (hc : p < cs.length)
    (hs : p < sequence.length) :
    site_static_position sa key sequence cs p =
      if sequence.getD p 0 ≠ -1 ∧ cs.getD p 0 ≠ -1 ∧ sequence.getD p 0 ≠ cs.getD p 0 then
        Except.error Halt.exit_failure
      else
        match site_static_check_states sa key p with
        | Except.ok _ =>
          Except.ok (if cs.getD p 0 = -1 then cs.set p (sequence.getD p 0) else cs)
        | Except.error e => Except.error e := by
  unfold site_static_position
  rw [state_getElem?_eq_some_getD cs p hc, state_getElem?_eq_some_getD sequence p hs]
  by_cases hcm : cs.getD p 0 = -1
  · simp only [hcm, if_true, state_getD_set_self cs p _ hc, ne_eq, not_true_eq_false,
      and_false, false_and, if_false]
  · simp only [hcm, if_false, ne_eq, not_false_eq_true, true_and]

/-- The loop over the positions of `initialize_site_static` for one taxon, on vectors of
`n` entries: either it returns, every position passed the check of the prior and held no
clash with `column_states`, and the entries of `column_states` that were `-1` now hold
the state of the sequence; or it ends the program and some position failed. -/
theorem site_static_positions_loop (sa : SequenceAlignment) (key : String)
    (sequence : List state_element) (n : Nat) (hs : sequence.length = n)
    (hchk : ∀ p, p < n → site_static_check_states sa key p = Except.ok () ∨
      site_static_check_states sa key p = Except.error Halt.exit_failure) :
    ∀ m, m ≤ n → ∀ cs : List state_element, cs.length = n →
      (∃ cs', (List.range m).foldlM (site_static_position sa key sequence) cs = Except.ok cs' ∧
          cs'.length = n ∧
          (∀ p, cs'.getD p 0 =
            if p < m ∧ cs.getD p 0 = -1 then sequence.getD p 0 else cs.getD p 0) ∧
          (∀ p, p < m → site_static_check_states sa key p = Except.ok () ∧
            ¬ (sequence.getD p 0 ≠ -1 ∧ cs.getD p 0 ≠ -1 ∧
              sequence.getD p 0 ≠ cs.getD p 0))) ∨
        ((List.range m).foldlM (site_static_position sa key sequence) cs =
            Except.error Halt.exit_failure ∧
          ∃ p, p < m ∧ (site_static_check_states sa key p = Except.error Halt.exit_failure ∨
            (sequence.getD p 0 ≠ -1 ∧ cs.getD p 0 ≠ -1 ∧
              sequence.getD p 0 ≠ cs.getD p 0))) := by
  intro m
  induction m with
  | zero =>
    intro _ cs hlen
    left
    refine ⟨cs, rfl, hlen, ?_, ?_⟩
    · intro p
      simp
    · intro p hp
      exact absurd hp (Nat.not_lt_zero p)
  | succ m ih =>
    intro hm cs hlen
    have hm' : m < n := hm
    rcases ih (Nat.le_of_lt hm') cs hlen with ⟨cs', hrun, hlen', hchar, hgood⟩ | ⟨hrun, p, hp, hbad⟩
    · have hcm : cs'.getD m 0 = cs.getD m 0 := by
        rw [hchar m, if_neg]
        intro h
        exact absurd h.1 (Nat.lt_irrefl m)
      have hstep := site_static_position_spec sa key sequence cs' m (by omega) (by omega)
      rw [hcm] at hstep
      have hfold : (List.range (m + 1)).foldlM (site_static_position sa key sequence) cs =
          site_static_position sa key sequence cs' m := by
        rw [List.range_succ, List.foldlM_append, hrun, except_ok_bind]
        simp only [List.foldlM_cons, List.foldlM_nil, bind_pure]
      by_cases hclash : sequence.getD m 0 ≠ -1 ∧ cs.getD m 0 ≠ -1 ∧
          sequence.getD m 0 ≠ cs.getD m 0
      · right
        rw [if_pos hclash] at hstep
        exact ⟨hfold.trans hstep, m, Nat.lt_succ_self m, Or.inr hclash⟩
      · rw [if_neg hclash] at hstep
        rcases hchk m hm' with hok | herr
        · left
          rw [hok] at hstep
          refine ⟨_, hfold.trans hstep, ?_, ?_, ?_⟩
          · by_cases hc : cs.getD m 0 = -1
            · simp only [hc, if_true, List.length_set, hlen']
            · simp only [hc, if_false, hlen']
          · intro p
            by_cases hpm : p = m
            · subst hpm
              by_cases hc : cs.getD p 0 = -1
              · simp only [hc, if_true, state_getD_set_self cs' p _ (by omega),
                  Nat.lt_succ_self, and_self]
              · simp only [hc, if_false, hcm, and_false]
            · have hne : m ≠ p := fun h => hpm h.symm
              have hiff : (p < m + 1 ∧ cs.getD p 0 = -1) ↔ (p < m ∧ cs.getD p 0 = -1) := by
                constructor
                · intro h
                  exact ⟨by omega, h.2⟩
                · intro h
                  exact ⟨by omega, h.2⟩
              by_cases hc : cs.getD m 0 = -1
              · simp only [hc, if_true, state_getD_set_ne cs' m p _ hne, hchar p, hiff]
              · simp only [hc, if_false, hchar p, hiff]
          · intro p hp
            by_cases hpm : p = m
            · subst hpm
              exact ⟨hok, hclash⟩
            · exact hgood p (by omega)
        · right
          rw [herr] at hstep
          exact ⟨hfold.trans hstep, m, Nat.lt_succ_self m, Or.inl herr⟩
    · right
      refine ⟨?_, p, Nat.lt_succ_of_lt hp, hbad⟩
      rw [List.range_succ, List.foldlM_append, hrun, except_error_bind]

/-- The loop over the taxa of `initialize_site_static`, on sequences and a vector
`column_states` of `n` entries: it ends the program exactly when the check of the prior
fails somewhere, or a sequence clashes with `column_states`, or two sequences clash, and
it returns otherwise. -/
theorem site_static_taxa_loop (sa : SequenceAlignment) (n : Nat) :
    ∀ ks : List String,
      (∀ k ∈ ks, (∃ s, sa.taxa_names_to_sequences k = some s ∧ s.length = n) ∧
        ∀ p, p < n → site_static_check_states sa k p = Except.ok () ∨
          site_static_check_states sa k p = Except.error Halt.exit_failure) →
      ∀ cs : List state_element, cs.length = n →
        (ks.foldlM (site_static_taxon sa) cs = Except.error Halt.exit_failure ∧
          ((∃ k ∈ ks, ∃ p, p < n ∧
              site_static_check_states sa k p = Except.error Halt.exit_failure) ∨
            (∃ k ∈ ks, ∃ s, sa.taxa_names_to_sequences k = some s ∧ column_clash n s cs) ∨
            (∃ k₁ ∈ ks, ∃ k₂ ∈ ks, ∃ s₁ s₂, sa.taxa_names_to_sequences k₁ = some s₁ ∧
              sa.taxa_names_to_sequences k₂ = some s₂ ∧ column_clash n s₁ s₂))) ∨
        ((∃ cs', ks.foldlM (site_static_taxon sa) cs = Except.ok cs') ∧
          ¬ ((∃ k ∈ ks, ∃ p, p < n ∧
              site_static_check_states sa k p = Except.error Halt.exit_failure) ∨
            (∃ k ∈ ks, ∃ s, sa.taxa_names_to_sequences k = some s ∧ column_clash n s cs) ∨
            (∃ k₁ ∈ ks, ∃ k₂ ∈ ks, ∃ s₁ s₂, sa.taxa_names_to_sequences k₁ = some s₁ ∧
              sa.taxa_names_to_sequences k₂ = some s₂ ∧ column_clash n s₁ s₂))) := by
  intro ks
  induction ks with
  | nil =>
    intro _ cs _
    right
    refine ⟨⟨cs, rfl⟩, ?_⟩
    rintro (⟨k, hk, _⟩ | ⟨k, hk, _⟩ | ⟨k, hk, _⟩) <;> exact absurd hk (List.not_mem_nil k)
  | cons k ks ih =>
    intro hyp cs hcs
    obtain ⟨⟨s, hseq, hlen⟩, hchk⟩ := hyp k (List.mem_cons_self _ _)
    have htaxon : site_static_taxon sa cs k =
        (List.range n).foldlM (site_static_position sa k s) cs := by
      simp only [site_static_taxon, hseq, hlen]
    have hcons : (k :: ks).foldlM (site_static_taxon sa) cs =
        ((List.range n).foldlM (site_static_position sa k s) cs >>=
          fun cs₁ => ks.foldlM (site_static_taxon sa) cs₁) := by
      rw [List.foldlM_cons, htaxon]
    rcases site_static_positions_loop sa k s n hlen hchk n (Nat.le_refl n) cs hcs with
      ⟨cs₁, hrun, hlen₁, hchar, hgood⟩ | ⟨hrun, p, hp, hbad⟩
    · have hcs₁ : ∀ p, p < n → s.getD p 0 ≠ -1 → cs₁.getD p 0 = s.getD p 0 := by
        intro p hp hsp
        rw [hchar p]
        by_cases hc : cs.getD p 0 = -1
        · rw [if_pos ⟨hp, hc⟩]
        · rw [if_neg (fun h => hc h.2)]
          by_contra hne
          exact (hgood p hp).2 ⟨hsp, hc, fun h => hne h.symm⟩
      have hkeep : ∀ p, cs.getD p 0 ≠ -1 → cs₁.getD p 0 = cs.getD p 0 := by
        intro p hc
        rw [hchar p, if_neg (fun h => hc h.2)]
      rw [hrun, except_ok_bind] at hcons
      rcases ih (fun k' hk' => hyp k' (List.mem_cons_of_mem _ hk')) cs₁ hlen₁ with
        ⟨hrun', hbad'⟩ | ⟨⟨cs', hrun'⟩, hgood'⟩
      · left
        refine ⟨hcons.trans hrun', ?_⟩
        rcases hbad' with ⟨k', hk', p, hp, h⟩ | ⟨k', hk', s', hs', p, hp, h1, h2, h3⟩ |
          ⟨k₁, hk₁, k₂, hk₂, s₁, s₂, hs₁, hs₂, hcl⟩
        · exact Or.inl ⟨k', List.mem_cons_of_mem _ hk', p, hp, h⟩
        · by_cases hc : cs.getD p 0 = -1
          · have hval : cs₁.getD p 0 = s.getD p 0 := by
              rw [hchar p, if_pos ⟨hp, hc⟩]
            rw [hval] at h2 h3
            exact Or.inr (Or.inr ⟨k', List.mem_cons_of_mem _ hk', k, List.mem_cons_self _ _,
              s', s, hs', hseq, p, hp, h1, h2, h3⟩)
          · rw [hkeep p hc] at h2 h3
            exact Or.inr (Or.inl ⟨k', List.mem_cons_of_mem _ hk', s', hs', p, hp, h1, h2, h3⟩)
        · exact Or.inr (Or.inr ⟨k₁, List.mem_cons_of_mem _ hk₁, k₂,
            List.mem_cons_of_mem _ hk₂, s₁, s₂, hs₁, hs₂, hcl⟩)
      · right
        refine ⟨⟨cs', hcons.trans hrun'⟩, ?_⟩
        intro hbad
        apply hgood'
        rcases hbad with ⟨k', hk', p, hp, h⟩ | ⟨k', hk', s', hs', p, hp, h1, h2, h3⟩ |
          ⟨k₁, hk₁, k₂, hk₂, s₁, s₂, hs₁, hs₂, p, hp, h1, h2, h3⟩
        · rcases List.mem_cons.mp hk' with hkk | hk''
          · subst hkk
            rw [(hgood p hp).1] at h
            cases h
          · exact Or.inl ⟨k', hk'', p, hp, h⟩
        · rcases List.mem_cons.mp hk' with hkk | hk''
          · subst hkk
            have hss : s' = s := Option.some.inj (hs'.symm.trans hseq)
            subst hss
            exact absurd ⟨h1, h2, h3⟩ (hgood p hp).2
          · refine Or.inr (Or.inl ⟨k', hk'', s', hs', p, hp, h1, ?_, ?_⟩)
            · rw [hkeep p h2]; exact h2
            · rw [hkeep p h2]; exact h3
        · rcases List.mem_cons.mp hk₁ with hkk₁ | hk₁'
          · subst hkk₁
            have hss₁ : s₁ = s := Option.some.inj (hs₁.symm.trans hseq)
            subst hss₁
            rcases List.mem_cons.mp hk₂ with hkk₂ | hk₂'
            · subst hkk₂
              have hss₂ : s₂ = s₁ := Option.some.inj (hs₂.symm.trans hseq)
              subst hss₂
              exact absurd rfl h3
            · refine Or.inr (Or.inl ⟨k₂, hk₂', s₂, hs₂, p, hp, h2, ?_, ?_⟩)
              · rw [hcs₁ p hp h1]; exact h1
              · rw [hcs₁ p hp h1]; exact fun h => h3 h.symm
          · rcases List.mem_cons.mp hk₂ with hkk₂ | hk₂'
            · subst hkk₂
              have hss₂ : s₂ = s := Option.some.inj (hs₂.symm.trans hseq)
              subst hss₂
              refine Or.inr (Or.inl ⟨k₁, hk₁', s₁, hs₁, p, hp, h1, ?_, ?_⟩)
              · rw [hcs₁ p hp h2]; exact h2
              · rw [hcs₁ p hp h2]; exact h3
            · exact Or.inr (Or.inr ⟨k₁, hk₁', k₂, hk₂', s₁, s₂, hs₁, hs₂, p, hp, h1, h2, h3⟩)
    · left
      rw [hrun, except_error_bind] at hcons
      refine ⟨hcons, ?_⟩
      rcases hbad with h | h
      · exact Or.inl ⟨k, List.mem_cons_self _ _, p, hp, h⟩
      · exact Or.inr (Or.inl ⟨k, List.mem_cons_self _ _, s, hseq, p, hp, h⟩)

/-- A record of `add_base` leaves the tag of the alignment. -/
theorem add_base_record_tag (name : String) (pos : Nat) (sa sa' : SequenceAlignment)
    (jt : StateFreq) (h : add_base_record name pos sa jt = Except.ok sa') :
    sa'.tag = sa.tag := by
  simp only [add_base_record] at h
  split_ifs at h with h1 h2 h3
  · have := Except.ok.inj h
    rw [← this]
    simp only [SequenceAlignment.set_prior, SequenceAlignment.encode_index]
    split <;> rfl
  · have := Except.ok.inj h
    rw [← this]

/-- A position of `add_base` leaves the tag of the alignment. -/
theorem add_base_position_tag (name : String) (st st' : SequenceAlignment × Nat)
    (it : List StateFreq) (h : add_base_position name st it = Except.ok st') :
    st'.1.tag = st.1.tag := by
  unfold add_base_position at h
  cases h2 : List.foldlM (add_base_record name st.2) st.1 it with
  | error e => rw [h2, except_error_bind] at h; cases h
  | ok sa₂ =>
    rw [h2, except_ok_bind] at h
    have hb := Except.ok.inj h
    rw [← hb]
    exact foldlM_except_invariant (fun (s : SequenceAlignment) => s.tag = st.1.tag)
      (add_base_record name st.2)
      (fun s jt s' hs hPs => (add_base_record_tag name st.2 s s' jt hs).trans hPs)
      it st.1 sa₂ h2 rfl

/-- The method `add_base` leaves the tag of the alignment. -/
theorem add_base_tag (f : FreqSequence → String) (sa sa' : SequenceAlignment)
    (name : String) (seq : FreqSequence) (h : add_base f sa name seq = Except.ok sa') :
    sa'.tag = sa.tag := by
  unfold add_base at h
  cases h1 : encode_sequence sa (f seq) with
  | error e => rw [h1, except_error_bind] at h; cases h
  | ok sequence =>
    rw [h1, except_ok_bind] at h
    simp only [] at h
    generalize hst : List.foldlM (add_base_position name) _ _ = r at h
    cases r with
    | error e => rw [except_error_bind] at h; cases h
    | ok st =>
      rw [except_ok_bind] at h
      have := Except.ok.inj h
      rw [← this]
      exact foldlM_except_invariant
        (fun (st : SequenceAlignment × Nat) => st.1.tag = sa.tag) (add_base_position name)
        (fun b a b' hb hP => (add_base_position_tag name b b' a hb).trans hP) _ _ _ hst rfl

/-- The method `initialize_common` leaves the tag of the alignment. -/
theorem initialize_common_tag (f : FreqSequence → String) (sa sa' : SequenceAlignment)
    (raw_msa : RawMSA) (h : initialize_common f sa raw_msa = Except.ok sa') :
    sa'.tag = sa.tag := by
  unfold initialize_common at h
  cases h1 : List.foldlM (fun sa₁ (it : String × FreqSequence) => add_base f sa₁ it.1 it.2) sa
      raw_msa.seqs with
  | error e => rw [h1, except_error_bind] at h; cases h
  | ok sa₁ =>
    rw [h1, except_ok_bind] at h
    have htag : sa₁.tag = sa.tag :=
      foldlM_except_invariant (fun (s : SequenceAlignment) => s.tag = sa.tag)
        (fun sa₁ (it : String × FreqSequence) => add_base f sa₁ it.1 it.2)
        (fun s it s' hs hPs => (add_base_tag f s s' it.1 it.2 hs).trans hPs)
        raw_msa.seqs sa sa₁ h1 rfl
    cases h2 : sa₁.taxa_names.head? with
    | none => simp only [h2] at h; cases h
    | some k =>
      simp only [h2] at h
      cases h3 : sa₁.taxa_names_to_sequences k with
      | none => simp only [h3] at h; cases h
      | some sequence =>
        simp only [h3] at h
        have := Except.ok.inj h
        rw [← this]
        exact htag

/-- Reading a vector of `n` entries `-1` inside its bounds. -/
theorem getD_replicate_gap (n p : Nat) (hp : p < n) :
    (List.replicate n (-1 : state_element)).getD p 0 = -1 := by
  simp [List.getD, List.getElem?_replicate, hp]

/-- Claim C16 (amended): provided `initialize_common` returns an alignment in which every
sequence and every prior matrix has `n_columns` columns and the states number `n_states`,
`initialize_site_static` ends the program with failure if and only if two taxa hold
different states, neither a gap, in some column, or some entry of a prior is neither 0
nor 1; otherwise it returns that alignment, whose tag is `SITE_STATIC`. -/
theorem initialize_site_static_spec (f : FreqSequence → String) (sa sa₁ : SequenceAlignment)
    (raw_msa : RawMSA)
    (hload : initialize_common f { sa with tag := Tag.SITE_STATIC } raw_msa = Except.ok sa₁)
    (hwf : ∀ k ∈ sa₁.taxa_names,
      (sa₁.taxa_names_to_sequences k).map List.length = some sa₁.n_columns ∧
        sa₁.prior_rows k = some sa₁.n_columns)
    (hstates : sa₁.states.length = sa₁.n_states) :
    (initialize_site_static f sa raw_msa = Except.error Halt.exit_failure ↔
      ((∃ k₁ ∈ sa₁.taxa_names, ∃ k₂ ∈ sa₁.taxa_names, ∃ p, p < sa₁.n_columns ∧
          sa₁.state_at k₁ p ≠ some (-1) ∧ sa₁.state_at k₂ p ≠ some (-1) ∧
            sa₁.state_at k₁ p ≠ sa₁.state_at k₂ p) ∨
        (∃ k ∈ sa₁.taxa_names, ∃ p, p < sa₁.n_columns ∧ ∃ i, i < sa₁.n_states ∧
          sa₁.prior_state_distribution k p i ≠ 0 ∧
            sa₁.prior_state_distribution k p i ≠ 1))) ∧
      (¬ ((∃ k₁ ∈ sa₁.taxa_names, ∃ k₂ ∈ sa₁.taxa_names, ∃ p, p < sa₁.n_columns ∧
            sa₁.state_at k₁ p ≠ some (-1) ∧ sa₁.state_at k₂ p ≠ some (-1) ∧
              sa₁.state_at k₁ p ≠ sa₁.state_at k₂ p) ∨
          (∃ k ∈ sa₁.taxa_names, ∃ p, p < sa₁.n_columns ∧ ∃ i, i < sa₁.n_states ∧
            sa₁.prior_state_distribution k p i ≠ 0 ∧
              sa₁.prior_state_distribution k p i ≠ 1)) →
        initialize_site_static f sa raw_msa = Except.ok sa₁ ∧ sa₁.tag = Tag.SITE_STATIC) := by
  have hinit : initialize_site_static f sa raw_msa =
      (sa₁.taxa_names.foldlM (site_static_taxon sa₁)
          (List.replicate sa₁.n_columns (-1 : state_element)) >>= fun _ => pure sa₁) := by
    unfold initialize_site_static
    rw [hload, except_ok_bind]
  have hspec : ∀ k ∈ sa₁.taxa_names, ∀ p, p < sa₁.n_columns →
      (site_static_check_states sa₁ k p = Except.ok () ∧
          ∀ i, i < sa₁.states.length →
            sa₁.prior_state_distribution k p i = 0 ∨
              sa₁.prior_state_distribution k p i = 1) ∨
        (site_static_check_states sa₁ k p = Except.error Halt.exit_failure ∧
          ∃ i, i < sa₁.states.length ∧ sa₁.prior_state_distribution k p i ≠ 0 ∧
            sa₁.prior_state_distribution k p i ≠ 1) :=
    fun k hk p hp =>
      site_static_check_states_spec sa₁ k p sa₁.n_columns (hwf k hk).2 hp (le_of_eq hstates)
  have hyp : ∀ k ∈ sa₁.taxa_names,
      (∃ s, sa₁.taxa_names_to_sequences k = some s ∧ s.length = sa₁.n_columns) ∧
        ∀ p, p < sa₁.n_columns → site_static_check_states sa₁ k p = Except.ok () ∨
          site_static_check_states sa₁ k p = Except.error Halt.exit_failure := by
    intro k hk
    constructor
    · have h := (hwf k hk).1
      cases hs : sa₁.taxa_names_to_sequences k with
      | none => rw [hs] at h; cases h
      | some s =>
        rw [hs] at h
        exact ⟨s, rfl, Option.some.inj h⟩
    · intro p hp
      rcases hspec k hk p hp with h | h
      · exact Or.inl h.1
      · exact Or.inr h.1
  have hconv : ((∃ k ∈ sa₁.taxa_names, ∃ p, p < sa₁.n_columns ∧
          site_static_check_states sa₁ k p = Except.error Halt.exit_failure) ∨
        (∃ k ∈ sa₁.taxa_names, ∃ s, sa₁.taxa_names_to_sequences k = some s ∧
          column_clash sa₁.n_columns s (List.replicate sa₁.n_columns (-1 : state_element))) ∨
        (∃ k₁ ∈ sa₁.taxa_names, ∃ k₂ ∈ sa₁.taxa_names, ∃ s₁ s₂,
          sa₁.taxa_names_to_sequences k₁ = some s₁ ∧
            sa₁.taxa_names_to_sequences k₂ = some s₂ ∧ column_clash sa₁.n_columns s₁ s₂)) ↔
      ((∃ k₁ ∈ sa₁.taxa_names, ∃ k₂ ∈ sa₁.taxa_names, ∃ p, p < sa₁.n_columns ∧
          sa₁.state_at k₁ p ≠ some (-1) ∧ sa₁.state_at k₂ p ≠ some (-1) ∧
            sa₁.state_at k₁ p ≠ sa₁.state_at k₂ p) ∨
        (∃ k ∈ sa₁.taxa_names, ∃ p, p < sa₁.n_columns ∧ ∃ i, i < sa₁.n_states ∧
          sa₁.prior_state_distribution k p i ≠ 0 ∧
            sa₁.prior_state_distribution k p i ≠ 1)) := by
    have hstate : ∀ k ∈ sa₁.taxa_names, ∀ s, sa₁.taxa_names_to_sequences k = some s →
        ∀ p, p < sa₁.n_columns → sa₁.state_at k p = some (s.getD p 0) := by
      intro k hk s hs p hp
      have hlen := (hwf k hk).1
      rw [hs] at hlen
      have hlen' : s.length = sa₁.n_columns := Option.some.inj hlen
      simp only [SequenceAlignment.state_at, hs, Option.some_bind]
      exact state_getElem?_eq_some_getD s p (by omega)
    constructor
    · rintro (⟨k, hk, p, hp, herr⟩ | ⟨k, hk, s, hs, p, hp, h1, h2, h3⟩ |
        ⟨k₁, hk₁, k₂, hk₂, s₁, s₂, hs₁, hs₂, p, hp, h1, h2, h3⟩)
      · rcases hspec k hk p hp with ⟨hok, _⟩ | ⟨_, i, hi, h0, h1⟩
        · rw [hok] at herr
          cases herr
        · exact Or.inr ⟨k, hk, p, hp, i, hstates ▸ hi, h0, h1⟩
      · exact absurd (getD_replicate_gap sa₁.n_columns p hp) h2
      · refine Or.inl ⟨k₁, hk₁, k₂, hk₂, p, hp, ?_, ?_, ?_⟩
        · rw [hstate k₁ hk₁ s₁ hs₁ p hp]
          exact fun h => h1 (Option.some.inj h)
        · rw [hstate k₂ hk₂ s₂ hs₂ p hp]
          exact fun h => h2 (Option.some.inj h)
        · rw [hstate k₁ hk₁ s₁ hs₁ p hp, hstate k₂ hk₂ s₂ hs₂ p hp]
          exact fun h => h3 (Option.some.inj h)
    · rintro (⟨k₁, hk₁, k₂, hk₂, p, hp, h1, h2, h3⟩ | ⟨k, hk, p, hp, i, hi, h0, h1⟩)
      · obtain ⟨⟨s₁, hs₁, _⟩, _⟩ := hyp k₁ hk₁
        obtain ⟨⟨s₂, hs₂, _⟩, _⟩ := hyp k₂ hk₂
        rw [hstate k₁ hk₁ s₁ hs₁ p hp] at h1 h3
        rw [hstate k₂ hk₂ s₂ hs₂ p hp] at h2 h3
        exact Or.inr (Or.inr ⟨k₁, hk₁, k₂, hk₂, s₁, s₂, hs₁, hs₂, p, hp,
          fun h => h1 (congrArg some h), fun h => h2 (congrArg some h),
          fun h => h3 (congrArg some h)⟩)
      · rcases hspec k hk p hp with ⟨_, hall⟩ | ⟨herr, _⟩
        · rcases hall i (hstates ▸ hi) with h | h
          · exact absurd h h0
          · exact absurd h h1
        · exact Or.inl ⟨k, hk, p, hp, herr⟩
  rcases site_static_taxa_loop sa₁ sa₁.n_columns sa₁.taxa_names hyp
      (List.replicate sa₁.n_columns (-1 : state_element)) (List.length_replicate _ _) with
    ⟨hrun, hbad⟩ | ⟨⟨cs', hrun⟩, hgood⟩
  · have herr : initialize_site_static f sa raw_msa = Except.error Halt.exit_failure := by
      rw [hinit, hrun, except_error_bind]
    exact ⟨⟨fun _ => hconv.mp hbad, fun _ => herr⟩, fun hn => absurd (hconv.mp hbad) hn⟩
  · have hok : initialize_site_static f sa raw_msa = Except.ok sa₁ := by
      rw [hinit, hrun, except_ok_bind]
      rfl
    refine ⟨⟨fun h => ?_, fun h => absurd (hconv.mpr h) hgood⟩, fun _ => ⟨hok, ?_⟩⟩
    · rw [hok] at h
      cases h
    · exact initialize_common_tag f _ sa₁ raw_msa hload

/-- Witness of C16: over the states `{A, B}`, the sequences `x = AA`, `y = AB` end the
program, and the sequences `x = AA`, `y = AA` are loaded with the tag `SITE_STATIC`. -/
theorem initialize_site_static_spec_witness :
    initialize_site_static first_state_string abAlignment msaAAAB =
        Except.error Halt.exit_failure ∧
      initialize_site_static first_state_string abAlignment msaAAAA =
          Except.ok (loaded first_state_string { abAlignment with tag := Tag.SITE_STATIC }
            msaAAAA) ∧
        (loaded first_state_string { abAlignment with tag := Tag.SITE_STATIC } msaAAAA).tag =
          Tag.SITE_STATIC :=
  ⟨(initialize_site_static_spec first_state_string abAlignment _ msaAAAB
      (initialize_common_loaded _ _ _ (by decide!)) (by decide!) (by decide!)).1.mpr
        (by decide!),
    (initialize_site_static_spec first_state_string abAlignment _ msaAAAA
      (initialize_common_loaded _ _ _ (by decide!)) (by decide!) (by decide!)).2
        (by decide!)⟩

/-- Counterexample to C16 as stated: over the states `{A, B}`, the sequences `x = AZ`,
`y = AZ` end the program with failure, although the two taxa hold the same symbol in
every column and every record holds its state with frequency 1. -/
theorem initialize_site_static_unknown_symbol :
    initialize_site_static first_state_string abAlignment msaAZAZ =
        Except.error Halt.exit_failure ∧
      (∀ it₁ ∈ msaAZAZ.seqs, ∀ it₂ ∈ msaAZAZ.seqs,
        first_state_string it₁.2 = first_state_string it₂.2) ∧
      (∀ it ∈ msaAZAZ.seqs, ∀ column ∈ it.2, ∀ jt ∈ column, jt.freq = 1) :=
  ⟨rfl, by decide!, by decide!⟩

/-! ## The alignment as a sampled component -/

/-- Claim C22: the constructor of `SequenceAlignmentParameter` ends the program with
failure if and only if `n_sample < 1` or `n_sample > n_cols`; for `1 ≤ n_sample ≤ n_cols`
it returns an object whose `sample_loc` is below `n_cols`, and is `0` when
`n_sample = n_cols`. -/
theorem SequenceAlignmentParameter_construct_spec (msa : SequenceAlignment) (n_sample : Nat)
    (triple_recursion : Bool) (rand : Nat) :
    (SequenceAlignmentParameter.construct msa n_sample triple_recursion rand =
        Except.error Halt.exit_failure ↔ n_sample < 1 ∨ n_sample > msa.n_columns) ∧
      (1 ≤ n_sample → n_sample ≤ msa.n_columns →
        ∃ p, SequenceAlignmentParameter.construct msa n_sample triple_recursion rand =
            Except.ok p ∧
          p.n_sample = n_sample ∧ p.n_cols = msa.n_columns ∧
          p.sample_loc < msa.n_columns ∧ (n_sample = msa.n_columns → p.sample_loc = 0)) := by
  constructor
  · constructor
    · intro h
      by_contra hn
      push_neg at hn
      have h1 : ¬ n_sample < 1 := by omega
      have h2 : ¬ n_sample > msa.n_columns := by omega
      simp only [SequenceAlignmentParameter.construct, h1, h2, if_false] at h
      split_ifs at h
    · intro h
      rcases h with h | h
      · simp only [SequenceAlignmentParameter.construct, h, if_true]
      · by_cases h1 : n_sample < 1
        · simp only [SequenceAlignmentParameter.construct, h1, if_true]
        · simp only [SequenceAlignmentParameter.construct, h1, h, if_true, if_false]
  · intro h1 h2
    have h1' : ¬ n_sample < 1 := by omega
    have h2' : ¬ n_sample > msa.n_columns := by omega
    by_cases heq : n_sample = msa.n_columns
    · have hrun : SequenceAlignmentParameter.construct msa n_sample triple_recursion rand =
          Except.ok { save_count := -1, n_sample := n_sample, n_cols := msa.n_columns,
                      triple_recursion := triple_recursion, sample_loc := 0 } := by
        simp only [SequenceAlignmentParameter.construct, h1', h2', if_false]
        rw [if_pos heq]
      refine ⟨_, hrun, rfl, rfl, ?_, fun _ => rfl⟩
      show 0 < msa.n_columns
      omega
    · have hrun : SequenceAlignmentParameter.construct msa n_sample triple_recursion rand =
          Except.ok { save_count := -1, n_sample := n_sample, n_cols := msa.n_columns,
                      triple_recursion := triple_recursion,
                      sample_loc := rand % msa.n_columns } := by
        simp only [SequenceAlignmentParameter.construct, h1', h2', if_false]
        rw [if_neg heq]
      refine ⟨_, hrun, rfl, rfl, ?_, fun h => absurd h heq⟩
      show rand % msa.n_columns < msa.n_columns
      exact Nat.mod_lt _ (by omega)

/-! ## MCMC driver: the run -/

/-- A call of `sample` returns when the frequency of the tree steps is not zero, and
leaves that frequency. -/
theorem sample_returns {σ : Type} (m : Model σ) (s : MCMC σ) (h : s.tree_sample_freq ≠ 0) :
    ∃ s', sample m s = some s' ∧ s'.tree_sample_freq = s.tree_sample_freq := by
  simp only [sample, h, if_false]
  split_ifs
  all_goals exact ⟨_, rfl, rfl⟩

/-- A call of `sample` on a likelihood that is not a NaN, with a model that never returns
one, leaves a likelihood that is not a NaN. -/
theorem sample_lnL_not_nan {σ : Type} (m : Model σ) (s s' : MCMC σ)
    (hm : ∀ w, m.isnan (m.CalculateLikelihood w).1 = false ∧
      m.isnan (m.updateLikelihood w).1 = false)
    (hs : m.isnan s.lnL = false) (h : sample m s = some s') : m.isnan s'.lnL = false := by
  unfold sample at h
  dsimp only at h
  split_ifs at h
  all_goals
    have h' := Option.some.inj h
    rw [← h']
    first
      | exact hs
      | exact (hm _).1
      | exact (hm _).2

/-- One round of the loop of `Run` with frequencies that are not zero, a likelihood that
is not a NaN and a model that never returns one: it returns, having recorded the state
exactly when `gen` is a multiple of `out_freq`, and the likelihood is not a NaN. -/
theorem Run_generation_spec {σ : Type} (m : Model σ) (c : Chain σ) (ho : c.out_freq ≠ 0)
    (hp : c.print_freq ≠ 0) (ht : c.mcmc.tree_sample_freq ≠ 0)
    (hm : ∀ w, m.isnan (m.CalculateLikelihood w).1 = false ∧
      m.isnan (m.updateLikelihood w).1 = false)
    (hc : m.isnan c.mcmc.lnL = false) :
    ∃ s, sample m c.mcmc = some s ∧ s.tree_sample_freq = c.mcmc.tree_sample_freq ∧
      m.isnan s.lnL = false ∧
      Run_generation m c =
        Except.ok (if Int.tmod c.gen c.out_freq = 0 then RecordState m { c with mcmc := s }
          else { c with mcmc := s }) := by
  obtain ⟨s, hs, hst⟩ := sample_returns m c.mcmc ht
  have hn := sample_lnL_not_nan m c.mcmc s hm hc hs
  refine ⟨s, hs, hst, hn, ?_⟩
  simp only [Run_generation, hs, hn, Bool.false_eq_true, if_false, hp, ho]
  split_ifs <;> rfl

/-- One more round of the loop of `Run`. -/
theorem Run_generations_succ {σ : Type} (m : Model σ) (n : Nat) (c : Chain σ) :
    Run_generations m (n + 1) c =
      (Run_generations m n c >>= fun c₁ =>
        Run_generation m { c₁ with gen := (n : Int) + 1 }) := by
  simp only [Run_generations, List.range_succ, List.foldlM_append, List.foldlM_cons,
    List.foldlM_nil, bind_pure]

/-- Invariant of the loop of `Run` with `out_freq = f ≥ 1`, a likelihood that is not a NaN
and a model that never returns one: the first `n` rounds return, and have added one
record for each multiple of `f` up to `n`, numbered from the counter of `RecordState` on,
with the generation and the likelihood of that round. -/
theorem Run_generations_spec {σ : Type} (m : Model σ) (c : Chain σ) (f : Nat) (hf : 1 ≤ f)
    (hof : c.out_freq = (f : Int)) (hp : c.print_freq ≠ 0)
    (ht : c.mcmc.tree_sample_freq ≠ 0)
    (hm : ∀ w, m.isnan (m.CalculateLikelihood w).1 = false ∧
      m.isnan (m.updateLikelihood w).1 = false)
    (hc : m.isnan c.mcmc.lnL = false) (n : Nat) :
    ∃ c', Run_generations m n c = Except.ok c' ∧ c'.out_freq = c.out_freq ∧
      c'.print_freq = c.print_freq ∧ c'.gens = c.gens ∧
      c'.mcmc.tree_sample_freq = c.mcmc.tree_sample_freq ∧
      m.isnan c'.mcmc.lnL = false ∧
      c'.record_i = c.record_i + ((n / f : Nat) : Int) ∧
      c'.lnlout = c.lnlout ++ (List.range (n / f)).map (fun (k : Nat) =>
        ({ I := c.record_i + ((k : Int) + 1), GEN := (((k + 1) * f : Nat) : Int),
           LogL := lnL_after m c ((k + 1) * f) } : LikelihoodRecord)) := by
  induction n with
  | zero =>
    refine ⟨c, rfl, rfl, rfl, rfl, rfl, hc, ?_, ?_⟩
    · simp
    · simp
  | succ n ih =>
    obtain ⟨c', hrun, ho', hp', hg', ht', hnan', hri, hlog⟩ := ih
    have hsucc := Run_generations_succ m n c
    rw [hrun, except_ok_bind] at hsucc
    obtain ⟨s, hs, hst, hsn, hgen⟩ := Run_generation_spec m { c' with gen := (n : Int) + 1 }
      (by show c'.out_freq ≠ 0; rw [ho', hof]; exact_mod_cast (by omega : f ≠ 0))
      (by show c'.print_freq ≠ 0; rw [hp']; exact hp)
      (by show c'.mcmc.tree_sample_freq ≠ 0; rw [ht']; exact ht)
      hm hnan'
    rw [hgen] at hsucc
    have htest : Int.tmod ((n : Int) + 1) c'.out_freq = 0 ↔ f ∣ n + 1 := by
      rw [ho', hof, Int.tmod_eq_emod (by omega) (by omega)]
      constructor
      · intro h
        have h' : (((n + 1) % f : Nat) : Int) = 0 := by
          push_cast
          exact h
        exact Nat.dvd_of_mod_eq_zero (by exact_mod_cast h')
      · intro h
        have h' : (n + 1) % f = 0 := Nat.mod_eq_zero_of_dvd h
        have : (((n + 1) % f : Nat) : Int) = 0 := by exact_mod_cast h'
        push_cast at this
        exact this
    by_cases hd : f ∣ n + 1
    · have hdiv : (n + 1) / f = n / f + 1 := by
        rw [Nat.succ_div, if_pos hd]
      have hmul : (n / f + 1) * f = n + 1 := by
        rw [← hdiv]
        exact Nat.div_mul_cancel hd
      have hstate : Run_generations m (n + 1) c =
          Except.ok (RecordState m { c' with gen := (n : Int) + 1, mcmc := s }) := by
        rw [hsucc]
        show Except.ok (if Int.tmod ((n : Int) + 1) c'.out_freq = 0 then _ else _) = _
        rw [if_pos (htest.mpr hd)]
      have hl : lnL_after m c (n + 1) = s.lnL := by
        simp only [lnL_after, hstate]
        rfl
      refine ⟨_, hstate, ho', hp', hg', hst.trans ht', hsn, ?_, ?_⟩
      · show c'.record_i + 1 = _
        rw [hri, hdiv]
        push_cast
        ring
      · show c'.lnlout ++ [_] = _
        rw [hlog, hdiv, List.range_succ, List.map_append, List.append_assoc]
        congr 1
        congr 1
        simp only [List.map_cons, List.map_nil, hmul, hl, hri]
        congr 1
        congr 1
        · push_cast
          ring
    · have hdiv : (n + 1) / f = n / f := by
        rw [Nat.succ_div, if_neg hd]
        rfl
      have hstate : Run_generations m (n + 1) c =
          Except.ok { c' with gen := (n : Int) + 1, mcmc := s } := by
        rw [hsucc]
        show Except.ok (if Int.tmod ((n : Int) + 1) c'.out_freq = 0 then _ else _) = _
        rw [if_neg (fun h => hd (htest.mp h))]
      refine ⟨_, hstate, ho', hp', hg', hst.trans ht', hsn, ?_, ?_⟩
      · show c'.record_i = _
        rw [hri, hdiv]
      · show c'.lnlout = _
        rw [hlog, hdiv]

/-- Claim C23, as the code has it: when the model never returns a NaN as likelihood,
after `initialize`, which makes the record `0` of generation `0`, a run of `gens ≥ 0`
generations with `out_freq ≥ 1` (the two other frequencies not being zero) returns, and
adds one record for each multiple of `out_freq` among `1 .. gens`, which makes
`gens / out_freq` of them: record `k + 1` holds the index `k + 1`, the generation
`(k + 1) * out_freq` and the likelihood the chain has after that generation. -/
theorem Run_records {σ : Type} (m : Model σ) (w : σ) (gens out_freq : Nat)
    (print_freq tree_sample_freq : Int) (hf : 1 ≤ out_freq) (hp : print_freq ≠ 0)
    (ht : tree_sample_freq ≠ 0)
    (hm : ∀ w, m.isnan (m.CalculateLikelihood w).1 = false ∧
      m.isnan (m.updateLikelihood w).1 = false) :
    (initialize_MCMC m w out_freq print_freq gens tree_sample_freq).lnlout =
        [{ I := 0, GEN := 0, LogL := (m.CalculateLikelihood w).1 }] ∧
      ∃ c', Run m (initialize_MCMC m w out_freq print_freq gens tree_sample_freq) =
          Except.ok c' ∧
        c'.gen = (gens : Int) + 1 ∧
        c'.lnlout = { I := 0, GEN := 0, LogL := (m.CalculateLikelihood w).1 } ::
          (List.range (gens / out_freq)).map (fun (k : Nat) =>
            ({ I := (k : Int) + 1, GEN := (((k + 1) * out_freq : Nat) : Int),
               LogL := lnL_after m
                 (initialize_MCMC m w out_freq print_freq gens tree_sample_freq)
                 ((k + 1) * out_freq) } : LikelihoodRecord)) ∧
        ∀ g : Nat, (∃ r ∈ c'.lnlout.tail, r.GEN = (g : Int)) ↔
          (1 ≤ g ∧ g ≤ gens ∧ g % out_freq = 0) := by
  have h0 : (initialize_MCMC m w out_freq print_freq gens tree_sample_freq).lnlout =
      [{ I := 0, GEN := 0, LogL := (m.CalculateLikelihood w).1 }] := rfl
  have hri : (initialize_MCMC m w out_freq print_freq gens tree_sample_freq).record_i = 0 :=
    rfl
  refine ⟨h0, ?_⟩
  obtain ⟨c', hrun, _, _, _, _, _, _, hlog⟩ := Run_generations_spec m
    (initialize_MCMC m w out_freq print_freq gens tree_sample_freq) out_freq hf rfl hp ht hm
    (hm w).1 gens
  have hRun : Run m (initialize_MCMC m w out_freq print_freq gens tree_sample_freq) =
      Except.ok { c' with gen := (gens : Int) + 1 } := by
    have hg : (initialize_MCMC m w out_freq print_freq gens tree_sample_freq).gens.toNat =
        gens := Int.toNat_natCast gens
    simp only [Run, hg, hrun]
  have hlist : c'.lnlout = { I := 0, GEN := 0, LogL := (m.CalculateLikelihood w).1 } ::
      (List.range (gens / out_freq)).map (fun (k : Nat) =>
        ({ I := (k : Int) + 1, GEN := (((k + 1) * out_freq : Nat) : Int),
           LogL := lnL_after m
             (initialize_MCMC m w out_freq print_freq gens tree_sample_freq)
             ((k + 1) * out_freq) } : LikelihoodRecord)) := by
    rw [hlog, h0, hri]
    simp only [List.singleton_append, zero_add]
  refine ⟨_, hRun, rfl, hlist, ?_⟩
  intro g
  show (∃ r ∈ c'.lnlout.tail, r.GEN = (g : Int)) ↔ _
  rw [hlist, List.tail_cons]
  constructor
  · rintro ⟨r, hr, hrg⟩
    obtain ⟨k, hk, rfl⟩ := List.mem_map.mp hr
    have hk' : k < gens / out_freq := List.mem_range.mp hk
    have hrg' : (((k + 1) * out_freq : Nat) : Int) = (g : Int) := hrg
    have hg : (k + 1) * out_freq = g := by exact_mod_cast hrg'
    have hle : (k + 1) * out_freq ≤ gens :=
      le_trans (Nat.mul_le_mul_right _ hk') (Nat.div_mul_le_self gens out_freq)
    have hpos : 1 ≤ (k + 1) * out_freq := Nat.mul_pos (Nat.succ_pos k) hf
    refine ⟨by omega, by omega, ?_⟩
    rw [← hg]
    exact Nat.mul_mod_left _ _
  · rintro ⟨h1, h2, h3⟩
    obtain ⟨q, hq⟩ := Nat.dvd_of_mod_eq_zero h3
    have hq0 : q ≠ 0 := by
      intro h
      rw [h, Nat.mul_zero] at hq
      omega
    have hqle : q ≤ gens / out_freq := by
      rw [Nat.le_div_iff_mul_le (by omega)]
      rw [Nat.mul_comm, ← hq]
      exact h2
    refine ⟨_, List.mem_map.mpr ⟨q - 1, List.mem_range.mpr (by omega), rfl⟩, ?_⟩
    show (((q - 1 + 1) * out_freq : Nat) : Int) = (g : Int)
    have : q - 1 + 1 = q := by omega
    rw [this, hq, Nat.mul_comm]

/-- Witness of C23: five generations of the toy model, none of whose values is a NaN,
recorded every second one. -/
theorem Run_records_witness :
    ((initialize_MCMC toyModel 0 (2 : Nat) 1 (5 : Nat) 3).lnlout =
        [{ I := 0, GEN := 0, LogL := (toyModel.CalculateLikelihood 0).1 }] ∧
      ∃ c', Run toyModel (initialize_MCMC toyModel 0 (2 : Nat) 1 (5 : Nat) 3) =
          Except.ok c' ∧
        c'.gen = ((5 : Nat) : Int) + 1 ∧
        c'.lnlout = { I := 0, GEN := 0, LogL := (toyModel.CalculateLikelihood 0).1 } ::
          (List.range (5 / 2)).map (fun (k : Nat) =>
            ({ I := (k : Int) + 1, GEN := (((k + 1) * 2 : Nat) : Int),
               LogL := lnL_after toyModel (initialize_MCMC toyModel 0 (2 : Nat) 1 (5 : Nat) 3)
                 ((k + 1) * 2) } : LikelihoodRecord)) ∧
        ∀ g : Nat, (∃ r ∈ c'.lnlout.tail, r.GEN = (g : Int)) ↔
          (1 ≤ g ∧ g ≤ 5 ∧ g % 2 = 0)) ∧
      (halt_of (Run toyModel (initialize_MCMC toyModel 0 (2 : Nat) 1 (5 : Nat) 3)) = none ∧
        (List.range (5 / 2)).map (fun (k : Nat) =>
            ((k : Int) + 1, (((k + 1) * 2 : Nat) : Int),
              lnL_after toyModel (initialize_MCMC toyModel 0 (2 : Nat) 1 (5 : Nat) 3)
                ((k + 1) * 2))) = [(1, 2, 12), (2, 4, 24)]) :=
  ⟨Run_records toyModel 0 5 2 1 3 (by decide) (by decide) (by decide)
    (fun _ => ⟨rfl, rfl⟩), by decide!⟩

/-- Against C23 as stated: with `gens = 2` and `out_freq = 1` the state after the
generations `1` and `2` is to be recorded; with a model whose Gibbs-flagged proposal of
generation `1` has a NaN as likelihood, `lnL` is that NaN after the call of `sample`,
and `Run` ends the program with failure there. -/
theorem Run_exits_on_nan :
    (sample nanModel (initialize_MCMC nanModel 0 1 1 2 10).mcmc).map
        (fun s => nanModel.isnan s.lnL) = some true ∧
      halt_of (Run nanModel (initialize_MCMC nanModel 0 1 1 2 10)) =
        some Halt.exit_failure := by
  decide!

/-! ## Default names of tree nodes -/

/-- The digits of a number are put in front of the digits already there. -/
theorem toDigitsCore_append (fuel : Nat) :
    ∀ (n : Nat) (ds : List Char),
      Nat.toDigitsCore 10 fuel n ds = Nat.toDigitsCore 10 fuel n [] ++ ds := by
  induction fuel with
  | zero => intro n ds; rfl
  | succ fuel ih =>
    intro n ds
    simp only [Nat.toDigitsCore]
    by_cases h : n / 10 = 0
    · simp only [h, if_true, List.singleton_append]
    · simp only [h, if_false]
      rw [ih (n / 10) (Nat.digitChar (n % 10) :: ds), ih (n / 10) [Nat.digitChar (n % 10)]]
      simp only [List.append_assoc, List.singleton_append]

/-- A decimal digit denotes itself. -/
theorem digitChar_value : ∀ m, m < 10 → (Nat.digitChar m).toNat - 48 = m := by decide

/-- The decimal digits of a number denote it. -/
theorem digits_value_toDigitsCore (fuel : Nat) :
    ∀ n, n < fuel → digits_value (Nat.toDigitsCore 10 fuel n []) = n := by
  induction fuel with
  | zero => intro n h; exact absurd h (Nat.not_lt_zero n)
  | succ fuel ih =>
    intro n hn
    simp only [Nat.toDigitsCore]
    by_cases h : n / 10 = 0
    · simp only [h, if_true, digits_value, List.foldl_cons, List.foldl_nil]
      rw [digitChar_value _ (Nat.mod_lt _ (by decide))]
      omega
    · simp only [h, if_false]
      rw [toDigitsCore_append fuel (n / 10) [Nat.digitChar (n % 10)]]
      have hlt : n / 10 < fuel := by omega
      have hv := ih (n / 10) hlt
      simp only [digits_value] at hv ⊢
      rw [List.foldl_append, hv]
      simp only [List.foldl_cons, List.foldl_nil]
      rw [digitChar_value _ (Nat.mod_lt _ (by decide))]
      omega

/-- Different numbers have different decimal representations. -/
theorem repr_injective (a b : Nat) (h : Nat.repr a = Nat.repr b) : a = b := by
  have hd : Nat.toDigits 10 a = Nat.toDigits 10 b := congrArg String.data h
  have ha := digits_value_toDigitsCore (a + 1) a (Nat.lt_succ_self a)
  have hb := digits_value_toDigitsCore (b + 1) b (Nat.lt_succ_self b)
  have : digits_value (Nat.toDigits 10 a) = digits_value (Nat.toDigits 10 b) := by rw [hd]
  simp only [Nat.toDigits] at this
  rw [ha, hb] at this
  exact this

/-- Different counters give different default names. -/
theorem default_name_injective (a b : Nat)
    (h : "Node" ++ toString (a : Int) = "Node" ++ toString (b : Int)) : a = b := by
  have h1 := congrArg String.data h
  simp only [String.data_append] at h1
  have h2 : toString (a : Int) = toString (b : Int) :=
    String.ext (List.append_cancel_left h1)
  exact repr_injective a b h2

/-- The first `k` default constructions from the counter `a` on, as long as the counter
stays an `int`: they return and name the nodes after `a`, `a + 1`, ... in order. -/
theorem default_nodes_names (k : Nat) :
    ∀ a : Nat, a + k ≤ 2147483647 →
      ∃ nodes, default_nodes k (a : Int) = some (nodes, ((a + k : Nat) : Int)) ∧
        nodes.map (fun n => n.name) =
          (List.range k).map (fun (j : Nat) => "Node" ++ toString ((a + j : Nat) : Int)) := by
  induction k with
  | zero => intro a _; exact ⟨[], rfl, rfl⟩
  | succ k ih =>
    intro a ha
    obtain ⟨nodes, hrun, hnames⟩ := ih (a + 1) (by omega)
    have hlt : ¬ (a : Int) = 2147483647 := by omega
    have hc : TreeNode.default_construct (a : Int) =
        some ({ name := "Node" ++ toString (a : Int), up := none, left := none,
                right := none }, (a : Int) + 1) := by
      simp only [TreeNode.default_construct, hlt, if_false]
    have hcast : ((a : Int) + 1) = ((a + 1 : Nat) : Int) := by push_cast; ring
    refine ⟨{ name := "Node" ++ toString (a : Int), up := none, left := none,
              right := none } :: nodes, ?_, ?_⟩
    · simp only [default_nodes, hc, hcast, hrun, Option.map_some']
      have : a + 1 + k = a + (k + 1) := by omega
      rw [this]
    · have htail : (List.range k).map
            (fun (j : Nat) => "Node" ++ toString ((a + 1 + j : Nat) : Int)) =
          (List.range k).map
            ((fun (j : Nat) => "Node" ++ toString ((a + j : Nat) : Int)) ∘ Nat.succ) := by
        apply List.map_congr_left
        intro j _
        have hj : a + 1 + j = a + Nat.succ j := by omega
        simp only [Function.comp, hj]
      rw [List.range_succ_eq_map, List.map_cons, List.map_cons, List.map_map, hnames, htail,
        Nat.add_zero]

/-- Claim C24: as long as the counter stays an `int`, the first `k` default
constructions of a program return, the `j`-th node made (from `0`) is named `"Node"`
followed by the decimal `j`, and no two of the nodes have the same name. -/
theorem default_names_unique (k : Nat) (hk : k ≤ 2147483647) :
    ∃ nodes, default_nodes k 0 = some (nodes, (k : Int)) ∧
      nodes.map (fun n => n.name) =
        (List.range k).map (fun (j : Nat) => "Node" ++ toString (j : Int)) ∧
      (nodes.map (fun n => n.name)).Nodup ∧
      ∀ i j, i < k → j < k → i ≠ j →
        (nodes.map (fun n => n.name))[i]? ≠ (nodes.map (fun n => n.name))[j]? := by
  obtain ⟨nodes, hrun, hnames⟩ := default_nodes_names k 0 (by omega)
  have hrun' : default_nodes k 0 = some (nodes, (k : Int)) := by
    have h0 : ((0 : Nat) : Int) = 0 := rfl
    rw [h0, Nat.zero_add] at hrun
    exact hrun
  have hnames' : nodes.map (fun n => n.name) =
      (List.range k).map (fun (j : Nat) => "Node" ++ toString (j : Int)) := by
    rw [hnames]
    apply List.map_congr_left
    intro j _
    simp only [Nat.zero_add]
  have hinj : Function.Injective (fun (j : Nat) => "Node" ++ toString (j : Int)) :=
    fun a b h => default_name_injective a b h
  refine ⟨nodes, hrun', hnames', ?_, ?_⟩
  · rw [hnames']
    exact (List.nodup_range k).map hinj
  · intro i j hi hj hij h
    rw [hnames', List.getElem?_map, List.getElem?_map, List.getElem?_range hi,
      List.getElem?_range hj] at h
    exact hij (hinj (Option.some.inj h))

/-- Witness of C24: the first three default constructions of a program. -/
theorem default_names_unique_witness :
    (∃ nodes, default_nodes 3 0 = some (nodes, ((3 : Nat) : Int)) ∧
      nodes.map (fun n => n.name) =
        (List.range 3).map (fun (j : Nat) => "Node" ++ toString (j : Int)) ∧
      (nodes.map (fun n => n.name)).Nodup ∧
      ∀ i j, i < 3 → j < 3 → i ≠ j →
        (nodes.map (fun n => n.name))[i]? ≠ (nodes.map (fun n => n.name))[j]?) ∧
      (default_nodes 3 0).map (fun r => r.1.map (fun n => n.name)) =
        some ["Node0", "Node1", "Node2"] :=
  ⟨default_names_unique 3 (by decide), by decide⟩

/-! ## The priors are not written by the sampling functions -/

/-- A fold in `Option` that returns keeps what every round that returns keeps. -/
theorem foldlM_option_invariant {α β : Type} (P : β → Prop) (f : β → α → Option β)
    (hf : ∀ b a b', f b a = some b' → P b → P b') :
    ∀ (l : List α) (b b' : β), l.foldlM f b = some b' → P b → P b' := by
  intro l
  induction l with
  | nil =>
    intro b b' h hb
    have : b = b' := Option.some.inj h
    exact this ▸ hb
  | cons a l ih =>
    intro b b' h hb
    rw [List.foldlM_cons] at h
    cases h1 : f b a with
    | none => rw [h1] at h; cases h
    | some b₁ =>
      rw [h1] at h
      exact ih b₁ b' h (hf b a b₁ h1 hb)

/-- The method `normalize_state_probs` leaves the priors. -/
theorem normalize_state_probs_prior (sa : SequenceAlignment) (node : TreeNode) (pos : Nat) :
    (normalize_state_probs sa node pos).prior_state_distribution =
      sa.prior_state_distribution := by
  have hloop : ∀ (total : ℚ) (k : Nat),
      ((List.range k).foldl
        (fun sa' i => sa'.set_marginal node.name pos i
          (sa'.marginal_state_distribution node.name pos i / total))
        sa).prior_state_distribution = sa.prior_state_distribution := by
    intro total k
    induction k with
    | zero => rfl
    | succ k ih =>
      rw [List.range_succ, List.foldl_append]
      simpa [SequenceAlignment.set_marginal] using ih
  simp only [normalize_state_probs]
  split_ifs
  · exact hloop _ _
  · rfl

/-- The method `update_state_probs` leaves the priors. -/
theorem update_state_probs_prior (sa sa' : SequenceAlignment) (tm : TreeModel)
    (node : TreeNode) (pos : Nat) (up_node : TreeNode)
    (h : update_state_probs sa tm node pos up_node = some sa') :
    sa'.prior_state_distribution = sa.prior_state_distribution := by
  unfold update_state_probs at h
  refine foldlM_option_invariant
    (fun s => s.prior_state_distribution = sa.prior_state_distribution) _ ?_ _ _ _ h rfl
  intro b a b' hb hP
  split_ifs at hb with h0
  · cases hup : node.up with
    | none => simp [hup] at hb
    | some branch =>
      simp only [hup, Option.bind_eq_bind, Option.some_bind] at hb
      rw [← Option.some.inj hb]
      exact hP
  · rw [← Option.some.inj hb]
    exact hP

/-- The method `fast_update_state_probs_tips` leaves the priors. -/
theorem fast_update_state_probs_tips_prior (sa sa' : SequenceAlignment) (tm : TreeModel)
    (node : TreeNode) (pos : Nat) (up_node : TreeNode)
    (h : fast_update_state_probs_tips sa tm node pos up_node = some sa') :
    sa'.prior_state_distribution = sa.prior_state_distribution := by
  unfold fast_update_state_probs_tips at h
  refine foldlM_option_invariant
    (fun s => s.prior_state_distribution = sa.prior_state_distribution) _ ?_ _ _ _ h rfl
  intro b a b' hb hP
  split_ifs at hb with h0
  · cases hup : node.up with
    | none => simp [hup] at hb
    | some branch =>
      simp only [hup, Option.bind_eq_bind, Option.some_bind] at hb
      rw [← Option.some.inj hb]
      exact hP
  · rw [← Option.some.inj hb]
    exact hP

/-- A round of the loop of `pick_states_for_node` that returns leaves the priors. -/
theorem pick_states_round_prior (gaps : List Bool) (node : TreeNode) (Random : Nat → ℚ)
    (st st' : SequenceAlignment × Nat) (pos : Nat)
    (h : pick_states_round gaps node Random st pos = Except.ok st') :
    st'.1.prior_state_distribution = st.1.prior_state_distribution := by
  unfold pick_states_round at h
  cases hg : gaps[pos]? with
  | none => simp [hg] at h
  | some g =>
    cases g with
    | true =>
      simp only [hg] at h
      cases hset : st.1.set_state node.name pos (-1) with
      | none => simp [hset] at h
      | some sa' =>
        simp only [hset] at h
        have hst := Except.ok.inj h
        subst hst
        obtain ⟨_, _, h3⟩ := set_state_some _ _ _ _ _ hset
        show sa'.prior_state_distribution = _
        rw [h3]
    | false =>
      simp only [hg] at h
      cases hpick : pick_state_from_probabilities st.1 node pos (Random st.2) with
      | error e => simp [hpick] at h
      | ok picked =>
        simp only [hpick] at h
        cases hset : picked.2.set_state node.name pos picked.1 with
        | none => simp [hset] at h
        | some sa' =>
          simp only [hset] at h
          have hst := Except.ok.inj h
          subst hst
          obtain ⟨_, _, h3⟩ := set_state_some _ _ _ _ _ hset
          obtain ⟨h4, _⟩ := pick_state_from_probabilities_ok st.1 node pos (Random st.2)
            picked.1 picked.2 hpick
          show sa'.prior_state_distribution = _
          rw [h3]
          show picked.2.prior_state_distribution = _
          rw [h4]

/-- The loop of `pick_states_for_node` leaves the priors when it returns. -/
theorem pick_states_loop_prior (gaps : List Bool) (node : TreeNode) (Random : Nat → ℚ)
    (positions : List Nat) :
    ∀ st st' : SequenceAlignment × Nat,
      pick_states_loop gaps node Random positions st = Except.ok st' →
      st'.1.prior_state_distribution = st.1.prior_state_distribution := by
  induction positions with
  | nil =>
    intro st st' h
    have hst := Except.ok.inj h
    subst hst
    rfl
  | cons p rest ih =>
    intro st st' h
    unfold pick_states_loop at h
    cases hround : pick_states_round gaps node Random st p with
    | error e => simp [hround] at h
    | ok st₁ =>
      simp only [hround] at h
      exact (ih st₁ st' h).trans (pick_states_round_prior gaps node Random st st₁ p hround)

/-- Claim C25: each of `reset_to_base`, `normalize_state_probs`, `update_state_probs`,
`fast_update_state_probs_tips`, `pick_state_from_probabilities` and
`pick_states_for_node` leaves every entry of `prior_state_distribution` as it was. -/
theorem sampling_leaves_priors (sa : SequenceAlignment) (tm : TreeModel) (node : TreeNode)
    (up_node : TreeNode) (pos : Nat) (positions : List Nat) (r : ℚ) (Random : Nat → ℚ)
    (drawn : Nat) :
    (reset_to_base sa node.name positions).prior_state_distribution =
        sa.prior_state_distribution ∧
      (normalize_state_probs sa node pos).prior_state_distribution =
        sa.prior_state_distribution ∧
      (∀ sa', update_state_probs sa tm node pos up_node = some sa' →
        sa'.prior_state_distribution = sa.prior_state_distribution) ∧
      (∀ sa', fast_update_state_probs_tips sa tm node pos up_node = some sa' →
        sa'.prior_state_distribution = sa.prior_state_distribution) ∧
      (∀ picked, pick_state_from_probabilities sa node pos r = Except.ok picked →
        picked.2.prior_state_distribution = sa.prior_state_distribution) ∧
      (∀ st', pick_states_for_node sa node positions Random drawn = Except.ok st' →
        st'.1.prior_state_distribution = sa.prior_state_distribution) := by
  refine ⟨(reset_to_base_spec node.name positions sa).1,
    normalize_state_probs_prior sa node pos,
    fun sa' h => update_state_probs_prior sa sa' tm node pos up_node h,
    fun sa' h => fast_update_state_probs_tips_prior sa sa' tm node pos up_node h, ?_, ?_⟩
  · intro picked h
    obtain ⟨h4, _⟩ := pick_state_from_probabilities_ok sa node pos r picked.1 picked.2 h
    rw [h4]
  · intro st' h
    exact pick_states_loop_prior _ node Random positions (sa, drawn) st' h

/-! ## Attaching the sequences to the tree -/

/-- A tip without a sequence ends the first loop of `syncWithTree` with failure. -/
theorem attach_node_exit (st : SequenceAlignment × (String → Option String)) (n : TreeNode)
    (htip : n.isTip = true) (hnone : st.1.taxa_names_to_sequences n.name = none) :
    attach_node st n = Except.error Halt.exit_failure := by
  simp only [attach_node, hnone, Option.isSome_none, Bool.false_eq_true, if_false, htip,
    if_true]

/-- A round of the first loop of `syncWithTree` on a node that has a sequence or is not a
tip, in an alignment with columns: it returns, the node points to the entry under its
name, which holds the sequence there was or else a new one of gaps, and the entries and
pointers of the other names are as before. -/
theorem attach_node_ok (st : SequenceAlignment × (String → Option String)) (n : TreeNode)
    (hN : 0 < st.1.n_columns)
    (hok : n.isTip = true → (st.1.taxa_names_to_sequences n.name).isSome = true) :
    ∃ st', attach_node st n = Except.ok st' ∧ st'.1.n_columns = st.1.n_columns ∧
      st'.1.tree = st.1.tree ∧ st'.2 n.name = some n.name ∧
      (∀ nm, nm ≠ n.name → st'.2 nm = st.2 nm ∧
        st'.1.taxa_names_to_sequences nm = st.1.taxa_names_to_sequences nm ∧
        st'.1.taxa_names_to_gaps nm = st.1.taxa_names_to_gaps nm) ∧
      (st.1.taxa_names_to_sequences n.name = none →
        st'.1.taxa_names_to_sequences n.name =
            some (List.replicate st.1.n_columns (-1)) ∧
          st'.1.taxa_names_to_gaps n.name = List.replicate st.1.n_columns true) ∧
      ((st.1.taxa_names_to_sequences n.name).isSome = true →
        st'.1.taxa_names_to_sequences n.name = st.1.taxa_names_to_sequences n.name ∧
          st'.1.taxa_names_to_gaps n.name = st.1.taxa_names_to_gaps n.name) := by
  by_cases hs : (st.1.taxa_names_to_sequences n.name).isSome = true
  · have hrun : attach_node st n = Except.ok
        ({ st.1 with marginal_state_distribution := fun nm p i =>
            if nm = n.name then 0 else st.1.marginal_state_distribution nm p i },
          fun nm => if nm = n.name then some n.name else st.2 nm) := by
      simp only [attach_node, hs, if_true]
    refine ⟨_, hrun, rfl, rfl, ?_, ?_, ?_, ?_⟩
    · simp
    · intro nm hnm
      simp [hnm]
    · intro hnone
      rw [hnone] at hs
      cases hs
    · intro _
      exact ⟨rfl, rfl⟩
  · have htip : ¬ n.isTip = true := fun h => hs (hok h)
    have hnone : st.1.taxa_names_to_sequences n.name = none := by
      cases h : st.1.taxa_names_to_sequences n.name with
      | none => rfl
      | some q => rw [h] at hs; exact absurd rfl hs
    have hrun : attach_node st n = Except.ok
        ({ st.1 with
            marginal_state_distribution := fun nm p i =>
              if nm = n.name then 0 else st.1.marginal_state_distribution nm p i
            taxa_names_to_sequences := fun nm =>
              if nm = n.name then some (List.replicate st.1.n_columns (-1))
              else st.1.taxa_names_to_sequences nm
            taxa_names_to_gaps := fun nm =>
              if nm = n.name then List.replicate st.1.n_columns true
              else st.1.taxa_names_to_gaps nm
            taxa_names := insert_key n.name st.1.taxa_names },
          fun nm => if nm = n.name then some n.name else st.2 nm) := by
      simp only [attach_node, hs, htip, Bool.false_eq_true, if_false, add_internal, hN,
        if_true]
    refine ⟨_, hrun, rfl, rfl, ?_, ?_, ?_, ?_⟩
    · simp
    · intro nm hnm
      simp [hnm]
    · intro _
      simp
    · intro h
      exact absurd h hs

/-- The first loop of `syncWithTree` over nodes with different names, in an alignment with
columns: a tip without sequence ends the program with failure; otherwise the loop
returns, every node points to the entry under its own name, a node that had no sequence
has a new one of `-1` with all its gap flags set, and every other entry is as before. -/
theorem attach_loop (L : List TreeNode) :
    ∀ st : SequenceAlignment × (String → Option String), 0 < st.1.n_columns →
      (L.map (fun n => n.name)).Nodup →
      ((∃ n ∈ L, n.isTip = true ∧ st.1.taxa_names_to_sequences n.name = none) →
        L.foldlM attach_node st = Except.error Halt.exit_failure) ∧
      ((∀ n ∈ L, n.isTip = true → (st.1.taxa_names_to_sequences n.name).isSome = true) →
        ∃ st', L.foldlM attach_node st = Except.ok st' ∧
          st'.1.n_columns = st.1.n_columns ∧ st'.1.tree = st.1.tree ∧
          (∀ n ∈ L, st'.2 n.name = some n.name) ∧
          (∀ n ∈ L, st.1.taxa_names_to_sequences n.name = none →
            st'.1.taxa_names_to_sequences n.name =
                some (List.replicate st.1.n_columns (-1)) ∧
              st'.1.taxa_names_to_gaps n.name = List.replicate st.1.n_columns true) ∧
          (∀ nm, (st.1.taxa_names_to_sequences nm).isSome = true →
            st'.1.taxa_names_to_sequences nm = st.1.taxa_names_to_sequences nm ∧
              st'.1.taxa_names_to_gaps nm = st.1.taxa_names_to_gaps nm) ∧
          (∀ nm, nm ∉ L.map (fun n => n.name) → st'.2 nm = st.2 nm ∧
            st'.1.taxa_names_to_sequences nm = st.1.taxa_names_to_sequences nm ∧
            st'.1.taxa_names_to_gaps nm = st.1.taxa_names_to_gaps nm)) := by
  induction L with
  | nil =>
    intro st _ _
    refine ⟨?_, ?_⟩
    · rintro ⟨n, hn, _⟩
      exact absurd hn (List.not_mem_nil n)
    · intro _
      exact ⟨st, rfl, rfl, rfl, fun n hn => absurd hn (List.not_mem_nil n),
        fun n hn => absurd hn (List.not_mem_nil n), fun _ _ => ⟨rfl, rfl⟩,
        fun _ _ => ⟨rfl, rfl, rfl⟩⟩
  | cons n rest ih =>
    intro st hN hnd
    have hnd' : (rest.map (fun n => n.name)).Nodup := (List.nodup_cons.mp hnd).2
    have hnotin : n.name ∉ rest.map (fun n => n.name) := (List.nodup_cons.mp hnd).1
    have hne : ∀ m ∈ rest, m.name ≠ n.name := by
      intro m hm h
      exact hnotin (List.mem_map.mpr ⟨m, hm, h⟩)
    refine ⟨?_, ?_⟩
    · rintro ⟨t, ht, htip, hnone⟩
      by_cases hbad : n.isTip = true ∧ st.1.taxa_names_to_sequences n.name = none
      · rw [List.foldlM_cons, attach_node_exit st n hbad.1 hbad.2, except_error_bind]
      · have hok : n.isTip = true → (st.1.taxa_names_to_sequences n.name).isSome = true := by
          intro h
          cases hq : st.1.taxa_names_to_sequences n.name with
          | none => exact absurd ⟨h, hq⟩ hbad
          | some q => rfl
        obtain ⟨st₁, hrun, hcol, _, _, hother, _, _⟩ := attach_node_ok st n hN hok
        rw [List.foldlM_cons, hrun, except_ok_bind]
        rcases List.mem_cons.mp ht with hteq | htrest
        · subst hteq
          exact absurd ⟨htip, hnone⟩ hbad
        · apply (ih st₁ (by rw [hcol]; exact hN) hnd').1
          refine ⟨t, htrest, htip, ?_⟩
          rw [(hother t.name (hne t htrest)).2.1]
          exact hnone
    · intro hall
      obtain ⟨st₁, hrun, hcol, htree, hptr, hother, hnew, hold⟩ :=
        attach_node_ok st n hN (hall n (List.mem_cons_self _ _))
      have hall₁ : ∀ m ∈ rest, m.isTip = true →
          (st₁.1.taxa_names_to_sequences m.name).isSome = true := by
        intro m hm htip
        rw [(hother m.name (hne m hm)).2.1]
        exact hall m (List.mem_cons_of_mem _ hm) htip
      obtain ⟨st', hrun', hcol', htree', hptr', hnew', hold', hout'⟩ :=
        (ih st₁ (by rw [hcol]; exact hN) hnd').2 hall₁
      refine ⟨st', ?_, hcol'.trans hcol, htree'.trans htree, ?_, ?_, ?_, ?_⟩
      · rw [List.foldlM_cons, hrun, except_ok_bind]
        exact hrun'
      · intro m hm
        rcases List.mem_cons.mp hm with hmeq | hmrest
        · subst hmeq
          rw [(hout' m.name hnotin).1]
          exact hptr
        · exact hptr' m hmrest
      · intro m hm hnone
        rcases List.mem_cons.mp hm with hmeq | hmrest
        · subst hmeq
          obtain ⟨h1, h2⟩ := hnew hnone
          rw [(hout' m.name hnotin).2.1, (hout' m.name hnotin).2.2]
          exact ⟨h1, h2⟩
        · have hnone₁ : st₁.1.taxa_names_to_sequences m.name = none := by
            rw [(hother m.name (hne m hmrest)).2.1]
            exact hnone
          obtain ⟨h1, h2⟩ := hnew' m hmrest hnone₁
          rw [hcol] at h1 h2
          exact ⟨h1, h2⟩
      · intro nm hsome
        have h₁ : st₁.1.taxa_names_to_sequences nm = st.1.taxa_names_to_sequences nm ∧
            st₁.1.taxa_names_to_gaps nm = st.1.taxa_names_to_gaps nm := by
          by_cases hnm : nm = n.name
          · subst hnm
            exact hold hsome
          · exact (hother nm hnm).2
        have hsome₁ : (st₁.1.taxa_names_to_sequences nm).isSome = true := by
          rw [h₁.1]
          exact hsome
        obtain ⟨h1, h2⟩ := hold' nm hsome₁
        exact ⟨h1.trans h₁.1, h2.trans h₁.2⟩
      · intro nm hnm
        have hnm₁ : nm ≠ n.name := by
          intro h
          apply hnm
          rw [h]
          exact List.mem_map.mpr ⟨n, List.mem_cons_self _ _, rfl⟩
        have hnm₂ : nm ∉ rest.map (fun n => n.name) := by
          intro h
          apply hnm
          obtain ⟨m, hm, hmn⟩ := List.mem_map.mp h
          exact List.mem_map.mpr ⟨m, List.mem_cons_of_mem _ hm, hmn⟩
        obtain ⟨h1, h2, h3⟩ := hout' nm hnm₂
        obtain ⟨g1, g2, g3⟩ := hother nm hnm₁
        exact ⟨h1.trans g1, h2.trans g2, h3.trans g3⟩

/-- Setting a gap flag leaves the sequences. -/
theorem set_gap_sequences (sa sa' : SequenceAlignment) (name : String) (pos : Nat) (b : Bool)
    (h : sa.set_gap name pos b = some sa') :
    sa'.taxa_names_to_sequences = sa.taxa_names_to_sequences := by
  unfold SequenceAlignment.set_gap at h
  split_ifs at h
  rw [← Option.some.inj h]
  rfl

/-- A round of the gap-setting loop of `syncWithTree` leaves the sequences. -/
theorem set_gaps_for_node_sequences (sa sa' : SequenceAlignment) (node : TreeNode)
    (h : set_gaps_for_node sa node = some sa') :
    sa'.taxa_names_to_sequences = sa.taxa_names_to_sequences := by
  unfold set_gaps_for_node at h
  split_ifs at h with h1 h2
  · rw [← Option.some.inj h]
  · cases hl : node.left with
    | none => simp [hl] at h
    | some left =>
      simp only [hl, Option.bind_eq_bind, Option.some_bind] at h
      cases hsz : sa.sequence_size left.decendant with
      | none => simp [hsz] at h
      | some size =>
        simp only [hsz, Option.some_bind] at h
        unfold for_range at h
        refine foldlM_option_invariant
          (fun s => s.taxa_names_to_sequences = sa.taxa_names_to_sequences) _ ?_ _ _ _ h rfl
        intro b a b' hb hP
        cases hg : b.gap_at left.decendant a with
        | none => simp [hg] at hb
        | some g =>
          simp only [hg, Option.some_bind] at hb
          exact (set_gap_sequences _ _ _ _ _ hb).trans hP
  · cases hsz : sa.sequence_size node.name with
    | none => simp [hsz] at h
    | some size =>
      simp only [hsz, Option.bind_eq_bind, Option.some_bind] at h
      unfold for_range at h
      refine foldlM_option_invariant
        (fun s => s.taxa_names_to_sequences = sa.taxa_names_to_sequences) _ ?_ _ _ _ h rfl
      intro b a b' hb hP
      cases hl : node.left with
      | none => simp [hl] at hb
      | some left =>
        simp only [hl, Option.some_bind] at hb
        cases hg : b.gap_at left.decendant a with
        | none => simp [hg] at hb
        | some gl =>
          simp only [hg, Option.some_bind] at hb
          cases gl with
          | false =>
            simp only [Bool.false_eq_true, if_false] at hb
            exact (set_gap_sequences _ _ _ _ _ hb).trans hP
          | true =>
            simp only [if_true] at hb
            cases hr : node.right with
            | none =>
              simp only [hr] at hb
              exact (set_gap_sequences _ _ _ _ _ hb).trans hP
            | some right =>
              simp only [hr] at hb
              cases hgr : b.gap_at right.decendant a with
              | none => simp [hgr] at hb
              | some gr =>
                simp only [hgr, Option.bind_eq_bind, Option.some_bind] at hb
                exact (set_gap_sequences _ _ _ _ _ hb).trans hP

/-- Writing a state keeps every name that has a sequence a name that has one. -/
theorem set_state_keys (sa sa' : SequenceAlignment) (name : String) (pos : Nat)
    (s : state_element) (h : sa.set_state name pos s = some sa') (nm : String)
    (hnm : (sa.taxa_names_to_sequences nm).isSome = true) :
    (sa'.taxa_names_to_sequences nm).isSome = true := by
  obtain ⟨_, _, h3⟩ := set_state_some sa sa' name pos s h
  unfold SequenceAlignment.set_state at h
  cases hseq : sa.taxa_names_to_sequences name with
  | none => simp [hseq] at h
  | some seq =>
    simp only [hseq] at h
    split_ifs at h with hlt
    rw [← Option.some.inj h]
    by_cases hn : nm = name
    · simp [hn]
    · simp only [hn, if_false]
      exact hnm

/-- The function `find_parsimony_by_position` keeps every name that has a sequence a name
that has one. -/
theorem find_parsimony_by_position_keys (sa sa' : SequenceAlignment) (pos : Nat)
    (h : find_parsimony_by_position sa pos = some sa') (nm : String)
    (hnm : (sa.taxa_names_to_sequences nm).isSome = true) :
    (sa'.taxa_names_to_sequences nm).isSome = true := by
  unfold find_parsimony_by_position at h
  cases hcs : clade_states_by_position sa pos with
  | none => simp [hcs] at h
  | some cs =>
    simp only [hcs, Option.bind_eq_bind, Option.some_bind] at h
    refine foldlM_option_invariant
      (fun s => (s.taxa_names_to_sequences nm).isSome = true) _ ?_ _ _ _ h hnm
    intro b a b' hb hP
    unfold set_parsimony_state at hb
    split_ifs at hb with h1
    · rw [← Option.some.inj hb]
      exact hP
    · cases hg : b.gap_at a.name pos with
      | none => simp [hg] at hb
      | some g =>
        simp only [hg, Option.bind_eq_bind, Option.some_bind] at hb
        cases g with
        | true =>
          simp only [if_true] at hb
          rw [← Option.some.inj hb]
          exact hP
        | false =>
          simp only [Bool.false_eq_true, if_false] at hb
          cases hup : a.up with
          | none =>
            simp only [hup] at hb
            exact set_state_keys _ _ _ _ _ hb nm hP
          | some up =>
            simp only [hup] at hb
            cases hab : b.state_at up.ancestral pos with
            | none => simp [hab] at hb
            | some above =>
              simp only [hab, Option.some_bind] at hb
              exact set_state_keys _ _ _ _ _ hb nm hP

/-- Claim C26: in an alignment with columns, on a tree whose nodes have different names:
if a tip has no sequence, `syncWithTree` ends the program with failure; otherwise its
first loop returns, a node that had no sequence (an internal one) has a new sequence
of `n_columns` states `-1` with `n_columns` gap flags set, every node points to the
entry stored under its own name, and so it is when `syncWithTree` returns. -/
theorem syncWithTree_attaches (sa : SequenceAlignment) (tree : List TreeNode)
    (sequences : String → Option String) (hN : 0 < sa.n_columns)
    (hnd : (tree.map (fun n => n.name)).Nodup) :
    ((∃ n ∈ tree, n.isTip = true ∧ sa.taxa_names_to_sequences n.name = none) →
        syncWithTree sa tree sequences = Except.error Halt.exit_failure) ∧
      ((∀ n ∈ tree, n.isTip = true → (sa.taxa_names_to_sequences n.name).isSome = true) →
        ∃ st, attach_sequences sa tree sequences = Except.ok st ∧
          (∀ n ∈ tree, sa.taxa_names_to_sequences n.name = none →
            st.1.taxa_names_to_sequences n.name = some (List.replicate sa.n_columns (-1)) ∧
              st.1.taxa_names_to_gaps n.name = List.replicate sa.n_columns true) ∧
          (∀ n ∈ tree, st.2 n.name = some n.name ∧
            (st.1.taxa_names_to_sequences n.name).isSome = true) ∧
          ∀ r, syncWithTree sa tree sequences = Except.ok r →
            ∀ n ∈ tree, r.2 n.name = some n.name ∧
              (r.1.taxa_names_to_sequences n.name).isSome = true) := by
  obtain ⟨hA, hB⟩ := attach_loop tree ({ sa with tree := tree }, sequences) hN hnd
  refine ⟨?_, ?_⟩
  · intro hmiss
    have h := hA hmiss
    have h' : attach_sequences sa tree sequences = Except.error Halt.exit_failure := h
    simp only [syncWithTree, h']
  · intro hall
    obtain ⟨st, hrun, _, _, hptr, hnew, hold, _⟩ := hB hall
    have hrun' : attach_sequences sa tree sequences = Except.ok st := hrun
    have hsome : ∀ n ∈ tree, (st.1.taxa_names_to_sequences n.name).isSome = true := by
      intro n hn
      cases hq : sa.taxa_names_to_sequences n.name with
      | none =>
        rw [(hnew n hn hq).1]
        rfl
      | some q =>
        have hq' : (sa.taxa_names_to_sequences n.name).isSome = true := by rw [hq]; rfl
        rw [(hold n.name hq').1]
        exact hq'
    refine ⟨st, hrun', hnew, fun n hn => ⟨hptr n hn, hsome n hn⟩, ?_⟩
    intro r hr n hn
    simp only [syncWithTree, hrun'] at hr
    cases hg : set_internal_gaps st.1 with
    | none => simp [hg] at hr
    | some sa₁ =>
      simp only [hg] at hr
      cases hp : for_range sa₁.n_columns (fun i s => find_parsimony_by_position s i) sa₁ with
      | none => simp [hp] at hr
      | some sa₂ =>
        simp only [hp] at hr
        have hr' := Except.ok.inj hr
        have h1 : sa₁.taxa_names_to_sequences = st.1.taxa_names_to_sequences :=
          foldlM_option_invariant
            (fun s => s.taxa_names_to_sequences = st.1.taxa_names_to_sequences)
            set_gaps_for_node
            (fun b a b' hb hP => (set_gaps_for_node_sequences b b' a hb).trans hP)
            _ _ _ hg rfl
        have h2 : (sa₂.taxa_names_to_sequences n.name).isSome = true :=
          foldlM_option_invariant
            (fun s => (s.taxa_names_to_sequences n.name).isSome = true)
            (fun s' i => find_parsimony_by_position s' i)
            (fun b a b' hb hP => find_parsimony_by_position_keys b b' a hb n.name hP)
            _ _ _ hp
            (show (sa₁.taxa_names_to_sequences n.name).isSome = true by
              rw [h1]
              exact hsome n hn)
        rw [← hr']
        exact ⟨hptr n hn, h2⟩

/-- Witness of C26: the tips `a`, `b`, `c` attached to `gapTree`, whose internal nodes
`ab` and `root` get new sequences; without the sequence of `c` the program ends. -/
theorem syncWithTree_attaches_witness :
    (((∃ n ∈ gapTree, n.isTip = true ∧ tipsAlignment.taxa_names_to_sequences n.name = none) →
        syncWithTree tipsAlignment gapTree (fun _ => none) =
          Except.error Halt.exit_failure) ∧
      ((∀ n ∈ gapTree, n.isTip = true →
          (tipsAlignment.taxa_names_to_sequences n.name).isSome = true) →
        ∃ st, attach_sequences tipsAlignment gapTree (fun _ => none) = Except.ok st ∧
          (∀ n ∈ gapTree, tipsAlignment.taxa_names_to_sequences n.name = none →
            st.1.taxa_names_to_sequences n.name =
                some (List.replicate tipsAlignment.n_columns (-1)) ∧
              st.1.taxa_names_to_gaps n.name =
                List.replicate tipsAlignment.n_columns true) ∧
          (∀ n ∈ gapTree, st.2 n.name = some n.name ∧
            (st.1.taxa_names_to_sequences n.name).isSome = true) ∧
          ∀ r, syncWithTree tipsAlignment gapTree (fun _ => none) = Except.ok r →
            ∀ n ∈ gapTree, r.2 n.name = some n.name ∧
              (r.1.taxa_names_to_sequences n.name).isSome = true)) ∧
      halt_of (syncWithTree tipsAlignment gapTree (fun _ => none)) = none ∧
      halt_of (syncWithTree
        { tipsAlignment with taxa_names_to_sequences := fun nm =>
            if nm = "c" then none else tipsAlignment.taxa_names_to_sequences nm }
        gapTree (fun _ => none)) = some Halt.exit_failure :=
  ⟨syncWithTree_attaches tipsAlignment gapTree (fun _ => none) (by decide) (by decide),
    by decide!, by decide!⟩

/-- The selection loop of `pick_most_frequent_state` leaves a pair that no entry beats
and that no entry ties with the state above. -/
theorem most_frequent_loop_stays (above : state_element) (E : List (state_element × Int)) :
    ∀ acc : state_element × Int, (∀ e ∈ E, e.2 ≤ acc.2) → (∀ e ∈ E, e.1 ≠ above) →
      E.foldl (fun (acc : state_element × Int) (e : state_element × Int) =>
        if e.2 > acc.2 ∨ (e.2 = acc.2 ∧ e.1 = above ∧ above ≠ -1) then (e.1, e.2) else acc)
        acc = acc := by
  induction E with
  | nil => intro acc _ _; rfl
  | cons e rest ih =>
    intro acc hle hne
    have h1 : ¬ (e.2 > acc.2 ∨ (e.2 = acc.2 ∧ e.1 = above ∧ above ≠ -1)) := by
      rintro (h | ⟨_, h, _⟩)
      · exact absurd (hle e (List.mem_cons_self _ _)) (not_le.mpr h)
      · exact hne e (List.mem_cons_self _ _) h
    rw [List.foldl_cons, if_neg h1]
    exact ih acc (fun e' he' => hle e' (List.mem_cons_of_mem _ he'))
      (fun e' he' => hne e' (List.mem_cons_of_mem _ he'))

/-- The selection loop of `pick_most_frequent_state` over entries with increasing keys:
when the state above is not `-1` and its entry holds a count that no entry and not the
initial pair exceeds, the loop ends with that entry. -/
theorem most_frequent_loop_above (above : state_element) (M : Int) (habove : above ≠ -1)
    (E : List (state_element × Int)) :
    ∀ acc : state_element × Int, (E.map Prod.fst).Pairwise (fun a b => a < b) →
      (above, M) ∈ E → (∀ e ∈ E, e.2 ≤ M) → acc.2 ≤ M →
      E.foldl (fun (acc : state_element × Int) (e : state_element × Int) =>
        if e.2 > acc.2 ∨ (e.2 = acc.2 ∧ e.1 = above ∧ above ≠ -1) then (e.1, e.2) else acc)
        acc = (above, M) := by
  induction E with
  | nil => intro acc _ hmem; exact absurd hmem (List.not_mem_nil _)
  | cons e rest ih =>
    intro acc hsorted hmem hle hacc
    simp only [List.map_cons, List.pairwise_cons] at hsorted
    rw [List.foldl_cons]
    by_cases he : e.1 = above
    · have hcount : e.2 = M := by
        rcases List.mem_cons.mp hmem with h | h
        · rw [← h]
        · have := hsorted.1 above (List.mem_map.mpr ⟨(above, M), h, rfl⟩)
          rw [he] at this
          exact absurd this (lt_irrefl _)
      have hsel : e.2 > acc.2 ∨ (e.2 = acc.2 ∧ e.1 = above ∧ above ≠ -1) := by
        rcases lt_or_eq_of_le hacc with h | h
        · left
          rw [hcount]
          exact h
        · right
          exact ⟨by rw [hcount, h], he, habove⟩
      rw [if_pos hsel]
      have hpair : (e.1, e.2) = (above, M) := by rw [he, hcount]
      rw [hpair]
      apply most_frequent_loop_stays
      · intro e' he'
        exact hle e' (List.mem_cons_of_mem _ he')
      · intro e' he' h
        have := hsorted.1 e'.1 (List.mem_map.mpr ⟨e', he', rfl⟩)
        rw [he, h] at this
        exact absurd this (lt_irrefl _)
    · have hmem' : (above, M) ∈ rest := by
        rcases List.mem_cons.mp hmem with h | h
        · rw [← h] at he
          exact absurd rfl he
        · exact h
      apply ih _ hsorted.2 hmem' (fun e' he' => hle e' (List.mem_cons_of_mem _ he'))
      split_ifs
      · exact hle e (List.mem_cons_self _ _)
      · exact hacc

/-- The selection loop of `pick_most_frequent_state` over entries with increasing keys
when the state above is `-1`: either no entry exceeds the initial pair, which stays, or
the loop ends with the first of the entries of highest count. -/
theorem most_frequent_loop_root (E : List (state_element × Int)) :
    ∀ acc : state_element × Int, (E.map Prod.fst).Pairwise (fun a b => a < b) →
      (E.foldl (fun (acc : state_element × Int) (e : state_element × Int) =>
          if e.2 > acc.2 ∨ (e.2 = acc.2 ∧ e.1 = -1 ∧ (-1 : state_element) ≠ -1) then (e.1, e.2)
          else acc) acc = acc ∧ ∀ e ∈ E, e.2 ≤ acc.2) ∨
        (E.foldl (fun (acc : state_element × Int) (e : state_element × Int) =>
          if e.2 > acc.2 ∨ (e.2 = acc.2 ∧ e.1 = -1 ∧ (-1 : state_element) ≠ -1) then (e.1, e.2)
          else acc) acc ∈ E ∧
          acc.2 < (E.foldl (fun (acc : state_element × Int) (e : state_element × Int) =>
            if e.2 > acc.2 ∨ (e.2 = acc.2 ∧ e.1 = -1 ∧ (-1 : state_element) ≠ -1) then
              (e.1, e.2)
            else acc) acc).2 ∧
          ∀ e ∈ E, e.2 = (E.foldl (fun (acc : state_element × Int) (e : state_element × Int) =>
            if e.2 > acc.2 ∨ (e.2 = acc.2 ∧ e.1 = -1 ∧ (-1 : state_element) ≠ -1) then
              (e.1, e.2)
            else acc) acc).2 →
            (E.foldl (fun (acc : state_element × Int) (e : state_element × Int) =>
              if e.2 > acc.2 ∨ (e.2 = acc.2 ∧ e.1 = -1 ∧ (-1 : state_element) ≠ -1) then
                (e.1, e.2)
              else acc) acc).1 ≤ e.1) := by
  induction E with
  | nil =>
    intro acc _
    exact Or.inl ⟨rfl, fun e he => absurd he (List.not_mem_nil e)⟩
  | cons e rest ih =>
    intro acc hsorted
    simp only [List.map_cons, List.pairwise_cons] at hsorted
    rw [List.foldl_cons]
    by_cases hgt : e.2 > acc.2
    · have hsel : e.2 > acc.2 ∨ (e.2 = acc.2 ∧ e.1 = -1 ∧ (-1 : state_element) ≠ -1) :=
        Or.inl hgt
      rw [if_pos hsel]
      right
      rcases ih (e.1, e.2) hsorted.2 with ⟨hr, hle⟩ | ⟨hr, hlt, hties⟩
      · rw [hr]
        refine ⟨List.mem_cons_self _ _, hgt, ?_⟩
        intro e' _ _
        show e.1 ≤ e'.1
        rcases List.mem_cons.mp ‹e' ∈ e :: rest› with h | h
        · rw [h]
        · exact le_of_lt (hsorted.1 e'.1 (List.mem_map.mpr ⟨e', h, rfl⟩))
      · refine ⟨List.mem_cons_of_mem _ hr, lt_trans hgt hlt, ?_⟩
        intro e' he' heq
        rcases List.mem_cons.mp he' with h | h
        · rw [h] at heq
          have hlt' : e.2 < e.2 := lt_of_lt_of_eq hlt heq.symm
          exact absurd hlt' (lt_irrefl _)
        · exact hties e' h heq
    · have hsel : ¬ (e.2 > acc.2 ∨ (e.2 = acc.2 ∧ e.1 = -1 ∧ (-1 : state_element) ≠ -1)) := by
        rintro (h | ⟨_, _, h⟩)
        · exact hgt h
        · exact h rfl
      rw [if_neg hsel]
      rcases ih acc hsorted.2 with ⟨hr, hle⟩ | ⟨hr, hlt, hties⟩
      · left
        refine ⟨hr, ?_⟩
        intro e' he'
        rcases List.mem_cons.mp he' with h | h
        · rw [h]
          exact not_lt.mp hgt
        · exact hle e' h
      · right
        refine ⟨List.mem_cons_of_mem _ hr, hlt, ?_⟩
        intro e' he' heq
        rcases List.mem_cons.mp he' with h | h
        · rw [h] at heq
          have hlt' : acc.2 < e.2 := lt_of_lt_of_eq hlt heq.symm
          exact absurd hlt' hgt
        · exact hties e' h heq

/-- Claim C28: on a non-empty list, `pick_most_frequent_state` returns a state of the
list whose number of occurrences is maximal; when `above` is not `-1` and has itself
the maximal number of occurrences, the result is `above`; when `above` is `-1`, the
result is the smallest of the states with the maximal number of occurrences. -/
theorem pick_most_frequent_state_spec (l : List state_element) (above : state_element)
    (hl : l ≠ []) :
    (pick_most_frequent_state l above ∈ l ∧
        ∀ x, l.count x ≤ l.count (pick_most_frequent_state l above)) ∧
      (above ≠ -1 → (∀ x, l.count x ≤ l.count above) →
        pick_most_frequent_state l above = above) ∧
      (above = -1 → ∀ x ∈ l, l.count x = l.count (pick_most_frequent_state l above) →
        pick_most_frequent_state l above ≤ x) := by
  obtain ⟨hsorted, hentries, hall⟩ := state_counts_spec l
  obtain ⟨a, ha⟩ := List.exists_mem_of_ne_nil l hl
  have hapos : 0 < l.count a := List.count_pos_iff.mpr ha
  refine ⟨pick_most_frequent_state_max l above hl, ?_, ?_⟩
  · intro habove hmax
    have hmem : above ∈ l := by
      apply List.count_pos_iff.mp
      exact lt_of_lt_of_le hapos (hmax a)
    have hloop := most_frequent_loop_above above (l.count above : Int) habove
      (l.foldl count_state []) (0, 0) hsorted (hall above hmem)
      (fun e he => by
        rw [(hentries e he).2]
        exact_mod_cast hmax e.1)
      (show (0 : Int) ≤ (l.count above : Int) from Int.ofNat_nonneg _)
    simp only [pick_most_frequent_state]
    rw [hloop]
  · intro habove x hx hcount
    subst habove
    rcases most_frequent_loop_root (l.foldl count_state []) (0, 0) hsorted with
      ⟨_, hle⟩ | ⟨hr, _, hties⟩
    · have := hle _ (hall a ha)
      simp only at this
      have : (l.count a : Int) ≤ 0 := this
      have hpos : (0 : Int) < (l.count a : Int) := by exact_mod_cast hapos
      exact absurd this (not_le.mpr hpos)
    · have hr2 := (hentries _ hr).2
      have hx' := hties _ (hall x hx) (by
        show (l.count x : Int) = _
        rw [hr2]
        exact_mod_cast hcount)
      exact hx'

/-- Witness of C28: in `[1, 0, 1, 0]` both states occur twice; the state above wins the
tie, and the smaller state wins it at the root. -/
theorem pick_most_frequent_state_spec_witness :
    ((pick_most_frequent_state [1, 0, 1, 0] 1 ∈ ([1, 0, 1, 0] : List state_element) ∧
        ∀ x, ([1, 0, 1, 0] : List state_element).count x ≤
          ([1, 0, 1, 0] : List state_element).count
            (pick_most_frequent_state [1, 0, 1, 0] 1)) ∧
      ((1 : state_element) ≠ -1 →
        (∀ x, ([1, 0, 1, 0] : List state_element).count x ≤
          ([1, 0, 1, 0] : List state_element).count 1) →
        pick_most_frequent_state [1, 0, 1, 0] 1 = 1) ∧
      ((1 : state_element) = -1 → ∀ x ∈ ([1, 0, 1, 0] : List state_element),
        ([1, 0, 1, 0] : List state_element).count x =
          ([1, 0, 1, 0] : List state_element).count
            (pick_most_frequent_state [1, 0, 1, 0] 1) →
        pick_most_frequent_state [1, 0, 1, 0] 1 ≤ x)) ∧
      pick_most_frequent_state [1, 0, 1, 0] 1 = 1 ∧
      pick_most_frequent_state [1, 0, 1, 0] (-1) = 0 ∧
      pick_most_frequent_state [1, 0, 1, 0] 2 = 0 :=
  ⟨pick_most_frequent_state_spec [1, 0, 1, 0] 1 (by decide), by decide, by decide, by decide⟩

/-! ## Picking a state by the inverse of the cumulative distribution -/

/-- The loop of `pick_state_from_probabilities` after `k ≤ 128` rounds: `acc` is the sum
of the first `k` entries the row had; the selected state is still `-1` and the draw is
below no partial sum so far, or it is the first index whose partial sum exceeds the draw;
the first `k` entries of the row are `0` but for a `1` at the selected state, and nothing
else has changed. -/
theorem pick_state_loop_cdf (sa : SequenceAlignment) (name : String) (pos : Nat) (r : ℚ)
    (k : Nat) (hk : k ≤ 128) :
    ∀ st, st = (List.range k).foldl (pick_state_round name pos r) (0, -1, sa) →
      st.1 = ∑ i in Finset.range k, sa.marginal_state_distribution name pos i ∧
      (∀ nm p' i, st.2.2.marginal_state_distribution nm p' i =
        if nm = name ∧ p' = pos ∧ i < k then (if st.2.1 = (i : Int) then 1 else 0)
        else sa.marginal_state_distribution nm p' i) ∧
      ((st.2.1 = -1 ∧ ∀ j, j < k →
          ¬ r < ∑ i in Finset.range (j + 1), sa.marginal_state_distribution name pos i) ∨
        (∃ s, s < k ∧ st.2.1 = (s : Int) ∧
          r < ∑ i in Finset.range (s + 1), sa.marginal_state_distribution name pos i ∧
          ∀ j, j < s →
            ¬ r < ∑ i in Finset.range (j + 1), sa.marginal_state_distribution name pos i)) := by
  induction k with
  | zero =>
    intro st hst
    subst hst
    refine ⟨by simp, ?_, Or.inl ⟨rfl, fun j hj => absurd hj (Nat.not_lt_zero j)⟩⟩
    intro nm p' i
    simp
  | succ k ih =>
    intro st hst
    rw [List.range_succ, List.foldl_append, List.foldl_cons, List.foldl_nil] at hst
    obtain ⟨h1, h2, h3⟩ := ih (by omega) _ rfl
    generalize (List.range k).foldl (pick_state_round name pos r) (0, -1, sa) = st₀
      at hst h1 h2 h3
    have hread : st₀.2.2.marginal_state_distribution name pos k =
        sa.marginal_state_distribution name pos k := by
      rw [h2 name pos k, if_neg (fun h => absurd h.2.2 (Nat.lt_irrefl k))]
    have hacc : st₀.1 + st₀.2.2.marginal_state_distribution name pos k =
        ∑ i in Finset.range (k + 1), sa.marginal_state_distribution name pos i := by
      rw [hread, h1, Finset.sum_range_succ]
    have hsel : ∀ i : Nat, i < k → st₀.2.1 = -1 → ¬ st₀.2.1 = (i : Int) := by
      intro i _ hm h
      rw [hm] at h
      have : (0 : Int) ≤ (i : Int) := Int.ofNat_nonneg i
      rw [← h] at this
      exact absurd this (by decide)
    by_cases hc : r < st₀.1 + st₀.2.2.marginal_state_distribution name pos k ∧ st₀.2.1 = -1
    · have hst' : st = (st₀.1 + st₀.2.2.marginal_state_distribution name pos k,
          to_state_element k, st₀.2.2.set_marginal name pos k 1) := by
        rw [hst]
        simp only [pick_state_round, hc, and_self, if_true]
      have hto : to_state_element k = (k : Int) := to_state_element_of_lt k (by omega)
      rw [hst']
      refine ⟨hacc, ?_, Or.inr ⟨k, Nat.lt_succ_self k, hto, ?_, ?_⟩⟩
      · intro nm p' i
        simp only [SequenceAlignment.set_marginal, hto]
        by_cases hnp : nm = name ∧ p' = pos
        · obtain ⟨hn, hp⟩ := hnp
          subst hn hp
          by_cases hik : i = k
          · subst hik
            simp
          · have hki : ¬ (k : Int) = (i : Int) := fun h => hik (by exact_mod_cast h.symm)
            simp only [hik, and_false, if_false, true_and, hki]
            rw [h2 nm p' i]
            by_cases hlt : i < k
            · have : i < k + 1 := by omega
              simp only [hlt, this, and_true, if_true, hsel i hlt hc.2, if_false]
            · have : ¬ i < k + 1 := by omega
              simp only [hlt, this, and_false, if_false]
        · have h' : ¬ (nm = name ∧ p' = pos ∧ i = k) := fun h => hnp ⟨h.1, h.2.1⟩
          have h'' : ¬ (nm = name ∧ p' = pos ∧ i < k + 1) := fun h => hnp ⟨h.1, h.2.1⟩
          have h''' : ¬ (nm = name ∧ p' = pos ∧ i < k) := fun h => hnp ⟨h.1, h.2.1⟩
          rw [if_neg h', if_neg h'', h2 nm p' i, if_neg h''']
      · rw [← hacc]
        exact hc.1
      · rcases h3 with ⟨_, hno⟩ | ⟨s, _, hs, _, _⟩
        · exact hno
        · rw [hc.2] at hs
          have : (0 : Int) ≤ (s : Int) := Int.ofNat_nonneg s
          rw [← hs] at this
          exact absurd this (by decide)
    · have hst' : st = (st₀.1 + st₀.2.2.marginal_state_distribution name pos k,
          st₀.2.1, st₀.2.2.set_marginal name pos k 0) := by
        rw [hst]
        simp only [pick_state_round, hc, if_false]
      rw [hst']
      have hnk : ¬ st₀.2.1 = (k : Int) := by
        rcases h3 with ⟨hm, _⟩ | ⟨s, hs, hss, _, _⟩
        · intro h
          rw [hm] at h
          have : (0 : Int) ≤ (k : Int) := Int.ofNat_nonneg k
          rw [← h] at this
          exact absurd this (by decide)
        · intro h
          rw [hss] at h
          have : s = k := by exact_mod_cast h
          omega
      refine ⟨hacc, ?_, ?_⟩
      · intro nm p' i
        simp only [SequenceAlignment.set_marginal]
        by_cases hnp : nm = name ∧ p' = pos
        · obtain ⟨hn, hp⟩ := hnp
          subst hn hp
          by_cases hik : i = k
          · subst hik
            simp [hnk]
          · simp only [hik, and_false, if_false, true_and]
            rw [h2 nm p' i]
            by_cases hlt : i < k
            · have : i < k + 1 := by omega
              simp only [hlt, this, and_true, if_true]
            · have : ¬ i < k + 1 := by omega
              simp only [hlt, this, and_false, if_false]
        · have h' : ¬ (nm = name ∧ p' = pos ∧ i = k) := fun h => hnp ⟨h.1, h.2.1⟩
          have h'' : ¬ (nm = name ∧ p' = pos ∧ i < k + 1) := fun h => hnp ⟨h.1, h.2.1⟩
          have h''' : ¬ (nm = name ∧ p' = pos ∧ i < k) := fun h => hnp ⟨h.1, h.2.1⟩
          rw [if_neg h', if_neg h'', h2 nm p' i, if_neg h''']
      · rcases h3 with ⟨hm, hno⟩ | ⟨s, hs, hss, hlt, hleast⟩
        · left
          refine ⟨hm, ?_⟩
          intro j hj
          by_cases hjk : j = k
          · subst hjk
            rw [← hacc]
            exact fun h => hc ⟨h, hm⟩
          · exact hno j (by omega)
        · right
          exact ⟨s, by omega, hss, hlt, hleast⟩

/-- In the exact arithmetic: for a draw `r ≥ 0` below the sum of the row of the marginal,
with at most
128 states, `pick_state_from_probabilities` returns the least index `s` whose partial
sum `p[0] + ... + p[s]` exceeds `r`, and leaves the row with `1` at `s` and `0` at every
other state; no other entry of the marginal is changed. -/
theorem pick_state_inverse_cdf (sa : SequenceAlignment) (node : TreeNode) (pos : Nat) (r : ℚ)
    (hN : sa.n_states ≤ 128) (h0 : 0 ≤ r)
    (hr : r < ∑ i in Finset.range sa.n_states,
      sa.marginal_state_distribution node.name pos i) :
    ∃ (s : Nat) (sa' : SequenceAlignment),
      pick_state_from_probabilities sa node pos r = Except.ok ((s : Int), sa') ∧
      s < sa.n_states ∧
      r < ∑ i in Finset.range (s + 1), sa.marginal_state_distribution node.name pos i ∧
      (∀ j, j < s →
        ¬ r < ∑ i in Finset.range (j + 1), sa.marginal_state_distribution node.name pos i) ∧
      (∀ i, i < sa.n_states →
        sa'.marginal_state_distribution node.name pos i = if i = s then 1 else 0) ∧
      (∀ nm p' i, ¬ (nm = node.name ∧ p' = pos ∧ i < sa.n_states) →
        sa'.marginal_state_distribution nm p' i = sa.marginal_state_distribution nm p' i) := by
  obtain ⟨_, h2, h3⟩ := pick_state_loop_cdf sa node.name pos r sa.n_states hN _ rfl
  have hpos : 0 < sa.n_states := by
    by_contra hn
    have hz : sa.n_states = 0 := by omega
    rw [hz, Finset.sum_range_zero] at hr
    exact absurd hr (not_lt.mpr h0)
  rcases h3 with ⟨_, hno⟩ | ⟨s, hs, hss, hlt, hleast⟩
  · have := hno (sa.n_states - 1) (by omega)
    have hn : sa.n_states - 1 + 1 = sa.n_states := by omega
    rw [hn] at this
    exact absurd hr this
  · have hne : ¬ ((List.range sa.n_states).foldl (pick_state_round node.name pos r)
        (0, -1, sa)).2.1 = -1 := by
      rw [hss]
      intro h
      have : (0 : Int) ≤ (s : Int) := Int.ofNat_nonneg s
      rw [h] at this
      exact absurd this (by decide)
    refine ⟨s, ((List.range sa.n_states).foldl (pick_state_round node.name pos r)
      (0, -1, sa)).2.2, ?_, hs, hlt, hleast, ?_, ?_⟩
    · have hne' : ¬ (s : Int) = -1 := by
        rw [← hss]
        exact hne
      simp only [pick_state_from_probabilities, hss, hne', if_false]
    · intro i hi
      rw [h2 node.name pos i, if_pos ⟨rfl, rfl, hi⟩, hss]
      by_cases his : i = s
      · subst his
        simp
      · have : ¬ (s : Int) = (i : Int) := fun h => his (by exact_mod_cast h.symm)
        rw [if_neg this, if_neg his]
    · intro nm p' i hn
      rw [h2 nm p' i, if_neg hn]

/-- In the exact arithmetic: the row `(1/4, 3/4)` of `pickAlignment` and the draw `1/2`,
which
selects the state `1`. -/
theorem pick_state_inverse_cdf_witness :
    (∃ (s : Nat) (sa' : SequenceAlignment),
      pick_state_from_probabilities pickAlignment
          { name := "n", up := none, left := none, right := none } 0 (1 / 2) =
        Except.ok ((s : Int), sa') ∧
      s < pickAlignment.n_states ∧
      (1 / 2 : ℚ) < ∑ i in Finset.range (s + 1),
        pickAlignment.marginal_state_distribution "n" 0 i ∧
      (∀ j, j < s → ¬ (1 / 2 : ℚ) < ∑ i in Finset.range (j + 1),
        pickAlignment.marginal_state_distribution "n" 0 i) ∧
      (∀ i, i < pickAlignment.n_states →
        sa'.marginal_state_distribution "n" 0 i = if i = s then 1 else 0) ∧
      (∀ nm p' i, ¬ (nm = "n" ∧ p' = 0 ∧ i < pickAlignment.n_states) →
        sa'.marginal_state_distribution nm p' i =
          pickAlignment.marginal_state_distribution nm p' i)) ∧
      (match pick_state_from_probabilities pickAlignment
          { name := "n", up := none, left := none, right := none } 0 (1 / 2) with
        | Except.ok picked => some picked.1
        | Except.error _ => none) = some 1 :=
  ⟨pick_state_inverse_cdf pickAlignment { name := "n", up := none, left := none, right := none }
      0 (1 / 2) (by decide) (by norm_num)
      (by
        show (1 / 2 : ℚ) < ∑ i in Finset.range 2, pickAlignment.marginal_state_distribution "n" 0 i
        simp only [Finset.sum_range_succ, Finset.sum_range_zero, pickAlignment]
        norm_num),
    by decide!⟩

/-! ## The fast update of a tip -/

/-- The probability given the branch above depends on the alignment only through its
number of states and the name of its domain. -/
theorem find_state_prob_given_anc_branch_congr (sa₁ sa : SequenceAlignment) (tm : TreeModel)
    (branch : BranchSegment) (state_j : Nat) (probs₁ probs : Nat → ℚ) (node_up : BranchSegment)
    (pos : Nat) (h1 : sa₁.n_states = sa.n_states) (h2 : sa₁.domain_name = sa.domain_name)
    (hp : probs₁ = probs) :
    find_state_prob_given_anc_branch sa₁ tm branch state_j probs₁ node_up pos =
      find_state_prob_given_anc_branch sa tm branch state_j probs node_up pos := by
  subst hp
  simp only [find_state_prob_given_anc_branch, state_bound, alt_domain_factor, h1, h2]

/-- Writing entry `k` of a row whose first `k` entries are written. -/
theorem row_extend (a b : Prop) [Decidable a] [Decidable b] (i k : Nat) (F : Nat → ℚ) (G : ℚ) :
    (if a ∧ b ∧ i = k then F k else if a ∧ b ∧ i < k then F i else G) =
      if a ∧ b ∧ i < k + 1 then F i else G := by
  by_cases ha : a
  · by_cases hb : b
    · by_cases hik : i = k
      · subst hik
        simp [ha, hb]
      · by_cases hlt : i < k
        · have : i < k + 1 := by omega
          simp [ha, hb, hik, hlt, this]
        · have : ¬ i < k + 1 := by omega
          simp [ha, hb, hik, hlt, this]
    · simp [hb]
  · simp [ha]

/-- Updating entry `k < n` of a row of `n` entries whose first `k` entries are updated. -/
theorem row_update (a b : Prop) [Decidable a] [Decidable b] (i k n : Nat) (hk : k < n)
    (F P : Nat → ℚ) (G : ℚ) :
    (if a ∧ b ∧ i = k then F k
      else if a ∧ b ∧ i < n then (if i < k then F i else P i) else G) =
      if a ∧ b ∧ i < n then (if i < k + 1 then F i else P i) else G := by
  by_cases ha : a
  · by_cases hb : b
    · by_cases hik : i = k
      · subst hik
        simp [ha, hb, hk]
      · by_cases hlt : i < k
        · have : i < k + 1 := by omega
          simp [ha, hb, hik, hlt, this]
        · have : ¬ i < k + 1 := by omega
          simp [ha, hb, hik, hlt, this]
    · simp [hb]
  · simp [ha]

/-- The loop of `fast_update_state_probs_tips` after `k` rounds, at a node with a branch
above whose upper node has another name: the first `k` entries of the row hold the prior
times the probability given the branch above, and nothing else has changed. -/
theorem fast_update_loop (sa : SequenceAlignment) (tm : TreeModel) (node up_node : TreeNode)
    (pos : Nat) (b : BranchSegment) (hup : node.up = some b)
    (hne : up_node.name ≠ node.name) (A : Nat → ℚ)
    (hA : ∀ j, find_state_prob_given_anc_branch sa tm b j
      (sa.marginal_state_distribution up_node.name pos) b pos = A j) (k : Nat) :
    ∃ s, for_range k (fun state_j sa₁ =>
        if sa₁.prior_state_distribution node.name pos state_j ≠ 0 then do
          let branch ← node.up
          some (sa₁.set_marginal node.name pos state_j
            (sa₁.prior_state_distribution node.name pos state_j
              * find_state_prob_given_anc_branch sa₁ tm branch state_j
                  (sa₁.marginal_state_distribution up_node.name pos) branch pos))
        else some (sa₁.set_marginal node.name pos state_j 0)) sa = some s ∧
      s.n_states = sa.n_states ∧ s.domain_name = sa.domain_name ∧
      s.prior_state_distribution = sa.prior_state_distribution ∧
      ∀ nm p i, s.marginal_state_distribution nm p i =
        if nm = node.name ∧ p = pos ∧ i < k then sa.prior_state_distribution node.name pos i * A i
        else sa.marginal_state_distribution nm p i := by
  induction k with
  | zero =>
    refine ⟨sa, rfl, rfl, rfl, rfl, ?_⟩
    intro nm p i
    simp
  | succ k ih =>
    obtain ⟨s, hrun, hn, hd, hpr, hm⟩ := ih
    have hupm : s.marginal_state_distribution up_node.name pos =
        sa.marginal_state_distribution up_node.name pos := by
      funext i
      rw [hm up_node.name pos i, if_neg (fun h => hne h.1)]
    have hanc : find_state_prob_given_anc_branch s tm b k
        (s.marginal_state_distribution up_node.name pos) b pos = A k := by
      rw [find_state_prob_given_anc_branch_congr s sa tm b k _ _ b pos hn hd hupm]
      exact hA k
    rw [for_range_succ, hrun, Option.some_bind]
    by_cases hz : sa.prior_state_distribution node.name pos k = 0
    · refine ⟨s.set_marginal node.name pos k 0, ?_, hn, hd, hpr, ?_⟩
      · simp only [hpr, hz, ne_eq, not_true_eq_false, if_false]
      · intro nm p i
        rw [set_marginal_marginal]
        simp only [hm nm p i]
        have h0 : (0 : ℚ) = sa.prior_state_distribution node.name pos k * A k := by
          rw [hz, zero_mul]
        rw [h0]
        exact row_extend (nm = node.name) (p = pos) i k
          (fun i => sa.prior_state_distribution node.name pos i * A i) _
    · refine ⟨s.set_marginal node.name pos k
        (sa.prior_state_distribution node.name pos k * A k), ?_, hn, hd, hpr, ?_⟩
      · simp only [hpr, hz, ne_eq, not_false_eq_true, if_true, hup, Option.bind_eq_bind,
          Option.some_bind, hanc]
      · intro nm p i
        rw [set_marginal_marginal]
        simp only [hm nm p i]
        exact row_extend (nm = node.name) (p = pos) i k
          (fun i => sa.prior_state_distribution node.name pos i * A i) _

/-- The loop of `update_state_probs` after `k ≤ n_states` rounds on an alignment whose
row holds the prior, at a node with a branch above whose upper node has another name:
the first `k` entries of the row hold the prior times the probability given the branch
above, the others still the prior. -/
theorem update_loop_from_prior (sa s₀ : SequenceAlignment) (tm : TreeModel)
    (node up_node : TreeNode) (pos : Nat) (b : BranchSegment) (hup : node.up = some b)
    (hne : up_node.name ≠ node.name) (A : Nat → ℚ)
    (hA : ∀ j, find_state_prob_given_anc_branch sa tm b j
      (sa.marginal_state_distribution up_node.name pos) b pos = A j)
    (hn₀ : s₀.n_states = sa.n_states) (hd₀ : s₀.domain_name = sa.domain_name)
    (hm₀ : ∀ nm p i, s₀.marginal_state_distribution nm p i =
      if nm = node.name ∧ p = pos ∧ i < sa.n_states then
        sa.prior_state_distribution node.name pos i
      else sa.marginal_state_distribution nm p i)
    (k : Nat) (hk : k ≤ sa.n_states) :
    ∃ s, for_range k (fun state_j sa₁ =>
        if sa₁.marginal_state_distribution node.name pos state_j ≠ 0 then do
          let branch ← node.up
          some (sa₁.set_marginal node.name pos state_j
            (sa₁.marginal_state_distribution node.name pos state_j
              * find_state_prob_given_anc_branch sa₁ tm branch state_j
                  (sa₁.marginal_state_distribution up_node.name pos) branch pos))
        else some sa₁) s₀ = some s ∧
      s.n_states = sa.n_states ∧ s.domain_name = sa.domain_name ∧
      ∀ nm p i, s.marginal_state_distribution nm p i =
        if nm = node.name ∧ p = pos ∧ i < sa.n_states then
          (if i < k then sa.prior_state_distribution node.name pos i * A i
            else sa.prior_state_distribution node.name pos i)
        else sa.marginal_state_distribution nm p i := by
  induction k with
  | zero =>
    refine ⟨s₀, rfl, hn₀, hd₀, ?_⟩
    intro nm p i
    rw [hm₀ nm p i]
    simp
  | succ k ih =>
    obtain ⟨s, hrun, hn, hd, hm⟩ := ih (by omega)
    have hklt : k < sa.n_states := by omega
    have hupm : s.marginal_state_distribution up_node.name pos =
        sa.marginal_state_distribution up_node.name pos := by
      funext i
      rw [hm up_node.name pos i, if_neg (fun h => hne h.1)]
    have hanc : find_state_prob_given_anc_branch s tm b k
        (s.marginal_state_distribution up_node.name pos) b pos = A k := by
      rw [find_state_prob_given_anc_branch_congr s sa tm b k _ _ b pos hn hd hupm]
      exact hA k
    have hread : s.marginal_state_distribution node.name pos k =
        sa.prior_state_distribution node.name pos k := by
      rw [hm node.name pos k, if_pos ⟨rfl, rfl, hklt⟩, if_neg (Nat.lt_irrefl k)]
    rw [for_range_succ, hrun, Option.some_bind]
    by_cases hz : sa.prior_state_distribution node.name pos k = 0
    · refine ⟨s, ?_, hn, hd, ?_⟩
      · simp only [hread, hz, ne_eq, not_true_eq_false, if_false]
      · intro nm p i
        rw [hm nm p i]
        by_cases hc : nm = node.name ∧ p = pos ∧ i < sa.n_states
        · rw [if_pos hc, if_pos hc]
          by_cases hik : i = k
          · subst hik
            rw [if_neg (Nat.lt_irrefl i), if_pos (Nat.lt_succ_self i), hz, zero_mul]
          · by_cases hlt : i < k
            · rw [if_pos hlt, if_pos (by omega)]
            · rw [if_neg hlt, if_neg (by omega)]
        · rw [if_neg hc, if_neg hc]
    · refine ⟨s.set_marginal node.name pos k
        (sa.prior_state_distribution node.name pos k * A k), ?_, hn, hd, ?_⟩
      · simp only [hread, hz, ne_eq, not_false_eq_true, if_true, hup, Option.bind_eq_bind,
          Option.some_bind, hanc]
      · intro nm p i
        rw [set_marginal_marginal]
        simp only [hm nm p i]
        exact row_update (nm = node.name) (p = pos) i k sa.n_states hklt
          (fun i => sa.prior_state_distribution node.name pos i * A i)
          (fun i => sa.prior_state_distribution node.name pos i) _

/-- With at most 127 states, the loops that count with a `state_element` make
`n_states` rounds. -/
theorem state_bound_of_le (sa : SequenceAlignment) (h : sa.n_states ≤ 127) :
    state_bound sa = sa.n_states := by
  simp only [state_bound, to_state_element_of_lt sa.n_states (by omega), Int.toNat_natCast]

/-- The method `reset_to_base` leaves the name of the domain. -/
theorem reset_to_base_domain_name (sa : SequenceAlignment) (nm : String)
    (positions : List Nat) : (reset_to_base sa nm positions).domain_name = sa.domain_name := by
  have inner : ∀ (l : List Nat) (pos : Nat) (s : SequenceAlignment),
      (l.foldl (fun sa₂ i =>
        sa₂.set_marginal nm pos i (sa₂.prior_state_distribution nm pos i)) s).domain_name =
        s.domain_name := by
    intro l pos
    induction l with
    | nil => intro s; rfl
    | cons i l ih =>
      intro s
      rw [List.foldl_cons, ih]
      rfl
  unfold reset_to_base
  induction positions generalizing sa with
  | nil => rfl
  | cons pos rest ih =>
    rw [List.foldl_cons, ih, inner]

/-- Claim C30: with at most 127 states, at a node with a branch above whose upper node
has another name, `fast_update_state_probs_tips` returns, so does `update_state_probs`
after `reset_to_base` for that position, and both leave the same marginal
distributions. -/
theorem fast_update_refines (sa : SequenceAlignment) (tm : TreeModel) (node up_node : TreeNode)
    (pos : Nat) (b : BranchSegment) (hup : node.up = some b)
    (hne : up_node.name ≠ node.name) (hN : sa.n_states ≤ 127) :
    ∃ s₁ s₂, fast_update_state_probs_tips sa tm node pos up_node = some s₁ ∧
      update_state_probs (reset_to_base sa node.name [pos]) tm node pos up_node = some s₂ ∧
      s₁.marginal_state_distribution = s₂.marginal_state_distribution := by
  obtain ⟨hrp, hrn, _, _, hrm⟩ := reset_to_base_spec node.name [pos] sa
  have hrd := reset_to_base_domain_name sa node.name [pos]
  have hb : state_bound sa = sa.n_states := state_bound_of_le sa hN
  have hb' : state_bound (reset_to_base sa node.name [pos]) = sa.n_states := by
    rw [state_bound_of_le _ (by rw [hrn]; exact hN), hrn]
  obtain ⟨s₁, hrun₁, _, _, _, hm₁⟩ := fast_update_loop sa tm node up_node pos b hup hne
    (fun j => find_state_prob_given_anc_branch sa tm b j
      (sa.marginal_state_distribution up_node.name pos) b pos) (fun _ => rfl) sa.n_states
  obtain ⟨s₂, hrun₂, _, _, hm₂⟩ := update_loop_from_prior sa
    (reset_to_base sa node.name [pos]) tm node up_node pos b hup hne
    (fun j => find_state_prob_given_anc_branch sa tm b j
      (sa.marginal_state_distribution up_node.name pos) b pos) (fun _ => rfl) hrn hrd
    (by
      intro nm p i
      rw [hrm nm p i]
      simp only [List.mem_singleton]
      by_cases hc : nm = node.name ∧ p = pos ∧ i < sa.n_states
      · rw [if_pos hc, if_pos hc, hc.2.1]
      · rw [if_neg hc, if_neg hc])
    sa.n_states (Nat.le_refl _)
  have hfast : fast_update_state_probs_tips sa tm node pos up_node = some s₁ := by
    rw [← hrun₁]
    show for_range (state_bound sa) _ sa = _
    rw [hb]
  have hslow : update_state_probs (reset_to_base sa node.name [pos]) tm node pos up_node =
      some s₂ := by
    rw [← hrun₂]
    show for_range (state_bound (reset_to_base sa node.name [pos])) _ _ = _
    rw [hb']
  refine ⟨s₁, s₂, hfast, hslow, ?_⟩
  funext nm p i
  rw [hm₁ nm p i, hm₂ nm p i]
  by_cases hc : nm = node.name ∧ p = pos ∧ i < sa.n_states
  · rw [if_pos hc, if_pos hc, if_pos hc.2.2]
  · rw [if_neg hc, if_neg hc]

/-- Witness of C30: the tip `x` of the two-taxon scenario below a root whose marginal is
`(1/2, 1/2)`. -/
theorem fast_update_refines_witness :
    (∃ s₁ s₂, fast_update_state_probs_tips
          { twoTaxonAlignment with marginal_state_distribution := fun nm _ _ =>
              if nm = "root" then 1 / 2 else 0 }
          twoTaxonModel { name := "x", up := some ⟨1, "root", "x"⟩, left := none, right := none }
          0 { name := "root", up := none, left := some ⟨1, "root", "x"⟩,
              right := some ⟨1, "root", "y"⟩ } = some s₁ ∧
      update_state_probs (reset_to_base
          { twoTaxonAlignment with marginal_state_distribution := fun nm _ _ =>
              if nm = "root" then 1 / 2 else 0 } "x" [0])
          twoTaxonModel { name := "x", up := some ⟨1, "root", "x"⟩, left := none, right := none }
          0 { name := "root", up := none, left := some ⟨1, "root", "x"⟩,
              right := some ⟨1, "root", "y"⟩ } = some s₂ ∧
      s₁.marginal_state_distribution = s₂.marginal_state_distribution) ∧
      (fast_update_state_probs_tips
          { twoTaxonAlignment with marginal_state_distribution := fun nm _ _ =>
              if nm = "root" then 1 / 2 else 0 }
          twoTaxonModel { name := "x", up := some ⟨1, "root", "x"⟩, left := none, right := none }
          0 { name := "root", up := none, left := some ⟨1, "root", "x"⟩,
              right := some ⟨1, "root", "y"⟩ }).map
        (fun s => (s.marginal_state_distribution "x" 0 0,
          s.marginal_state_distribution "x" 0 1)) = some (14 / 33, 0) :=
  ⟨fast_update_refines _ twoTaxonModel
      { name := "x", up := some ⟨1, "root", "x"⟩, left := none, right := none }
      { name := "root", up := none, left := some ⟨1, "root", "x"⟩,
        right := some ⟨1, "root", "y"⟩ } 0 ⟨1, "root", "x"⟩ rfl (by decide) (by decide),
    by decide!⟩


/-! ## The marginal of a node when a factor is zero -/

/-- Claim C27, the code at an input where it departs from the claim: both tips of the
two-taxon tree are `B` with certainty and the rate of `A -> B` is zero. At the root the
factor of the left child is zero for `A` and `101/132` for `B`, as is that of the right
child for `B`, and no node is above; `find_marginal_at_pos` sets the entry of `A` to zero
and returns, so that the entry of `B` is left as it was: `0` in the alignment as
`reverse_recursion` reaches the root, `7/10` when the row held that value, and never the
product `(101/132) * (101/132) * 1`. The whole first recursion leaves the row `(0, 0)`. -/
theorem find_marginal_at_pos_returns_at_zero_factor :
    child_contribution bothBAtRoot zeroRateModel 0 (some twoTaxonX) 1 0 = some none ∧
    child_contribution bothBAtRoot zeroRateModel 0 (some twoTaxonX) 1 1
      = some (some (101 / 132)) ∧
    child_contribution bothBAtRoot zeroRateModel 0 (some twoTaxonY) 1 1
      = some (some (101 / 132)) ∧
    (find_marginal_at_pos bothBAtRoot zeroRateModel twoTaxonRoot 0
      (some twoTaxonX) (some twoTaxonY) none).map root_row = some (0, 0) ∧
    (find_marginal_at_pos (bothBAtRoot.set_marginal "root" 0 1 (7 / 10)) zeroRateModel
      twoTaxonRoot 0 (some twoTaxonX) (some twoTaxonY) none).map root_row
      = some (0, 7 / 10) ∧
    (reverse_recursion bothBAlignment zeroRateModel [0]).map root_row = some (0, 0) ∧
    (101 / 132 : ℚ) * (101 / 132) * 1 ≠ 0 ∧ (101 / 132 : ℚ) * (101 / 132) * 1 ≠ 7 / 10 := by
  decide!


/-- Writing the row of a node leaves the factor of the node above as it was, when that
node has another name. -/
theorem up_contribution_set_marginal (sa : SequenceAlignment) (tm : TreeModel)
    (node : TreeNode) (pos : Nat) (up_node : Option TreeNode) (c : ℚ) (s i : Nat) (v : ℚ)
    (h : ∀ up, up_node = some up → up.name ≠ node.name) :
    up_contribution (sa.set_marginal node.name pos i v) tm node pos up_node c s =
      up_contribution sa tm node pos up_node c s := by
  cases up_node with
  | none => rfl
  | some up =>
    have hne : up.name ≠ node.name := h up rfl
    have hrow : (sa.set_marginal node.name pos i v).marginal_state_distribution up.name pos =
        sa.marginal_state_distribution up.name pos := by
      funext j
      simp [SequenceAlignment.set_marginal, hne]
    simp only [up_contribution, hrow]
    rfl

/-- Writing the row of a node leaves the factor of a child as it was, when the child has
another name. -/
theorem child_contribution_set_marginal (sa : SequenceAlignment) (tm : TreeModel)
    (name : String) (pos : Nat) (child : Option TreeNode) (c : ℚ) (s i : Nat) (v : ℚ)
    (h : ∀ ch, child = some ch → ch.name ≠ name) :
    child_contribution (sa.set_marginal name pos i v) tm pos child c s =
      child_contribution sa tm pos child c s := by
  cases child with
  | none => rfl
  | some ch =>
    have hne : ch.name ≠ name := h ch rfl
    have hrow : (sa.set_marginal name pos i v).marginal_state_distribution ch.name pos =
        sa.marginal_state_distribution ch.name pos := by
      funext j
      simp [SequenceAlignment.set_marginal, hne]
    simp only [child_contribution, hrow]
    rfl


/-- The value carried in `up_prob` plays no part once it comes from a round in which it
played none. -/
theorem up_contribution_carried (sa : SequenceAlignment) (tm : TreeModel) (node : TreeNode)
    (pos : Nat) (up_node : Option TreeNode) (c u : ℚ) (s : Nat)
    (h : up_contribution sa tm node pos up_node c s = some (some u))
    (hc : ∀ t, up_contribution sa tm node pos up_node c t =
      up_contribution sa tm node pos up_node 1 t) :
    ∀ t, up_contribution sa tm node pos up_node u t =
      up_contribution sa tm node pos up_node 1 t := by
  intro t
  cases up_node with
  | none =>
    have hcu : c = u := Option.some.inj (Option.some.inj h)
    rw [← hcu]
    exact hc t
  | some up =>
    cases hgap : sa.gap_at up.name pos with
    | none => simp [up_contribution, hgap] at h
    | some g =>
      cases g with
      | true =>
        have hcu : c = u := by
          simp only [up_contribution, hgap] at h
          exact Option.some.inj (Option.some.inj h)
        rw [← hcu]
        exact hc t
      | false =>
        cases hup : node.up with
        | none => simp [up_contribution, hgap, hup] at h
        | some b => simp only [up_contribution, hgap, hup]

/-- The value carried in `left_prob` or `right_prob` plays no part once it comes from a
round in which it played none. -/
theorem child_contribution_carried (sa : SequenceAlignment) (tm : TreeModel) (pos : Nat)
    (child : Option TreeNode) (c u : ℚ) (s : Nat)
    (h : child_contribution sa tm pos child c s = some (some u))
    (hc : ∀ t, child_contribution sa tm pos child c t = child_contribution sa tm pos child 1 t) :
    ∀ t, child_contribution sa tm pos child u t = child_contribution sa tm pos child 1 t := by
  intro t
  cases child with
  | none =>
    have hcu : c = u := Option.some.inj (Option.some.inj h)
    rw [← hcu]
    exact hc t
  | some ch =>
    cases hgap : sa.gap_at ch.name pos with
    | none => simp [child_contribution, hgap] at h
    | some g =>
      cases g with
      | true =>
        have hcu : c = u := by
          simp only [child_contribution, hgap] at h
          exact Option.some.inj (Option.some.inj h)
        rw [← hcu]
        exact hc t
      | false =>
        cases hup : ch.up with
        | none => simp [child_contribution, hgap, hup] at h
        | some b => simp only [child_contribution, hgap, hup]

/-- The rounds of the loop of `find_marginal_at_pos` over states none of whose factors is
zero: each writes the product of its three factors and the loop goes on with the rest. -/
theorem find_marginal_loop_prefix (tm : TreeModel) (node : TreeNode) (pos : Nat)
    (left_node right_node up_node : Option TreeNode) (U L R : Nat → ℚ)
    (hun : ∀ up, up_node = some up → up.name ≠ node.name)
    (hln : ∀ ch, left_node = some ch → ch.name ≠ node.name)
    (hrn : ∀ ch, right_node = some ch → ch.name ≠ node.name) (rest : List Nat) :
    ∀ (pre : List Nat) (probs : NeighbourProbs) (sa : SequenceAlignment),
      (∀ t, up_contribution sa tm node pos up_node probs.up_prob t =
        up_contribution sa tm node pos up_node 1 t) →
      (∀ t, child_contribution sa tm pos left_node probs.left_prob t =
        child_contribution sa tm pos left_node 1 t) →
      (∀ t, child_contribution sa tm pos right_node probs.right_prob t =
        child_contribution sa tm pos right_node 1 t) →
      (∀ s ∈ pre, up_contribution sa tm node pos up_node 1 s = some (some (U s)) ∧
        child_contribution sa tm pos left_node 1 s = some (some (L s)) ∧
        child_contribution sa tm pos right_node 1 s = some (some (R s))) →
      ∃ sa' probs',
        find_marginal_loop tm node pos left_node right_node up_node (pre ++ rest) probs sa =
          find_marginal_loop tm node pos left_node right_node up_node rest probs' sa' ∧
        (∀ nm p i, sa'.marginal_state_distribution nm p i =
          if nm = node.name ∧ p = pos ∧ i ∈ pre then L i * R i * U i
          else sa.marginal_state_distribution nm p i) ∧
        (∀ c t, up_contribution sa' tm node pos up_node c t =
          up_contribution sa tm node pos up_node c t) ∧
        (∀ c t, child_contribution sa' tm pos left_node c t =
          child_contribution sa tm pos left_node c t) ∧
        (∀ c t, child_contribution sa' tm pos right_node c t =
          child_contribution sa tm pos right_node c t) ∧
        (∀ t, up_contribution sa tm node pos up_node probs'.up_prob t =
          up_contribution sa tm node pos up_node 1 t) ∧
        (∀ t, child_contribution sa tm pos left_node probs'.left_prob t =
          child_contribution sa tm pos left_node 1 t) ∧
        (∀ t, child_contribution sa tm pos right_node probs'.right_prob t =
          child_contribution sa tm pos right_node 1 t) := by
  intro pre
  induction pre with
  | nil =>
    intro probs sa hu hl hr _
    exact ⟨sa, probs, rfl, fun nm p i => by simp, fun _ _ => rfl, fun _ _ => rfl,
      fun _ _ => rfl, hu, hl, hr⟩
  | cons s pre ih =>
    intro probs sa hu hl hr hall
    obtain ⟨hUs, hLs, hRs⟩ := hall s (List.mem_cons_self s pre)
    have hu' : up_contribution sa tm node pos up_node probs.up_prob s = some (some (U s)) := by
      rw [hu s, hUs]
    have hl' : child_contribution sa tm pos left_node probs.left_prob s
        = some (some (L s)) := by
      rw [hl s, hLs]
    have hr' : child_contribution sa tm pos right_node probs.right_prob s
        = some (some (R s)) := by
      rw [hr s, hRs]
    have hstep : find_marginal_loop tm node pos left_node right_node up_node
        (s :: pre ++ rest) probs sa =
        find_marginal_loop tm node pos left_node right_node up_node (pre ++ rest)
          { left_prob := L s, right_prob := R s, up_prob := U s }
          (sa.set_marginal node.name pos s (L s * R s * U s)) := by
      show find_marginal_loop tm node pos left_node right_node up_node
        (s :: (pre ++ rest)) probs sa = _
      rw [find_marginal_loop]
      simp only [hu', hl', hr']
    have fu : ∀ c t, up_contribution (sa.set_marginal node.name pos s (L s * R s * U s)) tm node
        pos up_node c t = up_contribution sa tm node pos up_node c t :=
      fun c t => up_contribution_set_marginal sa tm node pos up_node c t s _ hun
    have fl : ∀ c t, child_contribution (sa.set_marginal node.name pos s (L s * R s * U s)) tm
        pos left_node c t = child_contribution sa tm pos left_node c t :=
      fun c t => child_contribution_set_marginal sa tm node.name pos left_node c t s _ hln
    have fr : ∀ c t, child_contribution (sa.set_marginal node.name pos s (L s * R s * U s)) tm
        pos right_node c t = child_contribution sa tm pos right_node c t :=
      fun c t => child_contribution_set_marginal sa tm node.name pos right_node c t s _ hrn
    have cu := up_contribution_carried sa tm node pos up_node probs.up_prob (U s) s hu' hu
    have cl := child_contribution_carried sa tm pos left_node probs.left_prob (L s) s hl' hl
    have cr := child_contribution_carried sa tm pos right_node probs.right_prob (R s) s hr' hr
    obtain ⟨sa', probs', hrun, hm, gu, gl, gr, iu, il, ir⟩ :=
      ih { left_prob := L s, right_prob := R s, up_prob := U s }
        (sa.set_marginal node.name pos s (L s * R s * U s))
        (fun t => by rw [fu, fu]; exact cu t)
        (fun t => by rw [fl, fl]; exact cl t)
        (fun t => by rw [fr, fr]; exact cr t)
        (fun t ht => by
          rw [fu, fl, fr]
          exact hall t (List.mem_cons_of_mem s ht))
    refine ⟨sa', probs', hstep.trans hrun, ?_, fun c t => (gu c t).trans (fu c t),
      fun c t => (gl c t).trans (fl c t), fun c t => (gr c t).trans (fr c t),
      fun t => by rw [← fu, iu t, fu], fun t => by rw [← fl, il t, fl],
      fun t => by rw [← fr, ir t, fr]⟩
    intro nm p i
    rw [hm nm p i]
    by_cases hc : nm = node.name ∧ p = pos
    · by_cases hi : i ∈ pre
      · rw [if_pos ⟨hc.1, hc.2, hi⟩, if_pos ⟨hc.1, hc.2, List.mem_cons_of_mem s hi⟩]
      · rw [if_neg (fun h => hi h.2.2)]
        by_cases his : i = s
        · subst his
          rw [if_pos ⟨hc.1, hc.2, List.mem_cons_self i pre⟩]
          simp [SequenceAlignment.set_marginal, hc.1, hc.2]
        · have hni : ¬ i ∈ s :: pre := by
            intro h
            rcases List.mem_cons.mp h with h | h
            · exact his h
            · exact hi h
          rw [if_neg (fun h => hni h.2.2)]
          simp [SequenceAlignment.set_marginal, his]
    · rw [if_neg (fun h => hc ⟨h.1, h.2.1⟩), if_neg (fun h => hc ⟨h.1, h.2.1⟩)]
      have : ¬ (nm = node.name ∧ p = pos ∧ i = s) := fun h => hc ⟨h.1, h.2.1⟩
      simp only [SequenceAlignment.set_marginal, if_neg this]


/-- The list `0, .., n - 1` is `0, .., k - 1`, then `k`, then a rest. -/
theorem range_split (k n : Nat) (h : k < n) :
    ∃ post, List.range n = List.range k ++ k :: post := by
  obtain ⟨m, rfl⟩ : ∃ m, n = k + (m + 1) := ⟨n - k - 1, by omega⟩
  refine ⟨List.map (fun x => k + x) (List.map Nat.succ (List.range m)), ?_⟩
  rw [List.range_add, List.range_succ_eq_map]
  rfl

/-- When no factor of any state is zero, `find_marginal_at_pos` returns and the entry of
every state is the product of its three factors, the neighbours having other names than
the node. -/
theorem find_marginal_at_pos_products (sa : SequenceAlignment) (tm : TreeModel)
    (node : TreeNode) (pos : Nat) (left_node right_node up_node : Option TreeNode)
    (U L R : Nat → ℚ)
    (hun : ∀ up, up_node = some up → up.name ≠ node.name)
    (hln : ∀ ch, left_node = some ch → ch.name ≠ node.name)
    (hrn : ∀ ch, right_node = some ch → ch.name ≠ node.name)
    (hall : ∀ s, s < state_bound sa →
      up_contribution sa tm node pos up_node 1 s = some (some (U s)) ∧
      child_contribution sa tm pos left_node 1 s = some (some (L s)) ∧
      child_contribution sa tm pos right_node 1 s = some (some (R s))) :
    ∃ sa', find_marginal_at_pos sa tm node pos left_node right_node up_node = some sa' ∧
      ∀ nm p i, sa'.marginal_state_distribution nm p i =
        if nm = node.name ∧ p = pos ∧ i < state_bound sa then L i * R i * U i
        else sa.marginal_state_distribution nm p i := by
  obtain ⟨sa', probs', hrun, hm, -⟩ :=
    find_marginal_loop_prefix tm node pos left_node right_node up_node U L R hun hln hrn []
      (List.range (state_bound sa)) { left_prob := 1, right_prob := 1, up_prob := 1 } sa
      (fun _ => rfl) (fun _ => rfl) (fun _ => rfl)
      (fun s hs => hall s (List.mem_range.mp hs))
  refine ⟨sa', ?_, fun nm p i => ?_⟩
  · rw [List.append_nil] at hrun
    rw [find_marginal_at_pos, hrun]
    rfl
  · rw [hm nm p i]
    simp only [List.mem_range]

/-- When state `k` is the first with a factor that is zero, `find_marginal_at_pos` returns
with the products in the entries of the states before `k` and zero in that of `k`; the
entries of the states after `k` are the ones it was called with. -/
theorem find_marginal_at_pos_first_zero (sa : SequenceAlignment) (tm : TreeModel)
    (node : TreeNode) (pos : Nat) (left_node right_node up_node : Option TreeNode)
    (U L R : Nat → ℚ) (k : Nat)
    (hun : ∀ up, up_node = some up → up.name ≠ node.name)
    (hln : ∀ ch, left_node = some ch → ch.name ≠ node.name)
    (hrn : ∀ ch, right_node = some ch → ch.name ≠ node.name)
    (hk : k < state_bound sa)
    (hall : ∀ s, s < k →
      up_contribution sa tm node pos up_node 1 s = some (some (U s)) ∧
      child_contribution sa tm pos left_node 1 s = some (some (L s)) ∧
      child_contribution sa tm pos right_node 1 s = some (some (R s)))
    (hz : up_contribution sa tm node pos up_node 1 k = some none ∨
      (∃ u, up_contribution sa tm node pos up_node 1 k = some (some u) ∧
        (child_contribution sa tm pos left_node 1 k = some none ∨
          (∃ l, child_contribution sa tm pos left_node 1 k = some (some l) ∧
            child_contribution sa tm pos right_node 1 k = some none)))) :
    ∃ sa', find_marginal_at_pos sa tm node pos left_node right_node up_node = some sa' ∧
      ∀ nm p i, sa'.marginal_state_distribution nm p i =
        if nm = node.name ∧ p = pos ∧ i = k then 0
        else if nm = node.name ∧ p = pos ∧ i < k then L i * R i * U i
        else sa.marginal_state_distribution nm p i := by
  obtain ⟨post, hsplit⟩ := range_split k (state_bound sa) hk
  obtain ⟨sa', probs', hrun, hm, gu, gl, gr, iu, il, ir⟩ :=
    find_marginal_loop_prefix tm node pos left_node right_node up_node U L R hun hln hrn
      (k :: post) (List.range k) { left_prob := 1, right_prob := 1, up_prob := 1 } sa
      (fun _ => rfl) (fun _ => rfl) (fun _ => rfl)
      (fun s hs => hall s (List.mem_range.mp hs))
  have hu : up_contribution sa' tm node pos up_node probs'.up_prob k =
      up_contribution sa tm node pos up_node 1 k := (gu _ k).trans (iu k)
  have hl : child_contribution sa' tm pos left_node probs'.left_prob k =
      child_contribution sa tm pos left_node 1 k := (gl _ k).trans (il k)
  have hr : child_contribution sa' tm pos right_node probs'.right_prob k =
      child_contribution sa tm pos right_node 1 k := (gr _ k).trans (ir k)
  have hlast : find_marginal_loop tm node pos left_node right_node up_node (k :: post)
      probs' sa' = some (sa'.set_marginal node.name pos k 0) := by
    rw [find_marginal_loop]
    rcases hz with h0 | ⟨u, h1, h0 | ⟨l, h2, h0⟩⟩
    · simp only [hu, h0]
    · simp only [hu, h1, hl, h0]
    · simp only [hu, h1, hl, h2, hr, h0]
  refine ⟨sa'.set_marginal node.name pos k 0, ?_, fun nm p i => ?_⟩
  · rw [find_marginal_at_pos, hsplit, hrun, hlast]
  · by_cases hc : nm = node.name ∧ p = pos ∧ i = k
    · rw [if_pos hc]
      simp only [SequenceAlignment.set_marginal, if_pos hc]
    · rw [if_neg hc]
      simp only [SequenceAlignment.set_marginal, if_neg hc]
      rw [hm nm p i]
      simp only [List.mem_range]


/-! ## Drawing a state from a distribution -/

/-- The partial sums of non-negative entries do not exceed the total. -/
theorem partial_sum_le_total (d : Nat → ℚ) (n : Nat) (hd : ∀ i, i < n → 0 ≤ d i) (j : Nat)
    (hj : j ≤ n) : ∑ i in Finset.range j, d i ≤ ∑ i in Finset.range n, d i := by
  induction n with
  | zero =>
    have : j = 0 := by omega
    subst this
    exact le_refl _
  | succ n ih =>
    by_cases hjn : j = n + 1
    · subst hjn
      exact le_refl _
    · rw [Finset.sum_range_succ]
      have h1 := ih (fun i hi => hd i (by omega)) (by omega)
      have h2 := hd n (by omega)
      linarith

/-- Claim C32: on a step that is not a tree step, when `SampleSubstitutionModel` returns
`false`, `sample` returns with `lnL = newLnL`, the value of `updateLikelihood`, whatever
it and the former `lnL` are; the calls made are `SampleSubstitutionModel`,
`updateLikelihood` and `accept`, in that order: none of `Random`, none of `reject`. -/
theorem sample_gibbs_accepts {σ : Type} (m : Model σ) (s : MCMC σ)
    (hf : s.tree_sample_freq ≠ 0) (hstep : Int.tmod s.i s.tree_sample_freq ≠ 0)
    (hg : (m.SampleSubstitutionModel s.world).1 = false) :
    ∃ s', sample m s = some s' ∧
      s'.lnL = (m.updateLikelihood (m.SampleSubstitutionModel s.world).2).1 ∧
      s'.newLnL = (m.updateLikelihood (m.SampleSubstitutionModel s.world).2).1 ∧
      s'.world = m.accept (m.updateLikelihood (m.SampleSubstitutionModel s.world).2).2 ∧
      s'.calls = s.calls ++
        [Call.SampleSubstitutionModel, Call.updateLikelihood, Call.accept] ∧
      s'.calls.count Call.Random = s.calls.count Call.Random ∧
      s'.calls.count Call.reject = s.calls.count Call.reject ∧
      s'.calls.count Call.accept = s.calls.count Call.accept + 1 := by
  have hrun : sample m s = some { s with
      world := m.accept (m.updateLikelihood (m.SampleSubstitutionModel s.world).2).2,
      lnL := (m.updateLikelihood (m.SampleSubstitutionModel s.world).2).1,
      newLnL := (m.updateLikelihood (m.SampleSubstitutionModel s.world).2).1,
      i := s.i + 1,
      calls := s.calls ++
        [Call.SampleSubstitutionModel, Call.updateLikelihood, Call.accept] } := by
    unfold sample
    rw [if_neg hf, if_neg hstep]
    simp only [hg]
    rfl
  refine ⟨_, hrun, rfl, rfl, rfl, rfl, ?_, ?_, ?_⟩
  · simp [List.count_append, List.count_cons]
  · simp [List.count_append, List.count_cons]
  · simp [List.count_append, List.count_cons]

/-- Witness of C32: from `lnL = 0` a Gibbs-flagged proposal with `newLnL = -100`, which a
Metropolis test on the draw `1/2` would reject, is accepted, and the world, which counts
the calls of `Random`, still holds `0`. -/
theorem sample_gibbs_accepts_witness :
    ∃ s', sample gibbsModel (MCMC.start 0 0 10) = some s' ∧
      s'.lnL = -100 ∧ s'.newLnL = -100 ∧ s'.world = 0 ∧
      s'.calls = [] ++ [Call.SampleSubstitutionModel, Call.updateLikelihood, Call.accept] ∧
      s'.calls.count Call.Random = 0 ∧
      s'.calls.count Call.reject = 0 ∧
      s'.calls.count Call.accept = 0 + 1 :=
  sample_gibbs_accepts gibbsModel (MCMC.start 0 0 10) (by decide) (by decide) rfl


/-! ## The kernels are probabilities -/

/-- Claim C33: for `0 ≤ r ≤ u` and `t ≥ 0`, the probability of a substitution is in
`[0, 1)` and that of no substitution in `(0, 1]`. -/
theorem kernels_are_probabilities (r t u : ℚ) (hr : 0 ≤ r) (hru : r ≤ u) (ht : 0 ≤ t) :
    (0 ≤ calc_substitution_prob r t u ∧ calc_substitution_prob r t u < 1) ∧
      (0 < calc_no_substitution_prob r t u ∧ calc_no_substitution_prob r t u ≤ 1) := by
  have hx : 0 ≤ r * t := mul_nonneg hr ht
  have hxy : r * t ≤ u * t := mul_le_mul_of_nonneg_right hru ht
  have hy : 0 ≤ u * t := le_trans hx hxy
  have h1x : 0 < 1 + r * t := by linarith
  have h1y : 0 < 1 + u * t := by linarith
  refine ⟨⟨?_, ?_⟩, ?_⟩
  · unfold calc_substitution_prob
    exact div_nonneg hx (le_of_lt h1y)
  · unfold calc_substitution_prob
    rw [div_lt_one h1y]
    linarith
  · have hform : calc_no_substitution_prob r t u =
        (r * t * (r * t) + 1) / ((1 + r * t) * (1 + u * t)) := by
      unfold calc_no_substitution_prob
      field_simp
    rw [hform]
    have hden : 0 < (1 + r * t) * (1 + u * t) := mul_pos h1x h1y
    refine ⟨div_pos (by nlinarith [mul_nonneg hx hx]) hden, ?_⟩
    rw [div_le_one hden]
    nlinarith [mul_nonneg hx hx, mul_nonneg hx hy, mul_le_mul_of_nonneg_left hxy hx]

/-- Witness of C33 at `r = 1/10`, `u = 1/5`, `t = 1`: the two values are `1/12` and
`101/132`. -/
theorem kernels_are_probabilities_witness :
    ((0 ≤ calc_substitution_prob (1 / 10) 1 (1 / 5) ∧
        calc_substitution_prob (1 / 10) 1 (1 / 5) < 1) ∧
      (0 < calc_no_substitution_prob (1 / 10) 1 (1 / 5) ∧
        calc_no_substitution_prob (1 / 10) 1 (1 / 5) ≤ 1)) ∧
    calc_substitution_prob (1 / 10) 1 (1 / 5) = 1 / 12 ∧
    calc_no_substitution_prob (1 / 10) 1 (1 / 5) = 101 / 132 :=
  ⟨kernels_are_probabilities (1 / 10) 1 (1 / 5) (by norm_num) (by norm_num) (by norm_num),
    by decide!, by decide!⟩


/-! ## The gap of an internal node and the tips below it -/

/-- On a post-ordered tree whose internal nodes have a left child, masks in which the
flag of every internal node at `pos` is the one computed from its children give a node
the flag `true` exactly when every tip below it has the flag `true`. -/
theorem gap_true_iff_tips (tree : List TreeNode) (g : String → List Bool) (pos : Nat)
    (hpo : post_order tree = true)
    (hleft : ∀ n ∈ tree, n.left = none → n.right = none)
    (hint : ∀ n ∈ tree, n.isTip = false →
      (g n.name).getD pos false = gap_from_children g n pos) :
    ∀ m ∈ tree, ∀ fuel, tree.length ≤ fuel →
      ((g m.name).getD pos false = true ↔
        ∀ t ∈ tips_below tree fuel m.name, (g t).getD pos false = true) := by
  have key := post_order_rank_induction
    (fun k nm => ∀ fuel, k ≤ fuel →
      ((g nm).getD pos false = true ↔
        ∀ t ∈ tips_below tree fuel nm, (g t).getD pos false = true))
    (fun k nm h fuel hfuel => h fuel (by omega)) tree [] 0 hpo
    (fun c hc => by cases hc)
    (by
      intro m hm k hk fuel hfuel
      obtain ⟨f, rfl⟩ : ∃ f, fuel = f + 1 := ⟨fuel - 1, by omega⟩
      have hf : k ≤ f := by omega
      have hfind := find_of_post_order tree [] hpo m hm
      rcases Bool.eq_false_or_eq_true m.isTip with htip | htip
      · simp [tips_below, hfind, htip]
      · rw [hint m hm htip]
        cases hl : m.left with
        | none =>
          have hr := hleft m hm hl
          simp [TreeNode.isTip, hl, hr] at htip
        | some l =>
          have h1 := hk l.decendant (by simp [TreeNode.children, hl]) f hf
          cases hr : m.right with
          | none =>
            simp only [gap_from_children, hl, hr, tips_below, hfind, htip,
              Bool.false_eq_true, if_false, List.append_nil]
            exact h1
          | some r =>
            have h2 := hk r.decendant (by simp [TreeNode.children, hr]) f hf
            simp only [gap_from_children, hl, hr, tips_below, hfind, htip,
              Bool.false_eq_true, if_false, Bool.and_eq_true, List.mem_append]
            rw [h1, h2]
            constructor
            · rintro ⟨ha, hb⟩ t (ht | ht)
              · exact ha t ht
              · exact hb t ht
            · intro h
              exact ⟨fun t ht => h t (Or.inl ht), fun t ht => h t (Or.inr ht)⟩)
  intro m hm fuel hfuel
  exact key m hm fuel (by omega)

/-- Claim C34: on an alignment attached to a post-ordered tree whose internal nodes all
have a left child (masks and sequences of every node of length `n_columns`), the
gap-setting loop of `syncWithTree` returns and leaves the masks of the tips as they were;
afterwards, at every position, every internal node has a flag, and it is `true` if and
only if every tip in the subtree of the node has the flag `true` at that position. -/
theorem gap_iff_all_tips_gapped (sa : SequenceAlignment)
    (hpo : post_order sa.tree = true)
    (hleft : ∀ n ∈ sa.tree, n.left = none → n.right = none)
    (hsz : ∀ n ∈ sa.tree, sa.sequence_size n.name = some sa.n_columns)
    (hlen : ∀ n ∈ sa.tree, (sa.taxa_names_to_gaps n.name).length = sa.n_columns) :
    ∃ sa', set_internal_gaps sa = some sa' ∧
      (∀ n ∈ sa.tree, n.isTip = true →
        sa'.taxa_names_to_gaps n.name = sa.taxa_names_to_gaps n.name) ∧
      ∀ n ∈ sa.tree, n.isTip = false → ∀ pos, pos < sa.n_columns →
        (∃ g, sa'.gap_at n.name pos = some g) ∧
        (sa'.gap_at n.name pos = some true ↔
          ∀ t ∈ tips_below sa.tree sa.tree.length n.name, sa'.gap_at t pos = some true) := by
  have hmem : ∀ nm, nm ∈ ([] : List String) ∨ nm ∈ sa.tree.map (fun x => x.name) →
      ∃ n ∈ sa.tree, n.name = nm := by
    intro nm h
    rcases h with h | h
    · cases h
    · obtain ⟨n, hn, rfl⟩ := List.mem_map.mp h
      exact ⟨n, hn, rfl⟩
  obtain ⟨sa', hrun, -, -, hlen', htips, hint⟩ :=
    set_gaps_loop sa.n_columns sa.tree [] sa hpo hleft
      (fun nm h => by
        obtain ⟨n, hn, rfl⟩ := hmem nm h
        exact hsz n hn)
      (fun nm h => by
        obtain ⟨n, hn, rfl⟩ := hmem nm h
        exact hlen n hn)
  refine ⟨sa', hrun, htips, fun n hn htip pos hpos => ?_⟩
  have hgetD : ∀ m ∈ sa.tree, m.isTip = false →
      (sa'.taxa_names_to_gaps m.name).getD pos false =
        gap_from_children sa'.taxa_names_to_gaps m pos := by
    intro m hm hmtip
    rw [List.getD_eq_getElem?_getD, hint m hm hmtip pos hpos, Option.getD_some]
  have hiff := gap_true_iff_tips sa.tree sa'.taxa_names_to_gaps pos hpo hleft hgetD n hn
    sa.tree.length (le_refl _)
  have hconv : ∀ nm, sa'.gap_at nm pos = some true ↔
      (sa'.taxa_names_to_gaps nm).getD pos false = true :=
    fun nm => ⟨fun h => getD_of_gap_at sa' nm pos true h, fun h => gap_at_of_getD sa' nm pos h⟩
  refine ⟨⟨_, hint n hn htip pos hpos⟩, ?_⟩
  rw [hconv, hiff]
  constructor
  · intro h t ht
    exact (hconv t).mpr (h t ht)
  · intro h t ht
    exact (hconv t).mp (h t ht)


/-- Witness of C34: the tree `((a:1,b:1):1,c:1)` with `a = A-`, `b = A-`, `c = AA`. The
tips below `ab` are `a` and `b`, both gaps at position 1, and the mask of `ab` becomes
`[false, true]`; the tips below the root are `a`, `b` and `c`, and its mask becomes
`[false, false]`. -/
theorem gap_iff_all_tips_gapped_witness :
    (∃ sa', set_internal_gaps gappedCladeAlignment = some sa' ∧
      (∀ n ∈ gappedCladeAlignment.tree, n.isTip = true →
        sa'.taxa_names_to_gaps n.name = gappedCladeAlignment.taxa_names_to_gaps n.name) ∧
      ∀ n ∈ gappedCladeAlignment.tree, n.isTip = false →
        ∀ pos, pos < gappedCladeAlignment.n_columns →
          (∃ g, sa'.gap_at n.name pos = some g) ∧
          (sa'.gap_at n.name pos = some true ↔
            ∀ t ∈ tips_below gappedCladeAlignment.tree gappedCladeAlignment.tree.length n.name,
              sa'.gap_at t pos = some true)) ∧
    tips_below gapTree 5 "ab" = ["a", "b"] ∧
    tips_below gapTree 5 "root" = ["a", "b", "c"] ∧
    (set_internal_gaps gappedCladeAlignment).map
        (fun sa' => (sa'.taxa_names_to_gaps "ab", sa'.taxa_names_to_gaps "root"))
      = some ([false, true], [false, false]) :=
  ⟨gap_iff_all_tips_gapped gappedCladeAlignment (by decide) (by decide) (by decide)
    (by decide), by decide, by decide, by decide⟩


/-! ## The positions sampled in one call -/

/-- One round of the loop of `sample` from a position inside the alignment: the position
is appended and `sample_loc` moves on by one, around the end. -/
theorem sample_positions_round_eq (n_cols : Nat) (st : List Nat × Nat) (hloc : st.2 < n_cols)
    (hN : n_cols < 4294967296) :
    sample_positions_round n_cols st = (st.1 ++ [st.2], (st.2 + 1) % n_cols) := by
  have h1 : (st.2 + 1) % 4294967296 = st.2 + 1 := Nat.mod_eq_of_lt (by omega)
  unfold sample_positions_round
  simp only [h1]
  by_cases h : st.2 + 1 ≥ n_cols
  · have heq : st.2 + 1 = n_cols := by omega
    rw [if_pos h, heq, Nat.mod_self]
  · rw [if_neg h, Nat.mod_eq_of_lt (by omega)]

/-- The loop of `sample` entered with `d` positions still to add and `sample_loc` inside
the alignment: it adds the `d` positions that follow `sample_loc`, around the end, and
leaves `sample_loc` after the last of them. -/
theorem sample_positions_while_spec (n_sample n_cols : Nat) (hN : n_cols < 4294967296) :
    ∀ (d : Nat) (st : List Nat × Nat), st.1.length + d = n_sample → st.2 < n_cols →
      sample_positions_while n_sample n_cols st =
        (st.1 ++ (List.range d).map (fun k => (st.2 + k) % n_cols), (st.2 + d) % n_cols) := by
  intro d
  induction d with
  | zero =>
    intro st hlen hloc
    rw [sample_positions_while, if_neg (by omega)]
    simp [Nat.mod_eq_of_lt hloc]
  | succ d ih =>
    intro st hlen hloc
    have hpos : 0 < n_cols := by omega
    rw [sample_positions_while, if_pos (by omega), sample_positions_round_eq n_cols st hloc hN,
      ih (st.1 ++ [st.2], (st.2 + 1) % n_cols)
        (by simp only [List.length_append, List.length_singleton]; omega)
        (Nat.mod_lt _ hpos)]
    have hk : ∀ k, ((st.2 + 1) % n_cols + k) % n_cols = (st.2 + (k + 1)) % n_cols := by
      intro k
      rw [Nat.add_mod, Nat.mod_mod, ← Nat.add_mod]
      congr 1
      omega
    have hmap : (List.range (d + 1)).map (fun k => (st.2 + k) % n_cols) =
        st.2 :: (List.range d).map (fun k => ((st.2 + 1) % n_cols + k) % n_cols) := by
      rw [List.range_succ_eq_map, List.map_cons, List.map_map, Nat.add_zero,
        Nat.mod_eq_of_lt hloc]
      congr 1
      apply List.map_congr_left
      intro k _
      exact (hk k).symm
    rw [hmap, hk d]
    simp

/-- Moving on from `s` by less than `n` steps around the end of `0 .. n - 1` never comes
back to a position visited. -/
theorem rotation_injective (n s i j : Nat) (hi : i < n) (hj : j < n)
    (h : (s + i) % n = (s + j) % n) : i = j := by
  have h1 : s + i ≡ s + j [MOD n] := h
  exact Nat.ModEq.eq_of_lt_of_lt (Nat.ModEq.add_left_cancel' s h1) hi hj

/-- The object that `sample` leaves, from a `sample_loc` inside the alignment. -/
theorem sample_positions_object (p : SequenceAlignmentParameter)
    (hloc : p.sample_loc < p.n_cols) (hN : p.n_cols < 4294967296) :
    p.sample_positions.2 =
      { p with sample_loc := (p.sample_loc + p.n_sample) % p.n_cols } := by
  have hrun := sample_positions_while_spec p.n_sample p.n_cols hN p.n_sample
    ([], p.sample_loc) (by simp) hloc
  unfold SequenceAlignmentParameter.sample_positions
  simp only [hrun]

/-- After any number of calls of `sample` from a `sample_loc` inside the alignment,
`n_sample` and `n_cols` are what they were and `sample_loc` is inside the alignment. -/
theorem sample_calls_invariant (p : SequenceAlignmentParameter)
    (hloc : p.sample_loc < p.n_cols) (hN : p.n_cols < 4294967296) :
    ∀ k : Nat,
      (Nat.iterate (fun q => (SequenceAlignmentParameter.sample_positions q).2) k p).n_sample =
          p.n_sample ∧
        (Nat.iterate (fun q => (SequenceAlignmentParameter.sample_positions q).2) k p).n_cols =
          p.n_cols ∧
        (Nat.iterate (fun q => (SequenceAlignmentParameter.sample_positions q).2) k p).sample_loc <
          p.n_cols := by
  intro k
  induction k with
  | zero => exact ⟨rfl, rfl, hloc⟩
  | succ k ih =>
    obtain ⟨h1, h2, h3⟩ := ih
    rw [Function.iterate_succ_apply']
    generalize Nat.iterate (fun q => (SequenceAlignmentParameter.sample_positions q).2) k p = q
      at h1 h2 h3
    have hobj := sample_positions_object q (by rw [h2]; exact h3) (by rw [h2]; exact hN)
    show (SequenceAlignmentParameter.sample_positions q).2.n_sample = p.n_sample ∧
      (SequenceAlignmentParameter.sample_positions q).2.n_cols = p.n_cols ∧
      (SequenceAlignmentParameter.sample_positions q).2.sample_loc < p.n_cols
    rw [hobj]
    refine ⟨h1, h2, ?_⟩
    show (q.sample_loc + q.n_sample) % q.n_cols < p.n_cols
    rw [h2]
    exact Nat.mod_lt _ (by omega)

/-- Claim C35: for `n_sample ≤ n_cols` (`1 ≤ n_sample` is not needed) and
`sample_loc < n_cols`, with `n_cols` an `unsigned int`, the list of
positions that `sample` builds is `(sample_loc + k) mod n_cols` for `k = 0 .. n_sample - 1`
in that order: `n_sample` different positions below `n_cols`; `sample_loc` is left at
`(sample_loc + n_sample) mod n_cols`, hence below `n_cols`, and nothing else of the
object changes. When `n_sample = n_cols` every column is in the list, and `sample_loc` is
left where it was. After any number of calls `n_sample` and `n_cols` are what they were
and `sample_loc` is below `n_cols`, so that all of this holds of every call. -/
theorem sample_positions_spec (p : SequenceAlignmentParameter)
    (h2 : p.n_sample ≤ p.n_cols) (hloc : p.sample_loc < p.n_cols)
    (hN : p.n_cols < 4294967296) :
    p.sample_positions.1 =
        (List.range p.n_sample).map (fun k => (p.sample_loc + k) % p.n_cols) ∧
      p.sample_positions.1.length = p.n_sample ∧
      p.sample_positions.1.Nodup ∧
      (∀ c ∈ p.sample_positions.1, c < p.n_cols) ∧
      p.sample_positions.2 =
        { p with sample_loc := (p.sample_loc + p.n_sample) % p.n_cols } ∧
      p.sample_positions.2.sample_loc < p.n_cols ∧
      (p.n_sample = p.n_cols →
        (∀ c, c < p.n_cols → c ∈ p.sample_positions.1) ∧
          p.sample_positions.2.sample_loc = p.sample_loc) ∧
      ∀ k : Nat,
        (Nat.iterate (fun q => (SequenceAlignmentParameter.sample_positions q).2) k p).n_sample =
            p.n_sample ∧
          (Nat.iterate (fun q => (SequenceAlignmentParameter.sample_positions q).2) k p).n_cols =
            p.n_cols ∧
          (Nat.iterate (fun q => (SequenceAlignmentParameter.sample_positions q).2) k
            p).sample_loc < p.n_cols := by
  have hpos : 0 < p.n_cols := by omega
  have hrun := sample_positions_while_spec p.n_sample p.n_cols hN p.n_sample
    ([], p.sample_loc) (by simp) hloc
  have hlist : p.sample_positions.1 =
      (List.range p.n_sample).map (fun k => (p.sample_loc + k) % p.n_cols) := by
    unfold SequenceAlignmentParameter.sample_positions
    simp only [hrun, List.nil_append]
  have hobj : p.sample_positions.2 =
      { p with sample_loc := (p.sample_loc + p.n_sample) % p.n_cols } := by
    unfold SequenceAlignmentParameter.sample_positions
    simp only [hrun]
  refine ⟨hlist, ?_, ?_, ?_, hobj, ?_, ?_, sample_calls_invariant p hloc hN⟩
  · rw [hlist, List.length_map, List.length_range]
  · rw [hlist]
    apply List.Nodup.map_on _ (List.nodup_range _)
    intro i hi j hj hij
    exact rotation_injective p.n_cols p.sample_loc i j
      (by have := List.mem_range.mp hi; omega) (by have := List.mem_range.mp hj; omega) hij
  · intro c hc
    rw [hlist] at hc
    obtain ⟨k, -, rfl⟩ := List.mem_map.mp hc
    exact Nat.mod_lt _ hpos
  · rw [hobj]
    exact Nat.mod_lt _ hpos
  · intro heq
    constructor
    · intro c hc
      rw [hlist, heq]
      apply List.mem_map.mpr
      by_cases hcs : p.sample_loc ≤ c
      · refine ⟨c - p.sample_loc, List.mem_range.mpr (by omega), ?_⟩
        have : p.sample_loc + (c - p.sample_loc) = c := by omega
        rw [this, Nat.mod_eq_of_lt hc]
      · refine ⟨c + p.n_cols - p.sample_loc, List.mem_range.mpr (by omega), ?_⟩
        have : p.sample_loc + (c + p.n_cols - p.sample_loc) = c + p.n_cols := by omega
        rw [this, Nat.add_mod_right, Nat.mod_eq_of_lt hc]
    · rw [hobj, heq]
      show (p.sample_loc + p.n_cols) % p.n_cols = p.sample_loc
      rw [Nat.add_mod_right, Nat.mod_eq_of_lt hloc]

/-- Witness of C35: five columns, three positions a call, `sample_loc = 3`: the positions
are `3, 4, 0` and `sample_loc` is left at `1`. -/
theorem sample_positions_spec_witness :
    (SequenceAlignmentParameter.sample_positions
        { save_count := -1, n_sample := 3, n_cols := 5, triple_recursion := true,
          sample_loc := 3 }).1 = [3, 4, 0] ∧
      (SequenceAlignmentParameter.sample_positions
        { save_count := -1, n_sample := 3, n_cols := 5, triple_recursion := true,
          sample_loc := 3 }).2.sample_loc = 1 := by
  have h := sample_positions_spec
    { save_count := -1, n_sample := 3, n_cols := 5, triple_recursion := true,
      sample_loc := 3 } (by decide) (by decide) (by decide)
  refine ⟨h.1.trans (by decide), ?_⟩
  rw [h.2.2.2.2.1]
  decide


/-! ## When no state can be picked -/

/-- In the exact arithmetic: on a row of at most 128 non-negative entries and a draw
`r ≥ 0`,
`pick_state_from_probabilities` ends the program with failure exactly when `r` is not
below the total of the row, and returns a state exactly when it is; at a row that is all
zero, which `normalize_state_probs` leaves as it is, it ends the program for every
`r ≥ 0`. -/
theorem pick_state_exit_iff (sa : SequenceAlignment) (node : TreeNode) (pos : Nat) (r : ℚ)
    (hN : sa.n_states ≤ 128) (h0 : 0 ≤ r)
    (hd : ∀ i, i < sa.n_states → 0 ≤ sa.marginal_state_distribution node.name pos i) :
    (pick_state_from_probabilities sa node pos r = Except.error Halt.exit_failure ↔
        ∑ i in Finset.range sa.n_states, sa.marginal_state_distribution node.name pos i ≤ r) ∧
      ((∃ picked, pick_state_from_probabilities sa node pos r = Except.ok picked) ↔
        r < ∑ i in Finset.range sa.n_states, sa.marginal_state_distribution node.name pos i) ∧
      ((∀ i, i < sa.n_states → sa.marginal_state_distribution node.name pos i = 0) →
        normalize_state_probs sa node pos = sa ∧
        pick_state_from_probabilities (normalize_state_probs sa node pos) node pos r =
          Except.error Halt.exit_failure) := by
  obtain ⟨_, _, h3⟩ := pick_state_loop_cdf sa node.name pos r sa.n_states hN _ rfl
  have hcases : (pick_state_from_probabilities sa node pos r = Except.error Halt.exit_failure ∧
        ∑ i in Finset.range sa.n_states, sa.marginal_state_distribution node.name pos i ≤ r) ∨
      ((∃ picked, pick_state_from_probabilities sa node pos r = Except.ok picked) ∧
        r < ∑ i in Finset.range sa.n_states,
          sa.marginal_state_distribution node.name pos i) := by
    rcases h3 with ⟨hsel, hno⟩ | ⟨s, hs, hss, hlt, _⟩
    · left
      constructor
      · simp only [pick_state_from_probabilities, hsel, if_true]
      · by_cases hn : sa.n_states = 0
        · rw [hn, Finset.sum_range_zero]
          exact h0
        · have := hno (sa.n_states - 1) (by omega)
          have hn' : sa.n_states - 1 + 1 = sa.n_states := by omega
          rw [hn'] at this
          exact not_lt.mp this
    · right
      have hne : ¬ (s : Int) = -1 := by
        intro h
        have : (0 : Int) ≤ (s : Int) := Int.ofNat_nonneg s
        rw [h] at this
        exact absurd this (by decide)
      constructor
      · refine ⟨((s : Int), ((List.range sa.n_states).foldl (pick_state_round node.name pos r)
          (0, -1, sa)).2.2), ?_⟩
        simp only [pick_state_from_probabilities, hss, hne, if_false]
      · exact lt_of_lt_of_le hlt
          (partial_sum_le_total (sa.marginal_state_distribution node.name pos) sa.n_states hd
            (s + 1) (by omega))
  have hiff1 : pick_state_from_probabilities sa node pos r = Except.error Halt.exit_failure ↔
      ∑ i in Finset.range sa.n_states, sa.marginal_state_distribution node.name pos i ≤ r := by
    rcases hcases with ⟨he, hle⟩ | ⟨⟨picked, hp⟩, hlt⟩
    · exact ⟨fun _ => hle, fun _ => he⟩
    · constructor
      · intro he
        rw [hp] at he
        cases he
      · intro hle
        exact absurd hlt (not_lt.mpr hle)
  refine ⟨hiff1, ?_, ?_⟩
  · rcases hcases with ⟨he, hle⟩ | ⟨hp, hlt⟩
    · constructor
      · rintro ⟨picked, hp⟩
        rw [hp] at he
        cases he
      · intro hlt
        exact absurd hlt (not_lt.mpr hle)
    · exact ⟨fun _ => hlt, fun _ => hp⟩
  · intro hzero
    have htotal : ∑ i in Finset.range sa.n_states,
        sa.marginal_state_distribution node.name pos i = 0 :=
      Finset.sum_eq_zero (fun i hi => hzero i (Finset.mem_range.mp hi))
    have hnorm : normalize_state_probs sa node pos = sa := by
      unfold normalize_state_probs
      rw [foldl_add_eq_sum, htotal]
      simp
    rw [hnorm]
    exact ⟨rfl, hiff1.mpr (by rw [htotal]; exact h0)⟩


/-- The entries of the row of `pickAlignment` are not negative and their total is `1`. -/
theorem pickAlignment_row (i : Nat) :
    0 ≤ pickAlignment.marginal_state_distribution "n" 0 i ∧
      ∑ j in Finset.range pickAlignment.n_states,
        pickAlignment.marginal_state_distribution "n" 0 j = 1 := by
  constructor
  · show (0 : ℚ) ≤ if i = 0 then 1 / 4 else 3 / 4
    split <;> norm_num
  · show ∑ j in Finset.range 2, pickAlignment.marginal_state_distribution "n" 0 j = 1
    simp only [Finset.sum_range_succ, Finset.sum_range_zero, pickAlignment]
    norm_num

/-- In the exact arithmetic: on the row `(1/4, 3/4)` of `pickAlignment` the draw `1` ends
the
program and the draw `1/2` returns a state; on the row of the root of
`twoTaxonAlignment`, all zero before and after normalisation, the draw `1/2` ends the
program. -/
theorem pick_state_exit_iff_witness :
    pick_state_from_probabilities pickAlignment
        { name := "n", up := none, left := none, right := none } 0 1 =
      Except.error Halt.exit_failure ∧
    (∃ picked, pick_state_from_probabilities pickAlignment
        { name := "n", up := none, left := none, right := none } 0 (1 / 2) =
      Except.ok picked) ∧
    (normalize_state_probs twoTaxonAlignment twoTaxonRoot 0 = twoTaxonAlignment ∧
      pick_state_from_probabilities (normalize_state_probs twoTaxonAlignment twoTaxonRoot 0)
        twoTaxonRoot 0 (1 / 2) = Except.error Halt.exit_failure) :=
  ⟨(pick_state_exit_iff pickAlignment { name := "n", up := none, left := none, right := none }
      0 1 (by decide) (by norm_num) (fun i _ => (pickAlignment_row i).1)).1.mpr
      (le_of_eq (pickAlignment_row 0).2),
    (pick_state_exit_iff pickAlignment { name := "n", up := none, left := none, right := none }
      0 (1 / 2) (by decide) (by norm_num) (fun i _ => (pickAlignment_row i).1)).2.1.mpr
      (by rw [(pickAlignment_row 0).2]; norm_num),
    (pick_state_exit_iff twoTaxonAlignment twoTaxonRoot 0 (1 / 2) (by decide) (by norm_num)
      (fun _ _ => le_refl _)).2.2 (fun _ _ => rfl)⟩


/-! ## The object that a refresh leaves -/

/-- In the exact arithmetic: whether `refresh` returns or raises, the object it leaves
holds
`u - sum` as its value and, as the value that `getOldValue` returns, the value from
before the call; the outcome is a normal return or the `OutOfBoundsException`; when the
exception is raised the value stored is outside `[0, 1]`, when the call returns it is
inside. -/
theorem refresh_not_atomic (v : VirtualSubstitutionRate) (getValue : String → ℚ) :
    (v.refresh getValue).2.getValue = v.u - (v.dependent_rates.map getValue).sum ∧
      (v.refresh getValue).2.getOldValue = v.getValue ∧
      ((v.refresh getValue).1 = Except.ok () ∨ (v.refresh getValue).1 =
        Except.error (Halt.OutOfBoundsException "VirtualSubstitutionRate out of bounds.")) ∧
      ((v.refresh getValue).1 =
          Except.error (Halt.OutOfBoundsException "VirtualSubstitutionRate out of bounds.") →
        (v.refresh getValue).2.getValue < 0 ∨ (v.refresh getValue).2.getValue > 1) ∧
      ((v.refresh getValue).1 = Except.ok () →
        0 ≤ (v.refresh getValue).2.getValue ∧ (v.refresh getValue).2.getValue ≤ 1) := by
  obtain ⟨hval, herr, hok⟩ := refresh_spec v getValue
  have hold : (v.refresh getValue).2.getOldValue = v.getValue := by
    unfold VirtualSubstitutionRate.refresh VirtualSubstitutionRate.getOldValue
      VirtualSubstitutionRate.getValue
    simp only []
    split <;> rfl
  have hval' : (v.refresh getValue).2.getValue = v.u - (v.dependent_rates.map getValue).sum :=
    hval
  refine ⟨hval', hold, ?_, ?_, ?_⟩
  · by_cases h : v.u - (v.dependent_rates.map getValue).sum < 0 ∨
        v.u - (v.dependent_rates.map getValue).sum > 1
    · exact Or.inr (herr.mpr h)
    · exact Or.inl (hok.mpr h)
  · intro h
    rw [hval']
    exact herr.mp h
  · intro h
    rw [hval']
    have := hok.mp h
    constructor
    · by_contra hlt
      exact this (Or.inl (not_le.mp hlt))
    · by_contra hgt
      exact this (Or.inr (not_le.mp hgt))

/-- The object after a failed refresh: the exception is raised on `settledRate` when its
rate has moved to `2/5`, the value stored is then `-1/10` and `getOldValue` returns
`3/20`. -/
theorem refresh_failed_object :
    halt_of (settledRate.refresh (fun _ => 2 / 5)).1 =
      some (Halt.OutOfBoundsException "VirtualSubstitutionRate out of bounds.") ∧
    (settledRate.refresh (fun _ => 2 / 5)).2.getValue = -1 / 10 ∧
    (settledRate.refresh (fun _ => 2 / 5)).2.getOldValue = 3 / 20 ∧
    (settledRate.refresh (fun _ => 2 / 5)).2 =
      { settledRate with value := -1 / 10, previous_value := 3 / 20 } := by
  decide!


/-! ## Statistics of a branch segment -/

/-- The two values that `virtualSubstituionQ` computes, for a rate, a constant `u` and a
length that are not negative: `noSub` is `1 / (1 + rate * d)`, the complement of
`p_virt`, and `Sub`, the threshold of the draw, is
`rate * d * (1 + rate * d) / (rate * d * (1 + rate * d) + 1 + u * d)`. -/
theorem virtual_substitution_probs_eq (u rate d : ℚ) (hu : 0 ≤ u) (hr : 0 ≤ rate) (hd : 0 ≤ d) :
    virtual_substitution_probs u rate d =
      (1 / (1 + rate * d),
        rate * d * (1 + rate * d) / (rate * d * (1 + rate * d) + 1 + u * d)) := by
  have hx : 0 ≤ rate * d := mul_nonneg hr hd
  have hy : 0 ≤ u * d := mul_nonneg hu hd
  have h1 : (1 + u * d) ≠ 0 := by positivity
  have h2 : (1 + rate * d) ≠ 0 := by positivity
  have h3 : rate * d * (1 + rate * d) + 1 + u * d ≠ 0 := by positivity
  have h4 : rate * d / (1 + u * d) + 1 / (1 + u * d) ≠ 0 := by
    rw [← add_div]
    have : rate * d + 1 ≠ 0 := by positivity
    exact div_ne_zero this h1
  have hno : 1 / (1 + u * d) / (rate * d / (1 + u * d) + 1 / (1 + u * d)) =
      1 / (1 + rate * d) := by
    field_simp
    ring
  unfold virtual_substitution_probs
  simp only [hno]
  refine Prod.ext rfl ?_
  show rate * d / (1 + u * d) / (rate * d / (1 + u * d) + 1 / (1 + rate * d)) = _
  have h5 : rate * d / (1 + u * d) + 1 / (1 + rate * d) ≠ 0 := by
    have : 0 < rate * d / (1 + u * d) + 1 / (1 + rate * d) := by positivity
    exact ne_of_gt this
  field_simp
  ring

/-- The threshold of `virtualSubstituionQ` is `p_virt = 1 - 1 / (1 + rate * d)` only when
`rate * d = 0` or the rate is `u`. -/
theorem virtual_threshold_eq_iff (u rate d : ℚ) (hu : 0 ≤ u) (hr : 0 ≤ rate) (hd : 0 < d) :
    (virtual_substitution_probs u rate d).2 = 1 - 1 / (1 + rate * d) ↔
      rate = 0 ∨ rate = u := by
  have hx : 0 ≤ rate * d := mul_nonneg hr (le_of_lt hd)
  have hy : 0 ≤ u * d := mul_nonneg hu (le_of_lt hd)
  have h2 : (1 + rate * d) ≠ 0 := by positivity
  have h3 : rate * d * (1 + rate * d) + 1 + u * d ≠ 0 := by positivity
  rw [virtual_substitution_probs_eq u rate d hu hr (le_of_lt hd)]
  show rate * d * (1 + rate * d) / (rate * d * (1 + rate * d) + 1 + u * d) =
    1 - 1 / (1 + rate * d) ↔ _
  have hB : (1 : ℚ) - 1 / (1 + rate * d) = rate * d / (1 + rate * d) := by
    field_simp
  rw [hB, div_eq_div_iff h3 h2]
  constructor
  · intro h
    have hfac : rate * d * (d * (rate - u)) = 0 := by linear_combination h
    rcases mul_eq_zero.mp hfac with h0 | h0
    · left
      rcases mul_eq_zero.mp h0 with h00 | h00
      · exact h00
      · exact absurd h00 (ne_of_gt hd)
    · right
      rcases mul_eq_zero.mp h0 with h00 | h00
      · exact absurd h00 (ne_of_gt hd)
      · linarith
  · rintro (h | h)
    · subst h
      ring
    · subst h
      ring

/-- Claim C38, the code at an input where it departs from the claim: with `u = 1/5`, a
rate of `1/10` and a segment of length `1`, `p_virt = 1 - 1/(1 + 1/10) = 1/11`, which is
also `Sub / (Sub + noSub)` for `Sub = 1/12` and `noSub = 5/6`; the draw `9/100` is below
it, yet `virtualSubstituionQ` returns `false`: the two values it has computed are
`noSub = 10/11` and `Sub = 11/131`, the draw is compared with the latter, and their sum
is not `1`. For the draw `8/100` it returns `true`. -/
theorem virtualSubstituionQ_threshold_off :
    (1 / 10 * 1 / (1 + 1 / 5 * 1) : ℚ) = 1 / 12 ∧ (1 / (1 + 1 / 5 * 1) : ℚ) = 5 / 6 ∧
    (1 / 12 / (1 / 12 + 5 / 6) : ℚ) = 1 / 11 ∧ (1 - 1 / (1 + 1 / 10 * 1) : ℚ) = 1 / 11 ∧
    (9 / 100 : ℚ) < 1 / 11 ∧
    virtualSubstituionQ (1 / 5) (1 / 10) 1 (9 / 100) = false ∧
    virtual_substitution_probs (1 / 5) (1 / 10) 1 = (10 / 11, 11 / 131) ∧
    (10 / 11 + 11 / 131 : ℚ) ≠ 1 ∧
    virtualSubstituionQ (1 / 5) (1 / 10) 1 (8 / 100) = true := by
  decide!


/-- Counting over one more index. -/
theorem countP_range_succ (p : Nat → Bool) (k : Nat) :
    (List.range (k + 1)).countP p = (List.range k).countP p + (if p k = true then 1 else 0) := by
  rw [List.range_succ, List.countP_append, List.countP_singleton]

/-- Counting over `0 .. k - 1` with a predicate that is the same there. -/
theorem countP_range_congr (p q : Nat → Bool) (k : Nat) (h : ∀ i, i < k → p i = q i) :
    (List.range k).countP p = (List.range k).countP q := by
  apply List.countP_congr
  intro i hi
  rw [h i (List.mem_range.mp hi)]

/-- A record with a position that is not negative is not the null record. -/
theorem record_ne_null (pos : Nat) (a d : Int) :
    ({ pos := (pos : Int), anc := a, dec := d } : substitution) ≠ null_substitution := by
  intro h
  have h1 : ((pos : Int)) = -1 := congrArg substitution.pos h
  have h2 : (0 : Int) ≤ (pos : Int) := Int.ofNat_nonneg pos
  rw [h1] at h2
  exact absurd h2 (by decide)

/-- The two counts over the records after `subs[k] = s`, from the counts before. -/
theorem counts_after_set (subs : List substitution) (dec : List Int) (k : Nat) (s : substitution)
    (hk : k < subs.length) :
    (List.range (k + 1)).countP
        (fun p => decide ((subs.set k s)[p]? ≠ some null_substitution)) =
      (List.range k).countP (fun p => decide (subs[p]? ≠ some null_substitution)) +
        (if s ≠ null_substitution then 1 else 0) ∧
    (List.range (k + 1)).countP
        (fun p => decide (dec[p]? ≠ some (-1) ∧ (subs.set k s)[p]? = some null_substitution)) =
      (List.range k).countP
          (fun p => decide (dec[p]? ≠ some (-1) ∧ subs[p]? = some null_substitution)) +
        (if dec[k]? ≠ some (-1) ∧ s = null_substitution then 1 else 0) := by
  have hat : (subs.set k s)[k]? = some s := by
    rw [List.getElem?_set_self hk]
  have hother : ∀ i, i < k → (subs.set k s)[i]? = subs[i]? := by
    intro i hi
    rw [List.getElem?_set_ne (by omega)]
  constructor
  · rw [countP_range_succ, countP_range_congr _
      (fun p => decide (subs[p]? ≠ some null_substitution)) k
      (fun i hi => by simp only [hother i hi])]
    simp only [hat, decide_eq_true_eq, ne_eq, Option.some.injEq]
  · rw [countP_range_succ, countP_range_congr _
      (fun p => decide (dec[p]? ≠ some (-1) ∧ subs[p]? = some null_substitution)) k
      (fun i hi => by simp only [hother i hi])]
    simp only [hat, decide_eq_true_eq, ne_eq, Option.some.injEq]


/-- The first `k` rounds of the loop of `updateStats` on two sequences of one length that
the vector `subs` has room for: they return; the records from `k` on are null; the
record of a position before `k` is null where the descendant is a gap, `{pos, anc, dec}`
where the two states differ, and one of the two where they are the same; `num1subs`
counts the records before `k` that are not null, `num0subs` the null ones where the
descendant is not a gap, and together they count the positions before `k` where the
descendant is not a gap. -/
theorem updateStats_loop (n : Nat) (u distance : ℚ) (rate_of : Int → ℚ) (Random : Nat → ℚ)
    (anc dec : List Int) (drawn : Nat) (hlen : anc.length = dec.length)
    (hn : anc.length ≤ n) :
    ∀ k, k ≤ anc.length →
      ∃ st, (List.range k).foldlM (updateStats_round u distance rate_of Random anc dec)
          { num0subs := 0, num1subs := 0, subs := List.replicate n null_substitution,
            drawn := drawn } = some st ∧
        st.subs.length = n ∧
        (∀ p, k ≤ p → p < n → st.subs[p]? = some null_substitution) ∧
        (∀ p, p < k → ∀ a d, anc[p]? = some a → dec[p]? = some d →
          (d = -1 → st.subs[p]? = some null_substitution) ∧
          (d ≠ -1 → a ≠ d → st.subs[p]? = some { pos := (p : Int), anc := a, dec := d }) ∧
          (d ≠ -1 → a = d → st.subs[p]? = some null_substitution ∨
            st.subs[p]? = some { pos := (p : Int), anc := a, dec := d })) ∧
        st.num1subs = (((List.range k).countP
          (fun p => decide (st.subs[p]? ≠ some null_substitution)) : Nat) : Int) ∧
        st.num0subs = (((List.range k).countP
          (fun p => decide (dec[p]? ≠ some (-1) ∧ st.subs[p]? = some null_substitution)) :
            Nat) : Int) ∧
        st.num0subs + st.num1subs = (((List.range k).countP
          (fun p => decide (dec[p]? ≠ some (-1))) : Nat) : Int) := by
  intro k
  induction k with
  | zero =>
    intro _
    refine ⟨_, rfl, by simp, ?_, fun p hp => absurd hp (Nat.not_lt_zero p), by simp, by simp,
      by simp⟩
    intro p _ hp
    simp [List.getElem?_replicate, hp]
  | succ k ih =>
    intro hk
    obtain ⟨st, hrun, hsz, hrest, hrec, h1, h0, hsum⟩ := ih (by omega)
    have hkd : k < dec.length := by omega
    have hka : k < anc.length := by omega
    have hks : k < st.subs.length := by omega
    obtain ⟨d, hd⟩ : ∃ d, dec[k]? = some d := ⟨dec[k], List.getElem?_eq_getElem hkd⟩
    obtain ⟨a, ha⟩ : ∃ a, anc[k]? = some a := ⟨anc[k], List.getElem?_eq_getElem hka⟩
    have hfold : (List.range (k + 1)).foldlM
        (updateStats_round u distance rate_of Random anc dec)
        { num0subs := 0, num1subs := 0, subs := List.replicate n null_substitution,
          drawn := drawn } =
        updateStats_round u distance rate_of Random anc dec st k := by
      have := for_range_succ k
        (fun i s => updateStats_round u distance rate_of Random anc dec s i)
        { num0subs := 0, num1subs := 0, subs := List.replicate n null_substitution,
          drawn := drawn }
      simp only [for_range] at this
      rw [this, hrun]
      rfl
    rw [hfold]
    have hnull : st.subs[k]? = some null_substitution := hrest k (le_refl k) (by omega)
    -- the outcome of the round when it writes the record `s`
    have hset : ∀ (s : substitution) (m0 m1 : Int) (dr : Nat),
        d ≠ -1 →
        (s = { pos := (k : Int), anc := a, dec := d } ∧ m0 = st.num0subs ∧
            m1 = st.num1subs + 1) ∨
          (s = null_substitution ∧ a = d ∧ m0 = st.num0subs + 1 ∧ m1 = st.num1subs) →
        ∃ st', st.record k s m0 m1 dr = some st' ∧
          st'.subs.length = n ∧
          (∀ p, k + 1 ≤ p → p < n → st'.subs[p]? = some null_substitution) ∧
          (∀ p, p < k + 1 → ∀ a' d', anc[p]? = some a' → dec[p]? = some d' →
            (d' = -1 → st'.subs[p]? = some null_substitution) ∧
            (d' ≠ -1 → a' ≠ d' →
              st'.subs[p]? = some { pos := (p : Int), anc := a', dec := d' }) ∧
            (d' ≠ -1 → a' = d' → st'.subs[p]? = some null_substitution ∨
              st'.subs[p]? = some { pos := (p : Int), anc := a', dec := d' })) ∧
          st'.num1subs = (((List.range (k + 1)).countP
            (fun p => decide (st'.subs[p]? ≠ some null_substitution)) : Nat) : Int) ∧
          st'.num0subs = (((List.range (k + 1)).countP
            (fun p => decide (dec[p]? ≠ some (-1) ∧
              st'.subs[p]? = some null_substitution)) : Nat) : Int) ∧
          st'.num0subs + st'.num1subs = (((List.range (k + 1)).countP
            (fun p => decide (dec[p]? ≠ some (-1))) : Nat) : Int) := by
      intro s m0 m1 dr hdne hcase
      have hgap : dec[k]? ≠ some (-1) := by
        rw [hd]
        intro h
        exact hdne (Option.some.inj h)
      obtain ⟨hc1, hc0⟩ := counts_after_set st.subs dec k s hks
      refine ⟨{ num0subs := m0, num1subs := m1, subs := st.subs.set k s, drawn := dr },
        by simp only [BranchStats.record, if_pos hks], ?_, ?_, ?_, ?_, ?_, ?_⟩
      · show (st.subs.set k s).length = n
        rw [List.length_set, hsz]
      · intro p hp1 hp2
        show (st.subs.set k s)[p]? = _
        rw [List.getElem?_set_ne (by omega)]
        exact hrest p (by omega) hp2
      · intro p hp a' d' ha' hd'
        show (d' = -1 → (st.subs.set k s)[p]? = _) ∧
          (d' ≠ -1 → a' ≠ d' → (st.subs.set k s)[p]? = _) ∧
          (d' ≠ -1 → a' = d' → (st.subs.set k s)[p]? = _ ∨ (st.subs.set k s)[p]? = _)
        by_cases hpk : p = k
        · subst hpk
          rw [hd] at hd'
          rw [ha] at ha'
          have hdd : d = d' := Option.some.inj hd'
          have haa : a = a' := Option.some.inj ha'
          subst hdd
          subst haa
          rw [List.getElem?_set_self hks]
          refine ⟨fun h => absurd h hdne, ?_, ?_⟩
          · intro _ hne
            rcases hcase with ⟨hs, -, -⟩ | ⟨-, hs, -, -⟩
            · rw [hs]
            · exact absurd hs hne
          · intro _ _
            rcases hcase with ⟨hs, -, -⟩ | ⟨hs, -, -, -⟩
            · exact Or.inr (by rw [hs])
            · exact Or.inl (by rw [hs])
        · rw [List.getElem?_set_ne (fun h => hpk h.symm)]
          exact hrec p (by omega) a' d' ha' hd'
      · show m1 = _
        rw [hc1]
        rcases hcase with ⟨hs, -, hm1⟩ | ⟨hs, -, -, hm1⟩
        · rw [hm1, h1, hs, if_pos (record_ne_null k a d)]
          push_cast
          ring
        · rw [hm1, h1, hs, if_neg (fun h => h rfl)]
          simp
      · show m0 = _
        rw [hc0]
        rcases hcase with ⟨hs, hm0, -⟩ | ⟨hs, -, hm0, -⟩
        · rw [hm0, h0, hs, if_neg (fun h => record_ne_null k a d h.2)]
          simp
        · rw [hm0, h0, hs, if_pos ⟨hgap, rfl⟩]
          push_cast
          ring
      · show m0 + m1 = _
        rw [countP_range_succ]
        simp only [decide_eq_true_eq, if_pos hgap]
        push_cast
        rw [← hsum]
        rcases hcase with ⟨-, hm0, hm1⟩ | ⟨-, -, hm0, hm1⟩
        · rw [hm0, hm1]
          ring
        · rw [hm0, hm1]
          ring
    by_cases hdgap : d = -1
    · -- the descendant is a gap: nothing is written
      refine ⟨st, by simp only [updateStats_round, hd, ha, hdgap]; rfl, hsz,
        fun p hp1 hp2 => hrest p (by omega) hp2, ?_, ?_, ?_, ?_⟩
      · intro p hp a' d' ha' hd'
        by_cases hpk : p = k
        · subst hpk
          rw [hd] at hd'
          have hdd : d = d' := Option.some.inj hd'
          subst hdd
          exact ⟨fun _ => hnull, fun h => absurd hdgap h, fun h => absurd hdgap h⟩
        · exact hrec p (by omega) a' d' ha' hd'
      · rw [countP_range_succ, h1]
        simp [hnull]
      · rw [countP_range_succ, h0]
        simp [hd, hdgap]
      · rw [countP_range_succ, hsum]
        simp [hd, hdgap]
    · by_cases had : a = d
      · by_cases hv : virtualSubstituionQ u (rate_of a) distance (Random st.drawn) = true
        · have hround : updateStats_round u distance rate_of Random anc dec st k =
              st.record k { pos := (k : Int), anc := a, dec := d } st.num0subs
                (st.num1subs + 1) (st.drawn + 1) := by
            simp only [updateStats_round, hd, ha]
            rw [if_pos hdgap, if_pos had, if_pos hv]
          rw [hround]
          exact hset _ _ _ _ hdgap (Or.inl ⟨rfl, rfl, rfl⟩)
        · have hround : updateStats_round u distance rate_of Random anc dec st k =
              st.record k null_substitution (st.num0subs + 1) st.num1subs (st.drawn + 1) := by
            simp only [updateStats_round, hd, ha]
            rw [if_pos hdgap, if_pos had, if_neg hv]
          rw [hround]
          exact hset _ _ _ _ hdgap (Or.inr ⟨rfl, had, rfl, rfl⟩)
      · have hround : updateStats_round u distance rate_of Random anc dec st k =
            st.record k { pos := (k : Int), anc := a, dec := d } st.num0subs
              (st.num1subs + 1) st.drawn := by
          simp only [updateStats_round, hd, ha]
          rw [if_pos hdgap, if_neg had]
        rw [hround]
        exact hset _ _ _ _ hdgap (Or.inl ⟨rfl, rfl, rfl⟩)


/-- Counting the positions of a sequence that are not gaps, by index or by element. -/
theorem countP_nongap_range (l : List Int) :
    (List.range l.length).countP (fun p => decide (l[p]? ≠ some (-1))) =
      l.countP (fun d => decide (d ≠ -1)) := by
  induction l using List.reverseRecOn with
  | nil => rfl
  | append_singleton l x ih =>
    rw [List.length_append, List.length_singleton, countP_range_succ,
      countP_range_congr _ (fun p => decide (l[p]? ≠ some (-1))) l.length
        (fun i hi => by rw [List.getElem?_append_left hi]),
      ih, List.countP_append, List.countP_singleton]
    simp

/-- Claim C39: on two sequences of one length that the vector `subs` has room for,
`updateStats` returns; `num0subs + num1subs` is the number of positions where the
descendant is not a gap; a position where the two states differ and the descendant is not
a gap holds the record `{pos, anc, dec}`; a position where the descendant is a gap holds
the null record; `num1subs` is the number of positions with a record that is not null,
among them the former, and `num0subs` the number of positions with the null record where
the descendant is not a gap, so that the latter are counted in neither. -/
theorem updateStats_spec (n : Nat) (u distance : ℚ) (rate_of : Int → ℚ) (Random : Nat → ℚ)
    (anc dec : List Int) (drawn : Nat) (hlen : anc.length = dec.length)
    (hn : anc.length ≤ n) :
    ∃ st, updateStats n u distance rate_of Random anc dec drawn = some st ∧
      st.num0subs + st.num1subs = ((dec.countP (fun d => decide (d ≠ -1)) : Nat) : Int) ∧
      (∀ (p : Nat) (a d : Int), anc[p]? = some a → dec[p]? = some d → d ≠ -1 → a ≠ d →
        st.subs[p]? = some ({ pos := (p : Int), anc := a, dec := d } : substitution)) ∧
      (∀ p : Nat, dec[p]? = some (-1) → st.subs[p]? = some null_substitution) ∧
      st.num1subs = (((List.range dec.length).countP
        (fun p => decide (st.subs[p]? ≠ some null_substitution)) : Nat) : Int) ∧
      st.num0subs = (((List.range dec.length).countP
        (fun p => decide (dec[p]? ≠ some (-1) ∧ st.subs[p]? = some null_substitution)) :
          Nat) : Int) := by
  obtain ⟨st, hrun, -, -, hrec, h1, h0, hsum⟩ :=
    updateStats_loop n u distance rate_of Random anc dec drawn hlen hn anc.length (le_refl _)
  have hlt : ∀ (p : Nat) (d : Int), dec[p]? = some d → p < anc.length := by
    intro p d hd
    by_contra hge
    rw [List.getElem?_eq_none (by omega)] at hd
    cases hd
  refine ⟨st, hrun, ?_, ?_, ?_, ?_, ?_⟩
  · rw [hsum, hlen, countP_nongap_range]
  · intro p a d ha hd hdne hne
    exact (hrec p (hlt p d hd) a d ha hd).2.1 hdne hne
  · intro p hd
    have hp := hlt p (-1) hd
    obtain ⟨a, ha⟩ : ∃ a, anc[p]? = some a := ⟨anc[p], List.getElem?_eq_getElem hp⟩
    exact (hrec p hp a (-1) ha hd).1 rfl
  · rw [← hlen]
    exact h1
  · rw [← hlen]
    exact h0

/-- Witness of C39: the sequences `anc = 0, 0, 1, 0` and `dec = 0, 0, 0, -1` on a segment
of length `1` with `u = 1/5` and rates `1/10`, the draws being `8/100` and then `9/100`:
position 0 gets a virtual substitution, position 1 none, position 2 holds `{2, 1, 0}`,
position 3 is a gap; `num0subs = 1` and `num1subs = 2`. -/
theorem updateStats_spec_witness :
    (∃ st, updateStats 4 (1 / 5) 1 (fun _ => 1 / 10)
        (fun k => if k = 0 then 8 / 100 else 9 / 100) [0, 0, 1, 0] [0, 0, 0, -1] 0 = some st ∧
      st.num0subs + st.num1subs =
        ((([0, 0, 0, -1] : List Int).countP (fun d => decide (d ≠ -1)) : Nat) : Int) ∧
      (∀ (p : Nat) (a d : Int), ([0, 0, 1, 0] : List Int)[p]? = some a →
        ([0, 0, 0, -1] : List Int)[p]? = some d → d ≠ -1 → a ≠ d →
        st.subs[p]? = some ({ pos := (p : Int), anc := a, dec := d } : substitution)) ∧
      (∀ p : Nat, ([0, 0, 0, -1] : List Int)[p]? = some (-1) →
        st.subs[p]? = some null_substitution) ∧
      st.num1subs = (((List.range ([0, 0, 0, -1] : List Int).length).countP
        (fun p => decide (st.subs[p]? ≠ some null_substitution)) : Nat) : Int) ∧
      st.num0subs = (((List.range ([0, 0, 0, -1] : List Int).length).countP
        (fun p => decide (([0, 0, 0, -1] : List Int)[p]? ≠ some (-1) ∧
          st.subs[p]? = some null_substitution)) : Nat) : Int)) ∧
    updateStats 4 (1 / 5) 1 (fun _ => 1 / 10)
        (fun k => if k = 0 then 8 / 100 else 9 / 100) [0, 0, 1, 0] [0, 0, 0, -1] 0 =
      some { num0subs := 1, num1subs := 2,
             subs := [{ pos := 0, anc := 0, dec := 0 }, null_substitution,
               { pos := 2, anc := 1, dec := 0 }, null_substitution],
             drawn := 2 } :=
  ⟨updateStats_spec 4 (1 / 5) 1 (fun _ => 1 / 10)
      (fun k => if k = 0 then 8 / 100 else 9 / 100) [0, 0, 1, 0] [0, 0, 0, -1] 0 rfl
      (by decide), by decide!⟩


/-! ## A segment of length zero -/

/-- On a segment of length zero the probability of a substitution is `0` and that of no
substitution is `1`. -/
theorem kernels_at_zero_length (r u : ℚ) :
    calc_substitution_prob r 0 u = 0 ∧ calc_no_substitution_prob r 0 u = 1 := by
  constructor
  · simp [calc_substitution_prob]
  · simp [calc_no_substitution_prob]

/-- The loop over the domains of a branch on which every record is of the focal domain:
the focal factor is the one computed, the factor of the other domains stays `1`. -/
theorem focal_only_fold (sa : SequenceAlignment) (tm : TreeModel) (branch : BranchSegment)
    (state_i state_j pos : Nat) (rv : List ℚ) :
    ∀ (l : List (String × Substitution)) (d : ℚ × ℚ), l ≠ [] →
      (∀ it ∈ l, it.1 = sa.domain_name) →
      l.foldl (fun (d : ℚ × ℚ) it =>
        if it.1 = sa.domain_name then
          (focal_domain_prob rv state_i state_j branch.distance tm.get_u, d.2)
        else if ¬ tm.is_static it.1 = true then
          (d.1, d.2 * alt_domain_factor sa tm branch state_i pos it.1 it.2)
        else d) d =
        (focal_domain_prob rv state_i state_j branch.distance tm.get_u, d.2) := by
  intro l
  induction l with
  | nil => intro d h; exact absurd rfl h
  | cons it rest ih =>
    intro d _ hall
    rw [List.foldl_cons, if_pos (hall it (List.mem_cons_self it rest))]
    by_cases hrest : rest = []
    · subst hrest
      rfl
    · exact ih _ hrest (fun it' h => hall it' (List.mem_cons_of_mem it h))

/-- Claim C40: on a segment of length zero the probability of a substitution is `0` and
that of no substitution `1`, for every rate and `u`; hence, when the records of the
branch at the position are all of the focal domain and there is one, the probability that
`find_state_prob_given_dec_branch` returns for a state `i` is `probs[i]`. -/
theorem zero_length_segment (sa : SequenceAlignment) (tm : TreeModel) (branch : BranchSegment)
    (state_probs : Nat → ℚ) (rv : List ℚ) (pos : Nat)
    (hd : branch.distance = 0) (hne : tm.substitutions branch pos ≠ [])
    (hfocal : ∀ it ∈ tm.substitutions branch pos, it.1 = sa.domain_name) :
    (∀ r u, calc_substitution_prob r 0 u = 0 ∧ calc_no_substitution_prob r 0 u = 1) ∧
      ∀ i, i < state_bound sa →
        find_state_prob_given_dec_branch sa tm branch i state_probs rv pos = state_probs i := by
  refine ⟨kernels_at_zero_length, fun i hi => ?_⟩
  have hloop : ∀ k, (List.range k).foldl (fun prob state_j =>
      let state_prob := state_probs state_j
      if state_prob ≠ 0 then
        let d := (tm.substitutions branch pos).foldl (fun (d : ℚ × ℚ) it =>
          if it.1 = sa.domain_name then
            (focal_domain_prob rv i state_j branch.distance tm.get_u, d.2)
          else if ¬ tm.is_static it.1 = true then
            (d.1, d.2 * alt_domain_factor sa tm branch i pos it.1 it.2)
          else d) (0, 1)
        prob + (state_prob * d.1 * d.2)
      else prob) 0 = if i < k then state_probs i else 0 := by
    intro k
    induction k with
    | zero => simp
    | succ k ih =>
      rw [List.range_succ, List.foldl_append, ih, List.foldl_cons, List.foldl_nil]
      simp only [focal_only_fold sa tm branch i k pos rv _ (0, 1) hne hfocal]
      by_cases hik : i = k
      · subst hik
        rw [if_neg (Nat.lt_irrefl i), if_pos (Nat.lt_succ_self i)]
        by_cases hz : state_probs i = 0
        · simp [hz]
        · simp [hz, focal_domain_prob, hd, (kernels_at_zero_length _ _).2]
      · have hsub : focal_domain_prob rv i k branch.distance tm.get_u = 0 := by
          simp [focal_domain_prob, hik, hd, (kernels_at_zero_length _ _).1]
        rw [hsub]
        by_cases hlt : i < k
        · have h2 : i < k + 1 := by omega
          simp [hlt, h2]
        · have h2 : ¬ i < k + 1 := by omega
          simp [hlt, h2]
  unfold find_state_prob_given_dec_branch
  rw [hloop, if_pos hi]

/-- Witness of C40: in the two-taxon scenario, on a segment of length zero above `x`, the
distribution `(1/4, 3/4)` of the child comes back as it is. -/
theorem zero_length_segment_witness :
    ((∀ r u, calc_substitution_prob r 0 u = 0 ∧ calc_no_substitution_prob r 0 u = 1) ∧
      ∀ i, i < state_bound twoTaxonAlignment →
        find_state_prob_given_dec_branch twoTaxonAlignment twoTaxonModel ⟨0, "root", "x"⟩ i
          (fun j => if j = 0 then 1 / 4 else 3 / 4) [1 / 10, 1 / 10] 0 =
          (fun j => if j = 0 then 1 / 4 else 3 / 4) i) ∧
    state_bound twoTaxonAlignment = 2 ∧
    find_state_prob_given_dec_branch twoTaxonAlignment twoTaxonModel ⟨0, "root", "x"⟩ 0
      (fun j => if j = 0 then 1 / 4 else 3 / 4) [1 / 10, 1 / 10] 0 = 1 / 4 ∧
    find_state_prob_given_dec_branch twoTaxonAlignment twoTaxonModel ⟨0, "root", "x"⟩ 1
      (fun j => if j = 0 then 1 / 4 else 3 / 4) [1 / 10, 1 / 10] 0 = 3 / 4 ∧
    find_state_prob_given_dec_branch twoTaxonAlignment twoTaxonModel ⟨1, "root", "x"⟩ 1
      (fun j => if j = 0 then 1 / 4 else 3 / 4) [1 / 10, 1 / 10] 0 ≠ 3 / 4 :=
  ⟨zero_length_segment twoTaxonAlignment twoTaxonModel ⟨0, "root", "x"⟩
      (fun j => if j = 0 then 1 / 4 else 3 / 4) [1 / 10, 1 / 10] 0 rfl (by decide)
      (by decide), by decide, by decide!, by decide!, by decide!⟩


/-! ## Normalising, picking and refreshing in the arithmetic of the program -/

/-- The rounding on some values: `1` is a `double`; `1/10` and `-1/3` are rounded to the
`double`s that the program has for `0.1` and `-1.0/3.0`; half way between two `double`s
the one with the even significand is taken, upwards and downwards; a `double` is its own
rounding; below `2 ^ (-1022)` the values are the multiples of `2 ^ (-1074)`. -/
theorem round_double_examples :
    round_double 1 = 1 ∧
      round_double (1 / 10) = 3602879701896397 / 36028797018963968 ∧
      round_double (-1 / 3) = -(6004799503160661 / 18014398509481984) ∧
      round_double (1 + 1 / 9007199254740992) = 1 ∧
      round_double (1 + 3 / 9007199254740992) = 1 + 1 / 2251799813685248 ∧
      round_double (round_double (1 / 10)) = round_double (1 / 10) ∧
      round_double (pow2 (-1075)) = 0 ∧
      round_double (3 * pow2 (-1075)) = pow2 (-1073) ∧
      round_double (5 * pow2 (-1076)) = pow2 (-1074) := by
  decide!

/-- In the exact arithmetic the running total is the sum. -/
theorem running_total_rational (p : Nat → ℚ) (k : Nat) :
    running_total Arith.rational p k = ∑ i in Finset.range k, p i :=
  foldl_add_eq_sum p k

/-- In the exact arithmetic `normalize_state_probs_in` is `normalize_state_probs`. -/
theorem normalize_state_probs_in_rational (sa : SequenceAlignment) (node : TreeNode)
    (pos : Nat) :
    normalize_state_probs_in Arith.rational sa node pos = normalize_state_probs sa node pos :=
  rfl

/-- In the exact arithmetic `pick_state_from_probabilities_in` is
`pick_state_from_probabilities`. -/
theorem pick_state_from_probabilities_in_rational (sa : SequenceAlignment) (node : TreeNode)
    (pos : Nat) (r : ℚ) :
    pick_state_from_probabilities_in Arith.rational sa node pos r =
      pick_state_from_probabilities sa node pos r :=
  rfl

/-- In the exact arithmetic `refresh_in` is `refresh`. -/
theorem refresh_in_rational (v : VirtualSubstitutionRate) (getValue : String → ℚ) :
    v.refresh_in Arith.rational getValue = v.refresh getValue :=
  rfl

/-- A loop that replaces entry `i` of the row of `name` at `pos` by `f` of it, after `k`
rounds: `f` is applied to the first `k` entries of the row, nothing else changes. -/
theorem map_row_loop (sa : SequenceAlignment) (name : String) (pos : Nat) (f : ℚ → ℚ)
    (k : Nat) :
    ((List.range k).foldl
        (fun sa' i => sa'.set_marginal name pos i
          (f (sa'.marginal_state_distribution name pos i))) sa).marginal_state_distribution
      = fun nm p j =>
          if nm = name ∧ p = pos ∧ j < k then f (sa.marginal_state_distribution nm p j)
          else sa.marginal_state_distribution nm p j := by
  induction k with
  | zero => simp
  | succ k ih =>
    rw [List.range_succ, List.foldl_append]
    simp only [List.foldl_cons, List.foldl_nil]
    rw [set_marginal_marginal, ih]
    funext nm p j
    by_cases h : nm = name ∧ p = pos
    · obtain ⟨rfl, rfl⟩ := h
      by_cases hj : j = k
      · subst hj
        simp
      · by_cases hlt : j < k
        · have : j < k + 1 := by omega
          simp [hj, hlt, this]
        · have : ¬ j < k + 1 := by omega
          simp [hj, hlt, this]
    · have h1 : ¬ (nm = name ∧ p = pos ∧ j = k) := fun h' => h ⟨h'.1, h'.2.1⟩
      have h2 : ¬ (nm = name ∧ p = pos ∧ j < k) := fun h' => h ⟨h'.1, h'.2.1⟩
      have h3 : ¬ (nm = name ∧ p = pos ∧ j < k + 1) := fun h' => h ⟨h'.1, h'.2.1⟩
      simp only [h1, h2, h3, if_false]

/-- The row that `normalize_state_probs` writes in the arithmetic `A`: each of the
`n_states` entries is replaced by its quotient by the running total of the row, when that
total is not zero; the alignment is left as it is when the total is zero. -/
theorem normalize_state_probs_in_entry (A : Arith) (sa : SequenceAlignment) (node : TreeNode)
    (pos : Nat) :
    (running_total A (sa.marginal_state_distribution node.name pos) sa.n_states ≠ 0 →
      ∀ i, i < sa.n_states →
        (normalize_state_probs_in A sa node pos).marginal_state_distribution node.name pos i =
          A.div (sa.marginal_state_distribution node.name pos i)
            (running_total A (sa.marginal_state_distribution node.name pos) sa.n_states)) ∧
      (running_total A (sa.marginal_state_distribution node.name pos) sa.n_states = 0 →
        normalize_state_probs_in A sa node pos = sa) := by
  constructor
  · intro h i hi
    have hrun : normalize_state_probs_in A sa node pos =
        (List.range sa.n_states).foldl
          (fun sa' i => sa'.set_marginal node.name pos i
            (A.div (sa'.marginal_state_distribution node.name pos i)
              (running_total A (sa.marginal_state_distribution node.name pos) sa.n_states)))
          sa := by
      unfold normalize_state_probs_in
      exact if_pos h
    rw [hrun, map_row_loop sa node.name pos
      (fun x => A.div x
        (running_total A (sa.marginal_state_distribution node.name pos) sa.n_states))
      sa.n_states]
    simp only [hi, and_self, if_true]
  · intro h
    unfold normalize_state_probs_in
    exact if_neg (fun hne => hne h)

/-- Claim C7, as the code has it: in whatever arithmetic the function computes,
`normalize_state_probs` replaces every entry of the row by its quotient by the running
total of the row when that total is not zero, and leaves the alignment as it is when the
total is zero. In the exact arithmetic the entries of a non-negative row then sum to
exactly `1` in the first case, and are all zero in the second. -/
theorem normalize_state_probs_quotients (A : Arith) (sa : SequenceAlignment) (node : TreeNode)
    (pos : Nat)
    (hnn : ∀ i, i < sa.n_states → 0 ≤ sa.marginal_state_distribution node.name pos i) :
    (running_total A (sa.marginal_state_distribution node.name pos) sa.n_states ≠ 0 →
      ∀ i, i < sa.n_states →
        (normalize_state_probs_in A sa node pos).marginal_state_distribution node.name pos i =
          A.div (sa.marginal_state_distribution node.name pos i)
            (running_total A (sa.marginal_state_distribution node.name pos) sa.n_states)) ∧
      (running_total A (sa.marginal_state_distribution node.name pos) sa.n_states = 0 →
        normalize_state_probs_in A sa node pos = sa) ∧
      (∑ i in Finset.range sa.n_states, sa.marginal_state_distribution node.name pos i ≠ 0 →
        ∑ i in Finset.range sa.n_states,
          (normalize_state_probs_in Arith.rational sa node
            pos).marginal_state_distribution node.name pos i = 1) ∧
      (∑ i in Finset.range sa.n_states, sa.marginal_state_distribution node.name pos i = 0 →
        normalize_state_probs_in Arith.rational sa node pos = sa ∧
          ∀ i, i < sa.n_states → sa.marginal_state_distribution node.name pos i = 0) := by
  obtain ⟨h1, h2⟩ := normalize_state_probs_in_entry A sa node pos
  obtain ⟨h3, h4⟩ := normalize_state_probs_sum sa node pos hnn
  refine ⟨h1, h2, ?_, ?_⟩
  · intro h
    rw [normalize_state_probs_in_rational]
    exact h3 h
  · intro h
    rw [normalize_state_probs_in_rational]
    exact ⟨(h4 h).1, fun i hi => entries_zero_of_sum_zero _ _ hnn h i hi⟩

/-- Witness of C7 in the arithmetic of `double`, on a row of ten entries `1`. -/
theorem normalize_state_probs_quotients_witness :
    (running_total Arith.binary64 (tenOnesAlignment.marginal_state_distribution "n" 0) 10 ≠ 0 →
      ∀ i, i < 10 →
        (normalize_state_probs_in Arith.binary64 tenOnesAlignment tenOnesNode
          0).marginal_state_distribution "n" 0 i =
          Arith.binary64.div (tenOnesAlignment.marginal_state_distribution "n" 0 i)
            (running_total Arith.binary64
              (tenOnesAlignment.marginal_state_distribution "n" 0) 10)) ∧
      (running_total Arith.binary64 (tenOnesAlignment.marginal_state_distribution "n" 0) 10 =
          0 →
        normalize_state_probs_in Arith.binary64 tenOnesAlignment tenOnesNode 0 =
          tenOnesAlignment) ∧
      (∑ i in Finset.range 10, tenOnesAlignment.marginal_state_distribution "n" 0 i ≠ 0 →
        ∑ i in Finset.range 10,
          (normalize_state_probs_in Arith.rational tenOnesAlignment tenOnesNode
            0).marginal_state_distribution "n" 0 i = 1) ∧
      (∑ i in Finset.range 10, tenOnesAlignment.marginal_state_distribution "n" 0 i = 0 →
        normalize_state_probs_in Arith.rational tenOnesAlignment tenOnesNode 0 =
            tenOnesAlignment ∧
          ∀ i, i < 10 → tenOnesAlignment.marginal_state_distribution "n" 0 i = 0) :=
  normalize_state_probs_quotients Arith.binary64 tenOnesAlignment tenOnesNode 0
    (fun _ _ => zero_le_one)

/-- Against C7 as stated: a row of ten entries `1`, whose total `10` is not zero. In the
arithmetic of `double` every entry becomes the `double` nearest to `1/10`, which is
`3602879701896397 / 2 ^ 55`; the ten of them sum to `1 + 2 ^ (-54)`, and to `1 - 2 ^ (-53)`
when they are added as `double`s one after the other: not to `1`. -/
theorem normalize_ten_ones_not_one :
    running_total Arith.binary64 (tenOnesAlignment.marginal_state_distribution "n" 0) 10 = 10 ∧
      (List.range 10).map
          ((normalize_state_probs_in Arith.binary64 tenOnesAlignment tenOnesNode
            0).marginal_state_distribution "n" 0) =
        List.replicate 10 (3602879701896397 / 36028797018963968) ∧
      ((List.range 10).map
          ((normalize_state_probs_in Arith.binary64 tenOnesAlignment tenOnesNode
            0).marginal_state_distribution "n" 0)).sum = 1 + 1 / 18014398509481984 ∧
      running_total Arith.binary64
          ((normalize_state_probs_in Arith.binary64 tenOnesAlignment tenOnesNode
            0).marginal_state_distribution "n" 0) 10 = 1 - 1 / 9007199254740992 ∧
      (1 + 1 / 18014398509481984 : ℚ) ≠ 1 ∧ (1 - 1 / 9007199254740992 : ℚ) ≠ 1 := by
  decide!

/-- The loop of `pick_state_from_probabilities` in the arithmetic `A` after `k ≤ 128`
rounds: `acc` is the running total of the first `k` entries the row had; the selected
state is still `-1` and the draw is below no running total so far, or it is the first
index whose running total exceeds the draw;
the first `k` entries of the row are `0` but for a `1` at the selected state, and nothing
else has changed. -/
theorem pick_state_loop_in (A : Arith) (sa : SequenceAlignment) (name : String) (pos : Nat) (r : ℚ)
    (k : Nat) (hk : k ≤ 128) :
    ∀ st, st = (List.range k).foldl (pick_state_round_in A name pos r) (0, -1, sa) →
      st.1 = running_total A (sa.marginal_state_distribution name pos) k ∧
      (∀ nm p' i, st.2.2.marginal_state_distribution nm p' i =
        if nm = name ∧ p' = pos ∧ i < k then (if st.2.1 = (i : Int) then 1 else 0)
        else sa.marginal_state_distribution nm p' i) ∧
      ((st.2.1 = -1 ∧ ∀ j, j < k →
          ¬ r < running_total A (sa.marginal_state_distribution name pos) (j + 1)) ∨
        (∃ s, s < k ∧ st.2.1 = (s : Int) ∧
          r < running_total A (sa.marginal_state_distribution name pos) (s + 1) ∧
          ∀ j, j < s →
            ¬ r < running_total A (sa.marginal_state_distribution name pos) (j + 1))) := by
  induction k with
  | zero =>
    intro st hst
    subst hst
    refine ⟨rfl, ?_, Or.inl ⟨rfl, fun j hj => absurd hj (Nat.not_lt_zero j)⟩⟩
    intro nm p' i
    simp
  | succ k ih =>
    intro st hst
    rw [List.range_succ, List.foldl_append, List.foldl_cons, List.foldl_nil] at hst
    obtain ⟨h1, h2, h3⟩ := ih (by omega) _ rfl
    generalize (List.range k).foldl (pick_state_round_in A name pos r) (0, -1, sa) = st₀
      at hst h1 h2 h3
    have hread : st₀.2.2.marginal_state_distribution name pos k =
        sa.marginal_state_distribution name pos k := by
      rw [h2 name pos k, if_neg (fun h => absurd h.2.2 (Nat.lt_irrefl k))]
    have hacc : A.add st₀.1 (st₀.2.2.marginal_state_distribution name pos k) =
        running_total A (sa.marginal_state_distribution name pos) (k + 1) := by
      rw [hread, h1]
      simp only [running_total, List.range_succ, List.foldl_append, List.foldl_cons,
        List.foldl_nil]
    have hsel : ∀ i : Nat, i < k → st₀.2.1 = -1 → ¬ st₀.2.1 = (i : Int) := by
      intro i _ hm h
      rw [hm] at h
      have : (0 : Int) ≤ (i : Int) := Int.ofNat_nonneg i
      rw [← h] at this
      exact absurd this (by decide)
    by_cases hc : r < A.add st₀.1 (st₀.2.2.marginal_state_distribution name pos k) ∧ st₀.2.1 = -1
    · have hst' : st = (A.add st₀.1 (st₀.2.2.marginal_state_distribution name pos k),
          to_state_element k, st₀.2.2.set_marginal name pos k 1) := by
        rw [hst]
        simp only [pick_state_round_in, hc, and_self, if_true]
      have hto : to_state_element k = (k : Int) := to_state_element_of_lt k (by omega)
      rw [hst']
      refine ⟨hacc, ?_, Or.inr ⟨k, Nat.lt_succ_self k, hto, ?_, ?_⟩⟩
      · intro nm p' i
        simp only [SequenceAlignment.set_marginal, hto]
        by_cases hnp : nm = name ∧ p' = pos
        · obtain ⟨hn, hp⟩ := hnp
          subst hn hp
          by_cases hik : i = k
          · subst hik
            simp
          · have hki : ¬ (k : Int) = (i : Int) := fun h => hik (by exact_mod_cast h.symm)
            simp only [hik, and_false, if_false, true_and, hki]
            rw [h2 nm p' i]
            by_cases hlt : i < k
            · have : i < k + 1 := by omega
              simp only [hlt, this, and_true, if_true, hsel i hlt hc.2, if_false]
            · have : ¬ i < k + 1 := by omega
              simp only [hlt, this, and_false, if_false]
        · have h' : ¬ (nm = name ∧ p' = pos ∧ i = k) := fun h => hnp ⟨h.1, h.2.1⟩
          have h'' : ¬ (nm = name ∧ p' = pos ∧ i < k + 1) := fun h => hnp ⟨h.1, h.2.1⟩
          have h''' : ¬ (nm = name ∧ p' = pos ∧ i < k) := fun h => hnp ⟨h.1, h.2.1⟩
          rw [if_neg h', if_neg h'', h2 nm p' i, if_neg h''']
      · rw [← hacc]
        exact hc.1
      · rcases h3 with ⟨_, hno⟩ | ⟨s, _, hs, _, _⟩
        · exact hno
        · rw [hc.2] at hs
          have : (0 : Int) ≤ (s : Int) := Int.ofNat_nonneg s
          rw [← hs] at this
          exact absurd this (by decide)
    · have hst' : st = (A.add st₀.1 (st₀.2.2.marginal_state_distribution name pos k),
          st₀.2.1, st₀.2.2.set_marginal name pos k 0) := by
        rw [hst]
        simp only [pick_state_round_in, hc, if_false]
      rw [hst']
      have hnk : ¬ st₀.2.1 = (k : Int) := by
        rcases h3 with ⟨hm, _⟩ | ⟨s, hs, hss, _, _⟩
        · intro h
          rw [hm] at h
          have : (0 : Int) ≤ (k : Int) := Int.ofNat_nonneg k
          rw [← h] at this
          exact absurd this (by decide)
        · intro h
          rw [hss] at h
          have : s = k := by exact_mod_cast h
          omega
      refine ⟨hacc, ?_, ?_⟩
      · intro nm p' i
        simp only [SequenceAlignment.set_marginal]
        by_cases hnp : nm = name ∧ p' = pos
        · obtain ⟨hn, hp⟩ := hnp
          subst hn hp
          by_cases hik : i = k
          · subst hik
            simp [hnk]
          · simp only [hik, and_false, if_false, true_and]
            rw [h2 nm p' i]
            by_cases hlt : i < k
            · have : i < k + 1 := by omega
              simp only [hlt, this, and_true, if_true]
            · have : ¬ i < k + 1 := by omega
              simp only [hlt, this, and_false, if_false]
        · have h' : ¬ (nm = name ∧ p' = pos ∧ i = k) := fun h => hnp ⟨h.1, h.2.1⟩
          have h'' : ¬ (nm = name ∧ p' = pos ∧ i < k + 1) := fun h => hnp ⟨h.1, h.2.1⟩
          have h''' : ¬ (nm = name ∧ p' = pos ∧ i < k) := fun h => hnp ⟨h.1, h.2.1⟩
          rw [if_neg h', if_neg h'', h2 nm p' i, if_neg h''']
      · rcases h3 with ⟨hm, hno⟩ | ⟨s, hs, hss, hlt, hleast⟩
        · left
          refine ⟨hm, ?_⟩
          intro j hj
          by_cases hjk : j = k
          · subst hjk
            rw [← hacc]
            exact fun h => hc ⟨h, hm⟩
          · exact hno j (by omega)
        · right
          exact ⟨s, by omega, hss, hlt, hleast⟩

/-- The outcome of `pick_state_from_probabilities` in the arithmetic `A` on a row of at
most 128 entries: the program ends with the draw below no running total, or the least
index whose running total exceeds the draw is returned and the row is left with `1` there
and `0` elsewhere, nothing else of the marginal being changed. -/
theorem pick_state_in_cases (A : Arith) (sa : SequenceAlignment) (node : TreeNode) (pos : Nat)
    (r : ℚ) (hN : sa.n_states ≤ 128) :
    (pick_state_from_probabilities_in A sa node pos r = Except.error Halt.exit_failure ∧
        ∀ j, j < sa.n_states →
          ¬ r < running_total A (sa.marginal_state_distribution node.name pos) (j + 1)) ∨
      (∃ (s : Nat) (sa' : SequenceAlignment),
        pick_state_from_probabilities_in A sa node pos r = Except.ok ((s : Int), sa') ∧
        s < sa.n_states ∧
        r < running_total A (sa.marginal_state_distribution node.name pos) (s + 1) ∧
        (∀ j, j < s →
          ¬ r < running_total A (sa.marginal_state_distribution node.name pos) (j + 1)) ∧
        (∀ i, i < sa.n_states →
          sa'.marginal_state_distribution node.name pos i = if i = s then 1 else 0) ∧
        (∀ nm p' i, ¬ (nm = node.name ∧ p' = pos ∧ i < sa.n_states) →
          sa'.marginal_state_distribution nm p' i =
            sa.marginal_state_distribution nm p' i)) := by
  obtain ⟨_, h2, h3⟩ := pick_state_loop_in A sa node.name pos r sa.n_states hN _ rfl
  rcases h3 with ⟨hsel, hno⟩ | ⟨s, hs, hss, hlt, hleast⟩
  · left
    refine ⟨?_, hno⟩
    simp only [pick_state_from_probabilities_in, hsel, if_true]
  · right
    have hne : ¬ (s : Int) = -1 := by
      intro h
      have : (0 : Int) ≤ (s : Int) := Int.ofNat_nonneg s
      rw [h] at this
      exact absurd this (by decide)
    refine ⟨s, ((List.range sa.n_states).foldl (pick_state_round_in A node.name pos r)
      (0, -1, sa)).2.2, ?_, hs, hlt, hleast, ?_, ?_⟩
    · simp only [pick_state_from_probabilities_in, hss, hne, if_false]
    · intro i hi
      rw [h2 node.name pos i, if_pos ⟨rfl, rfl, hi⟩, hss]
      by_cases his : i = s
      · subst his
        simp
      · have : ¬ (s : Int) = (i : Int) := fun h => his (by exact_mod_cast h.symm)
        rw [if_neg this, if_neg his]
    · intro nm p' i hn
      rw [h2 nm p' i, if_neg hn]

/-- Claim C29, as the code has it: in whatever arithmetic the function computes, on a
row of at most 128 entries, when the draw `r` is below one of the running totals
`acc = p[0] + ... + p[s]` that the loop accumulates, `pick_state_from_probabilities`
returns the least index `s` whose running total exceeds `r`, and leaves the row with `1`
at `s` and `0` at every other state; no other entry of the marginal is changed. In the
exact arithmetic the running totals are the partial sums, and a draw `0 ≤ r` below the
sum of the row is below one of them. -/
theorem pick_state_first_running_total (A : Arith) (sa : SequenceAlignment) (node : TreeNode)
    (pos : Nat) (r : ℚ) (hN : sa.n_states ≤ 128)
    (hr : ∃ s, s < sa.n_states ∧
      r < running_total A (sa.marginal_state_distribution node.name pos) (s + 1)) :
    (∃ (s : Nat) (sa' : SequenceAlignment),
      pick_state_from_probabilities_in A sa node pos r = Except.ok ((s : Int), sa') ∧
      s < sa.n_states ∧
      r < running_total A (sa.marginal_state_distribution node.name pos) (s + 1) ∧
      (∀ j, j < s →
        ¬ r < running_total A (sa.marginal_state_distribution node.name pos) (j + 1)) ∧
      (∀ i, i < sa.n_states →
        sa'.marginal_state_distribution node.name pos i = if i = s then 1 else 0) ∧
      (∀ nm p' i, ¬ (nm = node.name ∧ p' = pos ∧ i < sa.n_states) →
        sa'.marginal_state_distribution nm p' i = sa.marginal_state_distribution nm p' i)) ∧
      (∀ k, running_total Arith.rational (sa.marginal_state_distribution node.name pos) k =
        ∑ i in Finset.range k, sa.marginal_state_distribution node.name pos i) ∧
      (0 ≤ r →
        r < ∑ i in Finset.range sa.n_states, sa.marginal_state_distribution node.name pos i →
        ∃ s, s < sa.n_states ∧
          r < running_total Arith.rational (sa.marginal_state_distribution node.name pos)
            (s + 1)) := by
  refine ⟨?_, fun k => running_total_rational _ k, ?_⟩
  · rcases pick_state_in_cases A sa node pos r hN with ⟨_, hno⟩ | h
    · obtain ⟨s, hs, hlt⟩ := hr
      exact absurd hlt (hno s hs)
    · exact h
  · intro h0 hsum
    have hpos : 0 < sa.n_states := by
      by_contra hn
      have hz : sa.n_states = 0 := by omega
      rw [hz, Finset.sum_range_zero] at hsum
      exact absurd hsum (not_lt.mpr h0)
    refine ⟨sa.n_states - 1, by omega, ?_⟩
    have hn : sa.n_states - 1 + 1 = sa.n_states := by omega
    rw [hn, running_total_rational]
    exact hsum

/-- Claim C36, as the code has it: in whatever arithmetic the function computes, on a
row of at most 128 entries, `pick_state_from_probabilities` ends the program with failure
exactly when the draw is below none of the running totals that the loop accumulates, and
returns a state exactly when it is below one of them. A row that is all zero is left as it
is by `normalize_state_probs`, and ends the program for every draw `r ≥ 0`, as long as
`0 + 0` is `0` in the arithmetic. In the exact arithmetic, on a row of non-negative
entries with `r ≥ 0`, the program ends exactly when the sum of the row is not above
`r`. -/
theorem pick_state_exit_iff_no_running_total (A : Arith) (sa : SequenceAlignment)
    (node : TreeNode) (pos : Nat) (r : ℚ) (hN : sa.n_states ≤ 128) :
    (pick_state_from_probabilities_in A sa node pos r = Except.error Halt.exit_failure ↔
        ∀ s, s < sa.n_states →
          ¬ r < running_total A (sa.marginal_state_distribution node.name pos) (s + 1)) ∧
      ((∃ picked, pick_state_from_probabilities_in A sa node pos r = Except.ok picked) ↔
        ∃ s, s < sa.n_states ∧
          r < running_total A (sa.marginal_state_distribution node.name pos) (s + 1)) ∧
      (A.add 0 0 = 0 → 0 ≤ r →
        (∀ i, i < sa.n_states → sa.marginal_state_distribution node.name pos i = 0) →
        normalize_state_probs_in A sa node pos = sa ∧
          pick_state_from_probabilities_in A (normalize_state_probs_in A sa node pos) node
            pos r = Except.error Halt.exit_failure) ∧
      ((∀ i, i < sa.n_states → 0 ≤ sa.marginal_state_distribution node.name pos i) →
        0 ≤ r →
        (pick_state_from_probabilities_in Arith.rational sa node pos r =
            Except.error Halt.exit_failure ↔
          ∑ i in Finset.range sa.n_states,
            sa.marginal_state_distribution node.name pos i ≤ r)) := by
  have hcases := pick_state_in_cases A sa node pos r hN
  have hiff1 : pick_state_from_probabilities_in A sa node pos r =
      Except.error Halt.exit_failure ↔
      ∀ s, s < sa.n_states →
        ¬ r < running_total A (sa.marginal_state_distribution node.name pos) (s + 1) := by
    rcases hcases with ⟨he, hno⟩ | ⟨s, sa', hp, hs, hlt, -⟩
    · exact ⟨fun _ => hno, fun _ => he⟩
    · constructor
      · intro he
        rw [hp] at he
        cases he
      · intro hno
        exact absurd hlt (hno s hs)
  refine ⟨hiff1, ?_, ?_, ?_⟩
  · rcases hcases with ⟨he, hno⟩ | ⟨s, sa', hp, hs, hlt, -⟩
    · constructor
      · rintro ⟨picked, hp⟩
        rw [hp] at he
        cases he
      · rintro ⟨s, hs, hlt⟩
        exact absurd hlt (hno s hs)
    · exact ⟨fun _ => ⟨s, hs, hlt⟩, fun _ => ⟨_, hp⟩⟩
  · intro hadd h0 hzero
    have htot : ∀ k, k ≤ sa.n_states →
        running_total A (sa.marginal_state_distribution node.name pos) k = 0 := by
      intro k
      induction k with
      | zero => intro _; rfl
      | succ k ih =>
        intro hk
        have hstep : running_total A (sa.marginal_state_distribution node.name pos) (k + 1) =
            A.add (running_total A (sa.marginal_state_distribution node.name pos) k)
              (sa.marginal_state_distribution node.name pos k) := by
          simp only [running_total, List.range_succ, List.foldl_append, List.foldl_cons,
            List.foldl_nil]
        rw [hstep, ih (by omega), hzero k (by omega), hadd]
    have hnorm : normalize_state_probs_in A sa node pos = sa :=
      (normalize_state_probs_in_entry A sa node pos).2 (htot sa.n_states (le_refl _))
    rw [hnorm]
    refine ⟨rfl, hiff1.mpr (fun s hs => ?_)⟩
    rw [htot (s + 1) (by omega)]
    exact not_lt.mpr h0
  · intro hd h0
    rw [pick_state_from_probabilities_in_rational]
    exact (pick_state_exit_iff sa node pos r hN h0 hd).1


/-- Witness of C29 in the arithmetic of `double`: on the row of ten entries `0.1` the
running totals are `0.1`, `0.2`, `0.30000000000000004`, so that the draw `1/4` returns the
state `2`. -/
theorem pick_state_first_running_total_witness :
    (∃ (s : Nat) (sa' : SequenceAlignment),
      pick_state_from_probabilities_in Arith.binary64 tenTenthsAlignment tenOnesNode 0
          (1 / 4) = Except.ok ((s : Int), sa') ∧
      s < tenTenthsAlignment.n_states ∧
      1 / 4 < running_total Arith.binary64
        (tenTenthsAlignment.marginal_state_distribution tenOnesNode.name 0) (s + 1) ∧
      (∀ j, j < s →
        ¬ 1 / 4 < running_total Arith.binary64
          (tenTenthsAlignment.marginal_state_distribution tenOnesNode.name 0) (j + 1)) ∧
      (∀ i, i < tenTenthsAlignment.n_states →
        sa'.marginal_state_distribution tenOnesNode.name 0 i = if i = s then 1 else 0) ∧
      (∀ nm p' i, ¬ (nm = tenOnesNode.name ∧ p' = 0 ∧ i < tenTenthsAlignment.n_states) →
        sa'.marginal_state_distribution nm p' i =
          tenTenthsAlignment.marginal_state_distribution nm p' i)) ∧
    (match pick_state_from_probabilities_in Arith.binary64 tenTenthsAlignment tenOnesNode 0
          (1 / 4) with
      | Except.ok picked => some picked.1
      | Except.error _ => none) = some 2 :=
  ⟨(pick_state_first_running_total Arith.binary64 tenTenthsAlignment tenOnesNode 0 (1 / 4)
      (by decide!) ⟨2, by decide!, by decide!⟩).1, by decide!⟩

/-- Against C29 as stated: the row of ten entries `0.1`, as `double`s, is not negative
and sums to `1 + 2 ^ (-54)`; the draw `r = 1 - 2 ^ (-53)` is not negative and below that
sum, so that the state `9` is to be returned, as it is in the exact arithmetic. In the
arithmetic of `double` the last running total is `1 - 2 ^ (-53)`, the draw is below none
of them, and the program ends with failure. -/
theorem pick_state_exits_below_sum :
    tenTenthsAlignment.n_states = 10 ∧
      (List.range 10).map (tenTenthsAlignment.marginal_state_distribution "n" 0) =
        List.replicate 10 (3602879701896397 / 36028797018963968) ∧
      (0 : ℚ) ≤ 1 - 1 / 9007199254740992 ∧
      (1 - 1 / 9007199254740992 : ℚ) <
        ((List.range 10).map (tenTenthsAlignment.marginal_state_distribution "n" 0)).sum ∧
      (match pick_state_from_probabilities_in Arith.rational tenTenthsAlignment tenOnesNode 0
            (1 - 1 / 9007199254740992) with
        | Except.ok picked => some picked.1
        | Except.error _ => none) = some 9 ∧
      halt_of (pick_state_from_probabilities_in Arith.binary64 tenTenthsAlignment tenOnesNode
        0 (1 - 1 / 9007199254740992)) = some Halt.exit_failure := by
  decide!

/-- Witness of C36 in the arithmetic of `double`: on the row of ten entries `0.1` the
draw `1 - 2 ^ (-53)` is below none of the ten running totals, and the program ends with
failure; the draw `1/4` is below the third, and a state is returned; on the row of the
root of `twoTaxonAlignment`, all zero before and after normalisation, the draw `1/2` ends
the program. -/
theorem pick_state_exit_iff_no_running_total_witness :
    pick_state_from_probabilities_in Arith.binary64 tenTenthsAlignment tenOnesNode 0
        (1 - 1 / 9007199254740992) = Except.error Halt.exit_failure ∧
      (∃ picked, pick_state_from_probabilities_in Arith.binary64 tenTenthsAlignment
        tenOnesNode 0 (1 / 4) = Except.ok picked) ∧
      (normalize_state_probs_in Arith.binary64 twoTaxonAlignment twoTaxonRoot 0 =
          twoTaxonAlignment ∧
        pick_state_from_probabilities_in Arith.binary64
          (normalize_state_probs_in Arith.binary64 twoTaxonAlignment twoTaxonRoot 0)
          twoTaxonRoot 0 (1 / 2) = Except.error Halt.exit_failure) :=
  ⟨(pick_state_exit_iff_no_running_total Arith.binary64 tenTenthsAlignment tenOnesNode 0
      (1 - 1 / 9007199254740992) (by decide!)).1.mpr (by decide!),
    (pick_state_exit_iff_no_running_total Arith.binary64 tenTenthsAlignment tenOnesNode 0
      (1 / 4) (by decide!)).2.1.mpr ⟨2, by decide!, by decide!⟩,
    (pick_state_exit_iff_no_running_total Arith.binary64 twoTaxonAlignment twoTaxonRoot 0
      (1 / 2) (by decide)).2.2.1 (by decide!) (by norm_num) (fun _ _ => rfl)⟩

/-- Against C36 as stated: a row of ten entries `1` is normalised and a state is picked
with the draw `r = 1 - 2 ^ (-53)`, in the arithmetic of `double`. The entries of the
normalised row sum to `1 + 2 ^ (-54)`, which is above `r`, so that the program is not to
end; but the total that the loop of `pick_state_from_probabilities` has accumulated after
the ten entries is `r` itself, and the program ends with failure. -/
theorem pick_state_exit_with_draw_below_sum :
    ((List.range 10).map
        ((normalize_state_probs_in Arith.binary64 tenOnesAlignment tenOnesNode
          0).marginal_state_distribution "n" 0)).sum = 1 + 1 / 18014398509481984 ∧
      (1 - 1 / 9007199254740992 : ℚ) < 1 + 1 / 18014398509481984 ∧
      running_total Arith.binary64
          ((normalize_state_probs_in Arith.binary64 tenOnesAlignment tenOnesNode
            0).marginal_state_distribution "n" 0) 10 = 1 - 1 / 9007199254740992 ∧
      halt_of (pick_state_from_probabilities_in Arith.binary64
        (normalize_state_probs_in Arith.binary64 tenOnesAlignment tenOnesNode 0) tenOnesNode
        0 (1 - 1 / 9007199254740992)) = some Halt.exit_failure := by
  decide!


/-- What `refresh` does to an object in the arithmetic `A`: the value stored is the
difference, in `A`, of `u` and the running total of the values of the registered rates;
the exception is raised exactly when the value stored is outside `[0, 1]`. -/
theorem refresh_in_spec (A : Arith) (v : VirtualSubstitutionRate) (getValue : String → ℚ) :
    (v.refresh_in A getValue).2 =
        { v with
          previous_value := v.value
          value := A.sub v.u
            (v.dependent_rates.foldl (fun total it => A.add total (getValue it)) 0) } ∧
      ((v.refresh_in A getValue).1 =
          Except.error (Halt.OutOfBoundsException "VirtualSubstitutionRate out of bounds.") ↔
        ((v.refresh_in A getValue).2.value < 0 ∨ (v.refresh_in A getValue).2.value > 1)) ∧
      ((v.refresh_in A getValue).1 = Except.ok () ↔
        ¬ ((v.refresh_in A getValue).2.value < 0 ∨ (v.refresh_in A getValue).2.value > 1)) := by
  unfold VirtualSubstitutionRate.refresh_in
  by_cases h : A.sub v.u
      (v.dependent_rates.foldl (fun total it => A.add total (getValue it)) 0) < 0 ∨
      A.sub v.u (v.dependent_rates.foldl (fun total it => A.add total (getValue it)) 0) > 1
  · rw [if_pos h]
    exact ⟨rfl, ⟨fun _ => h, fun _ => rfl⟩,
      ⟨fun h' => Except.noConfusion h', fun h' => absurd h h'⟩⟩
  · rw [if_neg h]
    exact ⟨rfl, ⟨fun h' => Except.noConfusion h', fun h' => absurd h' h⟩,
      ⟨fun _ => h, fun _ => rfl⟩⟩

/-- Claim C11, as the code has it: in whatever arithmetic the function computes, after
the rates `rs` are registered with `add_rate`, `refresh` stores the difference of `u` and
the total of the current values of the registered rates, accumulated from `0` in the
order of registration, and it raises `OutOfBoundsException` if and only if the value it
has stored is below `0` or above `1`. In the exact arithmetic that value is `u` minus the
sum of the values; there, with `u = 3/10` and three rates of value `1/20` the value is
`3/20` and nothing is raised, and with one of them at `2/5` the exception is raised. -/
theorem refresh_stores_computed_difference (A : Arith) (v : VirtualSubstitutionRate)
    (rs : List String) (getValue : String → ℚ) :
    ((rs.foldl VirtualSubstitutionRate.add_rate v).refresh_in A getValue).2.value =
        A.sub v.u
          ((v.dependent_rates ++ rs).foldl (fun total it => A.add total (getValue it)) 0) ∧
      (((rs.foldl VirtualSubstitutionRate.add_rate v).refresh_in A getValue).1 =
          Except.error (Halt.OutOfBoundsException "VirtualSubstitutionRate out of bounds.") ↔
        (((rs.foldl VirtualSubstitutionRate.add_rate v).refresh_in A getValue).2.value < 0 ∨
          ((rs.foldl VirtualSubstitutionRate.add_rate v).refresh_in A getValue).2.value > 1)) ∧
      (((rs.foldl VirtualSubstitutionRate.add_rate v).refresh_in A getValue).1 = Except.ok () ↔
        ¬ (((rs.foldl VirtualSubstitutionRate.add_rate v).refresh_in A getValue).2.value < 0 ∨
          ((rs.foldl VirtualSubstitutionRate.add_rate v).refresh_in A getValue).2.value > 1)) ∧
      ((rs.foldl VirtualSubstitutionRate.add_rate v).refresh_in Arith.rational getValue).2.value =
        v.u - ((v.dependent_rates ++ rs).map getValue).sum ∧
      ((["b", "c", "d"].foldl VirtualSubstitutionRate.add_rate
          (VirtualSubstitutionRate.construct "a" (3 / 10) 0)).refresh_in Arith.rational
            (fun _ => 1 / 20)).2.value = 3 / 20 ∧
      ((["b", "c", "d"].foldl VirtualSubstitutionRate.add_rate
          (VirtualSubstitutionRate.construct "a" (3 / 10) 0)).refresh_in Arith.rational
            (fun _ => 1 / 20)).1 = Except.ok () ∧
      ((["b", "c", "d"].foldl VirtualSubstitutionRate.add_rate
          (VirtualSubstitutionRate.construct "a" (3 / 10) 0)).refresh_in Arith.rational
            (fun nm => if nm = "c" then 2 / 5 else 1 / 20)).1 =
        Except.error (Halt.OutOfBoundsException "VirtualSubstitutionRate out of bounds.") := by
  obtain ⟨hobj, herr, hok⟩ :=
    refresh_in_spec A (rs.foldl VirtualSubstitutionRate.add_rate v) getValue
  obtain ⟨hdeps, hu⟩ := add_rate_dependent_rates v rs
  obtain ⟨_, _, _, h4, h5, h6⟩ := refresh_value_and_bounds v rs getValue
  refine ⟨?_, herr, hok, ?_, h4, h5, h6⟩
  · rw [hobj]
    show A.sub (rs.foldl VirtualSubstitutionRate.add_rate v).u _ = _
    rw [hu, hdeps]
  · rw [refresh_in_rational]
    exact (refresh_value_and_bounds v rs getValue).1

/-- Against C11 as stated: `u = 1` and three registered rates of the values `1`,
`2 ^ (-53)` and `2 ^ (-53)`. `u` minus their sum is `-2 ^ (-52)`, which is below `0`, so
that the exception is to be raised. In the arithmetic of `double` the total stays `1`
when `2 ^ (-53)` is added to it, the value stored is `0` and `refresh` returns. -/
theorem refresh_rounds_into_range :
    (1 - (1 + 1 / 9007199254740992 + 1 / 9007199254740992) : ℚ) = -(1 / 4503599627370496) ∧
      (-(1 / 4503599627370496) : ℚ) < 0 ∧
      Arith.binary64.add 1 (1 / 9007199254740992) = 1 ∧
      ((["b", "c", "d"].foldl VirtualSubstitutionRate.add_rate
          (VirtualSubstitutionRate.construct "a" 1 0)).refresh_in Arith.binary64
            (fun nm => if nm = "b" then 1 else 1 / 9007199254740992)).2.value = 0 ∧
      halt_of ((["b", "c", "d"].foldl VirtualSubstitutionRate.add_rate
          (VirtualSubstitutionRate.construct "a" 1 0)).refresh_in Arith.binary64
            (fun nm => if nm = "b" then 1 else 1 / 9007199254740992)).1 = none ∧
      halt_of ((["b", "c", "d"].foldl VirtualSubstitutionRate.add_rate
          (VirtualSubstitutionRate.construct "a" 1 0)).refresh_in Arith.rational
            (fun nm => if nm = "b" then 1 else 1 / 9007199254740992)).1 =
        some (Halt.OutOfBoundsException "VirtualSubstitutionRate out of bounds.") := by
  decide!

/-- Claim C37, as the code has it: in whatever arithmetic the function computes, whether
`refresh` returns or raises, the object it leaves holds as its value the difference that
the function has computed, of `u` and the total of the values of the registered rates
accumulated from `0`, and, as the value that `getOldValue` returns, the value from before
the call; the outcome is a normal return or the `OutOfBoundsException`; when the
exception is raised the value stored is outside `[0, 1]`, when the call returns it is
inside. In the exact arithmetic the value stored is `u` minus the sum. -/
theorem refresh_leaves_computed_value (A : Arith) (v : VirtualSubstitutionRate)
    (getValue : String → ℚ) :
    (v.refresh_in A getValue).2.getValue =
        A.sub v.u (v.dependent_rates.foldl (fun total it => A.add total (getValue it)) 0) ∧
      (v.refresh_in A getValue).2.getOldValue = v.getValue ∧
      ((v.refresh_in A getValue).1 = Except.ok () ∨ (v.refresh_in A getValue).1 =
        Except.error (Halt.OutOfBoundsException "VirtualSubstitutionRate out of bounds.")) ∧
      ((v.refresh_in A getValue).1 =
          Except.error (Halt.OutOfBoundsException "VirtualSubstitutionRate out of bounds.") →
        (v.refresh_in A getValue).2.getValue < 0 ∨ (v.refresh_in A getValue).2.getValue > 1) ∧
      ((v.refresh_in A getValue).1 = Except.ok () →
        0 ≤ (v.refresh_in A getValue).2.getValue ∧ (v.refresh_in A getValue).2.getValue ≤ 1) ∧
      (v.refresh_in Arith.rational getValue).2.getValue =
        v.u - (v.dependent_rates.map getValue).sum := by
  obtain ⟨hobj, herr, hok⟩ := refresh_in_spec A v getValue
  refine ⟨?_, ?_, ?_, ?_, ?_, ?_⟩
  · rw [hobj]
    rfl
  · rw [hobj]
    rfl
  · by_cases h : (v.refresh_in A getValue).2.value < 0 ∨ (v.refresh_in A getValue).2.value > 1
    · exact Or.inr (herr.mpr h)
    · exact Or.inl (hok.mpr h)
  · intro h
    exact herr.mp h
  · intro h
    have := hok.mp h
    constructor
    · by_contra hlt
      exact this (Or.inl (not_le.mp hlt))
    · by_contra hgt
      exact this (Or.inr (not_le.mp hgt))
  · rw [refresh_in_rational]
    exact (refresh_not_atomic v getValue).1

/-- Against C37 as stated: `u` is the `double` nearest to `3/10` and the two registered
rates have the values of the `double`s nearest to `1/10` and `2/10`. In the arithmetic of
`double` the exception is raised, and the value stored is `-2 ^ (-54)`, whereas `u` minus
the sum of the two values is `-2 ^ (-55)`: the value stored is not `u - sum`. -/
theorem refresh_stores_rounded_difference :
    round_double (3 / 10) = 5404319552844595 / 18014398509481984 ∧
      round_double (1 / 10) = 3602879701896397 / 36028797018963968 ∧
      round_double (2 / 10) = 3602879701896397 / 18014398509481984 ∧
      halt_of ((["b", "c"].foldl VirtualSubstitutionRate.add_rate
          (VirtualSubstitutionRate.construct "a" (round_double (3 / 10)) 0)).refresh_in
            Arith.binary64
            (fun nm => if nm = "b" then round_double (1 / 10) else round_double (2 / 10))).1 =
        some (Halt.OutOfBoundsException "VirtualSubstitutionRate out of bounds.") ∧
      ((["b", "c"].foldl VirtualSubstitutionRate.add_rate
          (VirtualSubstitutionRate.construct "a" (round_double (3 / 10)) 0)).refresh_in
            Arith.binary64
            (fun nm => if nm = "b" then round_double (1 / 10)
              else round_double (2 / 10))).2.getValue = -(1 / 18014398509481984) ∧
      round_double (3 / 10) - (round_double (1 / 10) + round_double (2 / 10)) =
        -(1 / 36028797018963968) ∧
      (-(1 / 18014398509481984) : ℚ) ≠ -(1 / 36028797018963968) := by
  decide!

end Simplex
